import Mathlib

/-!
# Live-range analysis of a scheduled HLO module, and the tensor descriptor

A shallow embedding of `tensorflow/compiler/xla/service/hlo_live_range.cc`
(`HloLiveRange::FlattenSchedule`, `CalculateBufferStartEndMap`,
`NormalizeAliasedBuffers`, `Run`, `ComputePeakMemoryMoment`) together with the
properties of it that the specification states; and, in the namespace
`tflite.gpu`, of the index computation and the layout conversions of
`tensorflow/lite/delegates/gpu/common/task/tensor_desc.cc` (`GetLinearIndex`,
`DataFromBHWDC`, `DataToBHWDC`).

Modelling conventions.

* `HloInstruction*` and `HloComputation*` are identities, modelled as natural
  numbers; the attributes the analysis reads from them (`opcode()`, `parent()`,
  `called_computations()`, ...) are the fields of `HloModule`.
* The three hash maps of `HloLiveRange` are finite partial functions
  (`key → Option value`); the code never iterates over them.  `find` is
  application, a `CHECK`ed `insert` is a lookup followed by `mapSet`,
  and `operator[]` on a missing key value-initialises the entry, as in C++.
  `tableFlattenSchedule` embeds `FlattenSchedule` once more, over tables whose
  entries lie in an order that depends on the run, and is shown to return what
  the embedding over partial functions returns.
* `absl::c_sort` is a parameter `c_sort` of `NormalizeAliasedBuffers` and
  `Run`; the proofs assume of it what `std::sort` guarantees
  (`SortsByStartEnd`), which leaves the order of equal elements open.
* `int64_t` is `Int`: every number stored is a container size, a timestamp, or
  one less than a timestamp.
* `int` in `tensor_desc.cc` is 32 bits wide: the result of every `+` and `*`
  is reduced by `wrapInt`.
* A failed `CHECK` aborts the process: `Failure.check_failed`.  Recursion of
  `FlattenSchedule` is bounded by a fuel argument; running out of fuel is
  `Failure.out_of_fuel`.
-/

namespace xla

/-- Opcode tags that the analysis distinguishes (`HloOpcode`). -/
inductive HloOpcode where
  | kParameter
  | kCall
  | kConditional
  | kWhile
  | kOther
deriving DecidableEq, Repr

/-- Identity of an instruction (`const HloInstruction*`). -/
abbrev InstrId := Nat

/-- Identity of a computation (`const HloComputation*`, `unique_id()`). -/
abbrev CompId := Nat

/-- Index into a tuple-shaped result (`ShapeIndex`). -/
abbrev ShapeIndex := List Nat

/-- An operand slot of an instruction where a value is read (`HloUse`). -/
structure HloUse where
  instruction : InstrId
  operand_number : Nat
  operand_index : ShapeIndex
deriving DecidableEq, Repr

/-- A place where a value is observable (`HloPosition`). -/
structure HloPosition where
  instruction : InstrId
  index : ShapeIndex
deriving DecidableEq, Repr

/-- A logical value (`HloValue`): `instruction()` and `defining_instruction()`
are the same accessor, `size` is `ShapeUtil::ByteSizeOf` of its shape. -/
structure HloValue where
  id : Nat
  defining_instruction : InstrId
  index : ShapeIndex
  uses : List HloUse
  positions : List HloPosition
  size : Int
deriving DecidableEq, Repr

/-- Accessor `HloValue::instruction()`. -/
def HloValue.instruction (v : HloValue) : InstrId := v.defining_instruction

/-- The interval record `HloLiveRange::TimeBound`; a default-constructed
`end_position` is `none`. -/
structure TimeBound where
  start : Int
  end_ : Int
  end_position : Option HloPosition
deriving DecidableEq, Repr

/-- What the analysis reads from the instruction graph and the module. -/
structure HloModule where
  opcode : InstrId → HloOpcode
  parent : InstrId → CompId
  called_computations : InstrId → List CompId
  while_condition : InstrId → CompId
  while_body : InstrId → CompId
  parameter_number : InstrId → Nat
  root_instruction : CompId → InstrId
  /-- The accessor `parameter_instruction(0)` of a computation. -/
  parameter_instruction0 : CompId → InstrId
  entry_computation : CompId
  /-- The query `input_output_alias_config().ParameterHasAlias`. -/
  ParameterHasAlias : Nat → ShapeIndex → Bool

/-- The schedule: `sequences()` maps a computation to its instruction order. -/
structure HloSchedule where
  sequences : CompId → Option (List InstrId)

/-- What the analysis reads from alias analysis: `dataflow_analysis().values()`
and `buffers()` (each buffer given by its `values()`). -/
structure HloAliasAnalysis where
  values : List HloValue
  buffers : List (List HloValue)

/-- Ways a run does not complete. -/
inductive Failure where
  | check_failed
  | out_of_fuel
deriving DecidableEq, Repr

/-- The mutable members of `HloLiveRange`. -/
structure HloLiveRange where
  total_order_scheduled : Bool
  flattened_instruction_sequence : List InstrId
  instruction_schedule : InstrId → Option Int
  computation_span_times : CompId → Option TimeBound
  buffer_live_ranges : HloValue → Option TimeBound

/-- The freshly constructed object: `total_order_scheduled_ = true`, all
containers empty. -/
def HloLiveRange.init : HloLiveRange where
  total_order_scheduled := true
  flattened_instruction_sequence := []
  instruction_schedule := fun _ => none
  computation_span_times := fun _ => none
  buffer_live_ranges := fun _ => none

/-- Store `v` under key `k` (`m[k] = v`, or a successful `insert`). -/
def mapSet {κ β : Type} [DecidableEq κ] (m : κ → Option β) (k : κ) (v : β) :
    κ → Option β :=
  fun x => if x = k then some v else m x

/-- The accessor `schedule_end_time()`: the flattened sequence length. -/
def HloLiveRange.schedule_end_time (st : HloLiveRange) : Int :=
  st.flattened_instruction_sequence.length

/-! ## FlattenSchedule -/

/-- The loop `for (called_computation : called_computations()) FlattenSchedule`
with the recursive call abstracted as `recur`. -/
def flattenCalled (recur : CompId → HloLiveRange → Except Failure HloLiveRange) :
    List CompId → HloLiveRange → Except Failure HloLiveRange
  | [], st => .ok st
  | c :: cs, st =>
    match recur c st with
    | .ok st1 => flattenCalled recur cs st1
    | .error e => .error e

/-- The recursion part of one iteration of the instruction loop (lines
106-119). -/
def flattenSub (m : HloModule) (module_scoped_analysis : Bool)
    (recur : CompId → HloLiveRange → Except Failure HloLiveRange)
    (instruction : InstrId) (st : HloLiveRange) : Except Failure HloLiveRange :=
  if module_scoped_analysis then
    if m.opcode instruction = .kCall ∨ m.opcode instruction = .kConditional then
      flattenCalled recur (m.called_computations instruction) st
    else if m.opcode instruction = .kWhile then
      match recur (m.while_condition instruction) st with
      | .ok st1 => recur (m.while_body instruction) st1
      | .error e => .error e
    else .ok st
  else .ok st

/-- The timestamp assignment of one iteration (lines 121-123): the `CHECK`ed
insert into `instruction_schedule_` and the `push_back`. -/
def assignTime (instruction : InstrId) (st : HloLiveRange) :
    Except Failure HloLiveRange :=
  let time : Int := st.flattened_instruction_sequence.length
  match st.instruction_schedule instruction with
  | some _ => .error .check_failed
  | none =>
    .ok { st with
      instruction_schedule := mapSet st.instruction_schedule instruction time
      flattened_instruction_sequence :=
        st.flattened_instruction_sequence ++ [instruction] }

/-- One iteration of the instruction loop of `FlattenSchedule`. -/
def flattenInstruction (m : HloModule) (module_scoped_analysis : Bool)
    (recur : CompId → HloLiveRange → Except Failure HloLiveRange)
    (instruction : InstrId) (st : HloLiveRange) : Except Failure HloLiveRange :=
  match flattenSub m module_scoped_analysis recur instruction st with
  | .ok st1 => assignTime instruction st1
  | .error e => .error e

/-- The instruction loop of `FlattenSchedule` (lines 105-124). -/
def flattenSequence (m : HloModule) (module_scoped_analysis : Bool)
    (recur : CompId → HloLiveRange → Except Failure HloLiveRange) :
    List InstrId → HloLiveRange → Except Failure HloLiveRange
  | [], st => .ok st
  | i :: is, st =>
    match flattenInstruction m module_scoped_analysis recur i st with
    | .ok st1 => flattenSequence m module_scoped_analysis recur is st1
    | .error e => .error e

/-- The body of `FlattenSchedule` with the recursive call abstracted. -/
def flattenBody (m : HloModule) (schedule : HloSchedule)
    (module_scoped_analysis : Bool)
    (recur : CompId → HloLiveRange → Except Failure HloLiveRange)
    (computation : CompId) (st : HloLiveRange) : Except Failure HloLiveRange :=
  match schedule.sequences computation with
  | none => .ok { st with total_order_scheduled := false }
  | some instruction_sequence =>
    match st.computation_span_times computation with
    | some _ => .ok st
    | none =>
      let start_time : Int := st.flattened_instruction_sequence.length
      match flattenSequence m module_scoped_analysis recur instruction_sequence st with
      | .error e => .error e
      | .ok st1 =>
        let end_time : Int := st1.flattened_instruction_sequence.length
        .ok { st1 with
          computation_span_times :=
            mapSet st1.computation_span_times computation
              { start := start_time, end_ := end_time, end_position := none } }

/-- The method `HloLiveRange::FlattenSchedule`, with recursion depth bounded by
`fuel`. -/
def FlattenSchedule (m : HloModule) (schedule : HloSchedule)
    (module_scoped_analysis : Bool) :
    Nat → CompId → HloLiveRange → Except Failure HloLiveRange
  | 0, _, _ => .error .out_of_fuel
  | fuel + 1, computation, st =>
    flattenBody m schedule module_scoped_analysis
      (FlattenSchedule m schedule module_scoped_analysis fuel) computation st

/-! ## FlattenSchedule with the layout of the hash tables

`instruction_schedule_` and `computation_span_times_` are
`absl::flat_hash_map`s.  The sections above render each of them as the lookup
function it implements.  In this section a table is the list of its entries in
the order of its slots, an order that is not the same in every run: it depends
on the hash seed of the process and on the addresses that serve as keys.  What
distinguishes one run from another is the `TableLayout` it arranges its tables
with.  The schedule is an input that `FlattenSchedule` only searches with
`find`; it stays a lookup function. -/

/-- An `absl::flat_hash_map`: its entries in the order of the slots. -/
structure FlatHashMap (κ ν : Type) where
  entries : List (κ × ν)

/-- The calls `find(k)` and `contains(k)`: the value of the first entry with
key `k`. -/
def FlatHashMap.find {κ ν : Type} [DecidableEq κ] (t : FlatHashMap κ ν) (k : κ) : Option ν :=
  (t.entries.find? (fun e => decide (e.1 = k))).map Prod.snd

/-- The call `insert({k, v})`: the table afterwards and `.second`, whether the
entry was inserted.  The function `place` arranges the entries of a table that
receives a new entry. -/
def FlatHashMap.insert {κ ν : Type} [DecidableEq κ]
    (place : List (κ × ν) → κ × ν → List (κ × ν)) (t : FlatHashMap κ ν) (k : κ) (v : ν) :
    FlatHashMap κ ν × Bool :=
  match t.find k with
  | some _ => (t, false)
  | none => ({ entries := place t.entries (k, v) }, true)

/-- The assignment `t[k] = v`: the value of an entry with key `k` is
overwritten in its slot, and a missing key is inserted. -/
def FlatHashMap.assign {κ ν : Type} [DecidableEq κ]
    (place : List (κ × ν) → κ × ν → List (κ × ν)) (t : FlatHashMap κ ν) (k : κ) (v : ν) :
    FlatHashMap κ ν :=
  match t.find k with
  | some _ => { entries := t.entries.map (fun e => if e.1 = k then (k, v) else e) }
  | none => { entries := place t.entries (k, v) }

/-- How a run arranges its tables: the entries of a table of instructions, and
of a table of computations, that receives the entry given second.  The entries
already present may move (a rehash). -/
structure TableLayout where
  instructions : List (InstrId × Int) → InstrId × Int → List (InstrId × Int)
  computations : List (CompId × TimeBound) → CompId × TimeBound → List (CompId × TimeBound)

/-- A table loses and invents nothing: after an entry is added it holds this
entry and the entries it held, in some order. -/
def TableLayout.Valid (layout : TableLayout) : Prop :=
  (∀ t e, (layout.instructions t e).Perm (e :: t)) ∧
  (∀ t e, (layout.computations t e).Perm (e :: t))

/-- The members of `HloLiveRange` that `FlattenSchedule` works on, with the
two maps as tables. -/
structure HloLiveRangeTables where
  total_order_scheduled : Bool
  flattened_instruction_sequence : List InstrId
  instruction_schedule : FlatHashMap InstrId Int
  computation_span_times : FlatHashMap CompId TimeBound

/-- The freshly constructed object: `total_order_scheduled_ = true`, all
containers empty. -/
def HloLiveRangeTables.init : HloLiveRangeTables where
  total_order_scheduled := true
  flattened_instruction_sequence := []
  instruction_schedule := { entries := [] }
  computation_span_times := { entries := [] }

/-- The loop over `called_computations()` (lines 111-114), as `flattenCalled`. -/
def tableFlattenCalled
    (recur : CompId → HloLiveRangeTables → Except Failure HloLiveRangeTables) :
    List CompId → HloLiveRangeTables → Except Failure HloLiveRangeTables
  | [], st => .ok st
  | c :: cs, st =>
    match recur c st with
    | .ok st1 => tableFlattenCalled recur cs st1
    | .error e => .error e

/-- The recursion part of one iteration of the instruction loop (lines
106-119), as `flattenSub`. -/
def tableFlattenSub (m : HloModule) (module_scoped_analysis : Bool)
    (recur : CompId → HloLiveRangeTables → Except Failure HloLiveRangeTables)
    (instruction : InstrId) (st : HloLiveRangeTables) : Except Failure HloLiveRangeTables :=
  if module_scoped_analysis then
    if m.opcode instruction = .kCall ∨ m.opcode instruction = .kConditional then
      tableFlattenCalled recur (m.called_computations instruction) st
    else if m.opcode instruction = .kWhile then
      match recur (m.while_condition instruction) st with
      | .ok st1 => recur (m.while_body instruction) st1
      | .error e => .error e
    else .ok st
  else .ok st

/-- The timestamp assignment of one iteration (lines 121-123): the `CHECK`ed
`insert` into the table `instruction_schedule_` and the `push_back`. -/
def tableAssignTime (layout : TableLayout) (instruction : InstrId) (st : HloLiveRangeTables) :
    Except Failure HloLiveRangeTables :=
  let time : Int := st.flattened_instruction_sequence.length
  match st.instruction_schedule.insert layout.instructions instruction time with
  | (_, false) => .error .check_failed
  | (table, true) =>
    .ok { st with
      instruction_schedule := table
      flattened_instruction_sequence :=
        st.flattened_instruction_sequence ++ [instruction] }

/-- One iteration of the instruction loop of `FlattenSchedule`. -/
def tableFlattenInstruction (layout : TableLayout) (m : HloModule)
    (module_scoped_analysis : Bool)
    (recur : CompId → HloLiveRangeTables → Except Failure HloLiveRangeTables)
    (instruction : InstrId) (st : HloLiveRangeTables) : Except Failure HloLiveRangeTables :=
  match tableFlattenSub m module_scoped_analysis recur instruction st with
  | .ok st1 => tableAssignTime layout instruction st1
  | .error e => .error e

/-- The instruction loop of `FlattenSchedule` (lines 105-124). -/
def tableFlattenSequence (layout : TableLayout) (m : HloModule)
    (module_scoped_analysis : Bool)
    (recur : CompId → HloLiveRangeTables → Except Failure HloLiveRangeTables) :
    List InstrId → HloLiveRangeTables → Except Failure HloLiveRangeTables
  | [], st => .ok st
  | i :: is, st =>
    match tableFlattenInstruction layout m module_scoped_analysis recur i st with
    | .ok st1 => tableFlattenSequence layout m module_scoped_analysis recur is st1
    | .error e => .error e

/-- The body of `FlattenSchedule` (lines 93-127) with the recursive call
abstracted. -/
def tableFlattenBody (layout : TableLayout) (m : HloModule) (schedule : HloSchedule)
    (module_scoped_analysis : Bool)
    (recur : CompId → HloLiveRangeTables → Except Failure HloLiveRangeTables)
    (computation : CompId) (st : HloLiveRangeTables) : Except Failure HloLiveRangeTables :=
  match schedule.sequences computation with
  | none => .ok { st with total_order_scheduled := false }
  | some instruction_sequence =>
    match st.computation_span_times.find computation with
    | some _ => .ok st
    | none =>
      let start_time : Int := st.flattened_instruction_sequence.length
      match tableFlattenSequence layout m module_scoped_analysis recur instruction_sequence
          st with
      | .error e => .error e
      | .ok st1 =>
        let end_time : Int := st1.flattened_instruction_sequence.length
        .ok { st1 with
          computation_span_times :=
            st1.computation_span_times.assign layout.computations computation
              { start := start_time, end_ := end_time, end_position := none } }

/-- The method `HloLiveRange::FlattenSchedule` on the tables of a run with the
given layout, with recursion depth bounded by `fuel`. -/
def tableFlattenSchedule (layout : TableLayout) (m : HloModule) (schedule : HloSchedule)
    (module_scoped_analysis : Bool) :
    Nat → CompId → HloLiveRangeTables → Except Failure HloLiveRangeTables
  | 0, _, _ => .error .out_of_fuel
  | fuel + 1, computation, st =>
    tableFlattenBody layout m schedule module_scoped_analysis
      (tableFlattenSchedule layout m schedule module_scoped_analysis fuel) computation st

/-! ## CalculateBufferStartEndMap -/

/-- The value read by `map[k]`: the stored value, or the value-initialised `0`
when `k` is missing. -/
def mapIndexValue {κ : Type} (mp : κ → Option Int) (k : κ) : Int :=
  match mp k with
  | some v => v
  | none => 0

/-- The map left behind by `map[k]`: a missing key is inserted with `0`. -/
def mapIndexMap {κ : Type} [DecidableEq κ] (mp : κ → Option Int) (k : κ) :
    κ → Option Int :=
  match mp k with
  | some _ => mp
  | none => mapSet mp k 0

/-- The instruction whose timestamp a use contributes (lines 152-162): in
module-scoped mode a `kWhile` user is replaced by parameter 0 of its body. -/
def usedInstruction (m : HloModule) (module_scoped_analysis : Bool)
    (use : HloUse) : InstrId :=
  if module_scoped_analysis ∧ m.opcode use.instruction = .kWhile then
    m.parameter_instruction0 (m.while_body use.instruction)
  else use.instruction

/-- The loop over `value->uses()` (lines 151-171), threading
`buffer_end_time`. -/
def usesLoop (m : HloModule) (module_scoped_analysis : Bool)
    (instruction_schedule : InstrId → Option Int) : List HloUse → Int → Int
  | [], buffer_end_time => buffer_end_time
  | use :: rest, buffer_end_time =>
    match instruction_schedule (usedInstruction m module_scoped_analysis use) with
    | some t =>
      usesLoop m module_scoped_analysis instruction_schedule rest (max buffer_end_time t)
    | none =>
      usesLoop m module_scoped_analysis instruction_schedule rest buffer_end_time

/-- The variables live across the loop over `value->positions()`. -/
structure PositionLoop where
  instruction_schedule : InstrId → Option Int
  max_end_time : Int
  end_position : Option HloPosition
  buffer_end_time : Int

/-- The first statement of the position loop body (lines 176-179); both reads
of `instruction_schedule_` go through `operator[]`. -/
def positionTrack (value : HloValue) (position : HloPosition) (s : PositionLoop) :
    PositionLoop :=
  let sched1 := mapIndexMap s.instruction_schedule position.instruction
  if mapIndexValue s.instruction_schedule position.instruction ≥ s.max_end_time then
    { s with
      instruction_schedule := mapIndexMap sched1 value.instruction
      max_end_time := mapIndexValue sched1 value.instruction
      end_position := some position }
  else { s with instruction_schedule := sched1 }

/-- The live-out extension of the position loop body (lines 180-191). -/
def positionLiveOut (m : HloModule) (computation_span_times : CompId → Option TimeBound)
    (position : HloPosition) (s : PositionLoop) : PositionLoop :=
  let position_comp := m.parent position.instruction
  if position.instruction = m.root_instruction position_comp then
    match computation_span_times position_comp with
    | some span =>
      if s.buffer_end_time < span.end_ then
        { s with buffer_end_time := span.end_, end_position := some position }
      else s
    | none => s
  else s

/-- The loop over `value->positions()` (lines 175-192). -/
def positionsLoop (m : HloModule) (computation_span_times : CompId → Option TimeBound)
    (value : HloValue) : List HloPosition → PositionLoop → PositionLoop
  | [], s => s
  | position :: rest, s =>
    positionsLoop m computation_span_times value rest
      (positionLiveOut m computation_span_times position (positionTrack value position s))

/-- The start time of a value whose defining instruction has timestamp `t`
(lines 136-147). -/
def bufferStartTime (m : HloModule) (computation_span_times : CompId → Option TimeBound)
    (value : HloValue) (t : Int) : Int :=
  if m.opcode value.instruction = .kParameter then
    match computation_span_times (m.parent value.instruction) with
    | some span => min t span.start
    | none => t
  else t

/-- The test of lines 198-201: the value is defined by a parameter of the entry
computation that has no output alias. -/
def isReadOnlyEntryParameter (m : HloModule) (value : HloValue) : Bool :=
  decide (m.opcode value.instruction = .kParameter) &&
  decide (m.parent value.instruction = m.entry_computation) &&
  !(m.ParameterHasAlias (m.parameter_number value.instruction) value.index)

/-- The position loop as run for a value whose defining instruction has
timestamp `t` (lines 136-192): it starts from the `buffer_end_time` left by the
loop over the uses, with `max_end_time = 0` and a default `end_position`. -/
def positionsOf (m : HloModule) (module_scoped_analysis : Bool)
    (value : HloValue) (st : HloLiveRange) (t : Int) : PositionLoop :=
  positionsLoop m st.computation_span_times value value.positions
    { instruction_schedule := st.instruction_schedule
      max_end_time := 0
      end_position := none
      buffer_end_time :=
        usesLoop m module_scoped_analysis st.instruction_schedule value.uses
          (bufferStartTime m st.computation_span_times value t) }

/-- The range computed for a value whose defining instruction has timestamp `t`
(lines 136-203), before the `CHECK`s. -/
def valueTimeBound (m : HloModule) (module_scoped_analysis : Bool)
    (value : HloValue) (st : HloLiveRange) (t : Int) : TimeBound :=
  { start := bufferStartTime m st.computation_span_times value t
    end_ :=
      if isReadOnlyEntryParameter m value then st.schedule_end_time
      else (positionsOf m module_scoped_analysis value st t).buffer_end_time
    end_position := (positionsOf m module_scoped_analysis value st t).end_position }

/-- One iteration of the loop of `CalculateBufferStartEndMap` (lines 132-213). -/
def calculateValue (m : HloModule) (module_scoped_analysis : Bool)
    (value : HloValue) (st : HloLiveRange) : Except Failure HloLiveRange :=
  match st.instruction_schedule value.defining_instruction with
  | none => .ok st
  | some t =>
    let tb := valueTimeBound m module_scoped_analysis value st t
    if tb.start ≤ tb.end_ then
      match st.buffer_live_ranges value with
      | some _ => .error .check_failed
      | none =>
        .ok { st with
          instruction_schedule :=
            (positionsOf m module_scoped_analysis value st t).instruction_schedule
          buffer_live_ranges := mapSet st.buffer_live_ranges value tb }
    else .error .check_failed

/-- The loop over the values, in the order of `dataflow_analysis().values()`. -/
def calculateValues (m : HloModule) (module_scoped_analysis : Bool) :
    List HloValue → HloLiveRange → Except Failure HloLiveRange
  | [], st => .ok st
  | value :: rest, st =>
    match calculateValue m module_scoped_analysis value st with
    | .ok st1 => calculateValues m module_scoped_analysis rest st1
    | .error e => .error e

/-- The method `HloLiveRange::CalculateBufferStartEndMap`. -/
def CalculateBufferStartEndMap (m : HloModule) (alias_analysis : HloAliasAnalysis)
    (module_scoped_analysis : Bool) (st : HloLiveRange) : Except Failure HloLiveRange :=
  calculateValues m module_scoped_analysis alias_analysis.values st

/-! ## NormalizeAliasedBuffers -/

/-- The comparator handed to `absl::c_sort` (lines 51-54): lexicographic `<` on
`(start, end)`. -/
def timeBoundLess (a b : TimeBound) : Bool :=
  decide (a.start < b.start) || (decide (a.start = b.start) && decide (a.end_ < b.end_))

/-- Order that `absl::c_sort` establishes on the collected pointers: `a` may
precede `b` when `b`'s range is not `timeBoundLess` than `a`'s. -/
def timeBoundNotAfter (a b : HloValue × TimeBound) : Prop :=
  timeBoundLess b.2 a.2 = false

instance timeBoundNotAfterDecidable : DecidableRel timeBoundNotAfter :=
  fun a b => inferInstanceAs (Decidable (timeBoundLess b.2 a.2 = false))

/-- Write through a `TimeBound*`: overwrite the `end` of the range of `v`. -/
def setEnd (ranges : HloValue → Option TimeBound) (v : HloValue) (e : Int) :
    HloValue → Option TimeBound :=
  match ranges v with
  | some tb => mapSet ranges v { tb with end_ := e }
  | none => ranges

/-- The loop over adjacent pairs of the sorted pointers (lines 56-86). -/
def normalizePass : List HloValue → (HloValue → Option TimeBound) →
    HloValue → Option TimeBound
  | [], ranges => ranges
  | [_], ranges => ranges
  | v1 :: v2 :: rest, ranges =>
    match ranges v1, ranges v2 with
    | some live_range1, some live_range2 =>
      if live_range1.start = live_range2.start then
        normalizePass (v2 :: rest) (setEnd ranges v1 live_range2.end_)
      else if live_range1.end_ < live_range2.start then
        normalizePass (v2 :: rest) ranges
      else
        normalizePass (v2 :: rest)
          (setEnd (setEnd ranges v2 (max live_range1.end_ live_range2.end_)) v1
            (live_range2.start - 1))
    | _, _ => normalizePass (v2 :: rest) ranges

/-- The tracked values of a buffer, each with the range found for it (lines
42-49). -/
def collectLiveRanges (ranges : HloValue → Option TimeBound) :
    List HloValue → List (HloValue × TimeBound)
  | [] => []
  | hlo_value :: rest =>
    match ranges hlo_value with
    | some tb => (hlo_value, tb) :: collectLiveRanges ranges rest
    | none => collectLiveRanges ranges rest

/-- The type of `absl::c_sort` as called on line 50: it rearranges the vector
of pointers; every pointer is rendered as the value it belongs to together with
the range it points to. -/
abbrev LiveRangeSort : Type :=
  List (HloValue × TimeBound) → List (HloValue × TimeBound)

/-- What `absl::c_sort` guarantees for the comparator of lines 51-54: the result
is a rearrangement of the argument in which no element is `timeBoundLess` than
an element before it.  Which of two elements with equal `(start, end)` comes
first is not determined: `absl::c_sort` is `std::sort`, which is not stable. -/
def SortsByStartEnd (c_sort : LiveRangeSort) : Prop :=
  ∀ l, (c_sort l).Perm l ∧ (c_sort l).Pairwise timeBoundNotAfter

/-- The tracked values of a buffer in the order the pass visits them (lines
42-54).  `absl::c_sort` is a library function, taken as the parameter
`c_sort`. -/
def aliasedLiveRanges (c_sort : LiveRangeSort) (ranges : HloValue → Option TimeBound)
    (values : List HloValue) : List HloValue :=
  (c_sort (collectLiveRanges ranges values)).map Prod.fst

/-- The body of the loop over buffers (lines 42-86). -/
def normalizeBuffer (c_sort : LiveRangeSort) (ranges : HloValue → Option TimeBound)
    (values : List HloValue) : HloValue → Option TimeBound :=
  normalizePass (aliasedLiveRanges c_sort ranges values) ranges

/-- The method `HloLiveRange::NormalizeAliasedBuffers`. -/
def NormalizeAliasedBuffers (c_sort : LiveRangeSort) (alias_analysis : HloAliasAnalysis)
    (st : HloLiveRange) : HloLiveRange :=
  { st with
    buffer_live_ranges :=
      alias_analysis.buffers.foldl (normalizeBuffer c_sort) st.buffer_live_ranges }

/-! ## Run -/

/-- The factory `HloLiveRange::Run`. -/
def Run (c_sort : LiveRangeSort) (m : HloModule) (schedule : HloSchedule)
    (alias_analysis : HloAliasAnalysis) (computation : CompId) (module_scoped_analysis : Bool)
    (fuel : Nat) : Except Failure HloLiveRange :=
  match FlattenSchedule m schedule module_scoped_analysis fuel computation HloLiveRange.init with
  | .error e => .error e
  | .ok st1 =>
    match CalculateBufferStartEndMap m alias_analysis module_scoped_analysis st1 with
    | .error e => .error e
    | .ok st2 => .ok (NormalizeAliasedBuffers c_sort alias_analysis st2)

/-! ## ComputePeakMemoryMoment -/

/-- An element of `events`: the tuple `(time, is_end, value)`. -/
structure PeakEvent where
  time : Int
  is_end : Bool
  value : HloValue
deriving DecidableEq, Repr

/-- The loop that fills `events` (lines 220-226): a start event and an end
event at `end + 1` for every value that has a range. -/
def peakEvents (ranges : HloValue → Option TimeBound) : List HloValue → List PeakEvent
  | [] => []
  | value :: rest =>
    match ranges value with
    | some tb =>
      { time := tb.start, is_end := false, value := value } ::
        { time := tb.end_ + 1, is_end := true, value := value } :: peakEvents ranges rest
    | none => peakEvents ranges rest

/-- Order that `std::sort` establishes on the tuples, as far as time and kind
go: ascending time, and at equal time `is_end = false` before `is_end = true`.
The third component, a pointer, orders events of equal time and kind. -/
def peakEventNotAfter (a b : PeakEvent) : Prop :=
  a.time < b.time ∨ (a.time = b.time ∧ (a.is_end = false ∨ b.is_end = true))

instance peakEventNotAfterDecidable : DecidableRel peakEventNotAfter :=
  fun a b => inferInstanceAs
    (Decidable (a.time < b.time ∨ (a.time = b.time ∧ (a.is_end = false ∨ b.is_end = true))))

/-- The variables of the sweep (lines 229-231). -/
structure PeakSweep where
  memory_usage : Int
  peak_usage : Int
  peak_time : Option Int

/-- One iteration of the sweep (lines 232-247); `value.size` is
`ShapeUtil::ByteSizeOf(value->instruction()->shape(), 8)`. -/
def sweepStep (s : PeakSweep) (event : PeakEvent) : PeakSweep :=
  let memory_usage :=
    if event.is_end then s.memory_usage - event.value.size
    else s.memory_usage + event.value.size
  if s.peak_usage < memory_usage then
    { memory_usage := memory_usage, peak_usage := memory_usage, peak_time := some event.time }
  else { s with memory_usage := memory_usage }

/-- The sweep over the sorted events, from `memory_usage = 0`, `peak_usage = 0`
and no `peak_time`. -/
def peakSweep (events : List PeakEvent) : PeakSweep :=
  events.foldl sweepStep { memory_usage := 0, peak_usage := 0, peak_time := none }

/-- The sorted `events` of `ComputePeakMemoryMoment` (lines 218-227). -/
def sortedPeakEvents (alias_analysis : HloAliasAnalysis) (st : HloLiveRange) :
    List PeakEvent :=
  (peakEvents st.buffer_live_ranges alias_analysis.values).insertionSort peakEventNotAfter

/-- The method `HloLiveRange::ComputePeakMemoryMoment`; `value_or(0)` is the
final match. -/
def ComputePeakMemoryMoment (alias_analysis : HloAliasAnalysis) (st : HloLiveRange) : Int :=
  match (peakSweep (sortedPeakEvents alias_analysis st)).peak_time with
  | some t => t
  | none => 0

/-! ## Invariants and relations used in the proofs -/

/-- The computations one loop iteration recurses into, in order. -/
def subComputations (m : HloModule) (instruction : InstrId) : List CompId :=
  if m.opcode instruction = .kCall ∨ m.opcode instruction = .kConditional then
    m.called_computations instruction
  else if m.opcode instruction = .kWhile then
    [m.while_condition instruction, m.while_body instruction]
  else []

/-- State invariant of the flattening walk. -/
structure FlatInv (m : HloModule) (schedule : HloSchedule) (ms : Bool)
    (st : HloLiveRange) : Prop where
  time_of_index : ∀ (i : Nat) (j : InstrId),
    st.flattened_instruction_sequence[i]? = some j →
      st.instruction_schedule j = some (i : Int)
  index_of_time : ∀ (j : InstrId) (t : Int), st.instruction_schedule j = some t →
    ∃ i : Nat, t = (i : Int) ∧ st.flattened_instruction_sequence[i]? = some j
  span_covers : ∀ c s, st.computation_span_times c = some s →
    0 ≤ s.start ∧ s.start ≤ s.end_ ∧ s.end_ ≤ st.schedule_end_time ∧
    ∀ seq, schedule.sequences c = some seq → ∀ j ∈ seq,
      ∃ t, st.instruction_schedule j = some t ∧ s.start ≤ t ∧ t < s.end_
  callee_spanned : ms = true → ∀ (i : InstrId) (t : Int),
    st.instruction_schedule i = some t → ∀ c ∈ subComputations m i,
      ∀ seq, schedule.sequences c = some seq →
        ∃ s, st.computation_span_times c = some s ∧ s.end_ ≤ t

/-- What a part of the flattening walk may change between two states. -/
structure FlatExt (st st' : HloLiveRange) : Prop where
  seq_prefix : ∃ l, st'.flattened_instruction_sequence = st.flattened_instruction_sequence ++ l
  time_kept : ∀ j t, st.instruction_schedule j = some t → st'.instruction_schedule j = some t
  span_kept : ∀ c s, st.computation_span_times c = some s → st'.computation_span_times c = some s
  ranges_kept : st'.buffer_live_ranges = st.buffer_live_ranges
  order_kept : st'.total_order_scheduled = true → st.total_order_scheduled = true

/-- Contract of a call of `FlattenSchedule` that returns. -/
def FlatSpec (m : HloModule) (schedule : HloSchedule) (ms : Bool)
    (recur : CompId → HloLiveRange → Except Failure HloLiveRange) : Prop :=
  ∀ c st st', FlatInv m schedule ms st → recur c st = .ok st' →
    FlatInv m schedule ms st' ∧ FlatExt st st' ∧
    (∀ seq, schedule.sequences c = some seq → ∃ s, st'.computation_span_times c = some s)

/-- Whether a run returned (no failed `CHECK`, fuel left). -/
def completes {α : Type} (r : Except Failure α) : Bool :=
  match r with
  | .ok _ => true
  | .error _ => false

/-- Every tracked range is a proper closed interval. -/
def RangesOk (ranges : HloValue → Option TimeBound) : Prop :=
  ∀ v tb, ranges v = some tb → tb.start ≤ tb.end_

/-- The values of `l` are in ascending order of the start of their range. -/
def StartSorted (ranges : HloValue → Option TimeBound) (l : List HloValue) : Prop :=
  l.Pairwise (fun a b => ∀ ra rb, ranges a = some ra → ranges b = some rb → ra.start ≤ rb.start)

/-- The part of a range that normalisation does not write. -/
def TimeBound.frame (tb : TimeBound) : Int × Option HloPosition :=
  (tb.start, tb.end_position)

/-- How `operator[]` reads change a timestamp map: entries are kept, missing
keys may appear with the value `0`. -/
def SchedGrows (a b : InstrId → Option Int) : Prop :=
  ∀ j, b j = a j ∨ (a j = none ∧ b j = some 0)

/-- What any part of the flattening walk does to the state, whatever the state
it starts from: the sequence is extended, timestamps are kept, and the new
timestamps are the indices of the appended instructions. -/
structure TimeExt (st st' : HloLiveRange) : Prop where
  seq_prefix : ∃ l, st'.flattened_instruction_sequence = st.flattened_instruction_sequence ++ l
  time_kept : ∀ j t, st.instruction_schedule j = some t → st'.instruction_schedule j = some t
  new_index : ∀ (k : Nat) (j : InstrId), st'.flattened_instruction_sequence[k]? = some j →
    st.flattened_instruction_sequence.length ≤ k →
      st'.instruction_schedule j = some (k : Int) ∧ st.instruction_schedule j = none
  new_time : ∀ (j : InstrId) (t : Int), st'.instruction_schedule j = some t →
    st.instruction_schedule j = some t ∨
      ∃ k : Nat, t = (k : Int) ∧ st.flattened_instruction_sequence.length ≤ k ∧
        st'.flattened_instruction_sequence[k]? = some j
  span_grows : ∀ c, st.computation_span_times c ≠ none → st'.computation_span_times c ≠ none
  ranges_kept : st'.buffer_live_ranges = st.buffer_live_ranges

/-- The scheduled sequence of a computation, empty when it has none. -/
def seqOf (schedule : HloSchedule) (c : CompId) : List InstrId :=
  match schedule.sequences c with
  | some seq => seq
  | none => []

/-- The scheduled sequences of a list of computations, one after the other. -/
def scheduledInstructions (schedule : HloSchedule) : List CompId → List InstrId
  | [] => []
  | c :: cs => seqOf schedule c ++ scheduledInstructions schedule cs

/-- The computations the walk from `root` calls `FlattenSchedule` on: the root,
and in module-scoped mode every computation that an instruction of a reached
scheduled computation recurses into. -/
inductive Reached (m : HloModule) (schedule : HloSchedule) (ms : Bool) (root : CompId) :
    CompId → Prop where
  | root : Reached m schedule ms root root
  | sub {c c' : CompId} {seq : List InstrId} {i : InstrId} :
      Reached m schedule ms root c → schedule.sequences c = some seq → i ∈ seq →
      ms = true → c' ∈ subComputations m i → Reached m schedule ms root c'

/-- Bookkeeping of a part of the walk: the instructions appended are, up to
order, `extra` followed by the sequences of the computations `cs` that got
their span during that part; spans already recorded are kept. -/
def Walked (schedule : HloSchedule) (extra : List InstrId) (st st' : HloLiveRange) : Prop :=
  ∃ (cs : List CompId) (l : List InstrId), cs.Nodup ∧
    st'.flattened_instruction_sequence = st.flattened_instruction_sequence ++ l ∧
    l.Perm (extra ++ scheduledInstructions schedule cs) ∧
    (∀ c, c ∈ cs ↔ (st.computation_span_times c = none ∧ st'.computation_span_times c ≠ none)) ∧
    ∀ c s, st.computation_span_times c = some s → st'.computation_span_times c = some s

/-- Contract of a returning call of `FlattenSchedule`, bookkeeping part. -/
def WalkSpec (m : HloModule) (schedule : HloSchedule) (ms : Bool)
    (recur : CompId → HloLiveRange → Except Failure HloLiveRange) : Prop :=
  ∀ c st st', FlatInv m schedule ms st → recur c st = .ok st' → Walked schedule [] st st'

/-- Contract of a returning call of `FlattenSchedule` on `c`, from an arbitrary
state: a computation that has a span afterwards had one before or is scheduled
and reached from `c`. -/
def ReachSpec (m : HloModule) (schedule : HloSchedule) (ms : Bool)
    (recur : CompId → HloLiveRange → Except Failure HloLiveRange) : Prop :=
  ∀ c st st', recur c st = .ok st' → ∀ x, st'.computation_span_times x ≠ none →
    st.computation_span_times x ≠ none ∨
      (Reached m schedule ms c x ∧ schedule.sequences x ≠ none)

/-- Sequencing of two steps that may fail. -/
def andThen {α β : Type} (r : Except Failure α) (f : α → Except Failure β) :
    Except Failure β :=
  match r with
  | .ok a => f a
  | .error e => .error e

/-- The end the specification gives a value that is neither read-only nor
live-out: the maximum of its start and of the timestamps of those uses whose
instruction has a timestamp. -/
def maxUseTime (timestamps : InstrId → Option Int) (uses : List HloUse) (start : Int) : Int :=
  (uses.filterMap (fun u => timestamps u.instruction)).foldl max start

/-- Whether a value has a range (`find != end`). -/
def tracked (ranges : HloValue → Option TimeBound) (v : HloValue) : Bool :=
  (ranges v).isSome

/-- One iteration of the loop over adjacent pairs (lines 57-85), as a function
of the ranges before it. -/
def normalizeStep (ranges : HloValue → Option TimeBound) (v1 v2 : HloValue) :
    HloValue → Option TimeBound :=
  match ranges v1, ranges v2 with
  | some live_range1, some live_range2 =>
    if live_range1.start = live_range2.start then setEnd ranges v1 live_range2.end_
    else if live_range1.end_ < live_range2.start then ranges
    else
      setEnd (setEnd ranges v2 (max live_range1.end_ live_range2.end_)) v1
        (live_range2.start - 1)
  | _, _ => ranges

/-- Two ranges have equal starts or the first ends before the second starts. -/
def EqualStartOrDisjoint (ranges : HloValue → Option TimeBound) (a b : HloValue) : Prop :=
  ∀ ra rb, ranges a = some ra → ranges b = some rb →
    ra.start = rb.start ∨ ra.end_ < rb.start

/-- The memory live at time `t`: the sum of the sizes of the values of the list
whose range contains `t`. -/
def liveMemory (ranges : HloValue → Option TimeBound) (values : List HloValue) (t : Int) : Int :=
  (values.map (fun v =>
    match ranges v with
    | some tb => if tb.start ≤ t ∧ t ≤ tb.end_ then v.size else 0
    | none => 0)).sum

/-- The change of `memory_usage` that an event causes (lines 238-242). -/
def signedSize (e : PeakEvent) : Int :=
  if e.is_end then -e.value.size else e.value.size

/-- The running total after the event of index `k` has been processed. -/
def runningTotal (events : List PeakEvent) (k : Nat) : Int :=
  ((events.take (k + 1)).map signedSize).sum

/-- What the sweep has recorded after the events `l`. -/
structure SweepInv (l : List PeakEvent) (s : PeakSweep) : Prop where
  memory : s.memory_usage = (l.map signedSize).sum
  peak_ge : ∀ k, k < l.length → runningTotal l k ≤ s.peak_usage
  peak_nonneg : 0 ≤ s.peak_usage
  no_time : s.peak_time = none → s.peak_usage = 0
  first_time : ∀ t, s.peak_time = some t →
    ∃ k, k < l.length ∧ l[k]?.map PeakEvent.time = some t ∧
      runningTotal l k = s.peak_usage ∧ 0 < s.peak_usage ∧
      ∀ j, j < k → runningTotal l j < runningTotal l k

/-- The change of `memory_usage` by an event, counted only for events before
time `T`. -/
def sizeBefore (T : Int) (e : PeakEvent) : Int :=
  if e.time < T then signedSize e else 0

/-- The change of `memory_usage` by an event, counted only for events at or
after time `T`. -/
def sizeFrom (T : Int) (e : PeakEvent) : Int :=
  if e.time < T then 0 else signedSize e

/-- The recursive call `r2` agrees with `r1` wherever `r1` did not run out of
fuel. -/
def RecurExt (r1 r2 : CompId → HloLiveRange → Except Failure HloLiveRange) : Prop :=
  ∀ c st, r1 c st ≠ .error .out_of_fuel → r2 c st = r1 c st

/-- Within the scheduled sequence of every computation with a span, the
timestamps increase in schedule order. -/
def SeqOrdered (schedule : HloSchedule) (st : HloLiveRange) : Prop :=
  ∀ c seq, st.computation_span_times c ≠ none → schedule.sequences c = some seq →
    seq.Pairwise (fun a b => ∃ ta tb, st.instruction_schedule a = some ta ∧
      st.instruction_schedule b = some tb ∧ ta < tb)

/-- Contract of a returning call of `FlattenSchedule`, order part. -/
def OrderSpec (schedule : HloSchedule)
    (recur : CompId → HloLiveRange → Except Failure HloLiveRange) : Prop :=
  ∀ c st st', recur c st = .ok st' → TimeExt st st' ∧ (SeqOrdered schedule st →
    SeqOrdered schedule st')

/-- No range ends after `L`. -/
def EndsBelow (L : Int) (ranges : HloValue → Option TimeBound) : Prop :=
  ∀ v tb, ranges v = some tb → tb.end_ ≤ L

/-- While the analysis counts as totally ordered, every computation that an
instruction with a timestamp recurses into is scheduled. -/
def CalleesScheduled (m : HloModule) (schedule : HloSchedule) (ms : Bool)
    (st : HloLiveRange) : Prop :=
  st.total_order_scheduled = true → ms = true → ∀ i t, st.instruction_schedule i = some t →
    ∀ c ∈ subComputations m i, schedule.sequences c ≠ none

/-- Contract of a returning call of `FlattenSchedule` on `c`, as far as
`total_order_scheduled_` goes. -/
def FlagSpec (m : HloModule) (schedule : HloSchedule) (ms : Bool)
    (recur : CompId → HloLiveRange → Except Failure HloLiveRange) : Prop :=
  ∀ c st st', recur c st = .ok st' →
    (st'.total_order_scheduled = true →
      st.total_order_scheduled = true ∧ schedule.sequences c ≠ none) ∧
    (CalleesScheduled m schedule ms st → CalleesScheduled m schedule ms st') ∧
    (st'.total_order_scheduled = false → st.total_order_scheduled = false ∨
      ∃ x, Reached m schedule ms c x ∧ schedule.sequences x = none)

/-- Whether the closed interval of a range contains the time `t`. -/
def covers (tb : Option TimeBound) (t : Int) : Bool :=
  match tb with
  | some r => decide (r.start ≤ t) && decide (t ≤ r.end_)
  | none => false

/-- Whether some value of the buffer is live at time `t`. -/
def bufferLive (ranges : HloValue → Option TimeBound) (values : List HloValue) (t : Int) :
    Bool :=
  values.any (fun v => covers (ranges v) t)

/-- The values of `l` have ranges with strictly increasing starts. -/
def StrictStarts (ranges : HloValue → Option TimeBound) (l : List HloValue) : Prop :=
  l.Pairwise (fun a b => ∃ ra rb, ranges a = some ra ∧ ranges b = some rb ∧
    ra.start < rb.start)

/-- A schedule on which the walk is well defined: in module-scoped mode `rank`
decreases along every edge of the call graph (from a scheduled computation to
a computation one of its instructions recurses into), no sequence lists an
instruction twice, and no instruction is listed by two computations. -/
structure WellScheduled (m : HloModule) (schedule : HloSchedule) (ms : Bool)
    (rank : CompId → Nat) : Prop where
  acyclic : ms = true → ∀ c seq i c2, schedule.sequences c = some seq → i ∈ seq →
    c2 ∈ subComputations m i → rank c2 < rank c
  nodup : ∀ c seq, schedule.sequences c = some seq → seq.Nodup
  distinct : ∀ c1 c2 s1 s2 i, schedule.sequences c1 = some s1 →
    schedule.sequences c2 = some s2 → i ∈ s1 → i ∈ s2 → c1 = c2

/-- Every instruction with a timestamp belongs to a computation that has a span
or whose rank exceeds `r` (a computation whose walk is still going on). -/
def TimedWithin (schedule : HloSchedule) (rank : CompId → Nat) (r : Nat)
    (st : HloLiveRange) : Prop :=
  ∀ j t, st.instruction_schedule j = some t → ∃ x seq, schedule.sequences x = some seq ∧
    j ∈ seq ∧ (st.computation_span_times x ≠ none ∨ r < rank x)

/-- What the walk of a computation of rank `r` has done between `st0`, the
state at its start, and `st`, the state after the instructions `done`. -/
structure InWalk (schedule : HloSchedule) (rank : CompId → Nat) (r : Nat)
    (done : List InstrId) (st0 st : HloLiveRange) : Prop where
  spans_kept : ∀ x, st0.computation_span_times x ≠ none → st.computation_span_times x ≠ none
  new_spans : ∀ x, st.computation_span_times x ≠ none →
    st0.computation_span_times x ≠ none ∨ rank x < r
  times : ∀ j t, st.instruction_schedule j = some t →
    st0.instruction_schedule j = some t ∨ j ∈ done ∨
      ∃ x seq, schedule.sequences x = some seq ∧ j ∈ seq ∧ st.computation_span_times x ≠ none

/-- What a returning call of `FlattenSchedule` on `c` has done. -/
structure WalkDone (schedule : HloSchedule) (rank : CompId → Nat) (c : CompId)
    (st st' : HloLiveRange) : Prop where
  spans_kept : ∀ x, st.computation_span_times x ≠ none → st'.computation_span_times x ≠ none
  new_spans : ∀ x, st'.computation_span_times x ≠ none →
    st.computation_span_times x ≠ none ∨ rank x ≤ rank c
  new_times : ∀ j t, st'.instruction_schedule j = some t →
    st.instruction_schedule j = some t ∨
      ∃ x seq, schedule.sequences x = some seq ∧ j ∈ seq ∧ st'.computation_span_times x ≠ none

/-- Contract of the recursive call inside the walk of a computation of rank
`r`: on a computation of smaller rank it returns. -/
def TermSpec (schedule : HloSchedule) (rank : CompId → Nat) (r : Nat)
    (recur : CompId → HloLiveRange → Except Failure HloLiveRange) : Prop :=
  ∀ c st, rank c < r → TimedWithin schedule rank (rank c) st →
    ∃ st', recur c st = .ok st' ∧ WalkDone schedule rank c st st'

/-- Every span of `st'` was already recorded in `st` or starts at or after the
end of the sequence of `st`. -/
def SpanFrom (st st' : HloLiveRange) : Prop :=
  ∀ x sx, st'.computation_span_times x = some sx →
    st.computation_span_times x = some sx ∨ st.schedule_end_time ≤ sx.start

/-- Contract of a returning call of `FlattenSchedule`, as far as the new spans
go. -/
def SpanSpec (recur : CompId → HloLiveRange → Except Failure HloLiveRange) : Prop :=
  ∀ c st st', recur c st = .ok st' → TimeExt st st' ∧ SpanFrom st st'

/-- For instructions `a` before `w` in the list `l`: a span that ends at the
timestamp of `w` starts after the timestamp of `a`. -/
def GapIn (st : HloLiveRange) (l : List InstrId) : Prop :=
  l.Pairwise (fun a w => ∀ ta tw x sx, st.instruction_schedule a = some ta →
    st.instruction_schedule w = some tw → st.computation_span_times x = some sx →
    sx.end_ = tw → ta < sx.start)

/-- The property `GapIn` for the scheduled sequence of every computation with a
span. -/
def Gap (schedule : HloSchedule) (st : HloLiveRange) : Prop :=
  ∀ c seq, st.computation_span_times c ≠ none → schedule.sequences c = some seq →
    GapIn st seq

/-- Loop invariant of the walk of one sequence, after the instructions
`done`. -/
structure WalkGap (st : HloLiveRange) (done : List InstrId) : Prop where
  gap : GapIn st done
  settled : done ≠ [] → ∀ x sx, st.computation_span_times x = some sx →
    sx.end_ < st.schedule_end_time
  timed : ∀ a ∈ done, ∃ t, st.instruction_schedule a = some t

/-- Contract of a returning call of `FlattenSchedule`, as far as `Gap` goes. -/
def GapSpec (m : HloModule) (schedule : HloSchedule) (ms : Bool)
    (recur : CompId → HloLiveRange → Except Failure HloLiveRange) : Prop :=
  ∀ c st st', FlatInv m schedule ms st → recur c st = .ok st' →
    Gap schedule st → Gap schedule st'

/-- What the tables of a run say: the lookup functions of the two tables, next
to the flag and the flattened sequence. -/
def HloLiveRangeTables.view (st : HloLiveRangeTables) : HloLiveRange where
  total_order_scheduled := st.total_order_scheduled
  flattened_instruction_sequence := st.flattened_instruction_sequence
  instruction_schedule := st.instruction_schedule.find
  computation_span_times := st.computation_span_times.find
  buffer_live_ranges := fun _ => none

/-- No key occurs in two entries of the table. -/
def FlatHashMap.KeysDistinct {κ ν : Type} (t : FlatHashMap κ ν) : Prop :=
  (t.entries.map Prod.fst).Nodup

/-- The two tables hold every key once. -/
def HloLiveRangeTables.KeysDistinct (st : HloLiveRangeTables) : Prop :=
  st.instruction_schedule.KeysDistinct ∧ st.computation_span_times.KeysDistinct

/-- The run on tables `rT` and the run on lookup functions `r` agree: they fail
alike, or both return, the tables hold every key once and their lookups are
the returned functions. -/
def Simulates (rT : Except Failure HloLiveRangeTables) (r : Except Failure HloLiveRange) :
    Prop :=
  match rT with
  | .ok sT => sT.KeysDistinct ∧ r = .ok sT.view
  | .error e => r = .error e

/-- The recursive call on tables agrees with the one on lookup functions. -/
def SimulatesRecur
    (recurT : CompId → HloLiveRangeTables → Except Failure HloLiveRangeTables)
    (recur : CompId → HloLiveRange → Except Failure HloLiveRange) : Prop :=
  ∀ c sT, sT.KeysDistinct → Simulates (recurT c sT) (recur c sT.view)

/-! ## Example inputs -/

/-- A sorting function for the examples: insertion sort, under which elements
of equal `(start, end)` keep their order. -/
def exampleSort : LiveRangeSort :=
  fun l => l.insertionSort timeBoundNotAfter

/-- A second sorting function for the examples: insertion sort of the reversed
vector, under which elements of equal `(start, end)` come out in the opposite
order. -/
def exampleSortReversed : LiveRangeSort :=
  fun l => l.reverse.insertionSort timeBoundNotAfter

/-- A layout that puts a new entry behind the others. -/
def layoutAppend : TableLayout where
  instructions := fun t e => t ++ [e]
  computations := fun t e => t ++ [e]

/-- A layout that puts a new entry in front of the others and reverses these. -/
def layoutReverse : TableLayout where
  instructions := fun t e => e :: t.reverse
  computations := fun t e => e :: t.reverse

/-- Example module: the entry computation 0 is `[0, 1]` where 1 is a `kCall` of
computation 1 = `[2, 3]`; 2 is the parameter of the callee and 3, a tuple of
that parameter, is its root. -/
def callModule : HloModule where
  opcode := fun i => if i = 1 then .kCall else if i = 2 then .kParameter else .kOther
  parent := fun i => if i = 2 ∨ i = 3 then 1 else 0
  called_computations := fun i => if i = 1 then [1] else []
  while_condition := fun _ => 0
  while_body := fun _ => 0
  parameter_number := fun _ => 0
  root_instruction := fun c => if c = 0 then 1 else 3
  parameter_instruction0 := fun _ => 2
  entry_computation := 0
  ParameterHasAlias := fun _ _ => false

/-- Schedule of `callModule`. -/
def callSchedule : HloSchedule where
  sequences := fun c => if c = 0 then some [0, 1] else if c = 1 then some [2, 3] else none

/-- Value defined by instruction 0 of `callModule`: it is the operand of the
call, so it is also observable at the callee parameter 2, inside the callee
root 3 and inside the result of the call 1. -/
def callArg : HloValue where
  id := 0
  defining_instruction := 0
  index := []
  uses := [{ instruction := 1, operand_number := 0, operand_index := [] },
           { instruction := 3, operand_number := 0, operand_index := [] }]
  positions := [{ instruction := 0, index := [] }, { instruction := 2, index := [] },
                { instruction := 3, index := [0] }, { instruction := 1, index := [0] }]
  size := 4

/-- Value defined by the tuple 3 in the callee of `callModule`: the tuple
itself, observable at 3 and as the result of the call 1. -/
def callTuple : HloValue where
  id := 1
  defining_instruction := 3
  index := []
  uses := []
  positions := [{ instruction := 3, index := [] }, { instruction := 1, index := [] }]
  size := 8

/-- Alias analysis of `callModule`, the operand value first. -/
def callAlias : HloAliasAnalysis where
  values := [callArg, callTuple]
  buffers := [[callArg], [callTuple]]

/-- Alias analysis of `callModule`, the tuple value first. -/
def callAliasSwapped : HloAliasAnalysis where
  values := [callTuple, callArg]
  buffers := [[callArg], [callTuple]]

/-- Example module: one computation `[0, 1, 2]` whose instruction 0 is its
parameter, without output alias. -/
def paramModule : HloModule where
  opcode := fun i => if i = 0 then .kParameter else .kOther
  parent := fun _ => 0
  called_computations := fun _ => []
  while_condition := fun _ => 0
  while_body := fun _ => 0
  parameter_number := fun _ => 0
  root_instruction := fun _ => 2
  parameter_instruction0 := fun _ => 0
  entry_computation := 0
  ParameterHasAlias := fun _ _ => false

/-- Schedule of `paramModule`. -/
def paramSchedule : HloSchedule where
  sequences := fun c => if c = 0 then some [0, 1, 2] else none

/-- Value defined by the entry parameter 0 of `paramModule`, used only by
instruction 1. -/
def paramValue : HloValue where
  id := 0
  defining_instruction := 0
  index := []
  uses := [{ instruction := 1, operand_number := 0, operand_index := [] }]
  positions := [{ instruction := 0, index := [] }]
  size := 4

/-- Alias analysis of `paramModule` with the single value `paramValue`. -/
def paramAlias : HloAliasAnalysis where
  values := [paramValue]
  buffers := [[paramValue]]

/-- Example values that share a buffer. -/
def aliasX : HloValue where
  id := 0
  defining_instruction := 0
  index := [0]
  uses := []
  positions := []
  size := 4

/-- Second example value of the shared buffer. -/
def aliasY : HloValue where
  id := 1
  defining_instruction := 0
  index := [1]
  uses := []
  positions := []
  size := 4

/-- Third example value of the shared buffer. -/
def aliasZ : HloValue where
  id := 2
  defining_instruction := 1
  index := []
  uses := []
  positions := []
  size := 4

/-- Alias analysis with the buffer `[aliasX, aliasY]`. -/
def pairAlias : HloAliasAnalysis where
  values := [aliasX, aliasY]
  buffers := [[aliasX, aliasY]]

/-- Alias analysis with the buffer `[aliasZ, aliasY, aliasX]`. -/
def tripleAlias : HloAliasAnalysis where
  values := [aliasX, aliasY, aliasZ]
  buffers := [[aliasZ, aliasY, aliasX]]

/-- State in which `aliasX` has the range `x`, `aliasY` the range `y` and no
other value has one. -/
def pairState (x y : Int × Int) : HloLiveRange :=
  { HloLiveRange.init with
    buffer_live_ranges := fun v =>
      if v = aliasX then some { start := x.1, end_ := x.2, end_position := none }
      else if v = aliasY then some { start := y.1, end_ := y.2, end_position := none }
      else none }

/-- State in which `aliasX`, `aliasY` and `aliasZ` have the ranges `x`, `y`
and `z`. -/
def tripleState (x y z : Int × Int) : HloLiveRange :=
  { HloLiveRange.init with
    buffer_live_ranges := fun v =>
      if v = aliasX then some { start := x.1, end_ := x.2, end_position := none }
      else if v = aliasY then some { start := y.1, end_ := y.2, end_position := none }
      else if v = aliasZ then some { start := z.1, end_ := z.2, end_position := none }
      else none }

/-- Example value of 100 bytes. -/
def peakA : HloValue where
  id := 0
  defining_instruction := 0
  index := []
  uses := []
  positions := []
  size := 100

/-- Example value of 50 bytes. -/
def peakB : HloValue where
  id := 1
  defining_instruction := 1
  index := []
  uses := []
  positions := []
  size := 50

/-- Alias analysis with the values `peakA` and `peakB`. -/
def peakAlias : HloAliasAnalysis where
  values := [peakA, peakB]
  buffers := [[peakA], [peakB]]

/-- Alias analysis with the values `peakB` and `peakA`. -/
def peakAliasSwapped : HloAliasAnalysis where
  values := [peakB, peakA]
  buffers := [[peakA], [peakB]]

/-- State in which `peakA` has the range `a` and `peakB` the range `b`. -/
def peakState (a b : Int × Int) : HloLiveRange :=
  { HloLiveRange.init with
    buffer_live_ranges := fun v =>
      if v = peakA then some { start := a.1, end_ := a.2, end_position := none }
      else if v = peakB then some { start := b.1, end_ := b.2, end_position := none }
      else none }

/-- Example module: the entry computation 0 is `[3, 2]` where 2 is a `kWhile`
with condition 1 and body 2; the condition is `[4, 1]`, its parameter and a
`kCall` of the body; the body is `[0]`, its parameter. -/
def whileModule : HloModule where
  opcode := fun i =>
    if i = 2 then .kWhile else if i = 1 then .kCall
    else if i = 0 ∨ i = 4 then .kParameter else .kOther
  parent := fun i => if i = 0 then 2 else if i = 1 ∨ i = 4 then 1 else 0
  called_computations := fun i => if i = 1 then [2] else if i = 2 then [2, 1] else []
  while_condition := fun _ => 1
  while_body := fun _ => 2
  parameter_number := fun _ => 0
  root_instruction := fun c => if c = 0 then 2 else if c = 1 then 1 else 0
  parameter_instruction0 := fun c => if c = 1 then 4 else 0
  entry_computation := 0
  ParameterHasAlias := fun _ _ => false

/-- Schedule of `whileModule`. -/
def whileSchedule : HloSchedule where
  sequences := fun c =>
    if c = 0 then some [3, 2] else if c = 1 then some [4, 1]
    else if c = 2 then some [0] else none

/-- Value defined by instruction 3 of `whileModule` and used by the while
instruction 2. -/
def whileInit : HloValue where
  id := 0
  defining_instruction := 3
  index := []
  uses := [{ instruction := 2, operand_number := 0, operand_index := [] }]
  positions := [{ instruction := 3, index := [] }]
  size := 4

/-- Value defined by the body parameter 0 of `whileModule`, which is also the
root of the body. -/
def whileParam : HloValue where
  id := 1
  defining_instruction := 0
  index := []
  uses := []
  positions := [{ instruction := 0, index := [] }]
  size := 4

/-- Alias analysis of `whileModule`: the two values share one buffer. -/
def whileAlias : HloAliasAnalysis where
  values := [whileInit, whileParam]
  buffers := [[whileInit, whileParam]]

/-- State of the walk of `whileModule` from its entry computation at the moment
the loop reaches the while instruction 2: instruction 3 has timestamp 0. -/
def whileReached : HloLiveRange where
  total_order_scheduled := true
  flattened_instruction_sequence := [3]
  instruction_schedule := mapSet (fun _ => none) 3 0
  computation_span_times := fun _ => none
  buffer_live_ranges := fun _ => none

/-- Example module: the entry computation 0 is `[10, 11, 12]` where 11 is a
`kWhile` with condition 1 = `[20, 21]` and body 2 = `[30, 31]`; 20 and 30 are
the parameters of the condition and of the body. -/
def loopModule : HloModule where
  opcode := fun i =>
    if i = 11 then .kWhile else if i = 20 ∨ i = 30 then .kParameter else .kOther
  parent := fun i => if i = 20 ∨ i = 21 then 1 else if i = 30 ∨ i = 31 then 2 else 0
  called_computations := fun i => if i = 11 then [2, 1] else []
  while_condition := fun _ => 1
  while_body := fun _ => 2
  parameter_number := fun _ => 0
  root_instruction := fun c => if c = 0 then 12 else if c = 1 then 21 else 31
  parameter_instruction0 := fun c => if c = 1 then 20 else 30
  entry_computation := 0
  ParameterHasAlias := fun _ _ => false

/-- Schedule of `loopModule`. -/
def loopSchedule : HloSchedule where
  sequences := fun c =>
    if c = 0 then some [10, 11, 12] else if c = 1 then some [20, 21]
    else if c = 2 then some [30, 31] else none

/-- State of the walk of `loopModule` at the moment the loop reaches the while
instruction 11. -/
def loopReached : HloLiveRange where
  total_order_scheduled := true
  flattened_instruction_sequence := [10]
  instruction_schedule := mapSet (fun _ => none) 10 0
  computation_span_times := fun _ => none
  buffer_live_ranges := fun _ => none

/-- The walk of `whileModule` from its entry computation, module-scoped. -/
def whileFlat : Except Failure HloLiveRange :=
  FlattenSchedule whileModule whileSchedule true 3 0 HloLiveRange.init

/-- Example module: one computation `[0, 1, 2, 3, 4]` of plain instructions. -/
def straightModule : HloModule where
  opcode := fun _ => .kOther
  parent := fun _ => 0
  called_computations := fun _ => []
  while_condition := fun _ => 0
  while_body := fun _ => 0
  parameter_number := fun _ => 0
  root_instruction := fun _ => 4
  parameter_instruction0 := fun _ => 0
  entry_computation := 0
  ParameterHasAlias := fun _ _ => false

/-- Schedule of `straightModule`. -/
def straightSchedule : HloSchedule where
  sequences := fun c => if c = 0 then some [0, 1, 2, 3, 4] else none

/-- Value defined by instruction 0 of `straightModule`, used only by
instruction 3. -/
def valueA : HloValue where
  id := 0
  defining_instruction := 0
  index := []
  uses := [{ instruction := 3, operand_number := 0, operand_index := [] }]
  positions := [{ instruction := 0, index := [] }]
  size := 8

/-- Alias analysis of `straightModule` with the single value `valueA`. -/
def straightAlias : HloAliasAnalysis where
  values := [valueA]
  buffers := [[valueA]]

/-- Value defined by instruction 10 of `loopModule` and used only as operand of
the while instruction 11. -/
def loopInit : HloValue where
  id := 0
  defining_instruction := 10
  index := []
  uses := [{ instruction := 11, operand_number := 0, operand_index := [] }]
  positions := [{ instruction := 10, index := [] }]
  size := 4

/-- Alias analysis of `loopModule` with the single value `loopInit`. -/
def loopAlias : HloAliasAnalysis where
  values := [loopInit]
  buffers := [[loopInit]]

/-- Input of the range calculation in which the while instruction 11 of
`loopModule` has timestamp 7 and parameter 30 of its body has timestamp 8. -/
def loopAtSeven : HloLiveRange where
  total_order_scheduled := true
  flattened_instruction_sequence := []
  instruction_schedule := fun i =>
    if i = 10 then some 0 else if i = 11 then some 7 else if i = 30 then some 8 else none
  computation_span_times := fun _ => none
  buffer_live_ranges := fun _ => none

/-- Alias analysis of `straightModule` whose list of values holds `valueA`
twice. -/
def straightAliasTwice : HloAliasAnalysis where
  values := [valueA, valueA]
  buffers := [[valueA]]

/-- Value defined by instruction 0 of `straightModule` that is also observable
in the results of the instructions 3 and 2, listed in this order. -/
def valueSpread : HloValue where
  id := 1
  defining_instruction := 0
  index := []
  uses := [{ instruction := 3, operand_number := 0, operand_index := [] },
           { instruction := 2, operand_number := 0, operand_index := [] }]
  positions := [{ instruction := 0, index := [] }, { instruction := 3, index := [0] },
                { instruction := 2, index := [0] }]
  size := 8

/-- Alias analysis of `straightModule` with the single value `valueSpread`. -/
def straightAliasSpread : HloAliasAnalysis where
  values := [valueSpread]
  buffers := [[valueSpread]]

/-- Example module: the entry computation 0 is `[1, 2]` where 1 is a `kCall` of
computation 1 and 2 is the root; computation 1 is `[0]`, its root. -/
def callResultModule : HloModule where
  opcode := fun i => if i = 1 then .kCall else .kOther
  parent := fun i => if i = 0 then 1 else 0
  called_computations := fun i => if i = 1 then [1] else []
  while_condition := fun _ => 0
  while_body := fun _ => 0
  parameter_number := fun _ => 0
  root_instruction := fun c => if c = 0 then 2 else 0
  parameter_instruction0 := fun _ => 0
  entry_computation := 0
  ParameterHasAlias := fun _ _ => false

/-- Schedule of `callResultModule`. -/
def callResultSchedule : HloSchedule where
  sequences := fun c => if c = 0 then some [1, 2] else if c = 1 then some [0] else none

/-- Value defined by the root 0 of the callee of `callResultModule`; it is also
the result of the call 1 and has no use. -/
def callResultValue : HloValue where
  id := 0
  defining_instruction := 0
  index := []
  uses := []
  positions := [{ instruction := 0, index := [] }, { instruction := 1, index := [] }]
  size := 4

/-- Alias analysis of `callResultModule` with the single value
`callResultValue`. -/
def callResultAlias : HloAliasAnalysis where
  values := [callResultValue]
  buffers := [[callResultValue]]

/-- Schedule of `callModule` that has no sequence for the callee 1. -/
def callScheduleEntryOnly : HloSchedule where
  sequences := fun c => if c = 0 then some [0, 1] else none

end xla

namespace tflite.gpu

/-! ## The tensor descriptor (tensor_desc.cc)

`int` is 32 bits wide.  Its values are the integers from `-2^31` to `2^31 - 1`,
and the result of an addition or a multiplication of two `int`s is brought back
into this range by `wrapInt`, as two's complement hardware does (for C++ the
overflow of a signed operation is undefined).  An array is a map from all
indices to elements: an access outside the allocation is not an error here. -/

/-- The `int` that 32-bit two's complement arithmetic makes of the exact result
`n`: the integer of the range from `-2^31` to `2^31 - 1` that differs from `n`
by a multiple of `2^32`. -/
def wrapInt (n : Int) : Int :=
  (n + 2147483648) % 4294967296 - 2147483648

/-- The sum `a + b` of two `int`s. -/
def addInt (a b : Int) : Int :=
  wrapInt (a + b)

/-- The product `a * b` of two `int`s. -/
def mulInt (a b : Int) : Int :=
  wrapInt (a * b)

/-- The enumeration `TensorStorageType`. -/
inductive TensorStorageType where
  | UNKNOWN
  | BUFFER
  | IMAGE_BUFFER
  | TEXTURE_2D
  | TEXTURE_3D
  | TEXTURE_ARRAY
  | SINGLE_TEXTURE_2D
deriving DecidableEq, Repr

/-- The shape `BHWDC`; the fields are `int32_t`. -/
structure BHWDC where
  b : Int
  h : Int
  w : Int
  d : Int
  c : Int
deriving DecidableEq, Repr

/-- What the conversions read from a `TensorDescriptor`. -/
structure TensorDescriptor where
  storage_type : TensorStorageType
deriving DecidableEq, Repr

/-- Modelled from the spec: `DivideRoundUp` is declared outside the sources at
hand; the claims read `DivideRoundUp(shape.c, 4)` as the ceiling of
`shape.c / 4`. -/
def DivideRoundUp (n divisor : Int) : Int :=
  (n + divisor - 1) / divisor

/-- Modelled from the spec: `AlignByN` is declared outside the sources at hand;
the claims read `AlignByN(shape.c, 4)` as `4 * ceil(shape.c / 4)`, an `int`. -/
def AlignByN (n alignment : Int) : Int :=
  mulInt (DivideRoundUp n alignment) alignment

/-- The function `GetLinearIndex` (lines 1395-1416); every `*` and `+` of the
three index expressions is an operation on `int`. -/
def GetLinearIndex (desc : TensorDescriptor) (shape : BHWDC) (b x y d s sub_c : Int) : Int :=
  let slices := DivideRoundUp shape.c 4
  match desc.storage_type with
  | .BUFFER | .IMAGE_BUFFER | .TEXTURE_ARRAY | .TEXTURE_3D =>
    -- ((((d * slices + s) * shape.h + y) * shape.w + x) * shape.b + b) * 4 + sub_c
    addInt (mulInt (addInt (mulInt (addInt (mulInt (addInt (mulInt
      (addInt (mulInt d slices) s) shape.h) y) shape.w) x) shape.b) b) 4) sub_c
  | .TEXTURE_2D =>
    -- ((((y * slices + s) * shape.w + x) * shape.b + b) * shape.d + d) * 4 + sub_c
    addInt (mulInt (addInt (mulInt (addInt (mulInt (addInt (mulInt
      (addInt (mulInt y slices) s) shape.w) x) shape.b) b) shape.d) d) 4) sub_c
  | .SINGLE_TEXTURE_2D =>
    -- (((y * shape.w + x) * shape.b + b) * shape.d + d) * shape.c + sub_c
    addInt (mulInt (addInt (mulInt (addInt (mulInt
      (addInt (mulInt y shape.w) x) shape.b) b) shape.d) d) shape.c) sub_c
  | .UNKNOWN => -1

/-- The function `GetChannelsAlignment` (lines 1418-1421). -/
def GetChannelsAlignment (desc : TensorDescriptor) (shape : BHWDC) : Int :=
  if desc.storage_type = .SINGLE_TEXTURE_2D then shape.c else 4

/-- The `elements_count` of `TensorDescriptor::UploadData` (lines 1130-1133):
the number of elements of the buffer it allocates, a product of `int`s. -/
def elements_count (desc : TensorDescriptor) (shape : BHWDC) : Int :=
  let aligned_channels :=
    if desc.storage_type = .SINGLE_TEXTURE_2D then shape.c else AlignByN shape.c 4
  -- shape.b * shape.w * shape.h * shape.d * aligned_channels
  mulInt (mulInt (mulInt (mulInt shape.b shape.w) shape.h) shape.d) aligned_channels

/-- The loop `for (int k = 0; k < n; ++k)` over a state. -/
def forLoop {σ : Type} (n : Int) (body : Int → σ → σ) (init : σ) : σ :=
  (List.range n.toNat).foldl (fun acc (k : Nat) => body (Int.ofNat k) acc) init

/-- The assignment `a[k] = v` to an array. -/
def store {α : Type} (a : Int → α) (k : Int) (v : α) : Int → α :=
  fun i => if i = k then v else a i

/-- The function template `DataFromBHWDC` (lines 1424-1451), for equal element
types.  `LinearIndex shape b y x d c` stands for
`shape.LinearIndex({b, y, x, d, c})`, which is declared outside the sources at
hand and is a parameter; `dst` is the content of the destination on entry.  The
loop counters stay below their bounds, which are `int`s. -/
def DataFromBHWDC {α : Type} [Zero α]
    (LinearIndex : BHWDC → Int → Int → Int → Int → Int → Int)
    (src : Int → α) (shape : BHWDC) (desc : TensorDescriptor) (dst : Int → α) : Int → α :=
  let channels_alignment := GetChannelsAlignment desc shape
  let slices := DivideRoundUp shape.c 4
  forLoop shape.b (fun b dst =>
    forLoop slices (fun s dst =>
      forLoop shape.h (fun y dst =>
        forLoop shape.w (fun x dst =>
          forLoop shape.d (fun d dst =>
            forLoop channels_alignment (fun c dst =>
              let value : α :=
                if addInt (mulInt s 4) c < shape.c then
                  let cpu_index := LinearIndex shape b y x d (addInt (mulInt s 4) c)
                  src cpu_index
                else 0
              let gpu_index := GetLinearIndex desc shape b x y d s c
              store dst gpu_index value) dst) dst) dst) dst) dst) dst

/-- The function template `DataToBHWDC` (lines 1484-1507), for equal element
types; `continue` leaves the destination as it is. -/
def DataToBHWDC {α : Type}
    (LinearIndex : BHWDC → Int → Int → Int → Int → Int → Int)
    (src : Int → α) (shape : BHWDC) (desc : TensorDescriptor) (dst : Int → α) : Int → α :=
  let channels_alignment := GetChannelsAlignment desc shape
  let slices := DivideRoundUp shape.c 4
  forLoop shape.b (fun b dst =>
    forLoop slices (fun s dst =>
      forLoop shape.h (fun y dst =>
        forLoop shape.w (fun x dst =>
          forLoop shape.d (fun d dst =>
            forLoop channels_alignment (fun c dst =>
              if addInt (mulInt s 4) c ≥ shape.c then dst
              else
                let cpu_index := LinearIndex shape b y x d (addInt (mulInt s 4) c)
                let gpu_index := GetLinearIndex desc shape b x y d s c
                store dst cpu_index (src gpu_index)) dst) dst) dst) dst) dst) dst

/-! ## Relations used in the proofs about the tensor descriptor -/

/-- Coordinates of one iteration of the loop nest of the conversions. -/
structure Coord where
  b : Int
  s : Int
  y : Int
  x : Int
  d : Int
  c : Int
deriving DecidableEq, Repr

/-- The coordinates the loop nest visits (the valid coordinates of
`GetLinearIndex`). -/
def Coord.valid (desc : TensorDescriptor) (shape : BHWDC) (e : Coord) : Prop :=
  (0 ≤ e.b ∧ e.b < shape.b) ∧ (0 ≤ e.s ∧ e.s < DivideRoundUp shape.c 4) ∧
  (0 ≤ e.y ∧ e.y < shape.h) ∧ (0 ≤ e.x ∧ e.x < shape.w) ∧
  (0 ≤ e.d ∧ e.d < shape.d) ∧ (0 ≤ e.c ∧ e.c < GetChannelsAlignment desc shape)

instance Coord.validDecidable (desc : TensorDescriptor) (shape : BHWDC) (e : Coord) :
    Decidable (e.valid desc shape) :=
  inferInstanceAs (Decidable (_ ∧ _))

/-- The index `GetLinearIndex` gives a coordinate. -/
def Coord.gpu_index (desc : TensorDescriptor) (shape : BHWDC) (e : Coord) : Int :=
  GetLinearIndex desc shape e.b e.x e.y e.d e.s e.c

/-- The channel `s * 4 + c` of a coordinate, as the loop bodies compute it. -/
def Coord.channel (e : Coord) : Int :=
  addInt (mulInt e.s 4) e.c

/-- The number the index expression of `GetLinearIndex` denotes for a
coordinate when it is read as an expression over the integers. -/
def Coord.exact_index (desc : TensorDescriptor) (shape : BHWDC) (e : Coord) : Int :=
  match desc.storage_type with
  | .BUFFER | .IMAGE_BUFFER | .TEXTURE_ARRAY | .TEXTURE_3D =>
    ((((e.d * DivideRoundUp shape.c 4 + e.s) * shape.h + e.y) * shape.w + e.x) * shape.b +
      e.b) * 4 + e.c
  | .TEXTURE_2D =>
    ((((e.y * DivideRoundUp shape.c 4 + e.s) * shape.w + e.x) * shape.b + e.b) * shape.d +
      e.d) * 4 + e.c
  | .SINGLE_TEXTURE_2D =>
    (((e.y * shape.w + e.x) * shape.b + e.b) * shape.d + e.d) * shape.c + e.c
  | .UNKNOWN => -1

/-- The number `b * w * h * d * aligned_channels` over the integers, where
`aligned_channels` is `shape.c` for `SINGLE_TEXTURE_2D` and
`4 * ceil(shape.c / 4)` otherwise. -/
def exactElementsCount (desc : TensorDescriptor) (shape : BHWDC) : Int :=
  shape.b * shape.w * shape.h * shape.d *
    (if desc.storage_type = .SINGLE_TEXTURE_2D then shape.c else 4 * DivideRoundUp shape.c 4)

/-- The loop nest shared by `DataFromBHWDC` and `DataToBHWDC`. -/
def loopNest {σ : Type} (desc : TensorDescriptor) (shape : BHWDC)
    (body : Coord → σ → σ) (init : σ) : σ :=
  forLoop shape.b (fun b acc =>
    forLoop (DivideRoundUp shape.c 4) (fun s acc =>
      forLoop shape.h (fun y acc =>
        forLoop shape.w (fun x acc =>
          forLoop shape.d (fun d acc =>
            forLoop (GetChannelsAlignment desc shape) (fun c acc =>
              body { b := b, s := s, y := y, x := x, d := d, c := c } acc)
              acc) acc) acc) acc) acc) init

/-- The row-major index of the coordinate `(b, y, x, d, c)` in a shape. -/
def rowMajorIndex (shape : BHWDC) (b y x d c : Int) : Int :=
  (((b * shape.h + y) * shape.w + x) * shape.d + d) * shape.c + c

end tflite.gpu

namespace xla

/-! # Lemmas about FlattenSchedule -/

theorem flatExt_refl (st : HloLiveRange) : FlatExt st st :=
  ⟨⟨[], by simp⟩, fun _ _ h => h, fun _ _ h => h, rfl, fun h => h⟩

theorem flatExt_trans {a b c : HloLiveRange} (h1 : FlatExt a b) (h2 : FlatExt b c) :
    FlatExt a c := by
  obtain ⟨l1, e1⟩ := h1.seq_prefix
  obtain ⟨l2, e2⟩ := h2.seq_prefix
  refine ⟨⟨l1 ++ l2, by rw [e2, e1, List.append_assoc]⟩, ?_, ?_, ?_, ?_⟩
  · exact fun j t h => h2.time_kept j t (h1.time_kept j t h)
  · exact fun j t h => h2.span_kept j t (h1.span_kept j t h)
  · rw [h2.ranges_kept, h1.ranges_kept]
  · exact fun h => h1.order_kept (h2.order_kept h)

theorem flatExt_length_le {a b : HloLiveRange} (h : FlatExt a b) :
    a.schedule_end_time ≤ b.schedule_end_time := by
  obtain ⟨l, e⟩ := h.seq_prefix
  simp [HloLiveRange.schedule_end_time, e]

theorem flattenSub_eq (m : HloModule) (ms : Bool)
    (recur : CompId → HloLiveRange → Except Failure HloLiveRange)
    (i : InstrId) (st : HloLiveRange) :
    flattenSub m ms recur i st =
      if ms then flattenCalled recur (subComputations m i) st else .ok st := by
  unfold flattenSub subComputations
  cases ms
  · simp
  · simp only [if_true]
    by_cases h1 : m.opcode i = .kCall ∨ m.opcode i = .kConditional
    · simp [h1]
    · by_cases h2 : m.opcode i = .kWhile
      · simp only [h1, h2, if_false, if_true, flattenCalled]
        cases recur (m.while_condition i) st with
        | error e => rfl
        | ok st1 =>
          simp only
          cases recur (m.while_body i) st1 <;> rfl
      · simp [h1, h2, flattenCalled]

theorem mapSet_self {κ β : Type} [DecidableEq κ] (mp : κ → Option β) (k : κ) (v : β) :
    mapSet mp k v k = some v := by simp [mapSet]

theorem mapSet_other {κ β : Type} [DecidableEq κ] (mp : κ → Option β) (k x : κ) (v : β)
    (h : x ≠ k) : mapSet mp k v x = mp x := by simp [mapSet, h]

theorem init_flatInv (m : HloModule) (schedule : HloSchedule) (ms : Bool) :
    FlatInv m schedule ms HloLiveRange.init := by
  refine ⟨?_, ?_, ?_, ?_⟩ <;> simp [HloLiveRange.init]

/-- The timestamp assignment keeps the invariant and extends the state. -/
theorem assignTime_spec {m : HloModule} {schedule : HloSchedule} {ms : Bool}
    {i : InstrId} {st st' : HloLiveRange} (hinv : FlatInv m schedule ms st)
    (hsub : ms = true → ∀ c ∈ subComputations m i, ∀ seq, schedule.sequences c = some seq →
      ∃ s, st.computation_span_times c = some s ∧ s.end_ ≤ st.schedule_end_time)
    (h : assignTime i st = .ok st') :
    st.instruction_schedule i = none ∧
    st'.instruction_schedule i = some st.schedule_end_time ∧
    st'.flattened_instruction_sequence = st.flattened_instruction_sequence ++ [i] ∧
    st'.computation_span_times = st.computation_span_times ∧
    st'.total_order_scheduled = st.total_order_scheduled ∧
    FlatInv m schedule ms st' ∧ FlatExt st st' := by
  unfold assignTime at h
  cases hi : st.instruction_schedule i with
  | some t => simp [hi] at h
  | none =>
    simp only [hi] at h
    injection h with h
    subst h
    have hkept : ∀ j t, st.instruction_schedule j = some t →
        mapSet st.instruction_schedule i (↑st.flattened_instruction_sequence.length) j = some t := by
      intro j t hj
      rw [mapSet_other]
      · exact hj
      · rintro rfl; rw [hi] at hj; cases hj
    refine ⟨rfl, by simp [mapSet, HloLiveRange.schedule_end_time], rfl, rfl, rfl, ?_, ?_⟩
    · refine ⟨?_, ?_, ?_, ?_⟩
      · intro k j hk
        simp only at hk ⊢
        rw [List.getElem?_append] at hk
        split at hk
        · have := hinv.time_of_index k j hk
          exact hkept j _ this
        · rename_i hlt
          have hk0 : k - st.flattened_instruction_sequence.length = 0 := by
            by_contra hne
            have : ([i] : List InstrId)[k - st.flattened_instruction_sequence.length]? = none := by
              apply List.getElem?_eq_none
              simp; omega
            rw [this] at hk; cases hk
          rw [hk0] at hk
          simp at hk
          subst hk
          have : k = st.flattened_instruction_sequence.length := by omega
          subst this
          simp [mapSet]
      · intro j t hj
        simp only at hj ⊢
        unfold mapSet at hj
        split at hj
        · rename_i hji
          subst hji
          injection hj with hj
          refine ⟨st.flattened_instruction_sequence.length, hj.symm, ?_⟩
          simp
        · obtain ⟨k, hk, hk2⟩ := hinv.index_of_time j t hj
          refine ⟨k, hk, ?_⟩
          rw [List.getElem?_append_left]
          · exact hk2
          · exact (List.getElem?_eq_some.mp hk2).1
      · intro c s hc
        obtain ⟨h0, h1, h2, h3⟩ := hinv.span_covers c s hc
        refine ⟨h0, h1, ?_, ?_⟩
        · simp [HloLiveRange.schedule_end_time] at h2 ⊢
          omega
        · intro seq hseq j hj
          obtain ⟨t, ht, hb⟩ := h3 seq hseq j hj
          exact ⟨t, hkept j t ht, hb⟩
      · intro hms k t hk c hc seq hseq
        simp only at hk ⊢
        unfold mapSet at hk
        split at hk
        · rename_i hki
          subst hki
          injection hk with hk
          obtain ⟨s, h1, h2⟩ := hsub hms c hc seq hseq
          refine ⟨s, h1, ?_⟩
          rw [← hk]; exact h2
        · exact hinv.callee_spanned hms k t hk c hc seq hseq
    · exact ⟨⟨[i], rfl⟩, hkept, fun _ _ h => h, rfl, fun h => h⟩

theorem flattenCalled_spec {m : HloModule} {schedule : HloSchedule} {ms : Bool}
    {recur : CompId → HloLiveRange → Except Failure HloLiveRange}
    (hrec : FlatSpec m schedule ms recur) :
    ∀ (cs : List CompId) (st st' : HloLiveRange), FlatInv m schedule ms st →
      flattenCalled recur cs st = .ok st' →
      FlatInv m schedule ms st' ∧ FlatExt st st' ∧
      ∀ c ∈ cs, ∀ seq, schedule.sequences c = some seq →
        ∃ s, st'.computation_span_times c = some s := by
  intro cs
  induction cs with
  | nil =>
    intro st st' hinv h
    simp only [flattenCalled] at h
    injection h with h
    subst h
    exact ⟨hinv, flatExt_refl _, by simp⟩
  | cons c cs ih =>
    intro st st' hinv h
    simp only [flattenCalled] at h
    cases hr : recur c st with
    | error e => simp [hr] at h
    | ok st1 =>
      simp only [hr] at h
      obtain ⟨hinv1, hext1, hsp1⟩ := hrec c st st1 hinv hr
      obtain ⟨hinv2, hext2, hsp2⟩ := ih st1 st' hinv1 h
      refine ⟨hinv2, flatExt_trans hext1 hext2, ?_⟩
      intro c' hc' seq hseq
      rcases List.mem_cons.mp hc' with rfl | hmem
      · obtain ⟨s, hs⟩ := hsp1 seq hseq
        exact ⟨s, hext2.span_kept _ _ hs⟩
      · exact hsp2 c' hmem seq hseq

/-- One loop iteration: the recursion, then the timestamp assignment. -/
theorem flattenInstruction_spec {m : HloModule} {schedule : HloSchedule} {ms : Bool}
    {recur : CompId → HloLiveRange → Except Failure HloLiveRange}
    (hrec : FlatSpec m schedule ms recur) {i : InstrId} {st st' : HloLiveRange}
    (hinv : FlatInv m schedule ms st)
    (h : flattenInstruction m ms recur i st = .ok st') :
    ∃ st1, flattenSub m ms recur i st = .ok st1 ∧ assignTime i st1 = .ok st' ∧
      FlatInv m schedule ms st1 ∧ FlatExt st st1 ∧
      st1.instruction_schedule i = none ∧
      st'.instruction_schedule i = some st1.schedule_end_time ∧
      st'.flattened_instruction_sequence = st1.flattened_instruction_sequence ++ [i] ∧
      st'.computation_span_times = st1.computation_span_times ∧
      st'.total_order_scheduled = st1.total_order_scheduled ∧
      FlatInv m schedule ms st' ∧ FlatExt st1 st' := by
  unfold flattenInstruction at h
  cases hs : flattenSub m ms recur i st with
  | error e => simp [hs] at h
  | ok st1 =>
    simp only [hs] at h
    have hsub : FlatInv m schedule ms st1 ∧ FlatExt st st1 ∧
        (ms = true → ∀ c ∈ subComputations m i, ∀ seq, schedule.sequences c = some seq →
          ∃ s, st1.computation_span_times c = some s) := by
      rw [flattenSub_eq] at hs
      cases ms with
      | false =>
        simp only [Bool.false_eq_true, if_false] at hs
        injection hs with hs
        subst hs
        exact ⟨hinv, flatExt_refl _, by simp⟩
      | true =>
        simp only [if_true] at hs
        obtain ⟨a, b, c⟩ := flattenCalled_spec hrec _ st st1 hinv hs
        exact ⟨a, b, fun _ => c⟩
    obtain ⟨hinv1, hext1, hsp⟩ := hsub
    have hcallee : ms = true → ∀ c ∈ subComputations m i, ∀ seq,
        schedule.sequences c = some seq →
          ∃ s, st1.computation_span_times c = some s ∧ s.end_ ≤ st1.schedule_end_time := by
      intro hms c hc seq hseq
      obtain ⟨s, hs⟩ := hsp hms c hc seq hseq
      exact ⟨s, hs, (hinv1.span_covers c s hs).2.2.1⟩
    obtain ⟨a1, a2, a3, a4, a5, a6, a7⟩ := assignTime_spec hinv1 hcallee h
    exact ⟨st1, rfl, h, hinv1, hext1, a1, a2, a3, a4, a5, a6, a7⟩

/-- The instruction loop, run on a part `todo` of the sequence of a computation
`c` that has no span yet. -/
theorem flattenSequence_spec {m : HloModule} {schedule : HloSchedule} {ms : Bool}
    {recur : CompId → HloLiveRange → Except Failure HloLiveRange}
    (hrec : FlatSpec m schedule ms recur) {c : CompId} {seqc : List InstrId}
    (hseqc : schedule.sequences c = some seqc) :
    ∀ (todo : List InstrId) (st st' : HloLiveRange), FlatInv m schedule ms st →
      (∀ j ∈ todo, j ∈ seqc) → st.computation_span_times c = none →
      flattenSequence m ms recur todo st = .ok st' →
      FlatInv m schedule ms st' ∧ FlatExt st st' ∧
      st'.computation_span_times c = none ∧
      ∀ j ∈ todo, ∃ t, st'.instruction_schedule j = some t ∧
        st.schedule_end_time ≤ t ∧ t < st'.schedule_end_time := by
  intro todo
  induction todo with
  | nil =>
    intro st st' hinv _ hnone h
    simp only [flattenSequence] at h
    injection h with h
    subst h
    exact ⟨hinv, flatExt_refl _, hnone, by simp⟩
  | cons i rest ih =>
    intro st st' hinv hsub hnone h
    simp only [flattenSequence] at h
    cases hi : flattenInstruction m ms recur i st with
    | error e => simp [hi] at h
    | ok st2 =>
      simp only [hi] at h
      obtain ⟨st1, _, _, hinv1, hext1, hni, hti, hfl, hsp, _, hinv2, hext2⟩ :=
        flattenInstruction_spec hrec hinv hi
      have hnone1 : st1.computation_span_times c = none := by
        cases hc : st1.computation_span_times c with
        | none => rfl
        | some s =>
          obtain ⟨_, _, _, h3⟩ := hinv1.span_covers c s hc
          obtain ⟨t, ht, _⟩ := h3 seqc hseqc i (hsub i (List.mem_cons_self _ _))
          rw [hni] at ht; cases ht
      have hnone2 : st2.computation_span_times c = none := by rw [hsp]; exact hnone1
      obtain ⟨hinv3, hext3, hnone3, hcov⟩ :=
        ih st2 st' hinv2 (fun j hj => hsub j (List.mem_cons_of_mem _ hj)) hnone2 h
      refine ⟨hinv3, flatExt_trans (flatExt_trans hext1 hext2) hext3, hnone3, ?_⟩
      intro j hj
      rcases List.mem_cons.mp hj with rfl | hmem
      · refine ⟨st1.schedule_end_time, hext3.time_kept _ _ hti, flatExt_length_le hext1, ?_⟩
        have : st1.schedule_end_time < st2.schedule_end_time := by
          simp [HloLiveRange.schedule_end_time, hfl]
        exact lt_of_lt_of_le this (flatExt_length_le hext3)
      · obtain ⟨t, ht, hle, hlt⟩ := hcov j hmem
        exact ⟨t, ht, le_trans (flatExt_length_le (flatExt_trans hext1 hext2)) hle, hlt⟩

theorem flattenBody_spec {m : HloModule} {schedule : HloSchedule} {ms : Bool}
    {recur : CompId → HloLiveRange → Except Failure HloLiveRange}
    (hrec : FlatSpec m schedule ms recur) :
    FlatSpec m schedule ms (flattenBody m schedule ms recur) := by
  intro c st st' hinv h
  unfold flattenBody at h
  cases hseq : schedule.sequences c with
  | none =>
    simp only [hseq] at h
    injection h with h
    subst h
    refine ⟨⟨hinv.time_of_index, hinv.index_of_time, hinv.span_covers, hinv.callee_spanned⟩,
      ⟨⟨[], by simp⟩, fun _ _ h => h, fun _ _ h => h, rfl, by simp⟩, by simp⟩
  | some seqc =>
    simp only [hseq] at h
    cases hspan : st.computation_span_times c with
    | some s =>
      simp only [hspan] at h
      injection h with h
      subst h
      exact ⟨hinv, flatExt_refl _, fun _ _ => ⟨s, hspan⟩⟩
    | none =>
      simp only [hspan] at h
      cases hw : flattenSequence m ms recur seqc st with
      | error e => simp [hw] at h
      | ok st1 =>
        simp only [hw] at h
        injection h with h
        subst h
        obtain ⟨hinv1, hext1, hnone1, hcov⟩ :=
          flattenSequence_spec hrec hseq seqc st st1 hinv (fun _ h => h) hspan hw
        have hkeep : ∀ c' s, st1.computation_span_times c' = some s →
            mapSet st1.computation_span_times c
              { start := (st.flattened_instruction_sequence.length : Int),
                end_ := (st1.flattened_instruction_sequence.length : Int),
                end_position := none } c' = some s := by
          intro c' s hs
          rw [mapSet_other]
          · exact hs
          · rintro rfl; rw [hnone1] at hs; cases hs
        refine ⟨⟨hinv1.time_of_index, hinv1.index_of_time, ?_, ?_⟩,
          ⟨hext1.seq_prefix, hext1.time_kept, ?_, hext1.ranges_kept, hext1.order_kept⟩, ?_⟩
        · intro c' s hs
          simp only at hs
          unfold mapSet at hs
          split at hs
          · rename_i hcc
            subst hcc
            injection hs with hs
            subst hs
            refine ⟨by simp, flatExt_length_le hext1, le_refl _, ?_⟩
            intro seq hseq2 j hj
            rw [hseq] at hseq2
            injection hseq2 with hseq2
            subst hseq2
            exact hcov j hj
          · exact hinv1.span_covers c' s hs
        · intro hms k t hk c' hc' seq' hseq'
          obtain ⟨s, h1, h2⟩ := hinv1.callee_spanned hms k t hk c' hc' seq' hseq'
          exact ⟨s, hkeep c' s h1, h2⟩
        · intro c' s hs
          exact hkeep c' s (hext1.span_kept c' s hs)
        · intro _ _
          exact ⟨_, mapSet_self _ _ _⟩

theorem FlattenSchedule_spec (m : HloModule) (schedule : HloSchedule) (ms : Bool) :
    ∀ fuel, FlatSpec m schedule ms (FlattenSchedule m schedule ms fuel) := by
  intro fuel
  induction fuel with
  | zero =>
    intro c st st' _ h
    simp [FlattenSchedule] at h
  | succ n ih =>
    intro c st st' hinv h
    rw [FlattenSchedule] at h
    exact flattenBody_spec ih c st st' hinv h

theorem flatInv_nodup {m : HloModule} {schedule : HloSchedule} {ms : Bool}
    {st : HloLiveRange} (hinv : FlatInv m schedule ms st) :
    st.flattened_instruction_sequence.Nodup := by
  rw [List.nodup_iff_getElem?_ne_getElem?]
  intro i k hik hk heq
  have hk2 : st.flattened_instruction_sequence[k]? =
      some (st.flattened_instruction_sequence[k]) := List.getElem?_eq_getElem hk
  have h1 := hinv.time_of_index k _ hk2
  have h2 := hinv.time_of_index i _ (heq.trans hk2)
  rw [h1] at h2
  injection h2 with h2
  omega

theorem completes_ok {α : Type} {r : Except Failure α} (h : completes r = true) :
    ∃ a, r = .ok a := by
  cases r with
  | ok a => exact ⟨a, rfl⟩
  | error e => simp [completes] at h

/-! ## Lemmas about NormalizeAliasedBuffers -/

theorem setEnd_apply (ranges : HloValue → Option TimeBound) (v x : HloValue) (e : Int) :
    setEnd ranges v e x =
      if x = v then (ranges v).map (fun tb => { tb with end_ := e }) else ranges x := by
  unfold setEnd
  cases hv : ranges v with
  | none =>
    by_cases hx : x = v
    · simp [hx, hv]
    · simp [hx]
  | some tb =>
    by_cases hx : x = v
    · simp [hx, mapSet]
    · simp [hx, mapSet]

theorem setEnd_frame (ranges : HloValue → Option TimeBound) (v x : HloValue) (e : Int) :
    (setEnd ranges v e x).map TimeBound.frame = (ranges x).map TimeBound.frame := by
  rw [setEnd_apply]
  by_cases hx : x = v
  · subst hx
    cases ranges x <;> simp [TimeBound.frame]
  · simp [hx]

theorem normalizePass_frame :
    ∀ (l : List HloValue) (ranges : HloValue → Option TimeBound) (x : HloValue),
      (normalizePass l ranges x).map TimeBound.frame = (ranges x).map TimeBound.frame := by
  intro l
  induction l with
  | nil => intro ranges x; rfl
  | cons v1 tl ih =>
    intro ranges x
    cases tl with
    | nil => rfl
    | cons v2 rest =>
      unfold normalizePass
      cases h1 : ranges v1 with
      | none => simp only; exact ih ranges x
      | some lr1 =>
        cases h2 : ranges v2 with
        | none => simp only; exact ih ranges x
        | some lr2 =>
          simp only
          split
          · rw [ih, setEnd_frame]
          · split
            · exact ih ranges x
            · rw [ih, setEnd_frame, setEnd_frame]

theorem frame_start {a b : Option TimeBound}
    (h : a.map TimeBound.frame = b.map TimeBound.frame) {ta : TimeBound} (ha : a = some ta) :
    ∃ tb, b = some tb ∧ tb.start = ta.start ∧ tb.end_position = ta.end_position := by
  subst ha
  cases b with
  | none => simp at h
  | some tb =>
    simp only [Option.map_some', Option.some.injEq, TimeBound.frame, Prod.mk.injEq] at h
    exact ⟨tb, rfl, h.1.symm, h.2.symm⟩

theorem startSorted_of_frame {r r' : HloValue → Option TimeBound}
    (h : ∀ x, (r' x).map TimeBound.frame = (r x).map TimeBound.frame)
    {l : List HloValue} (hs : StartSorted r l) : StartSorted r' l := by
  unfold StartSorted at hs ⊢
  refine hs.imp ?_
  intro a b hab ra rb ha hb
  obtain ⟨ta, hta, hsa, _⟩ := frame_start (h a) ha
  obtain ⟨tb, htb, hsb, _⟩ := frame_start (h b) hb
  have := hab ta tb hta htb
  omega

theorem setEnd_ok {ranges : HloValue → Option TimeBound} {v : HloValue} {e : Int}
    (hok : RangesOk ranges) (hv : ∀ tb, ranges v = some tb → tb.start ≤ e) :
    RangesOk (setEnd ranges v e) := by
  intro x tb hx
  rw [setEnd_apply] at hx
  by_cases hxv : x = v
  · subst hxv
    simp only [if_true] at hx
    cases hr : ranges x with
    | none => simp [hr] at hx
    | some t0 =>
      simp only [hr, Option.map_some', Option.some.injEq] at hx
      subst hx
      exact hv t0 hr
  · simp only [hxv, if_false] at hx
    exact hok x tb hx

/-- The pass keeps every range proper when the pointers are sorted by start. -/
theorem normalizePass_ok :
    ∀ (l : List HloValue) (ranges : HloValue → Option TimeBound),
      RangesOk ranges → StartSorted ranges l → RangesOk (normalizePass l ranges) := by
  intro l
  induction l with
  | nil => intro ranges hok _; exact hok
  | cons v1 tl ih =>
    intro ranges hok hs
    cases tl with
    | nil => exact hok
    | cons v2 rest =>
      have hs_tl : StartSorted ranges (v2 :: rest) := (List.pairwise_cons.mp hs).2
      have h12 : ∀ ra rb, ranges v1 = some ra → ranges v2 = some rb → ra.start ≤ rb.start :=
        (List.pairwise_cons.mp hs).1 v2 (List.mem_cons_self _ _)
      unfold normalizePass
      cases h1 : ranges v1 with
      | none => simp only; exact ih ranges hok hs_tl
      | some lr1 =>
        cases h2 : ranges v2 with
        | none => simp only; exact ih ranges hok hs_tl
        | some lr2 =>
          simp only
          have hle := h12 lr1 lr2 h1 h2
          split
          · rename_i heq
            apply ih
            · apply setEnd_ok hok
              intro tb htb
              rw [h1] at htb
              injection htb with htb
              subst htb
              have := hok v2 lr2 h2
              omega
            · exact startSorted_of_frame (fun x => setEnd_frame ranges v1 x _) hs_tl
          · rename_i hne
            split
            · exact ih ranges hok hs_tl
            · apply ih
              · apply setEnd_ok
                · apply setEnd_ok hok
                  intro tb htb
                  rw [h2] at htb
                  injection htb with htb
                  subst htb
                  exact le_trans (hok v2 _ h2) (le_max_right _ _)
                · intro tb htb
                  obtain ⟨t0, ht0, hst, _⟩ := frame_start (setEnd_frame ranges v2 v1 _) htb
                  rw [h1] at ht0
                  injection ht0 with ht0
                  subst ht0
                  omega
              · exact startSorted_of_frame
                  (fun x => by rw [setEnd_frame, setEnd_frame]) hs_tl

theorem mem_collectLiveRanges {ranges : HloValue → Option TimeBound} :
    ∀ {values : List HloValue} {p : HloValue × TimeBound},
      p ∈ collectLiveRanges ranges values → p.1 ∈ values ∧ ranges p.1 = some p.2 := by
  intro values
  induction values with
  | nil => intro p hp; simp [collectLiveRanges] at hp
  | cons v rest ih =>
    intro p hp
    unfold collectLiveRanges at hp
    cases hv : ranges v with
    | none =>
      simp only [hv] at hp
      exact ⟨List.mem_cons_of_mem _ (ih hp).1, (ih hp).2⟩
    | some tb =>
      simp only [hv] at hp
      rcases List.mem_cons.mp hp with rfl | hmem
      · exact ⟨List.mem_cons_self _ _, hv⟩
      · exact ⟨List.mem_cons_of_mem _ (ih hmem).1, (ih hmem).2⟩

theorem timeBoundNotAfter_total (a b : HloValue × TimeBound) :
    timeBoundNotAfter a b ∨ timeBoundNotAfter b a := by
  unfold timeBoundNotAfter timeBoundLess
  simp only [Bool.or_eq_false_iff, Bool.and_eq_false_iff, decide_eq_false_iff_not]
  omega

theorem timeBoundNotAfter_trans {a b c : HloValue × TimeBound}
    (h1 : timeBoundNotAfter a b) (h2 : timeBoundNotAfter b c) : timeBoundNotAfter a c := by
  unfold timeBoundNotAfter timeBoundLess at *
  simp only [Bool.or_eq_false_iff, Bool.and_eq_false_iff, decide_eq_false_iff_not] at *
  omega

theorem timeBoundNotAfter_start {a b : HloValue × TimeBound}
    (h : timeBoundNotAfter a b) : a.2.start ≤ b.2.start := by
  unfold timeBoundNotAfter timeBoundLess at h
  simp only [Bool.or_eq_false_iff, Bool.and_eq_false_iff, decide_eq_false_iff_not] at h
  omega

theorem exampleSort_sorts : SortsByStartEnd exampleSort := fun _ =>
  ⟨List.perm_insertionSort _ _,
    @List.sorted_insertionSort _ timeBoundNotAfter _ ⟨timeBoundNotAfter_total⟩
      ⟨fun _ _ _ => timeBoundNotAfter_trans⟩ _⟩

theorem exampleSortReversed_sorts : SortsByStartEnd exampleSortReversed := fun l =>
  ⟨(List.perm_insertionSort _ _).trans (List.reverse_perm l),
    @List.sorted_insertionSort _ timeBoundNotAfter _ ⟨timeBoundNotAfter_total⟩
      ⟨fun _ _ _ => timeBoundNotAfter_trans⟩ _⟩

theorem mem_aliasedLiveRanges {c_sort : LiveRangeSort} (hsort : SortsByStartEnd c_sort)
    {ranges : HloValue → Option TimeBound}
    {values : List HloValue} {v : HloValue} (h : v ∈ aliasedLiveRanges c_sort ranges values) :
    v ∈ values ∧ ∃ tb, ranges v = some tb := by
  unfold aliasedLiveRanges at h
  obtain ⟨p, hp, rfl⟩ := List.mem_map.mp h
  have hp2 := (hsort _).1.mem_iff.mp hp
  exact ⟨(mem_collectLiveRanges hp2).1, p.2, (mem_collectLiveRanges hp2).2⟩

theorem aliasedLiveRanges_sorted {c_sort : LiveRangeSort} (hsort : SortsByStartEnd c_sort)
    (ranges : HloValue → Option TimeBound)
    (values : List HloValue) : StartSorted ranges (aliasedLiveRanges c_sort ranges values) := by
  unfold StartSorted aliasedLiveRanges
  rw [List.pairwise_map]
  have hs := (hsort (collectLiveRanges ranges values)).2
  have hmem : ∀ p ∈ c_sort (collectLiveRanges ranges values),
      ranges p.1 = some p.2 := fun p hp =>
    (mem_collectLiveRanges ((hsort _).1.mem_iff.mp hp)).2
  refine List.Pairwise.imp_of_mem ?_ hs
  intro a b ha hb hab ra rb hra hrb
  rw [hmem a ha] at hra
  rw [hmem b hb] at hrb
  injection hra with hra
  injection hrb with hrb
  subst hra
  subst hrb
  exact timeBoundNotAfter_start hab

theorem normalizeBuffer_ok {c_sort : LiveRangeSort} (hsort : SortsByStartEnd c_sort)
    {ranges : HloValue → Option TimeBound} (values : List HloValue)
    (hok : RangesOk ranges) : RangesOk (normalizeBuffer c_sort ranges values) :=
  normalizePass_ok _ ranges hok (aliasedLiveRanges_sorted hsort ranges values)

theorem normalizeBuffers_ok {c_sort : LiveRangeSort} (hsort : SortsByStartEnd c_sort) :
    ∀ (buffers : List (List HloValue)) (ranges : HloValue → Option TimeBound),
      RangesOk ranges → RangesOk (buffers.foldl (normalizeBuffer c_sort) ranges) := by
  intro buffers
  induction buffers with
  | nil => intro ranges hok; exact hok
  | cons b rest ih =>
    intro ranges hok
    exact ih _ (normalizeBuffer_ok hsort b hok)

theorem normalizeBuffers_frame {c_sort : LiveRangeSort} :
    ∀ (buffers : List (List HloValue)) (ranges : HloValue → Option TimeBound) (x : HloValue),
      ((buffers.foldl (normalizeBuffer c_sort) ranges) x).map TimeBound.frame =
        (ranges x).map TimeBound.frame := by
  intro buffers
  induction buffers with
  | nil => intro ranges x; rfl
  | cons b rest ih =>
    intro ranges x
    simp only [List.foldl_cons]
    rw [ih]
    exact normalizePass_frame _ ranges x

/-! ## Lemmas about CalculateBufferStartEndMap -/

theorem schedGrows_refl (a : InstrId → Option Int) : SchedGrows a a :=
  fun _ => Or.inl rfl

theorem schedGrows_trans {a b c : InstrId → Option Int} (h1 : SchedGrows a b)
    (h2 : SchedGrows b c) : SchedGrows a c := by
  intro j
  rcases h1 j with e1 | ⟨n1, z1⟩ <;> rcases h2 j with e2 | ⟨n2, z2⟩
  · exact Or.inl (e2.trans e1)
  · exact Or.inr ⟨e1 ▸ n2, z2⟩
  · exact Or.inr ⟨n1, e2.trans z1⟩
  · rw [z1] at n2; cases n2

theorem schedGrows_kept {a b : InstrId → Option Int} (h : SchedGrows a b) {j : InstrId}
    {t : Int} (hj : a j = some t) : b j = some t := by
  rcases h j with e | ⟨n, _⟩
  · rw [e, hj]
  · rw [hj] at n; cases n

theorem mapIndexMap_grows (mp : InstrId → Option Int) (k : InstrId) :
    SchedGrows mp (mapIndexMap mp k) := by
  intro j
  unfold mapIndexMap
  cases hk : mp k with
  | some v => exact Or.inl rfl
  | none =>
    simp only
    by_cases hj : j = k
    · subst hj; exact Or.inr ⟨hk, by simp [mapSet]⟩
    · exact Or.inl (by simp [mapSet, hj])

theorem positionTrack_grows (value : HloValue) (position : HloPosition) (s : PositionLoop) :
    SchedGrows s.instruction_schedule (positionTrack value position s).instruction_schedule := by
  unfold positionTrack
  simp only
  split
  · exact schedGrows_trans (mapIndexMap_grows _ _) (mapIndexMap_grows _ _)
  · exact mapIndexMap_grows _ _

theorem positionLiveOut_sched (m : HloModule) (spans : CompId → Option TimeBound)
    (position : HloPosition) (s : PositionLoop) :
    (positionLiveOut m spans position s).instruction_schedule = s.instruction_schedule := by
  unfold positionLiveOut
  simp only
  split
  · split
    · split <;> rfl
    · rfl
  · rfl

theorem positionsLoop_grows (m : HloModule) (spans : CompId → Option TimeBound)
    (value : HloValue) :
    ∀ (ps : List HloPosition) (s : PositionLoop),
      SchedGrows s.instruction_schedule
        (positionsLoop m spans value ps s).instruction_schedule := by
  intro ps
  induction ps with
  | nil => intro s; exact schedGrows_refl _
  | cons p rest ih =>
    intro s
    unfold positionsLoop
    refine schedGrows_trans ?_ (ih _)
    rw [positionLiveOut_sched]
    exact positionTrack_grows value p s

theorem positionsOf_grows (m : HloModule) (ms : Bool) (value : HloValue)
    (st : HloLiveRange) (t : Int) :
    SchedGrows st.instruction_schedule (positionsOf m ms value st t).instruction_schedule :=
  positionsLoop_grows m _ value _ _

/-- What one iteration of the value loop does when it returns. -/
theorem calculateValue_ok {m : HloModule} {ms : Bool} {v : HloValue}
    {st st' : HloLiveRange} (h : calculateValue m ms v st = .ok st') :
    (st.instruction_schedule v.defining_instruction = none ∧ st' = st) ∨
    (∃ t, st.instruction_schedule v.defining_instruction = some t ∧
      st.buffer_live_ranges v = none ∧
      (valueTimeBound m ms v st t).start ≤ (valueTimeBound m ms v st t).end_ ∧
      st' = { st with
        instruction_schedule := (positionsOf m ms v st t).instruction_schedule
        buffer_live_ranges := mapSet st.buffer_live_ranges v (valueTimeBound m ms v st t) }) := by
  unfold calculateValue at h
  cases hd : st.instruction_schedule v.defining_instruction with
  | none =>
    simp only [hd] at h
    injection h with h
    exact Or.inl ⟨rfl, h.symm⟩
  | some t =>
    simp only [hd] at h
    right
    by_cases hle : (valueTimeBound m ms v st t).start ≤ (valueTimeBound m ms v st t).end_
    · simp only [hle, if_true] at h
      cases hr : st.buffer_live_ranges v with
      | some tb => simp [hr] at h
      | none =>
        simp only [hr] at h
        injection h with h
        exact ⟨t, rfl, rfl, hle, h.symm⟩
    · simp [hle] at h

/-- What the value loop does to the state when it returns: everything but the
ranges and the junk entries of the timestamp map is kept, and every new range
was computed by `valueTimeBound` in some intermediate state. -/
theorem calculateValues_trace {m : HloModule} {ms : Bool} :
    ∀ (vs : List HloValue) (st st' : HloLiveRange),
      calculateValues m ms vs st = .ok st' →
      st'.flattened_instruction_sequence = st.flattened_instruction_sequence ∧
      st'.computation_span_times = st.computation_span_times ∧
      st'.total_order_scheduled = st.total_order_scheduled ∧
      SchedGrows st.instruction_schedule st'.instruction_schedule ∧
      (∀ v tb, st.buffer_live_ranges v = some tb → st'.buffer_live_ranges v = some tb) ∧
      ∀ v tb, st'.buffer_live_ranges v = some tb →
        st.buffer_live_ranges v = some tb ∨
        (v ∈ vs ∧ st.buffer_live_ranges v = none ∧ ∃ stv t,
          SchedGrows st.instruction_schedule stv.instruction_schedule ∧
          SchedGrows stv.instruction_schedule st'.instruction_schedule ∧
          stv.flattened_instruction_sequence = st.flattened_instruction_sequence ∧
          stv.computation_span_times = st.computation_span_times ∧
          stv.instruction_schedule v.defining_instruction = some t ∧
          tb = valueTimeBound m ms v stv t ∧ tb.start ≤ tb.end_) := by
  intro vs
  induction vs with
  | nil =>
    intro st st' h
    simp only [calculateValues] at h
    injection h with h
    subst h
    exact ⟨rfl, rfl, rfl, schedGrows_refl _, fun _ _ h => h, fun _ _ h => Or.inl h⟩
  | cons v rest ih =>
    intro st st' h
    simp only [calculateValues] at h
    cases hv : calculateValue m ms v st with
    | error e => simp [hv] at h
    | ok st1 =>
      simp only [hv] at h
      obtain ⟨i1, i2, i3, i4, i5, i6⟩ := ih st1 st' h
      rcases calculateValue_ok hv with ⟨_, rfl⟩ | ⟨t, ht, hnone, hle, rfl⟩
      · refine ⟨i1, i2, i3, i4, i5, ?_⟩
        intro w tb hw
        rcases i6 w tb hw with h0 | ⟨hmem, hn, hrest⟩
        · exact Or.inl h0
        · exact Or.inr ⟨List.mem_cons_of_mem _ hmem, hn, hrest⟩
      · have hg := positionsOf_grows m ms v st t
        refine ⟨i1, i2, i3, schedGrows_trans hg i4, ?_, ?_⟩
        · intro w tb hw
          apply i5
          simp only
          rw [mapSet_other]
          · exact hw
          · rintro rfl; rw [hnone] at hw; cases hw
        · intro w tb hw
          rcases i6 w tb hw with h0 | ⟨hmem, hn, stv, tv, g1, g2, e1, e2, e3, e4⟩
          · simp only at h0
            by_cases hwv : w = v
            · subst hwv
              rw [mapSet_self] at h0
              injection h0 with h0
              refine Or.inr ⟨List.mem_cons_self _ _, hnone, st, t, schedGrows_refl _,
                schedGrows_trans hg i4, rfl, rfl, ht, h0.symm, ?_⟩
              rw [← h0]; exact hle
            · rw [mapSet_other _ _ _ _ hwv] at h0
              exact Or.inl h0
          · simp only at hn
            by_cases hwv : w = v
            · subst hwv
              rw [mapSet_self] at hn; cases hn
            · rw [mapSet_other _ _ _ _ hwv] at hn
              exact Or.inr ⟨List.mem_cons_of_mem _ hmem, hn, stv, tv, schedGrows_trans hg g1, g2,
                e1, e2, e3, e4⟩

theorem calculateValues_rangesOk {m : HloModule} {ms : Bool} {vs : List HloValue}
    {st st' : HloLiveRange} (h : calculateValues m ms vs st = .ok st')
    (hok : RangesOk st.buffer_live_ranges) : RangesOk st'.buffer_live_ranges := by
  intro v tb hv
  rcases (calculateValues_trace vs st st' h).2.2.2.2.2 v tb hv with h0 | ⟨_, _, _, _, _, _, _, _, _, _, hle⟩
  · exact hok v tb h0
  · exact hle

theorem calculateValues_skip {m : HloModule} {ms : Bool} :
    ∀ (vs : List HloValue) (st : HloLiveRange), (∀ i, st.instruction_schedule i = none) →
      calculateValues m ms vs st = .ok st := by
  intro vs
  induction vs with
  | nil => intro st _; rfl
  | cons v rest ih =>
    intro st hst
    simp only [calculateValues, calculateValue, hst]
    exact ih st hst

/-- What `Run` is made of when it returns. -/
theorem Run_ok {c_sort : LiveRangeSort}
    {m : HloModule} {schedule : HloSchedule} {aa : HloAliasAnalysis}
    {computation : CompId} {ms : Bool} {fuel : Nat} {st : HloLiveRange}
    (h : Run c_sort m schedule aa computation ms fuel = .ok st) :
    ∃ st1 st2, FlattenSchedule m schedule ms fuel computation HloLiveRange.init = .ok st1 ∧
      CalculateBufferStartEndMap m aa ms st1 = .ok st2 ∧
      st = NormalizeAliasedBuffers c_sort aa st2 := by
  unfold Run at h
  cases h1 : FlattenSchedule m schedule ms fuel computation HloLiveRange.init with
  | error e => simp [h1] at h
  | ok st1 =>
    simp only [h1] at h
    cases h2 : CalculateBufferStartEndMap m aa ms st1 with
    | error e => simp [h2] at h
    | ok st2 =>
      simp only [h2] at h
      injection h with h
      exact ⟨st1, st2, rfl, h2, h.symm⟩

/-- The start of a range that `CalculateBufferStartEndMap` inserts is computed
from the entry `t` that the timestamp map holds for the defining instruction
when the value is processed (the entry of the map before the call, when that
map has one): it is `t`, or `min t span.start` for a parameter whose parent
computation has the span `span`. -/
theorem calculateValues_start (m : HloModule) (aa : HloAliasAnalysis)
    (ms : Bool) (st st' : HloLiveRange) (v : HloValue) (tb : TimeBound)
    (h : CalculateBufferStartEndMap m aa ms st = .ok st')
    (hnew : st.buffer_live_ranges v = none) (hv : st'.buffer_live_ranges v = some tb) :
    ∃ t, st'.instruction_schedule v.defining_instruction = some t ∧
      (∀ t0, st.instruction_schedule v.defining_instruction = some t0 → t0 = t) ∧
      (m.opcode v.defining_instruction ≠ .kParameter → tb.start = t) ∧
      (m.opcode v.defining_instruction = .kParameter →
        (∀ span, st.computation_span_times (m.parent v.defining_instruction) = some span →
          tb.start = min t span.start) ∧
        (st.computation_span_times (m.parent v.defining_instruction) = none →
          tb.start = t)) := by
  rcases (calculateValues_trace aa.values st st' h).2.2.2.2.2 v tb hv with
    h0 | ⟨_, _, stv, t, g1, g2, _, hsp, hdef, rfl, _⟩
  · rw [hnew] at h0; cases h0
  · refine ⟨t, schedGrows_kept g2 hdef, ?_, ?_, ?_⟩
    · intro t0 ht0
      have := schedGrows_kept g1 ht0
      rw [hdef] at this
      injection this with this
      exact this.symm
    · intro hop
      simp [valueTimeBound, bufferStartTime, HloValue.instruction, hop]
    · intro hop
      constructor
      · intro span hspan
        simp [valueTimeBound, bufferStartTime, HloValue.instruction, hop, hsp, hspan]
      · intro hspan
        simp [valueTimeBound, bufferStartTime, HloValue.instruction, hop, hsp, hspan]

/-! ## Lemmas about the walk from an arbitrary state -/

theorem timeExt_refl (st : HloLiveRange) : TimeExt st st := by
  refine ⟨⟨[], by simp⟩, fun _ _ h => h, ?_, fun _ _ h => Or.inl h, fun _ h => h, rfl⟩
  intro k j hk hle
  have := (List.getElem?_eq_some.mp hk).1
  omega

theorem timeExt_length_le {a b : HloLiveRange} (h : TimeExt a b) :
    a.schedule_end_time ≤ b.schedule_end_time := by
  obtain ⟨l, e⟩ := h.seq_prefix
  simp [HloLiveRange.schedule_end_time, e]

theorem timeExt_trans {a b c : HloLiveRange} (h1 : TimeExt a b) (h2 : TimeExt b c) :
    TimeExt a c := by
  obtain ⟨l1, e1⟩ := h1.seq_prefix
  obtain ⟨l2, e2⟩ := h2.seq_prefix
  refine ⟨⟨l1 ++ l2, by rw [e2, e1, List.append_assoc]⟩, ?_, ?_, ?_, ?_, ?_⟩
  · exact fun j t h => h2.time_kept j t (h1.time_kept j t h)
  · intro k j hk hle
    by_cases hkb : k < b.flattened_instruction_sequence.length
    · have hb : b.flattened_instruction_sequence[k]? = some j := by
        rw [e2, List.getElem?_append_left hkb] at hk
        exact hk
      obtain ⟨x, y⟩ := h1.new_index k j hb hle
      exact ⟨h2.time_kept _ _ x, y⟩
    · obtain ⟨x, y⟩ := h2.new_index k j hk (by omega)
      refine ⟨x, ?_⟩
      cases ha : a.instruction_schedule j with
      | none => rfl
      | some t => rw [h1.time_kept j t ha] at y; cases y
  · intro j t hj
    rcases h2.new_time j t hj with hb | ⟨k, hk, hle, hget⟩
    · rcases h1.new_time j t hb with ha | ⟨k, hk, hle, hget⟩
      · exact Or.inl ha
      · refine Or.inr ⟨k, hk, hle, ?_⟩
        rw [e2, List.getElem?_append_left (List.getElem?_eq_some.mp hget).1]
        exact hget
    · refine Or.inr ⟨k, hk, ?_, hget⟩
      have : a.flattened_instruction_sequence.length ≤ b.flattened_instruction_sequence.length := by
        rw [e1]; simp
      omega
  · exact fun c h => h2.span_grows c (h1.span_grows c h)
  · rw [h2.ranges_kept, h1.ranges_kept]

theorem assignTime_ok {i : InstrId} {st st' : HloLiveRange} (h : assignTime i st = .ok st') :
    st.instruction_schedule i = none ∧
    st' = { st with
      instruction_schedule := mapSet st.instruction_schedule i st.schedule_end_time
      flattened_instruction_sequence := st.flattened_instruction_sequence ++ [i] } := by
  unfold assignTime at h
  cases hi : st.instruction_schedule i with
  | some t => simp [hi] at h
  | none =>
    simp only [hi] at h
    injection h with h
    exact ⟨rfl, h.symm⟩

theorem assignTime_timeExt {i : InstrId} {st st' : HloLiveRange}
    (h : assignTime i st = .ok st') : TimeExt st st' := by
  obtain ⟨hnone, rfl⟩ := assignTime_ok h
  refine ⟨⟨[i], rfl⟩, ?_, ?_, ?_, fun _ h => h, rfl⟩
  · intro j t hj
    simp only
    rw [mapSet_other]
    · exact hj
    · rintro rfl; rw [hnone] at hj; cases hj
  · intro k j hk hle
    simp only at hk ⊢
    rw [List.getElem?_append_right hle] at hk
    have hk0 : k - st.flattened_instruction_sequence.length = 0 := by
      by_contra hne
      have : ([i] : List InstrId)[k - st.flattened_instruction_sequence.length]? = none := by
        apply List.getElem?_eq_none
        simp; omega
      rw [this] at hk; cases hk
    rw [hk0] at hk
    simp at hk
    subst hk
    have : k = st.flattened_instruction_sequence.length := by omega
    subst this
    exact ⟨by simp [mapSet, HloLiveRange.schedule_end_time], hnone⟩
  · intro j t hj
    simp only at hj ⊢
    unfold mapSet at hj
    split at hj
    · rename_i hji
      subst hji
      injection hj with hj
      exact Or.inr ⟨st.flattened_instruction_sequence.length, hj.symm, le_refl _, by simp⟩
    · exact Or.inl hj

theorem flattenCalled_timeExt
    {recur : CompId → HloLiveRange → Except Failure HloLiveRange}
    (hrec : ∀ c st st', recur c st = .ok st' → TimeExt st st') :
    ∀ (cs : List CompId) (st st' : HloLiveRange),
      flattenCalled recur cs st = .ok st' → TimeExt st st' := by
  intro cs
  induction cs with
  | nil =>
    intro st st' h
    simp only [flattenCalled] at h
    injection h with h
    subst h
    exact timeExt_refl _
  | cons c cs ih =>
    intro st st' h
    simp only [flattenCalled] at h
    cases hr : recur c st with
    | error e => simp [hr] at h
    | ok st1 =>
      simp only [hr] at h
      exact timeExt_trans (hrec c st st1 hr) (ih st1 st' h)

theorem flattenSub_timeExt {m : HloModule} {ms : Bool}
    {recur : CompId → HloLiveRange → Except Failure HloLiveRange}
    (hrec : ∀ c st st', recur c st = .ok st' → TimeExt st st')
    {i : InstrId} {st st' : HloLiveRange} (h : flattenSub m ms recur i st = .ok st') :
    TimeExt st st' := by
  rw [flattenSub_eq] at h
  cases ms with
  | false =>
    simp only [Bool.false_eq_true, if_false] at h
    injection h with h
    subst h
    exact timeExt_refl _
  | true =>
    simp only [if_true] at h
    exact flattenCalled_timeExt hrec _ st st' h

/-- One loop iteration from an arbitrary state. -/
theorem flattenInstruction_ok {m : HloModule} {ms : Bool}
    {recur : CompId → HloLiveRange → Except Failure HloLiveRange}
    {i : InstrId} {st st' : HloLiveRange}
    (h : flattenInstruction m ms recur i st = .ok st') :
    ∃ st1, flattenSub m ms recur i st = .ok st1 ∧ assignTime i st1 = .ok st' := by
  unfold flattenInstruction at h
  cases hs : flattenSub m ms recur i st with
  | error e => simp [hs] at h
  | ok st1 =>
    simp only [hs] at h
    exact ⟨st1, rfl, h⟩

theorem flattenSequence_times {m : HloModule} {ms : Bool}
    {recur : CompId → HloLiveRange → Except Failure HloLiveRange}
    (hrec : ∀ c st st', recur c st = .ok st' → TimeExt st st') :
    ∀ (todo : List InstrId) (st st' : HloLiveRange),
      flattenSequence m ms recur todo st = .ok st' →
      TimeExt st st' ∧
      ∀ j ∈ todo, ∃ t, st'.instruction_schedule j = some t ∧
        st.schedule_end_time ≤ t ∧ t < st'.schedule_end_time := by
  intro todo
  induction todo with
  | nil =>
    intro st st' h
    simp only [flattenSequence] at h
    injection h with h
    subst h
    exact ⟨timeExt_refl _, by simp⟩
  | cons i rest ih =>
    intro st st' h
    simp only [flattenSequence] at h
    cases hi : flattenInstruction m ms recur i st with
    | error e => simp [hi] at h
    | ok st2 =>
      simp only [hi] at h
      obtain ⟨st1, hs, ha⟩ := flattenInstruction_ok hi
      have e1 := flattenSub_timeExt hrec hs
      have e2 := assignTime_timeExt ha
      obtain ⟨e3, hcov⟩ := ih st2 st' h
      refine ⟨timeExt_trans (timeExt_trans e1 e2) e3, ?_⟩
      intro j hj
      rcases List.mem_cons.mp hj with rfl | hmem
      · obtain ⟨_, rfl⟩ := assignTime_ok ha
        refine ⟨st1.schedule_end_time, e3.time_kept _ _ (mapSet_self _ _ _),
          timeExt_length_le e1, ?_⟩
        refine lt_of_lt_of_le ?_ (timeExt_length_le e3)
        simp [HloLiveRange.schedule_end_time]
      · obtain ⟨t, ht, hle, hlt⟩ := hcov j hmem
        exact ⟨t, ht, le_trans (timeExt_length_le (timeExt_trans e1 e2)) hle, hlt⟩

/-- What a returning call of the body does, from an arbitrary state. -/
theorem flattenBody_ok {m : HloModule} {schedule : HloSchedule} {ms : Bool}
    {recur : CompId → HloLiveRange → Except Failure HloLiveRange}
    {c : CompId} {st st' : HloLiveRange}
    (h : flattenBody m schedule ms recur c st = .ok st') :
    (schedule.sequences c = none ∧ st' = { st with total_order_scheduled := false }) ∨
    (∃ seq s, schedule.sequences c = some seq ∧ st.computation_span_times c = some s ∧
      st' = st) ∨
    (∃ seq st1, schedule.sequences c = some seq ∧ st.computation_span_times c = none ∧
      flattenSequence m ms recur seq st = .ok st1 ∧
      st' = { st1 with
        computation_span_times := mapSet st1.computation_span_times c
          { start := st.schedule_end_time, end_ := st1.schedule_end_time,
            end_position := none } }) := by
  unfold flattenBody at h
  cases hseq : schedule.sequences c with
  | none =>
    simp only [hseq] at h
    injection h with h
    exact Or.inl ⟨rfl, h.symm⟩
  | some seq =>
    simp only [hseq] at h
    cases hspan : st.computation_span_times c with
    | some s =>
      simp only [hspan] at h
      injection h with h
      exact Or.inr (Or.inl ⟨seq, s, rfl, rfl, h.symm⟩)
    | none =>
      simp only [hspan] at h
      cases hw : flattenSequence m ms recur seq st with
      | error e => simp [hw] at h
      | ok st1 =>
        simp only [hw] at h
        injection h with h
        exact Or.inr (Or.inr ⟨seq, st1, rfl, rfl, hw, h.symm⟩)

theorem flattenBody_timeExt {m : HloModule} {schedule : HloSchedule} {ms : Bool}
    {recur : CompId → HloLiveRange → Except Failure HloLiveRange}
    (hrec : ∀ c st st', recur c st = .ok st' → TimeExt st st')
    {c : CompId} {st st' : HloLiveRange}
    (h : flattenBody m schedule ms recur c st = .ok st') : TimeExt st st' := by
  rcases flattenBody_ok h with ⟨_, rfl⟩ | ⟨_, _, _, _, rfl⟩ | ⟨seq, st1, _, _, hw, rfl⟩
  · have := timeExt_refl st
    exact ⟨this.seq_prefix, this.time_kept, this.new_index, this.new_time, this.span_grows, rfl⟩
  · exact timeExt_refl _
  · obtain ⟨e, _⟩ := flattenSequence_times hrec seq st st1 hw
    refine ⟨e.seq_prefix, e.time_kept, e.new_index, e.new_time, ?_, e.ranges_kept⟩
    intro c' hc'
    simp only [mapSet]
    split
    · simp
    · exact e.span_grows c' hc'

theorem FlattenSchedule_timeExt (m : HloModule) (schedule : HloSchedule) (ms : Bool) :
    ∀ (fuel : Nat) (c : CompId) (st st' : HloLiveRange),
      FlattenSchedule m schedule ms fuel c st = .ok st' → TimeExt st st' := by
  intro fuel
  induction fuel with
  | zero => intro c st st' h; simp [FlattenSchedule] at h
  | succ n ih =>
    intro c st st' h
    rw [FlattenSchedule] at h
    exact flattenBody_timeExt ih h

/-- The walk of a scheduled computation that has no span yet records the span
`[length before, length after)` and gives each of its instructions a timestamp
inside it. -/
theorem FlattenSchedule_walk {m : HloModule} {schedule : HloSchedule} {ms : Bool}
    {fuel : Nat} {c : CompId} {st st' : HloLiveRange} {seq : List InstrId}
    (h : FlattenSchedule m schedule ms fuel c st = .ok st')
    (hseq : schedule.sequences c = some seq) (hfresh : st.computation_span_times c = none) :
    st'.computation_span_times c =
      some { start := st.schedule_end_time, end_ := st'.schedule_end_time,
             end_position := none } ∧
    ∀ j ∈ seq, ∃ t, st'.instruction_schedule j = some t ∧
      st.schedule_end_time ≤ t ∧ t < st'.schedule_end_time := by
  cases fuel with
  | zero => simp [FlattenSchedule] at h
  | succ n =>
    rw [FlattenSchedule] at h
    rcases flattenBody_ok h with ⟨hn, _⟩ | ⟨_, s, _, hs, _⟩ | ⟨seq2, st1, hseq2, _, hw, rfl⟩
    · rw [hseq] at hn; cases hn
    · rw [hfresh] at hs; cases hs
    · rw [hseq] at hseq2
      injection hseq2 with hseq2
      subst hseq2
      obtain ⟨_, hcov⟩ :=
        flattenSequence_times (FlattenSchedule_timeExt m schedule ms n) seq st st1 hw
      exact ⟨mapSet_self _ _ _, hcov⟩

/-! ## Lemmas about what the walk appends -/

theorem scheduledInstructions_append (schedule : HloSchedule) (a b : List CompId) :
    scheduledInstructions schedule (a ++ b) =
      scheduledInstructions schedule a ++ scheduledInstructions schedule b := by
  induction a with
  | nil => rfl
  | cons c cs ih => simp [scheduledInstructions, ih]

theorem scheduledInstructions_length (schedule : HloSchedule) (cs : List CompId) :
    (scheduledInstructions schedule cs).length =
      (cs.map (fun c => (seqOf schedule c).length)).sum := by
  induction cs with
  | nil => rfl
  | cons c cs ih => simp [scheduledInstructions, ih]

theorem mem_scheduledInstructions {schedule : HloSchedule} {cs : List CompId}
    {c : CompId} {j : InstrId} (hc : c ∈ cs) (hj : j ∈ seqOf schedule c) :
    j ∈ scheduledInstructions schedule cs := by
  induction cs with
  | nil => cases hc
  | cons d ds ih =>
    simp only [scheduledInstructions, List.mem_append]
    rcases List.mem_cons.mp hc with rfl | hmem
    · exact Or.inl hj
    · exact Or.inr (ih hmem)

theorem walked_refl (schedule : HloSchedule) (st : HloLiveRange) :
    Walked schedule [] st st := by
  refine ⟨[], [], List.nodup_nil, by simp, by simp [scheduledInstructions], ?_, fun _ _ h => h⟩
  intro c
  constructor
  · intro h; cases h
  · rintro ⟨h1, h2⟩; exact absurd h1 h2

theorem walked_trans {schedule : HloSchedule} {e1 e2 : List InstrId}
    {a b c : HloLiveRange} (h1 : Walked schedule e1 a b) (h2 : Walked schedule e2 b c) :
    Walked schedule (e1 ++ e2) a c := by
  obtain ⟨cs1, l1, nd1, f1, p1, m1, k1⟩ := h1
  obtain ⟨cs2, l2, nd2, f2, p2, m2, k2⟩ := h2
  refine ⟨cs1 ++ cs2, l1 ++ l2, ?_, by rw [f2, f1, List.append_assoc], ?_, ?_, ?_⟩
  · rw [List.nodup_append]
    refine ⟨nd1, nd2, ?_⟩
    intro x hx1 hx2
    exact ((m1 x).mp hx1).2 ((m2 x).mp hx2).1
  · rw [scheduledInstructions_append]
    have := List.Perm.append p1 p2
    refine this.trans ?_
    rw [List.perm_iff_count]
    intro x
    simp only [List.count_append]
    omega
  · intro x
    rw [List.mem_append, m1, m2]
    constructor
    · rintro (⟨ha, hb⟩ | ⟨hb, hc⟩)
      · refine ⟨ha, ?_⟩
        cases hbx : b.computation_span_times x with
        | none => exact absurd hbx hb
        | some s => rw [k2 x s hbx]; simp
      · refine ⟨?_, hc⟩
        cases hax : a.computation_span_times x with
        | none => rfl
        | some s => rw [k1 x s hax] at hb; cases hb
    · rintro ⟨ha, hc⟩
      cases hbx : b.computation_span_times x with
      | none => exact Or.inr ⟨rfl, hc⟩
      | some s => exact Or.inl ⟨ha, by simp⟩
  · exact fun x s h => k2 x s (k1 x s h)

theorem flattenCalled_walked {m : HloModule} {schedule : HloSchedule} {ms : Bool}
    {recur : CompId → HloLiveRange → Except Failure HloLiveRange}
    (hrec : FlatSpec m schedule ms recur) (hw : WalkSpec m schedule ms recur) :
    ∀ (cs : List CompId) (st st' : HloLiveRange), FlatInv m schedule ms st →
      flattenCalled recur cs st = .ok st' → Walked schedule [] st st' := by
  intro cs
  induction cs with
  | nil =>
    intro st st' _ h
    simp only [flattenCalled] at h
    injection h with h
    subst h
    exact walked_refl _ _
  | cons c cs ih =>
    intro st st' hinv h
    simp only [flattenCalled] at h
    cases hr : recur c st with
    | error e => simp [hr] at h
    | ok st1 =>
      simp only [hr] at h
      have w1 := hw c st st1 hinv hr
      have w2 := ih st1 st' (hrec c st st1 hinv hr).1 h
      exact walked_trans w1 w2

theorem flattenInstruction_walked {m : HloModule} {schedule : HloSchedule} {ms : Bool}
    {recur : CompId → HloLiveRange → Except Failure HloLiveRange}
    (hrec : FlatSpec m schedule ms recur) (hw : WalkSpec m schedule ms recur)
    {i : InstrId} {st st' : HloLiveRange} (hinv : FlatInv m schedule ms st)
    (h : flattenInstruction m ms recur i st = .ok st') :
    Walked schedule [i] st st' := by
  obtain ⟨st1, hs, _, _, _, _, _, hfl, hsp, _, _, _⟩ := flattenInstruction_spec hrec hinv h
  have w1 : Walked schedule [] st st1 := by
    rw [flattenSub_eq] at hs
    cases ms with
    | false =>
      simp only [Bool.false_eq_true, if_false] at hs
      injection hs with hs
      subst hs
      exact walked_refl _ _
    | true =>
      simp only [if_true] at hs
      exact flattenCalled_walked hrec hw _ st st1 hinv hs
  have w2 : Walked schedule [i] st1 st' := by
    refine ⟨[], [i], List.nodup_nil, hfl, by simp [scheduledInstructions], ?_, ?_⟩
    · intro c
      rw [hsp]
      constructor
      · intro h; cases h
      · rintro ⟨h1, h2⟩; exact absurd h1 h2
    · intro c s hc
      rw [hsp]; exact hc
  exact walked_trans w1 w2

theorem flattenSequence_walked {m : HloModule} {schedule : HloSchedule} {ms : Bool}
    {recur : CompId → HloLiveRange → Except Failure HloLiveRange}
    (hrec : FlatSpec m schedule ms recur) (hw : WalkSpec m schedule ms recur) :
    ∀ (todo : List InstrId) (st st' : HloLiveRange), FlatInv m schedule ms st →
      flattenSequence m ms recur todo st = .ok st' → Walked schedule todo st st' := by
  intro todo
  induction todo with
  | nil =>
    intro st st' _ h
    simp only [flattenSequence] at h
    injection h with h
    subst h
    exact walked_refl _ _
  | cons i rest ih =>
    intro st st' hinv h
    simp only [flattenSequence] at h
    cases hi : flattenInstruction m ms recur i st with
    | error e => simp [hi] at h
    | ok st2 =>
      simp only [hi] at h
      obtain ⟨_, _, _, _, _, _, _, _, _, _, hinv2, _⟩ := flattenInstruction_spec hrec hinv hi
      have w1 := flattenInstruction_walked hrec hw hinv hi
      have w2 := ih st2 st' hinv2 h
      exact walked_trans w1 w2

theorem flattenBody_walked {m : HloModule} {schedule : HloSchedule} {ms : Bool}
    {recur : CompId → HloLiveRange → Except Failure HloLiveRange}
    (hrec : FlatSpec m schedule ms recur) (hw : WalkSpec m schedule ms recur) :
    WalkSpec m schedule ms (flattenBody m schedule ms recur) := by
  intro c st st' hinv h
  rcases flattenBody_ok h with ⟨_, rfl⟩ | ⟨_, _, _, _, rfl⟩ | ⟨seq, st1, hseq, hfresh, hwalk, rfl⟩
  · exact walked_refl schedule st
  · exact walked_refl _ _
  · obtain ⟨_, _, hnone1, _⟩ :=
      flattenSequence_spec hrec hseq seq st st1 hinv (fun _ h => h) hfresh hwalk
    obtain ⟨cs, l, nd, fl, pm, mem, kept⟩ := flattenSequence_walked hrec hw seq st st1 hinv hwalk
    have hc : c ∉ cs := fun hmem => ((mem c).mp hmem).2 hnone1
    refine ⟨c :: cs, l, List.nodup_cons.mpr ⟨hc, nd⟩, fl, ?_, ?_, ?_⟩
    · simpa [scheduledInstructions, seqOf, hseq] using pm
    · intro x
      simp only [List.mem_cons, mapSet]
      by_cases hx : x = c
      · subst hx
        simp [hfresh]
      · simp only [hx, false_or, if_false]
        exact mem x
    · intro x s hx
      have := kept x s hx
      simp only [mapSet]
      split
      · rename_i hxc
        subst hxc
        rw [hnone1] at this; cases this
      · exact this

theorem FlattenSchedule_walked (m : HloModule) (schedule : HloSchedule) (ms : Bool) :
    ∀ fuel, WalkSpec m schedule ms (FlattenSchedule m schedule ms fuel) := by
  intro fuel
  induction fuel with
  | zero => intro c st st' _ h; simp [FlattenSchedule] at h
  | succ n ih =>
    intro c st st' hinv h
    rw [FlattenSchedule] at h
    exact flattenBody_walked (FlattenSchedule_spec m schedule ms n) ih c st st' hinv h

theorem reached_trans {m : HloModule} {schedule : HloSchedule} {ms : Bool}
    {a b c : CompId} (h1 : Reached m schedule ms a b) (h2 : Reached m schedule ms b c) :
    Reached m schedule ms a c := by
  induction h2 with
  | root => exact h1
  | sub _ hseq hi hms hsub ih => exact Reached.sub ih hseq hi hms hsub

theorem flattenCalled_reached {m : HloModule} {schedule : HloSchedule} {ms : Bool}
    {recur : CompId → HloLiveRange → Except Failure HloLiveRange}
    (hrec : ReachSpec m schedule ms recur) :
    ∀ (cs : List CompId) (st st' : HloLiveRange),
      flattenCalled recur cs st = .ok st' → ∀ x, st'.computation_span_times x ≠ none →
        st.computation_span_times x ≠ none ∨
          ∃ c ∈ cs, Reached m schedule ms c x ∧ schedule.sequences x ≠ none := by
  intro cs
  induction cs with
  | nil =>
    intro st st' h x hx
    simp only [flattenCalled] at h
    injection h with h
    subst h
    exact Or.inl hx
  | cons c cs ih =>
    intro st st' h x hx
    simp only [flattenCalled] at h
    cases hr : recur c st with
    | error e => simp [hr] at h
    | ok st1 =>
      simp only [hr] at h
      rcases ih st1 st' h x hx with h1 | ⟨d, hd, hreach⟩
      · rcases hrec c st st1 hr x h1 with h0 | hreach
        · exact Or.inl h0
        · exact Or.inr ⟨c, List.mem_cons_self _ _, hreach⟩
      · exact Or.inr ⟨d, List.mem_cons_of_mem _ hd, hreach⟩

theorem flattenSequence_reached {m : HloModule} {schedule : HloSchedule} {ms : Bool}
    {recur : CompId → HloLiveRange → Except Failure HloLiveRange}
    (hrec : ReachSpec m schedule ms recur) :
    ∀ (todo : List InstrId) (st st' : HloLiveRange),
      flattenSequence m ms recur todo st = .ok st' → ∀ x,
        st'.computation_span_times x ≠ none →
        st.computation_span_times x ≠ none ∨
          ∃ i ∈ todo, ms = true ∧ ∃ c ∈ subComputations m i,
            Reached m schedule ms c x ∧ schedule.sequences x ≠ none := by
  intro todo
  induction todo with
  | nil =>
    intro st st' h x hx
    simp only [flattenSequence] at h
    injection h with h
    subst h
    exact Or.inl hx
  | cons i rest ih =>
    intro st st' h x hx
    simp only [flattenSequence] at h
    cases hi : flattenInstruction m ms recur i st with
    | error e => simp [hi] at h
    | ok st2 =>
      simp only [hi] at h
      obtain ⟨st1, hs, ha⟩ := flattenInstruction_ok hi
      obtain ⟨_, rfl⟩ := assignTime_ok ha
      rcases ih _ st' h x hx with h2 | ⟨k, hk, hrest⟩
      · simp only at h2
        rw [flattenSub_eq] at hs
        cases ms with
        | false =>
          simp only [Bool.false_eq_true, if_false] at hs
          injection hs with hs
          subst hs
          exact Or.inl h2
        | true =>
          simp only [if_true] at hs
          rcases flattenCalled_reached hrec _ st st1 hs x h2 with h0 | ⟨c, hc, hreach⟩
          · exact Or.inl h0
          · exact Or.inr ⟨i, List.mem_cons_self _ _, rfl, c, hc, hreach⟩
      · exact Or.inr ⟨k, List.mem_cons_of_mem _ hk, hrest⟩

theorem flattenBody_reached {m : HloModule} {schedule : HloSchedule} {ms : Bool}
    {recur : CompId → HloLiveRange → Except Failure HloLiveRange}
    (hrec : ReachSpec m schedule ms recur) :
    ReachSpec m schedule ms (flattenBody m schedule ms recur) := by
  intro c st st' h x hx
  rcases flattenBody_ok h with ⟨_, rfl⟩ | ⟨_, _, _, _, rfl⟩ | ⟨seq, st1, hseq, _, hwalk, rfl⟩
  · exact Or.inl hx
  · exact Or.inl hx
  · simp only [mapSet] at hx
    by_cases hxc : x = c
    · subst hxc
      exact Or.inr ⟨Reached.root, by rw [hseq]; simp⟩
    · simp only [hxc, if_false] at hx
      rcases flattenSequence_reached hrec seq st st1 hwalk x hx with h0 | ⟨i, hi, hms, d, hd, hr, hs⟩
      · exact Or.inl h0
      · exact Or.inr ⟨reached_trans (Reached.sub Reached.root hseq hi hms hd) hr, hs⟩

theorem FlattenSchedule_reached (m : HloModule) (schedule : HloSchedule) (ms : Bool) :
    ∀ fuel, ReachSpec m schedule ms (FlattenSchedule m schedule ms fuel) := by
  intro fuel
  induction fuel with
  | zero => intro c st st' h; simp [FlattenSchedule] at h
  | succ n ih =>
    intro c st st' h
    rw [FlattenSchedule] at h
    exact flattenBody_reached ih c st st' h

/-- In a state that satisfies the invariant and has a span for the scheduled
root, every scheduled reached computation has a span. -/
theorem reached_spanned {m : HloModule} {schedule : HloSchedule} {ms : Bool}
    {root : CompId} {st : HloLiveRange} (hinv : FlatInv m schedule ms st)
    (hroot : schedule.sequences root ≠ none → st.computation_span_times root ≠ none)
    {c : CompId} (hc : Reached m schedule ms root c) :
    schedule.sequences c ≠ none → st.computation_span_times c ≠ none := by
  induction hc with
  | root => exact hroot
  | @sub c0 c1 seq i _ hseq hi hms hsub ih =>
    intro hsched
    have hspan := ih (by rw [hseq]; simp)
    cases hs : st.computation_span_times c0 with
    | none => exact absurd hs hspan
    | some s =>
      obtain ⟨t, ht, _⟩ := (hinv.span_covers c0 s hs).2.2.2 seq hseq i hi
      cases hseq1 : schedule.sequences c1 with
      | none => exact absurd hseq1 hsched
      | some seq1 =>
        obtain ⟨s1, hs1, _⟩ := hinv.callee_spanned hms i t ht c1 hsub seq1 hseq1
        rw [hs1]; simp

theorem completes_andThen {α β : Type} {r : Except Failure α} {f : α → Except Failure β}
    (h : completes (andThen r f) = true) :
    ∃ a b, r = .ok a ∧ f a = .ok b ∧ andThen r f = .ok b := by
  cases r with
  | error e => simp [andThen, completes] at h
  | ok a =>
    obtain ⟨b, hb⟩ := completes_ok h
    exact ⟨a, b, rfl, hb, hb⟩

theorem toOption_bind_ok {α β : Type} {r : Except Failure α} {a : α} {g : α → Option β}
    {x : Option β} (hr : r = .ok a) (h : r.toOption.bind g = x) : g a = x := by
  subst hr
  simpa [Except.toOption] using h

theorem calculateValues_tracked {m : HloModule} {ms : Bool} :
    ∀ (vs : List HloValue) (st st' : HloLiveRange),
      calculateValues m ms vs st = .ok st' → ∀ v ∈ vs,
        st.instruction_schedule v.defining_instruction ≠ none →
        st'.buffer_live_ranges v ≠ none := by
  intro vs
  induction vs with
  | nil => intro st st' _ v hv; cases hv
  | cons w rest ih =>
    intro st st' h v hv hdef
    simp only [calculateValues] at h
    cases hw : calculateValue m ms w st with
    | error e => simp [hw] at h
    | ok st1 =>
      simp only [hw] at h
      have hkept := (calculateValues_trace rest st1 st' h).2.2.2.2.1
      have hgrow : SchedGrows st.instruction_schedule st1.instruction_schedule := by
        rcases calculateValue_ok hw with ⟨_, rfl⟩ | ⟨t, _, _, _, rfl⟩
        · exact schedGrows_refl _
        · exact positionsOf_grows m ms w st t
      rcases List.mem_cons.mp hv with rfl | hmem
      · rcases calculateValue_ok hw with ⟨hn, _⟩ | ⟨t, _, _, _, rfl⟩
        · exact absurd hn hdef
        · rw [hkept v _ (mapSet_self _ _ _)]
          simp
      · apply ih st1 st' h v hmem
        cases hd : st.instruction_schedule v.defining_instruction with
        | none => exact absurd hd hdef
        | some t => rw [schedGrows_kept hgrow hd]; simp

theorem positionTrack_end (value : HloValue) (position : HloPosition) (s : PositionLoop) :
    (positionTrack value position s).buffer_end_time = s.buffer_end_time := by
  unfold positionTrack
  simp only
  split <;> rfl

theorem positionsLoop_end_unchanged (m : HloModule) (spans : CompId → Option TimeBound)
    (value : HloValue) :
    ∀ (ps : List HloPosition) (s : PositionLoop),
      (∀ p ∈ ps, p.instruction = m.root_instruction (m.parent p.instruction) →
        spans (m.parent p.instruction) = none) →
      (positionsLoop m spans value ps s).buffer_end_time = s.buffer_end_time := by
  intro ps
  induction ps with
  | nil => intro s _; rfl
  | cons p rest ih =>
    intro s hps
    unfold positionsLoop
    rw [ih _ (fun q hq => hps q (List.mem_cons_of_mem _ hq))]
    have hp := hps p (List.mem_cons_self _ _)
    unfold positionLiveOut
    simp only
    split
    · rename_i hroot
      rw [hp hroot]
      exact positionTrack_end value p s
    · exact positionTrack_end value p s

theorem usesLoop_eq_maxUseTime (m : HloModule) (ms : Bool) {a b : InstrId → Option Int}
    (hg : SchedGrows a b) :
    ∀ (uses : List HloUse) (e : Int), 0 ≤ e →
      (ms = true → ∀ u ∈ uses, m.opcode u.instruction ≠ .kWhile) →
      usesLoop m ms b uses e = maxUseTime a uses e := by
  intro uses
  induction uses with
  | nil => intro e _ _; rfl
  | cons u rest ih =>
    intro e he hms
    have hused : usedInstruction m ms u = u.instruction := by
      unfold usedInstruction
      by_cases h : ms = true
      · have := hms h u (List.mem_cons_self _ _)
        simp [this]
      · simp [h]
    have hrest : ms = true → ∀ w ∈ rest, m.opcode w.instruction ≠ .kWhile :=
      fun h w hw => hms h w (List.mem_cons_of_mem _ hw)
    unfold usesLoop
    rw [hused]
    cases ha : a u.instruction with
    | some t =>
      rw [schedGrows_kept hg ha]
      simp only
      rw [ih (max e t) (le_trans he (le_max_left _ _)) hrest]
      simp [maxUseTime, List.filterMap_cons, ha]
    | none =>
      have hm : maxUseTime a (u :: rest) e = maxUseTime a rest e := by
        simp [maxUseTime, List.filterMap_cons, ha]
      rcases hg u.instruction with hb | ⟨_, hb⟩
      · rw [hb, ha]
        simp only
        rw [ih e he hrest, hm]
      · rw [hb]
        simp only
        rw [max_eq_left he, ih e he hrest, hm]

theorem bufferStartTime_nonneg {m : HloModule} {schedule : HloSchedule} {ms : Bool}
    {st : HloLiveRange} (hinv : FlatInv m schedule ms st) {b : InstrId → Option Int}
    (hg : SchedGrows st.instruction_schedule b) (v : HloValue) {t : Int}
    (ht : b v.defining_instruction = some t) :
    0 ≤ bufferStartTime m st.computation_span_times v t := by
  have ht0 : 0 ≤ t := by
    rcases hg v.defining_instruction with hb | ⟨_, hb⟩
    · rw [hb] at ht
      obtain ⟨i, hi, _⟩ := hinv.index_of_time _ t ht
      omega
    · rw [hb] at ht
      injection ht with ht
      omega
  unfold bufferStartTime
  split
  · split
    · rename_i span hspan
      have := (hinv.span_covers _ span hspan).1
      exact le_min ht0 this
    · exact ht0
  · exact ht0

theorem usesLoop_same (m : HloModule) (ms : Bool) (b : InstrId → Option Int)
    (x : InstrId) (tp : Int) (hb : b x = some tp) :
    ∀ (uses : List HloUse) (e : Int), (∀ u ∈ uses, usedInstruction m ms u = x) →
      usesLoop m ms b uses e = if uses = [] then e else max e tp := by
  intro uses
  induction uses with
  | nil => intro e _; rfl
  | cons u rest ih =>
    intro e hall
    unfold usesLoop
    rw [hall u (List.mem_cons_self _ _), hb]
    simp only
    rw [ih (max e tp) (fun w hw => hall w (List.mem_cons_of_mem _ hw))]
    by_cases hr : rest = []
    · simp [hr]
    · simp [hr]

theorem bufferStartTime_le (m : HloModule) (spans : CompId → Option TimeBound)
    (v : HloValue) (t : Int) : bufferStartTime m spans v t ≤ t := by
  unfold bufferStartTime
  split
  · split
    · exact min_le_left _ _
    · exact le_refl _
  · exact le_refl _

theorem positionLiveOut_end_le (m : HloModule) (spans : CompId → Option TimeBound)
    (position : HloPosition) (s : PositionLoop) :
    s.buffer_end_time ≤ (positionLiveOut m spans position s).buffer_end_time := by
  unfold positionLiveOut
  simp only
  split
  · split
    · split
      · rename_i h; exact le_of_lt h
      · exact le_refl _
    · exact le_refl _
  · exact le_refl _

theorem positionLiveOut_end_ge (m : HloModule) (spans : CompId → Option TimeBound)
    (position : HloPosition) (s : PositionLoop) (span : TimeBound)
    (hroot : position.instruction = m.root_instruction (m.parent position.instruction))
    (hspan : spans (m.parent position.instruction) = some span) :
    span.end_ ≤ (positionLiveOut m spans position s).buffer_end_time := by
  unfold positionLiveOut
  simp only [hspan]
  rw [if_pos hroot]
  split
  · exact le_refl _
  · rename_i h; exact not_lt.mp h

theorem positionsLoop_end_le (m : HloModule) (spans : CompId → Option TimeBound)
    (value : HloValue) :
    ∀ (ps : List HloPosition) (s : PositionLoop),
      s.buffer_end_time ≤ (positionsLoop m spans value ps s).buffer_end_time := by
  intro ps
  induction ps with
  | nil => intro s; exact le_refl _
  | cons p rest ih =>
    intro s
    unfold positionsLoop
    refine le_trans ?_ (ih _)
    refine le_trans ?_ (positionLiveOut_end_le m spans p _)
    rw [positionTrack_end]

theorem positionsLoop_liveOut (m : HloModule) (spans : CompId → Option TimeBound)
    (value : HloValue) (position : HloPosition) (span : TimeBound)
    (hroot : position.instruction = m.root_instruction (m.parent position.instruction))
    (hspan : spans (m.parent position.instruction) = some span) :
    ∀ (ps : List HloPosition) (s : PositionLoop), position ∈ ps →
      span.end_ ≤ (positionsLoop m spans value ps s).buffer_end_time := by
  intro ps
  induction ps with
  | nil => intro s h; cases h
  | cons p rest ih =>
    intro s hmem
    unfold positionsLoop
    rcases List.mem_cons.mp hmem with rfl | hrest
    · exact le_trans (positionLiveOut_end_ge m spans position _ span hroot hspan)
        (positionsLoop_end_le m spans value rest _)
    · exact ih _ hrest

/-! ## Lemmas about the pass over one buffer -/

theorem normalizePass_other :
    ∀ (l : List HloValue) (ranges : HloValue → Option TimeBound) (x : HloValue),
      x ∉ l → normalizePass l ranges x = ranges x := by
  intro l
  induction l with
  | nil => intro ranges x _; rfl
  | cons v1 tl ih =>
    intro ranges x hx
    cases tl with
    | nil => rfl
    | cons v2 rest =>
      have hx1 : x ≠ v1 := fun h => hx (h ▸ List.mem_cons_self _ _)
      have hx2 : x ≠ v2 := fun h => hx (h ▸ List.mem_cons_of_mem _ (List.mem_cons_self _ _))
      have hxt : x ∉ v2 :: rest := fun h => hx (List.mem_cons_of_mem _ h)
      unfold normalizePass
      cases h1 : ranges v1 with
      | none => simp only; exact ih ranges x hxt
      | some lr1 =>
        cases h2 : ranges v2 with
        | none => simp only; exact ih ranges x hxt
        | some lr2 =>
          simp only
          split
          · rw [ih _ x hxt, setEnd_apply, if_neg hx1]
          · split
            · exact ih ranges x hxt
            · rw [ih _ x hxt, setEnd_apply, if_neg hx1, setEnd_apply, if_neg hx2]

theorem normalizeBuffer_other {c_sort : LiveRangeSort} (hsort : SortsByStartEnd c_sort)
    {ranges : HloValue → Option TimeBound}
    {values : List HloValue} {x : HloValue} (hx : x ∉ values) :
    normalizeBuffer c_sort ranges values x = ranges x :=
  normalizePass_other _ ranges x (fun h => hx (mem_aliasedLiveRanges hsort h).1)

theorem normalizeBuffers_other {c_sort : LiveRangeSort} (hsort : SortsByStartEnd c_sort)
    {x : HloValue} :
    ∀ (buffers : List (List HloValue)) (ranges : HloValue → Option TimeBound),
      (∀ b ∈ buffers, x ∉ b) → (buffers.foldl (normalizeBuffer c_sort) ranges) x = ranges x := by
  intro buffers
  induction buffers with
  | nil => intro ranges _; rfl
  | cons b rest ih =>
    intro ranges hx
    simp only [List.foldl_cons]
    rw [ih _ (fun c hc => hx c (List.mem_cons_of_mem _ hc))]
    exact normalizeBuffer_other hsort (hx b (List.mem_cons_self _ _))

theorem tracked_of_frame {r r' : HloValue → Option TimeBound}
    (h : ∀ x, (r' x).map TimeBound.frame = (r x).map TimeBound.frame) (x : HloValue) :
    tracked r' x = tracked r x := by
  have := h x
  unfold tracked
  cases h1 : r' x <;> cases h2 : r x <;> simp [h1, h2] at this ⊢

theorem collectLiveRanges_filter (ranges : HloValue → Option TimeBound) :
    ∀ values : List HloValue,
      collectLiveRanges ranges values =
        collectLiveRanges ranges (values.filter (tracked ranges)) := by
  intro values
  induction values with
  | nil => rfl
  | cons v rest ih =>
    cases hv : ranges v with
    | none =>
      have : tracked ranges v = false := by simp [tracked, hv]
      simp only [collectLiveRanges, hv, List.filter_cons, this]
      exact ih
    | some tb =>
      have : tracked ranges v = true := by simp [tracked, hv]
      simp only [collectLiveRanges, hv, List.filter_cons, this, if_true]
      rw [ih]

theorem perm_pair_cases {α : Type} {l : List α} {p q : α} (h : l.Perm [p, q]) :
    l = [p, q] ∨ l = [q, p] := by
  have hlen := h.length_eq
  match l, hlen with
  | [x, y], _ =>
    have hx : x ∈ [p, q] := h.mem_iff.mp (List.mem_cons_self _ _)
    have hy : y ∈ [p, q] := h.mem_iff.mp (List.mem_cons_of_mem _ (List.mem_cons_self _ _))
    have hp : p ∈ [x, y] := h.mem_iff.mpr (List.mem_cons_self _ _)
    have hq : q ∈ [x, y] := h.mem_iff.mpr (List.mem_cons_of_mem _ (List.mem_cons_self _ _))
    simp only [List.mem_cons, List.mem_singleton, List.not_mem_nil, or_false] at hx hy hp hq
    rcases hx with rfl | rfl
    · rcases hy with rfl | rfl
      · rcases hq with rfl | rfl <;> exact Or.inl rfl
      · exact Or.inl rfl
    · rcases hy with rfl | rfl
      · exact Or.inr rfl
      · rcases hp with rfl | rfl <;> exact Or.inl rfl

/-- The order of the pass for a buffer whose tracked values are `a` and `b`: one
of the two orders, and in either the second range is not less than the
first. -/
theorem aliasedLiveRanges_pair {c_sort : LiveRangeSort} (hsort : SortsByStartEnd c_sort)
    {ranges : HloValue → Option TimeBound}
    {values : List HloValue} {a b : HloValue} {ra rb : TimeBound}
    (hf : values.filter (tracked ranges) = [a, b])
    (ha : ranges a = some ra) (hb : ranges b = some rb) :
    (aliasedLiveRanges c_sort ranges values = [a, b] ∧ timeBoundLess rb ra = false) ∨
    (aliasedLiveRanges c_sort ranges values = [b, a] ∧ timeBoundLess ra rb = false) := by
  have hc : collectLiveRanges ranges values = [(a, ra), (b, rb)] := by
    rw [collectLiveRanges_filter, hf]
    simp only [collectLiveRanges, ha, hb]
  obtain ⟨hperm, hsorted⟩ := hsort (collectLiveRanges ranges values)
  rw [hc] at hperm
  unfold aliasedLiveRanges
  rcases perm_pair_cases hperm with h | h
  · rw [hc, h] at hsorted
    rw [hc, h]
    exact Or.inl ⟨rfl, (List.pairwise_cons.mp hsorted).1 _ (List.mem_cons_self _ _)⟩
  · rw [hc, h] at hsorted
    rw [hc, h]
    exact Or.inr ⟨rfl, (List.pairwise_cons.mp hsorted).1 _ (List.mem_cons_self _ _)⟩

/-- What the pass does on two overlapping ranges with different starts. -/
theorem normalizePass_pair_overlap {ranges : HloValue → Option TimeBound}
    {a b : HloValue} {ra rb : TimeBound} (ha : ranges a = some ra) (hb : ranges b = some rb)
    (hlt : ra.start < rb.start) (hov : rb.start ≤ ra.end_) :
    normalizePass [a, b] ranges a = some { ra with end_ := rb.start - 1 } ∧
    normalizePass [a, b] ranges b = some { rb with end_ := max ra.end_ rb.end_ } := by
  have hab : a ≠ b := by
    rintro rfl
    rw [ha] at hb
    injection hb with hb
    rw [hb] at hlt
    exact lt_irrefl _ hlt
  have hne : ¬ ra.start = rb.start := ne_of_lt hlt
  have hno : ¬ ra.end_ < rb.start := not_lt.mpr hov
  simp only [normalizePass, ha, hb, hne, hno, if_false, setEnd_apply, if_true,
    if_neg hab, if_neg (Ne.symm hab), Option.map_some']
  exact ⟨trivial, trivial⟩

/-- What the pass does on two disjoint ranges with different starts. -/
theorem normalizePass_pair_disjoint {ranges : HloValue → Option TimeBound}
    {a b : HloValue} {ra rb : TimeBound} (ha : ranges a = some ra) (hb : ranges b = some rb)
    (hlt : ra.start < rb.start) (hdis : ra.end_ < rb.start) :
    normalizePass [a, b] ranges = ranges := by
  have hne : ¬ ra.start = rb.start := ne_of_lt hlt
  simp [normalizePass, ha, hb, hne, hdis]

/-- What the pass does on two ranges with equal starts. -/
theorem normalizePass_pair_equal {ranges : HloValue → Option TimeBound}
    {a b : HloValue} {ra rb : TimeBound} (ha : ranges a = some ra) (hb : ranges b = some rb)
    (heq : ra.start = rb.start) :
    normalizePass [a, b] ranges = setEnd ranges a rb.end_ := by
  simp [normalizePass, ha, hb, heq]

/-- Reduction of the loop over the buffers to the pass over one buffer, for two
values that occur in no other buffer. -/
theorem normalizeBuffers_at {c_sort : LiveRangeSort} (hsort : SortsByStartEnd c_sort)
    {pre post : List (List HloValue)} {v1 v2 : HloValue}
    (values : List HloValue) (ranges : HloValue → Option TimeBound)
    (hpre : ∀ b ∈ pre, v1 ∉ b ∧ v2 ∉ b) (hpost : ∀ b ∈ post, v1 ∉ b ∧ v2 ∉ b) :
    ∃ r', r' v1 = ranges v1 ∧ r' v2 = ranges v2 ∧
      values.filter (tracked r') = values.filter (tracked ranges) ∧
      ((pre ++ values :: post).foldl (normalizeBuffer c_sort) ranges) v1 =
        normalizeBuffer c_sort r' values v1 ∧
      ((pre ++ values :: post).foldl (normalizeBuffer c_sort) ranges) v2 =
        normalizeBuffer c_sort r' values v2 := by
  refine ⟨pre.foldl (normalizeBuffer c_sort) ranges,
    normalizeBuffers_other hsort pre ranges (fun b hb => (hpre b hb).1),
    normalizeBuffers_other hsort pre ranges (fun b hb => (hpre b hb).2), ?_, ?_, ?_⟩
  · apply List.filter_congr
    intro x _
    exact tracked_of_frame (normalizeBuffers_frame pre ranges) x
  · rw [List.foldl_append, List.foldl_cons]
    exact normalizeBuffers_other hsort post _ (fun b hb => (hpost b hb).1)
  · rw [List.foldl_append, List.foldl_cons]
    exact normalizeBuffers_other hsort post _ (fun b hb => (hpost b hb).2)

theorem timeBoundLess_asymm {a b : TimeBound} (h : timeBoundLess a b = true) :
    timeBoundLess b a = false := by
  unfold timeBoundLess at *
  simp only [Bool.or_eq_true, Bool.and_eq_true, decide_eq_true_eq] at h
  simp only [Bool.or_eq_false_iff, Bool.and_eq_false_iff, decide_eq_false_iff_not]
  omega

/-- The order of the pass when one of the two tracked values sorts strictly
first. -/
theorem aliasedLiveRanges_pair_lt {c_sort : LiveRangeSort} (hsort : SortsByStartEnd c_sort)
    {ranges : HloValue → Option TimeBound}
    {values : List HloValue} {a b : HloValue} {ra rb : TimeBound}
    (hf : values.filter (tracked ranges) = [a, b] ∨ values.filter (tracked ranges) = [b, a])
    (ha : ranges a = some ra) (hb : ranges b = some rb)
    (hlt : timeBoundLess ra rb = true) :
    aliasedLiveRanges c_sort ranges values = [a, b] := by
  rcases hf with hf | hf
  · rcases aliasedLiveRanges_pair hsort hf ha hb with ⟨h, _⟩ | ⟨_, h⟩
    · exact h
    · rw [hlt] at h; cases h
  · rcases aliasedLiveRanges_pair hsort hf hb ha with ⟨_, h⟩ | ⟨h, _⟩
    · rw [hlt] at h; cases h
    · exact h

theorem setEnd_same {ranges : HloValue → Option TimeBound} {a : HloValue} {ra : TimeBound}
    (ha : ranges a = some ra) : setEnd ranges a ra.end_ = ranges := by
  funext x
  rw [setEnd_apply]
  by_cases hx : x = a
  · subst hx
    simp [ha]
  · simp [hx]

/-- What `NormalizeAliasedBuffers` does to a buffer whose tracked values are
`v1` and `v2`, with ranges of equal starts where `r1` does not end after
`r2`. -/
theorem normalizeBuffers_equal_start {c_sort : LiveRangeSort} (hsort : SortsByStartEnd c_sort)
    (aa : HloAliasAnalysis) (st : HloLiveRange)
    (pre post : List (List HloValue)) (values : List HloValue) (v1 v2 : HloValue)
    (r1 r2 : TimeBound)
    (hb : aa.buffers = pre ++ values :: post)
    (hpre : ∀ b ∈ pre, v1 ∉ b ∧ v2 ∉ b) (hpost : ∀ b ∈ post, v1 ∉ b ∧ v2 ∉ b)
    (htracked : values.filter (tracked st.buffer_live_ranges) = [v1, v2] ∨
      values.filter (tracked st.buffer_live_ranges) = [v2, v1])
    (h1 : st.buffer_live_ranges v1 = some r1) (h2 : st.buffer_live_ranges v2 = some r2)
    (heq : r1.start = r2.start) (hle : r1.end_ ≤ r2.end_) :
    (NormalizeAliasedBuffers c_sort aa st).buffer_live_ranges v1 =
      some { start := r1.start, end_ := r2.end_, end_position := r1.end_position } ∧
    (NormalizeAliasedBuffers c_sort aa st).buffer_live_ranges v2 = some r2 := by
  obtain ⟨r', e1, e2, ef, f1, f2⟩ :=
    normalizeBuffers_at hsort values st.buffer_live_ranges hpre hpost
  rw [h1] at e1
  rw [h2] at e2
  rw [← ef] at htracked
  simp only [NormalizeAliasedBuffers, hb]
  rw [f1, f2]
  unfold normalizeBuffer
  rcases lt_or_eq_of_le hle with hlt | hends
  · have hless : timeBoundLess r1 r2 = true := by simp [timeBoundLess, heq, hlt]
    have h12 : v2 ≠ v1 := by
      rintro rfl
      rw [e1] at e2
      injection e2 with e2
      rw [e2] at hlt
      exact lt_irrefl _ hlt
    rw [aliasedLiveRanges_pair_lt hsort htracked e1 e2 hless, normalizePass_pair_equal e1 e2 heq]
    constructor
    · rw [setEnd_apply, if_pos rfl, e1]
      rfl
    · rw [setEnd_apply, if_neg h12, e2]
  · have hsame1 : (⟨r1.start, r2.end_, r1.end_position⟩ : TimeBound) = r1 := by
      rw [← hends]
    rw [hsame1]
    have horder : aliasedLiveRanges c_sort r' values = [v1, v2] ∨
        aliasedLiveRanges c_sort r' values = [v2, v1] := by
      rcases htracked with hf | hf
      · rcases aliasedLiveRanges_pair hsort hf e1 e2 with ⟨h, _⟩ | ⟨h, _⟩
        · exact Or.inl h
        · exact Or.inr h
      · rcases aliasedLiveRanges_pair hsort hf e2 e1 with ⟨h, _⟩ | ⟨h, _⟩
        · exact Or.inr h
        · exact Or.inl h
    rcases horder with ho | ho
    · rw [ho, normalizePass_pair_equal e1 e2 heq, ← hends, setEnd_same e1]
      exact ⟨e1, e2⟩
    · rw [ho, normalizePass_pair_equal e2 e1 heq.symm, hends, setEnd_same e2]
      exact ⟨e1, e2⟩

theorem normalizePass_cons_cons (v1 v2 : HloValue) (rest : List HloValue)
    (ranges : HloValue → Option TimeBound) :
    normalizePass (v1 :: v2 :: rest) ranges =
      normalizePass (v2 :: rest) (normalizeStep ranges v1 v2) := by
  unfold normalizeStep
  rw [normalizePass]
  cases ranges v1 with
  | none => rfl
  | some lr1 =>
    cases ranges v2 with
    | none => rfl
    | some lr2 =>
      simp only
      split
      · rfl
      · split <;> rfl

theorem normalizeStep_frame (ranges : HloValue → Option TimeBound) (v1 v2 x : HloValue) :
    (normalizeStep ranges v1 v2 x).map TimeBound.frame = (ranges x).map TimeBound.frame := by
  unfold normalizeStep
  cases ranges v1 with
  | none => rfl
  | some lr1 =>
    cases ranges v2 with
    | none => rfl
    | some lr2 =>
      simp only
      split
      · exact setEnd_frame _ _ _ _
      · split
        · rfl
        · rw [setEnd_frame, setEnd_frame]

theorem normalizeStep_first {ranges : HloValue → Option TimeBound} {v1 v2 : HloValue}
    {lr1 lr2 : TimeBound} (h1 : ranges v1 = some lr1) (h2 : ranges v2 = some lr2)
    (hlt : lr1.start < lr2.start) :
    ∃ fa, normalizeStep ranges v1 v2 v1 = some fa ∧ fa.end_ < lr2.start := by
  have hne : ¬ lr1.start = lr2.start := ne_of_lt hlt
  have h12 : v1 ≠ v2 := by
    rintro rfl
    rw [h1] at h2
    injection h2 with h2
    rw [h2] at hlt
    exact lt_irrefl _ hlt
  unfold normalizeStep
  simp only [h1, h2, hne, if_false]
  split
  · rename_i hdis
    exact ⟨lr1, h1, hdis⟩
  · refine ⟨{ lr1 with end_ := lr2.start - 1 }, ?_, by simp⟩
    rw [setEnd_apply, if_pos rfl, setEnd_apply, if_neg h12, h1]
    rfl

/-- After the pass over pointers sorted by start, adjacent ranges have equal
starts or are disjoint. -/
theorem normalizePass_chain :
    ∀ (l : List HloValue) (ranges : HloValue → Option TimeBound),
      StartSorted ranges l →
      l.Chain' (EqualStartOrDisjoint (normalizePass l ranges)) := by
  intro l
  induction l with
  | nil => intro ranges _; exact List.chain'_nil
  | cons v1 tl ih =>
    intro ranges hs
    cases tl with
    | nil => exact List.chain'_singleton _
    | cons v2 rest =>
      have hs_all := List.pairwise_cons.mp hs
      have hs_tl : StartSorted ranges (v2 :: rest) := hs_all.2
      have hstep : StartSorted (normalizeStep ranges v1 v2) (v2 :: rest) :=
        startSorted_of_frame (fun x => normalizeStep_frame ranges v1 v2 x) hs_tl
      rw [normalizePass_cons_cons]
      refine List.chain'_cons.mpr ⟨?_, ih _ hstep⟩
      intro fa fb hfa hfb
      obtain ⟨sa, hsa, hsas, _⟩ := frame_start (normalizePass_frame _ _ v1) hfa
      obtain ⟨sb, hsb, hsbs, _⟩ := frame_start (normalizePass_frame _ _ v2) hfb
      obtain ⟨lr1, h1, h1s, _⟩ := frame_start (normalizeStep_frame ranges v1 v2 v1) hsa
      obtain ⟨lr2, h2, h2s, _⟩ := frame_start (normalizeStep_frame ranges v1 v2 v2) hsb
      have hle := hs_all.1 v2 (List.mem_cons_self _ _) lr1 lr2 h1 h2
      by_cases heq : lr1.start = lr2.start
      · left; omega
      · right
        have hlt : lr1.start < lr2.start := lt_of_le_of_ne hle heq
        have hnot : v1 ∉ v2 :: rest := by
          intro hmem
          have hsorted := List.pairwise_cons.mp hs_tl
          rcases List.mem_cons.mp hmem with h | h
          · rw [h, h2] at h1
            injection h1 with h1
            rw [h1] at hlt
            exact lt_irrefl _ hlt
          · have := hsorted.1 v1 h lr2 lr1 h2 h1
            omega
        rw [normalizePass_other _ _ v1 hnot] at hfa
        obtain ⟨fa2, hfa2, hend⟩ := normalizeStep_first h1 h2 hlt
        rw [hfa2] at hfa
        injection hfa with hfa
        subst hfa
        omega

/-! ## Lemmas about ComputePeakMemoryMoment -/

theorem sweepStep_memory (s : PeakSweep) (e : PeakEvent) :
    (sweepStep s e).memory_usage = s.memory_usage + signedSize e := by
  unfold sweepStep signedSize
  cases e.is_end <;> simp only [Bool.false_eq_true, if_false, if_true] <;> split <;> simp <;> ring

theorem foldl_sweepStep_memory :
    ∀ (l : List PeakEvent) (s : PeakSweep),
      (l.foldl sweepStep s).memory_usage = s.memory_usage + (l.map signedSize).sum := by
  intro l
  induction l with
  | nil => intro s; simp
  | cons e rest ih =>
    intro s
    simp only [List.foldl_cons, List.map_cons, List.sum_cons]
    rw [ih, sweepStep_memory]
    ring

theorem peakEvents_sum (ranges : HloValue → Option TimeBound) :
    ∀ values : List HloValue, ((peakEvents ranges values).map signedSize).sum = 0 := by
  intro values
  induction values with
  | nil => rfl
  | cons v rest ih =>
    unfold peakEvents
    cases ranges v with
    | none => exact ih
    | some tb =>
      simp only [List.map_cons, List.sum_cons, ih, signedSize]
      simp

theorem mem_peakEvents {ranges : HloValue → Option TimeBound} :
    ∀ {values : List HloValue} {e : PeakEvent}, e ∈ peakEvents ranges values →
      ∃ tb, e.value ∈ values ∧ ranges e.value = some tb ∧
        ((e.is_end = false ∧ e.time = tb.start) ∨ (e.is_end = true ∧ e.time = tb.end_ + 1)) := by
  intro values
  induction values with
  | nil => intro e he; cases he
  | cons v rest ih =>
    intro e he
    unfold peakEvents at he
    cases hv : ranges v with
    | none =>
      simp only [hv] at he
      obtain ⟨tb, h1, h2⟩ := ih he
      exact ⟨tb, List.mem_cons_of_mem _ h1, h2⟩
    | some tb =>
      simp only [hv, List.mem_cons] at he
      rcases he with rfl | rfl | he
      · exact ⟨tb, List.mem_cons_self _ _, hv, Or.inl ⟨rfl, rfl⟩⟩
      · exact ⟨tb, List.mem_cons_self _ _, hv, Or.inr ⟨rfl, rfl⟩⟩
      · obtain ⟨tb2, h1, h2⟩ := ih he
        exact ⟨tb2, List.mem_cons_of_mem _ h1, h2⟩

theorem peakEvents_mem {ranges : HloValue → Option TimeBound} :
    ∀ {values : List HloValue} {v : HloValue} {tb : TimeBound}, v ∈ values →
      ranges v = some tb →
      ({ time := tb.start, is_end := false, value := v } : PeakEvent) ∈
        peakEvents ranges values ∧
      ({ time := tb.end_ + 1, is_end := true, value := v } : PeakEvent) ∈
        peakEvents ranges values := by
  intro values
  induction values with
  | nil => intro v tb hv; cases hv
  | cons w rest ih =>
    intro v tb hv hr
    unfold peakEvents
    rcases List.mem_cons.mp hv with rfl | hmem
    · simp [hr]
    · obtain ⟨a, b⟩ := ih hmem hr
      cases ranges w with
      | none => exact ⟨a, b⟩
      | some tw =>
        exact ⟨List.mem_cons_of_mem _ (List.mem_cons_of_mem _ a),
          List.mem_cons_of_mem _ (List.mem_cons_of_mem _ b)⟩

theorem signedSize_sum_split (l : List PeakEvent) :
    (l.map signedSize).sum =
      ((l.filter (fun e => !e.is_end)).map (fun e => e.value.size)).sum -
        ((l.filter (fun e => e.is_end)).map (fun e => e.value.size)).sum := by
  induction l with
  | nil => rfl
  | cons e rest ih =>
    cases he : e.is_end <;>
      simp only [List.map_cons, List.sum_cons, List.filter_cons, he, Bool.not_false, Bool.not_true,
        if_true, Bool.false_eq_true, if_false, ih, signedSize] <;> ring

theorem peakEvents_eq (ranges : HloValue → Option TimeBound) :
    ∀ values : List HloValue,
      peakEvents ranges values =
        (collectLiveRanges ranges values).flatMap (fun p =>
          [({ time := p.2.start, is_end := false, value := p.1 } : PeakEvent),
           { time := p.2.end_ + 1, is_end := true, value := p.1 }]) := by
  intro values
  induction values with
  | nil => rfl
  | cons v rest ih =>
    unfold peakEvents collectLiveRanges
    cases ranges v with
    | none => exact ih
    | some tb => simp only [List.flatMap_cons, List.cons_append, List.nil_append, ih]

theorem sortedPeakEvents_perm (aa : HloAliasAnalysis) (st : HloLiveRange) :
    (sortedPeakEvents aa st).Perm (peakEvents st.buffer_live_ranges aa.values) :=
  List.perm_insertionSort _ _

theorem peakEvents_untracked (ranges : HloValue → Option TimeBound) :
    ∀ values : List HloValue, (∀ v ∈ values, ranges v = none) →
      peakEvents ranges values = [] := by
  intro values
  induction values with
  | nil => intro _; rfl
  | cons v rest ih =>
    intro h
    unfold peakEvents
    rw [h v (List.mem_cons_self _ _)]
    exact ih (fun w hw => h w (List.mem_cons_of_mem _ hw))

theorem sweepStep_eq (s : PeakSweep) (e : PeakEvent) :
    sweepStep s e =
      if s.peak_usage < s.memory_usage + signedSize e then
        { memory_usage := s.memory_usage + signedSize e,
          peak_usage := s.memory_usage + signedSize e,
          peak_time := some e.time }
      else { s with memory_usage := s.memory_usage + signedSize e } := by
  unfold sweepStep signedSize
  cases e.is_end <;> simp [sub_eq_add_neg]

theorem runningTotal_append_left (l : List PeakEvent) (e : PeakEvent) {k : Nat}
    (hk : k < l.length) : runningTotal (l ++ [e]) k = runningTotal l k := by
  unfold runningTotal
  rw [List.take_append_of_le_length (by omega)]

theorem runningTotal_append_last (l : List PeakEvent) (e : PeakEvent) :
    runningTotal (l ++ [e]) l.length = (l.map signedSize).sum + signedSize e := by
  unfold runningTotal
  rw [List.take_of_length_le (by simp)]
  simp

theorem peakSweep_append (l : List PeakEvent) (e : PeakEvent) :
    peakSweep (l ++ [e]) = sweepStep (peakSweep l) e := by
  unfold peakSweep
  rw [List.foldl_append]
  rfl

theorem sweepInv_peakSweep : ∀ l : List PeakEvent, SweepInv l (peakSweep l) := by
  intro l
  induction l using List.reverseRecOn with
  | nil =>
    refine ⟨rfl, ?_, le_refl _, fun _ => rfl, ?_⟩
    · intro k hk; simp at hk
    · intro t ht; simp [peakSweep] at ht
  | append_singleton l e ih =>
    rw [peakSweep_append]
    have hmem : (sweepStep (peakSweep l) e).memory_usage =
        (l.map signedSize).sum + signedSize e := by
      rw [sweepStep_memory, ih.memory]
    by_cases hnew : (peakSweep l).peak_usage < (l.map signedSize).sum + signedSize e
    · have hstep : sweepStep (peakSweep l) e =
          { memory_usage := (l.map signedSize).sum + signedSize e,
            peak_usage := (l.map signedSize).sum + signedSize e,
            peak_time := some e.time } := by
        rw [sweepStep_eq, ih.memory, if_pos hnew]
      rw [hstep]
      refine ⟨by simp, ?_, le_trans ih.peak_nonneg (le_of_lt hnew), by simp, ?_⟩
      · intro k hk
        simp only [List.length_append, List.length_singleton] at hk
        by_cases hkl : k < l.length
        · rw [runningTotal_append_left l e hkl]
          exact le_trans (ih.peak_ge k hkl) (le_of_lt hnew)
        · have : k = l.length := by omega
          subst this
          rw [runningTotal_append_last]
      · intro t ht
        simp only [Option.some.injEq] at ht
        refine ⟨l.length, by simp, by simp [ht], runningTotal_append_last l e,
          lt_of_le_of_lt ih.peak_nonneg hnew, ?_⟩
        intro j hj
        rw [runningTotal_append_left l e hj, runningTotal_append_last]
        exact lt_of_le_of_lt (ih.peak_ge j hj) hnew
    · have hstep : sweepStep (peakSweep l) e =
          { peakSweep l with memory_usage := (l.map signedSize).sum + signedSize e } := by
        rw [sweepStep_eq, ih.memory, if_neg hnew]
      rw [hstep]
      refine ⟨by simp, ?_, ih.peak_nonneg, ih.no_time, ?_⟩
      · intro k hk
        simp only [List.length_append, List.length_singleton] at hk
        by_cases hkl : k < l.length
        · rw [runningTotal_append_left l e hkl]
          exact ih.peak_ge k hkl
        · have : k = l.length := by omega
          subst this
          rw [runningTotal_append_last]
          exact not_lt.mp hnew
      · intro t ht
        obtain ⟨k, hk, hget, hrun, hpos, hfirst⟩ := ih.first_time t ht
        refine ⟨k, by simp; omega, ?_, ?_, hpos, ?_⟩
        · rw [List.getElem?_append_left hk]
          exact hget
        · rw [runningTotal_append_left l e hk]
          exact hrun
        · intro j hj
          rw [runningTotal_append_left l e hk, runningTotal_append_left l e (by omega)]
          exact hfirst j hj

theorem peakEventNotAfter_total (a b : PeakEvent) :
    peakEventNotAfter a b ∨ peakEventNotAfter b a := by
  unfold peakEventNotAfter
  rcases lt_trichotomy a.time b.time with h | h | h
  · exact Or.inl (Or.inl h)
  · cases ha : a.is_end
    · exact Or.inl (Or.inr ⟨h, Or.inl rfl⟩)
    · exact Or.inr (Or.inr ⟨h.symm, Or.inr rfl⟩)
  · exact Or.inr (Or.inl h)

theorem peakEventNotAfter_trans {a b c : PeakEvent}
    (h1 : peakEventNotAfter a b) (h2 : peakEventNotAfter b c) : peakEventNotAfter a c := by
  unfold peakEventNotAfter at *
  rcases h1 with h1 | ⟨h1, k1⟩
  · rcases h2 with h2 | ⟨h2, _⟩
    · exact Or.inl (lt_trans h1 h2)
    · exact Or.inl (h2 ▸ h1)
  · rcases h2 with h2 | ⟨h2, k2⟩
    · exact Or.inl (h1 ▸ h2)
    · refine Or.inr ⟨h1.trans h2, ?_⟩
      rcases k1 with k1 | k1
      · exact Or.inl k1
      · rcases k2 with k2 | k2
        · rw [k1] at k2; cases k2
        · exact Or.inr k2

theorem peakEventNotAfter_time {a b : PeakEvent} (h : peakEventNotAfter a b) :
    a.time ≤ b.time := by
  unfold peakEventNotAfter at h
  rcases h with h | ⟨h, _⟩
  · exact le_of_lt h
  · exact le_of_eq h

theorem sortedPeakEvents_sorted (aa : HloAliasAnalysis) (st : HloLiveRange) :
    (sortedPeakEvents aa st).Sorted peakEventNotAfter :=
  @List.sorted_insertionSort _ peakEventNotAfter _ ⟨peakEventNotAfter_total⟩
    ⟨fun _ _ _ => peakEventNotAfter_trans⟩ _

theorem sum_map_nonneg {α : Type} (f : α → Int) :
    ∀ l : List α, (∀ x ∈ l, 0 ≤ f x) → 0 ≤ (l.map f).sum := by
  intro l
  induction l with
  | nil => intro _; simp
  | cons a rest ih =>
    intro h
    simp only [List.map_cons, List.sum_cons]
    have h1 := h a (List.mem_cons_self _ _)
    have h2 := ih (fun x hx => h x (List.mem_cons_of_mem _ hx))
    omega

theorem sum_map_zero {α : Type} (f : α → Int) :
    ∀ l : List α, (∀ x ∈ l, f x = 0) → (l.map f).sum = 0 := by
  intro l
  induction l with
  | nil => intro _; simp
  | cons a rest ih =>
    intro h
    simp only [List.map_cons, List.sum_cons]
    rw [h a (List.mem_cons_self _ _), ih (fun x hx => h x (List.mem_cons_of_mem _ hx))]
    simp

theorem sum_signedSize_split (T : Int) :
    ∀ l : List PeakEvent,
      (l.map signedSize).sum = (l.map (sizeBefore T)).sum + (l.map (sizeFrom T)).sum := by
  intro l
  induction l with
  | nil => simp
  | cons a rest ih =>
    simp only [List.map_cons, List.sum_cons, ih, sizeBefore, sizeFrom]
    split <;> ring

theorem peakEvents_before_nonneg {ranges : HloValue → Option TimeBound} (T : Int)
    (hok : RangesOk ranges) :
    ∀ values : List HloValue, (∀ v ∈ values, 0 ≤ v.size) →
      0 ≤ ((peakEvents ranges values).map (sizeBefore T)).sum := by
  intro values
  induction values with
  | nil => intro _; simp [peakEvents]
  | cons v rest ih =>
    intro hsize
    have hrest := ih (fun w hw => hsize w (List.mem_cons_of_mem _ hw))
    have hv := hsize v (List.mem_cons_self _ _)
    unfold peakEvents
    cases hr : ranges v with
    | none => exact hrest
    | some tb =>
      have hle := hok v tb hr
      simp only [List.map_cons, List.sum_cons, sizeBefore, signedSize]
      simp only [Bool.false_eq_true, if_false, if_true]
      by_cases h2 : tb.end_ + 1 < T
      · have h1 : tb.start < T := by omega
        rw [if_pos h1, if_pos h2]
        omega
      · rw [if_neg h2]
        split <;> omega

/-- With proper ranges and non-negative sizes, the running total just after the
start event of a value is at least the size of that value. -/
theorem runningTotal_at_start (aa : HloAliasAnalysis) (st : HloLiveRange)
    (hok : RangesOk st.buffer_live_ranges) (hsize : ∀ v ∈ aa.values, 0 ≤ v.size)
    (v : HloValue) (tb : TimeBound) (hv : v ∈ aa.values)
    (hr : st.buffer_live_ranges v = some tb) :
    ∃ k, k < (sortedPeakEvents aa st).length ∧
      v.size ≤ runningTotal (sortedPeakEvents aa st) k := by
  have hperm := sortedPeakEvents_perm aa st
  have hsorted := sortedPeakEvents_sorted aa st
  have hmem : ({ time := tb.start, is_end := false, value := v } : PeakEvent) ∈
      sortedPeakEvents aa st := hperm.mem_iff.mpr (peakEvents_mem hv hr).1
  obtain ⟨k, hk⟩ := List.mem_iff_getElem?.mp hmem
  have hlt : k < (sortedPeakEvents aa st).length := (List.getElem?_eq_some.mp hk).1
  have hget : (sortedPeakEvents aa st)[k] =
      ({ time := tb.start, is_end := false, value := v } : PeakEvent) :=
    (List.getElem?_eq_some.mp hk).2
  refine ⟨k, hlt, ?_⟩
  have hsplit : (sortedPeakEvents aa st).take k ++ (sortedPeakEvents aa st).drop k =
      sortedPeakEvents aa st := List.take_append_drop _ _
  have hdrop : (sortedPeakEvents aa st).drop k =
      ({ time := tb.start, is_end := false, value := v } : PeakEvent) ::
        (sortedPeakEvents aa st).drop (k + 1) := by
    rw [List.drop_eq_getElem_cons hlt, hget]
  have hpw : ((sortedPeakEvents aa st).take k ++ (sortedPeakEvents aa st).drop k).Pairwise
      peakEventNotAfter := by rw [hsplit]; exact hsorted
  obtain ⟨_, hpd, hcross⟩ := List.pairwise_append.mp hpw
  rw [hdrop] at hpd hcross
  have hxsize : ∀ x ∈ sortedPeakEvents aa st, 0 ≤ x.value.size := by
    intro x hx
    obtain ⟨_, hxv, _⟩ := mem_peakEvents (hperm.mem_iff.mp hx)
    exact hsize _ hxv
  -- the events before index `k` that are not before time `start` are start events
  have hfrom : 0 ≤ (((sortedPeakEvents aa st).take k).map (sizeFrom tb.start)).sum := by
    apply sum_map_nonneg
    intro x hx
    have hr1 := hcross x hx _ (List.mem_cons_self _ _)
    have hxs := hxsize x (List.mem_of_mem_take hx)
    unfold sizeFrom
    split
    · exact le_refl _
    · rename_i hnlt
      unfold peakEventNotAfter at hr1
      simp only at hr1
      rcases hr1 with h | ⟨_, h | h⟩
      · exact absurd h hnlt
      · simp [signedSize, h, hxs]
      · cases h
  -- the events from index `k` on are not before time `start`
  have hlate : (((sortedPeakEvents aa st).drop k).map (sizeBefore tb.start)).sum = 0 := by
    apply sum_map_zero
    intro x hx
    rw [hdrop] at hx
    unfold sizeBefore
    rcases List.mem_cons.mp hx with rfl | hx2
    · simp
    · have := peakEventNotAfter_time ((List.pairwise_cons.mp hpd).1 x hx2)
      simp only at this
      rw [if_neg (by omega)]
  have hall : 0 ≤ ((sortedPeakEvents aa st).map (sizeBefore tb.start)).sum := by
    rw [(hperm.map (sizeBefore tb.start)).sum_eq]
    exact peakEvents_before_nonneg tb.start hok aa.values hsize
  have hbefore : 0 ≤ (((sortedPeakEvents aa st).take k).map (sizeBefore tb.start)).sum := by
    have : ((sortedPeakEvents aa st).map (sizeBefore tb.start)).sum =
        (((sortedPeakEvents aa st).take k).map (sizeBefore tb.start)).sum +
        (((sortedPeakEvents aa st).drop k).map (sizeBefore tb.start)).sum := by
      rw [← List.sum_append, ← List.map_append, hsplit]
    rw [this, hlate] at hall
    simpa using hall
  unfold runningTotal
  rw [List.take_succ, hk]
  simp only [Option.toList, List.map_append, List.sum_append, List.map_cons, List.map_nil,
    List.sum_cons, List.sum_nil]
  rw [sum_signedSize_split tb.start]
  simp only [signedSize]
  simp only [Bool.false_eq_true, if_false]
  omega

theorem peakState_rangesOk (a b : Int × Int) (ha : a.1 ≤ a.2) (hb : b.1 ≤ b.2) :
    RangesOk (peakState a b).buffer_live_ranges := by
  intro v tb h
  simp only [peakState] at h
  split at h
  · cases h; exact ha
  · split at h
    · cases h; exact hb
    · cases h

/-! ## Lemmas about the recursion bound -/

theorem flattenCalled_recurExt {r1 r2 : CompId → HloLiveRange → Except Failure HloLiveRange}
    (hr : RecurExt r1 r2) :
    ∀ (cs : List CompId) (st : HloLiveRange),
      flattenCalled r1 cs st ≠ .error .out_of_fuel →
      flattenCalled r2 cs st = flattenCalled r1 cs st := by
  intro cs
  induction cs with
  | nil => intro st _; rfl
  | cons c rest ih =>
    intro st h
    cases h1 : r1 c st with
    | ok st1 =>
      have h2 : r2 c st = .ok st1 := by rw [hr c st (by rw [h1]; simp), h1]
      simp only [flattenCalled, h1, h2] at h ⊢
      exact ih st1 h
    | error e =>
      simp only [flattenCalled, h1] at h
      have h2 : r2 c st = .error e := by rw [hr c st (by rw [h1]; exact h), h1]
      simp only [flattenCalled, h1, h2]

theorem flattenSub_recurExt {m : HloModule} {ms : Bool}
    {r1 r2 : CompId → HloLiveRange → Except Failure HloLiveRange} (hr : RecurExt r1 r2)
    (i : InstrId) (st : HloLiveRange)
    (h : flattenSub m ms r1 i st ≠ .error .out_of_fuel) :
    flattenSub m ms r2 i st = flattenSub m ms r1 i st := by
  unfold flattenSub at h ⊢
  split
  · rw [if_pos (by assumption)] at h
    split
    · rw [if_pos (by assumption)] at h
      exact flattenCalled_recurExt hr _ st h
    · rw [if_neg (by assumption)] at h
      split
      · rw [if_pos (by assumption)] at h
        cases h1 : r1 (m.while_condition i) st with
        | ok st1 =>
          have h2 : r2 (m.while_condition i) st = .ok st1 := by
            rw [hr _ st (by rw [h1]; simp), h1]
          simp only [h1, h2] at h ⊢
          exact hr _ st1 h
        | error e =>
          simp only [h1] at h
          have h2 : r2 (m.while_condition i) st = .error e := by
            rw [hr _ st (by rw [h1]; exact h), h1]
          simp only [h1, h2]
      · rfl
  · rfl

theorem flattenInstruction_recurExt {m : HloModule} {ms : Bool}
    {r1 r2 : CompId → HloLiveRange → Except Failure HloLiveRange} (hr : RecurExt r1 r2)
    (i : InstrId) (st : HloLiveRange)
    (h : flattenInstruction m ms r1 i st ≠ .error .out_of_fuel) :
    flattenInstruction m ms r2 i st = flattenInstruction m ms r1 i st := by
  unfold flattenInstruction at h ⊢
  have hsub : flattenSub m ms r1 i st ≠ .error .out_of_fuel := by
    intro hs
    rw [hs] at h
    exact h rfl
  rw [flattenSub_recurExt hr i st hsub]

theorem flattenSequence_recurExt {m : HloModule} {ms : Bool}
    {r1 r2 : CompId → HloLiveRange → Except Failure HloLiveRange} (hr : RecurExt r1 r2) :
    ∀ (seq : List InstrId) (st : HloLiveRange),
      flattenSequence m ms r1 seq st ≠ .error .out_of_fuel →
      flattenSequence m ms r2 seq st = flattenSequence m ms r1 seq st := by
  intro seq
  induction seq with
  | nil => intro st _; rfl
  | cons i rest ih =>
    intro st h
    have hi : flattenInstruction m ms r1 i st ≠ .error .out_of_fuel := by
      intro hs
      simp only [flattenSequence, hs] at h
      exact h rfl
    have h2 := flattenInstruction_recurExt hr i st hi
    cases h1 : flattenInstruction m ms r1 i st with
    | ok st1 =>
      rw [h1] at h2
      simp only [flattenSequence, h1, h2] at h ⊢
      exact ih st1 h
    | error e =>
      rw [h1] at h2
      simp only [flattenSequence, h1, h2]

theorem flattenBody_recurExt {m : HloModule} {schedule : HloSchedule} {ms : Bool}
    {r1 r2 : CompId → HloLiveRange → Except Failure HloLiveRange} (hr : RecurExt r1 r2)
    (c : CompId) (st : HloLiveRange)
    (h : flattenBody m schedule ms r1 c st ≠ .error .out_of_fuel) :
    flattenBody m schedule ms r2 c st = flattenBody m schedule ms r1 c st := by
  unfold flattenBody at h ⊢
  cases hs : schedule.sequences c with
  | none => rfl
  | some seq =>
    simp only [hs] at h ⊢
    cases hsp : st.computation_span_times c with
    | some _ => rfl
    | none =>
      simp only [hsp] at h ⊢
      have hq : flattenSequence m ms r1 seq st ≠ .error .out_of_fuel := by
        intro hs2
        rw [hs2] at h
        exact h rfl
      rw [flattenSequence_recurExt hr seq st hq]

/-- More fuel does not change a result that was not cut short. -/
theorem FlattenSchedule_fuel_succ (m : HloModule) (schedule : HloSchedule) (ms : Bool) :
    ∀ fuel, RecurExt (FlattenSchedule m schedule ms fuel)
      (FlattenSchedule m schedule ms (fuel + 1)) := by
  intro fuel
  induction fuel with
  | zero => intro c st h; exact absurd rfl h
  | succ n ih =>
    intro c st h
    show flattenBody m schedule ms (FlattenSchedule m schedule ms (n + 1)) c st =
      flattenBody m schedule ms (FlattenSchedule m schedule ms n) c st
    exact flattenBody_recurExt ih c st h

theorem FlattenSchedule_fuel_le (m : HloModule) (schedule : HloSchedule) (ms : Bool)
    {fuel1 fuel2 : Nat} (hle : fuel1 ≤ fuel2) :
    RecurExt (FlattenSchedule m schedule ms fuel1) (FlattenSchedule m schedule ms fuel2) := by
  induction hle with
  | refl => intro c st _; rfl
  | step _ ih =>
    intro c st h
    have h2 := ih c st h
    rw [← h2]
    exact FlattenSchedule_fuel_succ m schedule ms _ c st (by rw [h2]; exact h)

theorem completes_settled {α : Type} {r : Except Failure α} (h : completes r = true) :
    r ≠ .error .out_of_fuel := by
  intro hr
  rw [hr] at h
  exact absurd h (by simp [completes])

/-! ## Lemmas about a repeated value -/

theorem calculateValue_error {m : HloModule} {ms : Bool} {v : HloValue} {st : HloLiveRange}
    {e : Failure} (h : calculateValue m ms v st = .error e) : e = .check_failed := by
  unfold calculateValue at h
  split at h
  · cases h
  · simp only at h
    split at h
    · split at h
      · cases h; rfl
      · cases h
    · cases h; rfl

theorem calculateValues_error {m : HloModule} {ms : Bool} :
    ∀ (vs : List HloValue) (st : HloLiveRange) (e : Failure),
      calculateValues m ms vs st = .error e → e = .check_failed := by
  intro vs
  induction vs with
  | nil => intro st e h; cases h
  | cons v rest ih =>
    intro st e h
    cases h1 : calculateValue m ms v st with
    | ok st1 =>
      simp only [calculateValues, h1] at h
      exact ih st1 e h
    | error e1 =>
      simp only [calculateValues, h1] at h
      cases h
      exact calculateValue_error h1

theorem calculateValues_append {m : HloModule} {ms : Bool} :
    ∀ (xs ys : List HloValue) (st : HloLiveRange),
      calculateValues m ms (xs ++ ys) st =
        match calculateValues m ms xs st with
        | .ok st1 => calculateValues m ms ys st1
        | .error e => .error e := by
  intro xs
  induction xs with
  | nil => intro ys st; rfl
  | cons v rest ih =>
    intro ys st
    cases h1 : calculateValue m ms v st with
    | ok st1 =>
      simp only [List.cons_append, calculateValues, h1]
      exact ih ys st1
    | error e => simp only [List.cons_append, calculateValues, h1]

theorem usesLoop_init_le (m : HloModule) (ms : Bool) (sched : InstrId → Option Int) :
    ∀ (uses : List HloUse) (e : Int), e ≤ usesLoop m ms sched uses e := by
  intro uses
  induction uses with
  | nil => intro e; exact le_refl _
  | cons u rest ih =>
    intro e
    unfold usesLoop
    split
    · exact le_trans (le_max_left _ _) (ih _)
    · exact ih _

/-- The `CHECK` of line 205 can only fail for a read-only entry parameter. -/
theorem valueTimeBound_start_le (m : HloModule) (ms : Bool) (v : HloValue)
    (st : HloLiveRange) (t : Int) (hro : isReadOnlyEntryParameter m v = false) :
    (valueTimeBound m ms v st t).start ≤ (valueTimeBound m ms v st t).end_ := by
  simp only [valueTimeBound, hro, Bool.false_eq_true, if_false]
  unfold positionsOf
  exact le_trans (usesLoop_init_le m ms _ _ _) (positionsLoop_end_le m _ v _ _)

/-! ## Lemmas about the computation-scoped walk -/

theorem flattenInstruction_scoped (m : HloModule)
    (recur : CompId → HloLiveRange → Except Failure HloLiveRange) (i : InstrId)
    (st : HloLiveRange) :
    flattenInstruction m false recur i st = assignTime i st := by
  simp [flattenInstruction, flattenSub]

theorem flattenSequence_scoped (m : HloModule)
    (recur : CompId → HloLiveRange → Except Failure HloLiveRange) :
    ∀ (seq : List InstrId) (st : HloLiveRange),
      (∀ i ∈ seq, st.instruction_schedule i = none) → seq.Nodup →
      ∃ st1, flattenSequence m false recur seq st = .ok st1 ∧
        st1.flattened_instruction_sequence = st.flattened_instruction_sequence ++ seq ∧
        st1.computation_span_times = st.computation_span_times ∧
        st1.total_order_scheduled = st.total_order_scheduled ∧
        st1.buffer_live_ranges = st.buffer_live_ranges ∧
        (∀ k (h : k < seq.length), st1.instruction_schedule seq[k] =
          some ((st.flattened_instruction_sequence.length + k : Nat) : Int)) ∧
        (∀ j, j ∉ seq → st1.instruction_schedule j = st.instruction_schedule j) := by
  intro seq
  induction seq with
  | nil =>
    intro st _ _
    exact ⟨st, rfl, by simp, rfl, rfl, rfl, fun k h => absurd h (by simp), fun _ _ => rfl⟩
  | cons i rest ih =>
    intro st hfree hnd
    have hi : st.instruction_schedule i = none := hfree i (List.mem_cons_self _ _)
    obtain ⟨hnotin, hnd2⟩ := List.nodup_cons.mp hnd
    have hstep : flattenInstruction m false recur i st =
        .ok { st with
          instruction_schedule := mapSet st.instruction_schedule i
            (st.flattened_instruction_sequence.length : Int)
          flattened_instruction_sequence := st.flattened_instruction_sequence ++ [i] } := by
      rw [flattenInstruction_scoped]
      simp only [assignTime, hi]
    obtain ⟨st1, h1, hflat, hspan, htot, hrng, htime, hother⟩ :=
      ih { st with
          instruction_schedule := mapSet st.instruction_schedule i
            (st.flattened_instruction_sequence.length : Int)
          flattened_instruction_sequence := st.flattened_instruction_sequence ++ [i] }
        (by
          intro j hj
          have hne : j ≠ i := fun h => hnotin (h ▸ hj)
          simp only [mapSet, if_neg hne]
          exact hfree j (List.mem_cons_of_mem _ hj))
        hnd2
    refine ⟨st1, ?_, ?_, hspan, htot, hrng, ?_, ?_⟩
    · simp only [flattenSequence, hstep]
      exact h1
    · rw [hflat]
      simp
    · intro k hk
      cases k with
      | zero =>
        simp only [List.getElem_cons_zero]
        rw [hother i hnotin]
        simp [mapSet]
      | succ k =>
        simp only [List.getElem_cons_succ]
        rw [htime k (by simpa using hk)]
        simp only [List.length_append, List.length_singleton]
        congr 1
        omega
    · intro j hj
      have hne : j ≠ i := fun h => hj (h ▸ List.mem_cons_self _ _)
      rw [hother j (fun h => hj (List.mem_cons_of_mem _ h))]
      simp only [mapSet, if_neg hne]

/-! ## Lemmas about the last position -/

theorem positionsLoop_append (m : HloModule) (spans : CompId → Option TimeBound)
    (value : HloValue) :
    ∀ (ps qs : List HloPosition) (s : PositionLoop),
      positionsLoop m spans value (ps ++ qs) s =
        positionsLoop m spans value qs (positionsLoop m spans value ps s) := by
  intro ps
  induction ps with
  | nil => intro qs s; rfl
  | cons p rest ih =>
    intro qs s
    simp only [List.cons_append, positionsLoop]
    exact ih qs _

/-! ## Lemmas about the order within a sequence -/

theorem flattenSequence_pairwise {m : HloModule} {ms : Bool}
    {recur : CompId → HloLiveRange → Except Failure HloLiveRange}
    (hrec : ∀ c st st', recur c st = .ok st' → TimeExt st st') :
    ∀ (todo : List InstrId) (st st' : HloLiveRange),
      flattenSequence m ms recur todo st = .ok st' →
      todo.Pairwise (fun a b => ∃ ta tb, st'.instruction_schedule a = some ta ∧
        st'.instruction_schedule b = some tb ∧ ta < tb) := by
  intro todo
  induction todo with
  | nil => intro st st' _; exact List.Pairwise.nil
  | cons i rest ih =>
    intro st st' h
    cases h1 : flattenInstruction m ms recur i st with
    | error e => simp only [flattenSequence, h1] at h; cases h
    | ok st1 =>
      simp only [flattenSequence, h1] at h
      have hone : flattenSequence m ms recur [i] st = .ok st1 := by
        simp only [flattenSequence, h1]
      obtain ⟨ti, hti, _, hlt⟩ := (flattenSequence_times hrec [i] st st1 hone).2 i
        (List.mem_singleton.mpr rfl)
      obtain ⟨hext, hrest⟩ := flattenSequence_times hrec rest st1 st' h
      refine List.Pairwise.cons ?_ (ih st1 st' h)
      intro b hb
      obtain ⟨tb, htb, hge, _⟩ := hrest b hb
      exact ⟨ti, tb, hext.time_kept i ti hti, htb, lt_of_lt_of_le hlt hge⟩

theorem flattenCalled_ordered {schedule : HloSchedule}
    {recur : CompId → HloLiveRange → Except Failure HloLiveRange}
    (hrec : OrderSpec schedule recur) :
    ∀ (cs : List CompId) (st st' : HloLiveRange), flattenCalled recur cs st = .ok st' →
      SeqOrdered schedule st → SeqOrdered schedule st' := by
  intro cs
  induction cs with
  | nil => intro st st' h hord; cases h; exact hord
  | cons c rest ih =>
    intro st st' h hord
    cases h1 : recur c st with
    | error e => simp only [flattenCalled, h1] at h; cases h
    | ok st1 =>
      simp only [flattenCalled, h1] at h
      exact ih st1 st' h ((hrec c st st1 h1).2 hord)

theorem flattenSub_ordered {m : HloModule} {schedule : HloSchedule} {ms : Bool}
    {recur : CompId → HloLiveRange → Except Failure HloLiveRange}
    (hrec : OrderSpec schedule recur) {i : InstrId} {st st' : HloLiveRange}
    (h : flattenSub m ms recur i st = .ok st') (hord : SeqOrdered schedule st) :
    SeqOrdered schedule st' := by
  unfold flattenSub at h
  split at h
  · split at h
    · exact flattenCalled_ordered hrec _ st st' h hord
    · split at h
      · cases h1 : recur (m.while_condition i) st with
        | error e => simp only [h1] at h; cases h
        | ok st1 =>
          simp only [h1] at h
          exact (hrec _ st1 st' h).2 ((hrec _ st st1 h1).2 hord)
      · cases h; exact hord
  · cases h; exact hord

theorem assignTime_ordered {schedule : HloSchedule} {i : InstrId} {st st' : HloLiveRange}
    (h : assignTime i st = .ok st') (hord : SeqOrdered schedule st) :
    SeqOrdered schedule st' := by
  obtain ⟨hnone, rfl⟩ := assignTime_ok h
  intro c seq hc hseq
  refine (hord c seq hc hseq).imp ?_
  rintro a b ⟨ta, tb, ha, hb, hlt⟩
  have hai : a ≠ i := fun e => by rw [e, hnone] at ha; cases ha
  have hbi : b ≠ i := fun e => by rw [e, hnone] at hb; cases hb
  exact ⟨ta, tb, by simp only [mapSet, if_neg hai]; exact ha,
    by simp only [mapSet, if_neg hbi]; exact hb, hlt⟩

theorem flattenSequence_ordered {m : HloModule} {schedule : HloSchedule} {ms : Bool}
    {recur : CompId → HloLiveRange → Except Failure HloLiveRange}
    (hrec : OrderSpec schedule recur) :
    ∀ (todo : List InstrId) (st st' : HloLiveRange),
      flattenSequence m ms recur todo st = .ok st' →
      SeqOrdered schedule st → SeqOrdered schedule st' := by
  intro todo
  induction todo with
  | nil => intro st st' h hord; cases h; exact hord
  | cons i rest ih =>
    intro st st' h hord
    cases h1 : flattenInstruction m ms recur i st with
    | error e => simp only [flattenSequence, h1] at h; cases h
    | ok st1 =>
      simp only [flattenSequence, h1] at h
      obtain ⟨st0, hsub, hassign⟩ := flattenInstruction_ok h1
      exact ih st1 st' h (assignTime_ordered hassign (flattenSub_ordered hrec hsub hord))

theorem FlattenSchedule_ordered (m : HloModule) (schedule : HloSchedule) (ms : Bool) :
    ∀ fuel, OrderSpec schedule (FlattenSchedule m schedule ms fuel) := by
  intro fuel
  induction fuel with
  | zero => intro c st st' h; cases h
  | succ n ih =>
    intro c st st' h
    refine ⟨FlattenSchedule_timeExt m schedule ms (n + 1) c st st' h, ?_⟩
    intro hord
    have hrecT : ∀ c st st', FlattenSchedule m schedule ms n c st = .ok st' → TimeExt st st' :=
      fun c st st' h => (ih c st st' h).1
    rcases flattenBody_ok (show flattenBody m schedule ms (FlattenSchedule m schedule ms n)
        c st = .ok st' from h) with ⟨_, rfl⟩ | ⟨_, _, _, _, rfl⟩ | ⟨seq, st1, hseq, hfresh, hwalk, rfl⟩
    · exact hord
    · exact hord
    · have hord1 := flattenSequence_ordered ih seq st st1 hwalk hord
      have hpw := flattenSequence_pairwise hrecT seq st st1 hwalk
      intro x sx hx hsx
      by_cases hxc : x = c
      · subst hxc
        rw [hseq] at hsx
        cases hsx
        exact hpw
      · have hx1 : st1.computation_span_times x ≠ none := by
          simpa [mapSet, hxc] using hx
        exact hord1 x sx hx1 hsx

/-! ## Lemmas about the bounds of a range -/

/-- In the states the loop of `CalculateBufferStartEndMap` passes through from
a state left by `FlattenSchedule`, no timestamp exceeds the length of the
flattened sequence. -/
theorem schedGrows_le_length {m : HloModule} {schedule : HloSchedule} {ms : Bool}
    {st : HloLiveRange} (hinv : FlatInv m schedule ms st) {b : InstrId → Option Int}
    (hg : SchedGrows st.instruction_schedule b) {j : InstrId} {t : Int}
    (ht : b j = some t) : 0 ≤ t ∧ t ≤ st.schedule_end_time := by
  unfold HloLiveRange.schedule_end_time
  rcases hg j with h | ⟨_, h⟩
  · rw [h] at ht
    obtain ⟨i, rfl, hi⟩ := hinv.index_of_time j t ht
    have := (List.getElem?_eq_some.mp hi).1
    omega
  · rw [h] at ht
    cases ht
    omega

/-- The test of the `CHECK` of line 205 holds in every state the loop passes
through from a state left by `FlattenSchedule`. -/
theorem valueTimeBound_check {m : HloModule} {schedule : HloSchedule} {ms : Bool}
    {st st1 : HloLiveRange} (hinv : FlatInv m schedule ms st)
    (hg : SchedGrows st.instruction_schedule st1.instruction_schedule)
    (hflat : st1.flattened_instruction_sequence = st.flattened_instruction_sequence)
    (v : HloValue) {t : Int} (ht : st1.instruction_schedule v.defining_instruction = some t) :
    (valueTimeBound m ms v st1 t).start ≤ (valueTimeBound m ms v st1 t).end_ := by
  cases hro : isReadOnlyEntryParameter m v with
  | false => exact valueTimeBound_start_le m ms v st1 t hro
  | true =>
    simp only [valueTimeBound, hro, if_true]
    have h1 := bufferStartTime_le m st1.computation_span_times v t
    have h2 := (schedGrows_le_length hinv hg ht).2
    unfold HloLiveRange.schedule_end_time at h2 ⊢
    rw [hflat]
    omega

theorem calculateValues_completes {m : HloModule} {schedule : HloSchedule} {ms : Bool}
    {st : HloLiveRange} (hinv : FlatInv m schedule ms st) :
    ∀ (vs : List HloValue) (st1 : HloLiveRange), vs.Nodup →
      SchedGrows st.instruction_schedule st1.instruction_schedule →
      st1.flattened_instruction_sequence = st.flattened_instruction_sequence →
      (∀ v ∈ vs, st1.buffer_live_ranges v = none) →
      ∃ st2, calculateValues m ms vs st1 = .ok st2 := by
  intro vs
  induction vs with
  | nil => intro st1 _ _ _ _; exact ⟨st1, rfl⟩
  | cons v rest ih =>
    intro st1 hnd hg hflat hnone
    obtain ⟨hnotin, hnd2⟩ := List.nodup_cons.mp hnd
    have hv := hnone v (List.mem_cons_self _ _)
    cases ht : st1.instruction_schedule v.defining_instruction with
    | none =>
      have h1 : calculateValue m ms v st1 = .ok st1 := by
        simp only [calculateValue, ht]
      simp only [calculateValues, h1]
      exact ih st1 hnd2 hg hflat (fun w hw => hnone w (List.mem_cons_of_mem _ hw))
    | some t =>
      have hle := valueTimeBound_check hinv hg hflat v ht
      have h1 : calculateValue m ms v st1 = .ok { st1 with
          instruction_schedule := (positionsOf m ms v st1 t).instruction_schedule
          buffer_live_ranges :=
            mapSet st1.buffer_live_ranges v (valueTimeBound m ms v st1 t) } := by
        simp only [calculateValue, ht, hle, if_true, hv]
      simp only [calculateValues, h1]
      apply ih _ hnd2
      · exact schedGrows_trans hg (positionsOf_grows m ms v st1 t)
      · exact hflat
      · intro w hw
        have hne : w ≠ v := fun e => hnotin (e ▸ hw)
        simp only [mapSet, if_neg hne]
        exact hnone w (List.mem_cons_of_mem _ hw)

theorem usesLoop_le (m : HloModule) (ms : Bool) (sched : InstrId → Option Int) (L : Int)
    (hs : ∀ j t, sched j = some t → t ≤ L) :
    ∀ (uses : List HloUse) (e : Int), e ≤ L → usesLoop m ms sched uses e ≤ L := by
  intro uses
  induction uses with
  | nil => intro e he; exact he
  | cons u rest ih =>
    intro e he
    unfold usesLoop
    split
    · rename_i t ht
      exact ih _ (max_le he (hs _ t ht))
    · exact ih _ he

theorem positionsLoop_le (m : HloModule) (spans : CompId → Option TimeBound)
    (value : HloValue) (L : Int) (hs : ∀ c s, spans c = some s → s.end_ ≤ L) :
    ∀ (ps : List HloPosition) (s : PositionLoop), s.buffer_end_time ≤ L →
      (positionsLoop m spans value ps s).buffer_end_time ≤ L := by
  intro ps
  induction ps with
  | nil => intro s h; exact h
  | cons p rest ih =>
    intro s h
    unfold positionsLoop
    apply ih
    unfold positionLiveOut
    simp only
    split
    · split
      · rename_i span hspan
        split
        · exact hs _ span hspan
        · rw [positionTrack_end]; exact h
      · rw [positionTrack_end]; exact h
    · rw [positionTrack_end]; exact h

/-- The range computed in a state the loop passes through from a state left by
`FlattenSchedule` lies inside the flattened timeline. -/
theorem valueTimeBound_inside {m : HloModule} {schedule : HloSchedule} {ms : Bool}
    {st st1 : HloLiveRange} (hinv : FlatInv m schedule ms st)
    (hg : SchedGrows st.instruction_schedule st1.instruction_schedule)
    (hflat : st1.flattened_instruction_sequence = st.flattened_instruction_sequence)
    (hspan : st1.computation_span_times = st.computation_span_times)
    (v : HloValue) {t : Int} (ht : st1.instruction_schedule v.defining_instruction = some t) :
    0 ≤ (valueTimeBound m ms v st1 t).start ∧
      (valueTimeBound m ms v st1 t).end_ ≤ st.schedule_end_time := by
  constructor
  · simp only [valueTimeBound, hspan]
    exact bufferStartTime_nonneg hinv hg v ht
  · simp only [valueTimeBound]
    split
    · unfold HloLiveRange.schedule_end_time
      rw [hflat]
    · unfold positionsOf
      apply positionsLoop_le
      · intro c s hc
        rw [hspan] at hc
        exact (hinv.span_covers c s hc).2.2.1
      · apply usesLoop_le
        · intro j tj hj
          exact (schedGrows_le_length hinv hg hj).2
        · exact le_trans (bufferStartTime_le m _ v t) (schedGrows_le_length hinv hg ht).2

theorem setEnd_below {L : Int} {ranges : HloValue → Option TimeBound} (v : HloValue)
    {e : Int} (h : EndsBelow L ranges) (he : e ≤ L) : EndsBelow L (setEnd ranges v e) := by
  intro x tb hx
  rw [setEnd_apply] at hx
  by_cases hxv : x = v
  · simp only [hxv, if_true] at hx
    cases hr : ranges v with
    | none => simp [hr] at hx
    | some t0 =>
      simp only [hr, Option.map_some', Option.some.injEq] at hx
      subst hx
      exact he
  · simp only [hxv, if_false] at hx
    exact h x tb hx

theorem normalizeStep_below {L : Int} {ranges : HloValue → Option TimeBound}
    (v1 v2 : HloValue) (hok : RangesOk ranges) (h : EndsBelow L ranges) :
    EndsBelow L (normalizeStep ranges v1 v2) := by
  unfold normalizeStep
  cases h1 : ranges v1 with
  | none => exact h
  | some lr1 =>
    cases h2 : ranges v2 with
    | none => exact h
    | some lr2 =>
      simp only
      have e1 := h v1 lr1 h1
      have e2 := h v2 lr2 h2
      have o2 := hok v2 lr2 h2
      split
      · exact setEnd_below v1 h e2
      · split
        · exact h
        · exact setEnd_below v1 (setEnd_below v2 h (max_le e1 e2)) (by omega)

theorem normalizeStep_ok {ranges : HloValue → Option TimeBound} {v1 v2 : HloValue}
    {rest : List HloValue} (hok : RangesOk ranges) (hs : StartSorted ranges (v1 :: v2 :: rest)) :
    RangesOk (normalizeStep ranges v1 v2) := by
  have h2 : StartSorted ranges [v1, v2] := by
    unfold StartSorted at hs ⊢
    refine List.Pairwise.cons ?_ (List.pairwise_singleton _ _)
    intro b hb
    rw [List.mem_singleton] at hb
    subst hb
    exact (List.pairwise_cons.mp hs).1 b (List.mem_cons_self _ _)
  have := normalizePass_ok [v1, v2] ranges hok h2
  rw [normalizePass_cons_cons] at this
  exact this

theorem normalizePass_below {L : Int} :
    ∀ (l : List HloValue) (ranges : HloValue → Option TimeBound),
      RangesOk ranges → StartSorted ranges l → EndsBelow L ranges →
      EndsBelow L (normalizePass l ranges) := by
  intro l
  induction l with
  | nil => intro ranges _ _ h; exact h
  | cons v1 tl ih =>
    intro ranges hok hs h
    cases tl with
    | nil => exact h
    | cons v2 rest =>
      rw [normalizePass_cons_cons]
      apply ih
      · exact normalizeStep_ok hok hs
      · exact startSorted_of_frame (fun x => normalizeStep_frame ranges v1 v2 x)
          (List.pairwise_cons.mp hs).2
      · exact normalizeStep_below v1 v2 hok h

theorem normalizeBuffers_below {c_sort : LiveRangeSort} (hsort : SortsByStartEnd c_sort) {L : Int} :
    ∀ (buffers : List (List HloValue)) (ranges : HloValue → Option TimeBound),
      RangesOk ranges → EndsBelow L ranges →
      EndsBelow L (buffers.foldl (normalizeBuffer c_sort) ranges) := by
  intro buffers
  induction buffers with
  | nil => intro ranges _ h; exact h
  | cons b rest ih =>
    intro ranges hok h
    exact ih _ (normalizeBuffer_ok hsort b hok)
      (normalizePass_below _ ranges hok (aliasedLiveRanges_sorted hsort ranges b) h)

/-! ## Lemmas about the flag of the total order -/

theorem flattenCalled_flag {m : HloModule} {schedule : HloSchedule} {ms : Bool}
    {recur : CompId → HloLiveRange → Except Failure HloLiveRange}
    (hrec : FlagSpec m schedule ms recur) :
    ∀ (cs : List CompId) (st st' : HloLiveRange), flattenCalled recur cs st = .ok st' →
      (st'.total_order_scheduled = true →
        st.total_order_scheduled = true ∧ ∀ c ∈ cs, schedule.sequences c ≠ none) ∧
      (CalleesScheduled m schedule ms st → CalleesScheduled m schedule ms st') ∧
      (st'.total_order_scheduled = false → st.total_order_scheduled = false ∨
        ∃ c ∈ cs, ∃ x, Reached m schedule ms c x ∧ schedule.sequences x = none) := by
  intro cs
  induction cs with
  | nil =>
    intro st st' h
    cases h
    exact ⟨fun h => ⟨h, fun c hc => absurd hc (List.not_mem_nil c)⟩, fun h => h,
      fun h => Or.inl h⟩
  | cons c rest ih =>
    intro st st' h
    cases h1 : recur c st with
    | error e => simp only [flattenCalled, h1] at h; cases h
    | ok st1 =>
      simp only [flattenCalled, h1] at h
      obtain ⟨a1, b1, c1⟩ := hrec c st st1 h1
      obtain ⟨a2, b2, c2⟩ := ih st1 st' h
      refine ⟨?_, fun hs => b2 (b1 hs), ?_⟩
      · intro ht
        obtain ⟨ht1, hrest⟩ := a2 ht
        obtain ⟨ht0, hc⟩ := a1 ht1
        refine ⟨ht0, ?_⟩
        intro d hd
        rcases List.mem_cons.mp hd with rfl | hd
        · exact hc
        · exact hrest d hd
      · intro hf
        rcases c2 hf with hf1 | ⟨d, hd, x, hx⟩
        · rcases c1 hf1 with hf0 | ⟨x, hx⟩
          · exact Or.inl hf0
          · exact Or.inr ⟨c, List.mem_cons_self _ _, x, hx⟩
        · exact Or.inr ⟨d, List.mem_cons_of_mem _ hd, x, hx⟩

theorem flattenInstruction_flag {m : HloModule} {schedule : HloSchedule} {ms : Bool}
    {recur : CompId → HloLiveRange → Except Failure HloLiveRange}
    (hrec : FlagSpec m schedule ms recur) {i : InstrId} {st st' : HloLiveRange}
    (h : flattenInstruction m ms recur i st = .ok st') :
    (st'.total_order_scheduled = true → st.total_order_scheduled = true) ∧
    (CalleesScheduled m schedule ms st → CalleesScheduled m schedule ms st') ∧
    (st'.total_order_scheduled = false → st.total_order_scheduled = false ∨
      (ms = true ∧ ∃ c ∈ subComputations m i, ∃ x,
        Reached m schedule ms c x ∧ schedule.sequences x = none)) := by
  obtain ⟨st1, hs, ha⟩ := flattenInstruction_ok h
  obtain ⟨_, rfl⟩ := assignTime_ok ha
  rw [flattenSub_eq] at hs
  cases ms with
  | false =>
    simp only [Bool.false_eq_true, if_false] at hs
    cases hs
    refine ⟨fun h => h, ?_, fun h => Or.inl h⟩
    intro _ _ hms
    cases hms
  | true =>
    simp only [if_true] at hs
    obtain ⟨a1, b1, c1⟩ := flattenCalled_flag hrec _ st st1 hs
    refine ⟨fun h => (a1 h).1, ?_, ?_⟩
    · intro hsound htot hms j t hj
      simp only [mapSet] at hj
      by_cases hji : j = i
      · subst hji
        exact (a1 htot).2
      · simp only [hji, if_false] at hj
        exact b1 hsound htot hms j t hj
    · intro hf
      rcases c1 hf with h0 | hx
      · exact Or.inl h0
      · exact Or.inr ⟨rfl, hx⟩

theorem flattenSequence_flag {m : HloModule} {schedule : HloSchedule} {ms : Bool}
    {recur : CompId → HloLiveRange → Except Failure HloLiveRange}
    (hrec : FlagSpec m schedule ms recur) :
    ∀ (todo : List InstrId) (st st' : HloLiveRange),
      flattenSequence m ms recur todo st = .ok st' →
      (st'.total_order_scheduled = true → st.total_order_scheduled = true) ∧
      (CalleesScheduled m schedule ms st → CalleesScheduled m schedule ms st') ∧
      (st'.total_order_scheduled = false → st.total_order_scheduled = false ∨
        ∃ i ∈ todo, ms = true ∧ ∃ c ∈ subComputations m i, ∃ x,
          Reached m schedule ms c x ∧ schedule.sequences x = none) := by
  intro todo
  induction todo with
  | nil =>
    intro st st' h
    cases h
    exact ⟨fun h => h, fun h => h, fun h => Or.inl h⟩
  | cons i rest ih =>
    intro st st' h
    cases h1 : flattenInstruction m ms recur i st with
    | error e => simp only [flattenSequence, h1] at h; cases h
    | ok st1 =>
      simp only [flattenSequence, h1] at h
      obtain ⟨a1, b1, c1⟩ := flattenInstruction_flag hrec h1
      obtain ⟨a2, b2, c2⟩ := ih st1 st' h
      refine ⟨fun ht => a1 (a2 ht), fun hs => b2 (b1 hs), ?_⟩
      intro hf
      rcases c2 hf with hf1 | ⟨k, hk, hrest⟩
      · rcases c1 hf1 with hf0 | ⟨hms, hx⟩
        · exact Or.inl hf0
        · exact Or.inr ⟨i, List.mem_cons_self _ _, hms, hx⟩
      · exact Or.inr ⟨k, List.mem_cons_of_mem _ hk, hrest⟩

theorem FlattenSchedule_flag (m : HloModule) (schedule : HloSchedule) (ms : Bool) :
    ∀ fuel, FlagSpec m schedule ms (FlattenSchedule m schedule ms fuel) := by
  intro fuel
  induction fuel with
  | zero => intro c st st' h; cases h
  | succ n ih =>
    intro c st st' h
    rcases flattenBody_ok (show flattenBody m schedule ms (FlattenSchedule m schedule ms n)
        c st = .ok st' from h) with ⟨hnone, rfl⟩ | ⟨seq, _, hseq, _, rfl⟩ |
        ⟨seq, st1, hseq, _, hwalk, rfl⟩
    · refine ⟨fun ht => (by cases ht), ?_, fun _ => Or.inr ⟨c, Reached.root, hnone⟩⟩
      intro _ ht
      cases ht
    · exact ⟨fun ht => ⟨ht, by rw [hseq]; simp⟩, fun hs => hs, fun hf => Or.inl hf⟩
    · obtain ⟨a1, b1, c1⟩ := flattenSequence_flag ih seq st st1 hwalk
      refine ⟨fun ht => ⟨a1 ht, by rw [hseq]; simp⟩, fun hs => b1 hs, ?_⟩
      intro hf
      rcases c1 hf with h0 | ⟨i, hi, hms, d, hd, x, hr, hx⟩
      · exact Or.inl h0
      · exact Or.inr ⟨x, reached_trans (Reached.sub Reached.root hseq hi hms hd) hr, hx⟩

/-! ## Lemmas about the times a buffer covers -/

theorem collectLiveRanges_length (ranges : HloValue → Option TimeBound) :
    ∀ values : List HloValue,
      (collectLiveRanges ranges values).length = (values.filter (tracked ranges)).length := by
  intro values
  induction values with
  | nil => rfl
  | cons v rest ih =>
    unfold collectLiveRanges
    cases hv : ranges v with
    | none =>
      have : tracked ranges v = false := by simp [tracked, hv]
      simp only [List.filter_cons, this, Bool.false_eq_true, if_false]
      exact ih
    | some tb =>
      have : tracked ranges v = true := by simp [tracked, hv]
      simp only [List.filter_cons, this, if_true, List.length_cons, ih]

/-- A buffer with fewer than two tracked values is left as it is. -/
theorem normalizeBuffer_few {c_sort : LiveRangeSort} (hsort : SortsByStartEnd c_sort)
    {ranges : HloValue → Option TimeBound} {values : List HloValue}
    (h : (values.filter (tracked ranges)).length < 2) :
    normalizeBuffer c_sort ranges values = ranges := by
  have hlen : (aliasedLiveRanges c_sort ranges values).length < 2 := by
    unfold aliasedLiveRanges
    rw [List.length_map, (hsort _).1.length_eq, collectLiveRanges_length]
    exact h
  unfold normalizeBuffer
  cases hl : aliasedLiveRanges c_sort ranges values with
  | nil => rfl
  | cons a tl =>
    cases tl with
    | nil => rfl
    | cons b rest =>
      rw [hl] at hlen
      simp only [List.length_cons] at hlen
      omega

theorem normalizeBuffers_few {c_sort : LiveRangeSort} (hsort : SortsByStartEnd c_sort)
    {x : HloValue} :
    ∀ (buffers : List (List HloValue)) (ranges : HloValue → Option TimeBound),
      (∀ b ∈ buffers, x ∈ b → (b.filter (tracked ranges)).length < 2) →
      (buffers.foldl (normalizeBuffer c_sort) ranges) x = ranges x := by
  intro buffers
  induction buffers with
  | nil => intro ranges _; rfl
  | cons b rest ih =>
    intro ranges h
    simp only [List.foldl_cons]
    have hfr : ∀ y, tracked (normalizeBuffer c_sort ranges b) y = tracked ranges y :=
      tracked_of_frame (fun y => normalizePass_frame _ ranges y)
    have hfun : tracked (normalizeBuffer c_sort ranges b) = tracked ranges := funext hfr
    rw [ih (normalizeBuffer c_sort ranges b) (by
      intro b2 hb2 hx
      rw [hfun]
      exact h b2 (List.mem_cons_of_mem _ hb2) hx)]
    by_cases hx : x ∈ b
    · rw [normalizeBuffer_few hsort (h b (List.mem_cons_self _ _) hx)]
    · exact normalizeBuffer_other hsort hx

theorem covers_iff {tb : Option TimeBound} {t : Int} :
    covers tb t = true ↔ ∃ r, tb = some r ∧ r.start ≤ t ∧ t ≤ r.end_ := by
  cases tb with
  | none => simp [covers]
  | some r => simp [covers]

theorem bufferLive_iff {ranges : HloValue → Option TimeBound} {values : List HloValue}
    {t : Int} : bufferLive ranges values t = true ↔ ∃ v ∈ values, covers (ranges v) t = true := by
  simp [bufferLive]

theorem strictStarts_of_frame {r r' : HloValue → Option TimeBound}
    (h : ∀ x, (r' x).map TimeBound.frame = (r x).map TimeBound.frame)
    {l : List HloValue} (hs : StrictStarts r l) : StrictStarts r' l := by
  unfold StrictStarts at hs ⊢
  refine hs.imp ?_
  rintro a b ⟨ra, rb, ha, hb, hlt⟩
  have ha2 := h a
  have hb2 := h b
  rw [ha] at ha2
  rw [hb] at hb2
  cases ha3 : r' a with
  | none => rw [ha3] at ha2; simp at ha2
  | some ta =>
    cases hb3 : r' b with
    | none => rw [hb3] at hb2; simp at hb2
    | some tb =>
      rw [ha3] at ha2
      rw [hb3] at hb2
      simp only [Option.map_some', Option.some.injEq, TimeBound.frame, Prod.mk.injEq] at ha2 hb2
      exact ⟨ta, tb, rfl, rfl, by omega⟩

/-- With strictly increasing starts, every time covered by a value of the list
before the pass is covered by a value of the list after it. -/
theorem normalizePass_covers :
    ∀ (l : List HloValue) (ranges : HloValue → Option TimeBound), StrictStarts ranges l →
      ∀ (t : Int) (v : HloValue), v ∈ l → covers (ranges v) t = true →
        ∃ w ∈ l, covers (normalizePass l ranges w) t = true := by
  intro l
  induction l with
  | nil => intro ranges _ t v hv; cases hv
  | cons v1 tl ih =>
    intro ranges hs t v hv hcov
    cases tl with
    | nil => exact ⟨v, hv, hcov⟩
    | cons v2 rest =>
      obtain ⟨hfirst, hs_tl⟩ := List.pairwise_cons.mp hs
      obtain ⟨lr1, lr2, h1, h2, hlt⟩ := hfirst v2 (List.mem_cons_self _ _)
      have hnotin : v1 ∉ v2 :: rest := by
        intro hmem
        obtain ⟨ra, rb, ha, hb, hab⟩ := hfirst v1 hmem
        rw [ha] at hb
        cases hb
        exact lt_irrefl _ hab
      have hv2notin : v2 ≠ v1 := fun e => hnotin (e ▸ List.mem_cons_self _ _)
      rw [normalizePass_cons_cons]
      have hs2 : StrictStarts (normalizeStep ranges v1 v2) (v2 :: rest) :=
        strictStarts_of_frame (fun x => normalizeStep_frame ranges v1 v2 x) hs_tl
      have hfinal1 : normalizePass (v2 :: rest) (normalizeStep ranges v1 v2) v1 =
          normalizeStep ranges v1 v2 v1 := normalizePass_other _ _ v1 hnotin
      -- a time covered after the step by a value of the tail stays covered
      have htail : ∀ w, w ∈ v2 :: rest → covers (normalizeStep ranges v1 v2 w) t = true →
          ∃ w ∈ v1 :: v2 :: rest,
            covers (normalizePass (v2 :: rest) (normalizeStep ranges v1 v2) w) t = true := by
        intro w hw hc
        obtain ⟨u, hu, hcu⟩ := ih (normalizeStep ranges v1 v2) hs2 t w hw hc
        exact ⟨u, List.mem_cons_of_mem _ hu, hcu⟩
      have hstep : ∀ x, normalizeStep ranges v1 v2 x =
          if lr1.end_ < lr2.start then ranges x
          else setEnd (setEnd ranges v2 (max lr1.end_ lr2.end_)) v1 (lr2.start - 1) x := by
        intro x
        unfold normalizeStep
        simp only [h1, h2, if_neg (ne_of_lt hlt)]
        split <;> rfl
      obtain ⟨r, hr, hlo, hhi⟩ := covers_iff.mp hcov
      by_cases hdis : lr1.end_ < lr2.start
      · -- disjoint: nothing is written
        have hsame : ∀ x, normalizeStep ranges v1 v2 x = ranges x := fun x => by
          rw [hstep, if_pos hdis]
        rcases List.mem_cons.mp hv with rfl | hv
        · exact ⟨v, List.mem_cons_self _ _, by rw [hfinal1, hsame]; exact hcov⟩
        · exact htail v hv (by rw [hsame]; exact hcov)
      · have hnew1 : normalizeStep ranges v1 v2 v1 =
            some { lr1 with end_ := lr2.start - 1 } := by
          rw [hstep, if_neg hdis, setEnd_apply, if_pos rfl, setEnd_apply, if_neg hv2notin.symm,
            h1]
          rfl
        have hnew2 : normalizeStep ranges v1 v2 v2 =
            some { lr2 with end_ := max lr1.end_ lr2.end_ } := by
          rw [hstep, if_neg hdis, setEnd_apply, if_neg hv2notin, setEnd_apply, if_pos rfl, h2]
          rfl
        have hother : ∀ x, x ≠ v1 → x ≠ v2 → normalizeStep ranges v1 v2 x = ranges x := by
          intro x hx1 hx2
          rw [hstep, if_neg hdis, setEnd_apply, if_neg hx1, setEnd_apply, if_neg hx2]
        have hcov2 : lr2.start ≤ t → t ≤ max lr1.end_ lr2.end_ →
            covers (normalizeStep ranges v1 v2 v2) t = true := by
          intro ha hb
          rw [hnew2]
          exact covers_iff.mpr ⟨_, rfl, ha, hb⟩
        rcases List.mem_cons.mp hv with rfl | hv
        · rw [h1] at hr
          cases hr
          by_cases ht : t < lr2.start
          · refine ⟨v, List.mem_cons_self _ _, ?_⟩
            rw [hfinal1, hnew1]
            exact covers_iff.mpr ⟨_, rfl, hlo, by simp only; omega⟩
          · exact htail v2 (List.mem_cons_self _ _)
              (hcov2 (by omega) (le_trans hhi (le_max_left _ _)))
        · by_cases hv2 : v = v2
          · subst hv2
            rw [h2] at hr
            cases hr
            exact htail v (List.mem_cons_self _ _)
              (hcov2 hlo (le_trans hhi (le_max_right _ _)))
          · have hv1 : v ≠ v1 := fun e => hnotin (e ▸ hv)
            exact htail v hv (by rw [hother v hv1 hv2]; exact hcov)

theorem collectLiveRanges_fst (ranges : HloValue → Option TimeBound) :
    ∀ values : List HloValue,
      (collectLiveRanges ranges values).map Prod.fst = values.filter (tracked ranges) := by
  intro values
  induction values with
  | nil => rfl
  | cons v rest ih =>
    unfold collectLiveRanges
    cases hv : ranges v with
    | none =>
      have : tracked ranges v = false := by simp [tracked, hv]
      simp only [List.filter_cons, this, Bool.false_eq_true, if_false]
      exact ih
    | some tb =>
      have : tracked ranges v = true := by simp [tracked, hv]
      simp only [List.filter_cons, this, if_true, List.map_cons, ih]

theorem aliasedLiveRanges_perm {c_sort : LiveRangeSort} (hsort : SortsByStartEnd c_sort)
    (ranges : HloValue → Option TimeBound)
    (values : List HloValue) :
    (aliasedLiveRanges c_sort ranges values).Perm (values.filter (tracked ranges)) := by
  unfold aliasedLiveRanges
  rw [← collectLiveRanges_fst]
  exact (hsort _).1.map _

/-- When the tracked values of a buffer have pairwise different starts, the
pass visits them in strictly increasing order of start. -/
theorem aliasedLiveRanges_strict {c_sort : LiveRangeSort} (hsort : SortsByStartEnd c_sort)
    {ranges : HloValue → Option TimeBound}
    {values : List HloValue}
    (hd : values.Pairwise (fun x y => ∀ rx ry, ranges x = some rx → ranges y = some ry →
      rx.start ≠ ry.start)) :
    StrictStarts ranges (aliasedLiveRanges c_sort ranges values) := by
  have hsub : (values.filter (tracked ranges)).Pairwise
      (fun x y => ∀ rx ry, ranges x = some rx → ranges y = some ry → rx.start ≠ ry.start) :=
    hd.sublist (List.filter_sublist _)
  have hperm := (aliasedLiveRanges_perm hsort ranges values).pairwise_iff
    (R := fun x y => ∀ rx ry, ranges x = some rx → ranges y = some ry → rx.start ≠ ry.start)
    (fun {x y} h rx ry hx hy => (h ry rx hy hx).symm)
  have hne := hperm.mpr hsub
  have hle := aliasedLiveRanges_sorted hsort ranges values
  unfold StartSorted at hle
  unfold StrictStarts
  refine List.Pairwise.imp_of_mem ?_ (hle.and hne)
  rintro a b ha hb ⟨h1, h2⟩
  obtain ⟨_, ra, hra⟩ := mem_aliasedLiveRanges hsort ha
  obtain ⟨_, rb, hrb⟩ := mem_aliasedLiveRanges hsort hb
  exact ⟨ra, rb, hra, hrb, lt_of_le_of_ne (h1 ra rb hra hrb) (h2 ra rb hra hrb)⟩

theorem normalizeBuffer_covers {c_sort : LiveRangeSort} (hsort : SortsByStartEnd c_sort)
    {ranges : HloValue → Option TimeBound}
    {values : List HloValue}
    (hd : values.Pairwise (fun x y => ∀ rx ry, ranges x = some rx → ranges y = some ry →
      rx.start ≠ ry.start))
    {t : Int} (h : bufferLive ranges values t = true) :
    bufferLive (normalizeBuffer c_sort ranges values) values t = true := by
  obtain ⟨v, hv, hcov⟩ := bufferLive_iff.mp h
  have htr : tracked ranges v = true := by
    obtain ⟨r, hr, _⟩ := covers_iff.mp hcov
    simp [tracked, hr]
  have hmem : v ∈ aliasedLiveRanges c_sort ranges values :=
    (aliasedLiveRanges_perm hsort ranges values).mem_iff.mpr
      (List.mem_filter.mpr ⟨hv, htr⟩)
  obtain ⟨w, hw, hcw⟩ := normalizePass_covers _ ranges (aliasedLiveRanges_strict hsort hd) t v hmem hcov
  exact bufferLive_iff.mpr ⟨w, (mem_aliasedLiveRanges hsort hw).1, hcw⟩

theorem tripleState_starts (x y z : Int × Int) (hxy : x.1 ≠ y.1) (hxz : x.1 ≠ z.1)
    (hyz : y.1 ≠ z.1) :
    [aliasZ, aliasY, aliasX].Pairwise (fun a b => ∀ ra rb,
      (tripleState x y z).buffer_live_ranges a = some ra →
      (tripleState x y z).buffer_live_ranges b = some rb → ra.start ≠ rb.start) := by
  have ex : (tripleState x y z).buffer_live_ranges aliasX =
      some { start := x.1, end_ := x.2, end_position := none } := by
    simp [tripleState]
  have ey : (tripleState x y z).buffer_live_ranges aliasY =
      some { start := y.1, end_ := y.2, end_position := none } := by
    have : aliasY ≠ aliasX := by decide
    simp [tripleState, this]
  have ez : (tripleState x y z).buffer_live_ranges aliasZ =
      some { start := z.1, end_ := z.2, end_position := none } := by
    have h1 : aliasZ ≠ aliasX := by decide
    have h2 : aliasZ ≠ aliasY := by decide
    simp [tripleState, h1, h2]
  refine List.Pairwise.cons ?_ (List.Pairwise.cons ?_ (List.pairwise_singleton _ _))
  · intro b hb ra rb ha hb2
    rw [ez] at ha
    cases ha
    simp only [List.mem_cons, List.mem_singleton, List.not_mem_nil, or_false] at hb
    rcases hb with rfl | rfl
    · rw [ey] at hb2; cases hb2; exact fun e => hyz e.symm
    · rw [ex] at hb2; cases hb2; exact fun e => hxz e.symm
  · intro b hb ra rb ha hb2
    rw [ey] at ha
    cases ha
    simp only [List.mem_singleton] at hb
    subst hb
    rw [ex] at hb2; cases hb2; exact fun e => hxy e.symm

/-! ## Lemmas about the part of the sort -/

/-- A buffer with at most one value is left as it is, whatever the sort. -/
theorem normalizeBuffers_short {c_sort : LiveRangeSort} (hsort : SortsByStartEnd c_sort) :
    ∀ (buffers : List (List HloValue)) (ranges : HloValue → Option TimeBound),
      (∀ b ∈ buffers, b.length ≤ 1) → buffers.foldl (normalizeBuffer c_sort) ranges = ranges := by
  intro buffers
  induction buffers with
  | nil => intro ranges _; rfl
  | cons b rest ih =>
    intro ranges h
    have hb := h b (List.mem_cons_self _ _)
    have hlen : (b.filter (tracked ranges)).length < 2 :=
      lt_of_le_of_lt (List.length_filter_le _ _) (by omega)
    rw [List.foldl_cons, normalizeBuffer_few hsort hlen]
    exact ih ranges (fun c hc => h c (List.mem_cons_of_mem _ hc))

/-- When every buffer holds at most one value, `Run` returns the same with
every sort. -/
theorem Run_short_buffers {c_sort : LiveRangeSort} (hsort : SortsByStartEnd c_sort)
    (m : HloModule) (schedule : HloSchedule) (aa : HloAliasAnalysis) (computation : CompId)
    (ms : Bool) (fuel : Nat) (h : ∀ b ∈ aa.buffers, b.length ≤ 1) :
    Run c_sort m schedule aa computation ms fuel =
      Run exampleSort m schedule aa computation ms fuel := by
  unfold Run
  cases FlattenSchedule m schedule ms fuel computation HloLiveRange.init with
  | error e => rfl
  | ok st1 =>
    simp only
    cases CalculateBufferStartEndMap m aa ms st1 with
    | error e => rfl
    | ok st2 =>
      simp only [NormalizeAliasedBuffers]
      rw [normalizeBuffers_short hsort aa.buffers _ h,
        normalizeBuffers_short exampleSort_sorts aa.buffers _ h]

/-- When the ranges of the tracked values of a buffer differ pairwise in
`(start, end)`, every sort gives the pass the same order. -/
theorem aliasedLiveRanges_any_sort {s1 s2 : LiveRangeSort} (h1 : SortsByStartEnd s1)
    (h2 : SortsByStartEnd s2) (ranges : HloValue → Option TimeBound) (values : List HloValue)
    (hkeys : (collectLiveRanges ranges values).Pairwise
      (fun a b => timeBoundLess a.2 b.2 = true ∨ timeBoundLess b.2 a.2 = true)) :
    aliasedLiveRanges s1 ranges values = aliasedLiveRanges s2 ranges values := by
  unfold aliasedLiveRanges
  obtain ⟨p1, o1⟩ := h1 (collectLiveRanges ranges values)
  obtain ⟨p2, o2⟩ := h2 (collectLiveRanges ranges values)
  have hsym : Symmetric (fun a b : HloValue × TimeBound =>
      timeBoundLess a.2 b.2 = true ∨ timeBoundLess b.2 a.2 = true) :=
    fun a b h => h.symm
  have hanti : IsAntisymm (HloValue × TimeBound)
      (fun a b => a ∈ collectLiveRanges ranges values ∧ b ∈ collectLiveRanges ranges values ∧
        timeBoundNotAfter a b) := by
    refine ⟨?_⟩
    rintro a b ⟨ha, hb, hab⟩ ⟨_, _, hba⟩
    by_contra hne
    have hab' : timeBoundLess b.2 a.2 = false := hab
    have hba' : timeBoundLess a.2 b.2 = false := hba
    rcases hkeys.forall hsym ha hb hne with h | h
    · rw [hba'] at h; cases h
    · rw [hab'] at h; cases h
  have heq : s1 (collectLiveRanges ranges values) = s2 (collectLiveRanges ranges values) :=
    @List.eq_of_perm_of_sorted _ _ hanti _ _ (p1.trans p2.symm)
      (List.Pairwise.imp_of_mem
        (fun {a b} ha hb hab => ⟨p1.mem_iff.mp ha, p1.mem_iff.mp hb, hab⟩) o1)
      (List.Pairwise.imp_of_mem
        (fun {a b} ha hb hab => ⟨p2.mem_iff.mp ha, p2.mem_iff.mp hb, hab⟩) o2)
  rw [heq]

/-- For an analysis with one buffer whose tracked ranges differ pairwise in
`(start, end)`, `NormalizeAliasedBuffers` returns the same with every sort. -/
theorem NormalizeAliasedBuffers_any_sort {s1 s2 : LiveRangeSort} (h1 : SortsByStartEnd s1)
    (h2 : SortsByStartEnd s2) (aa : HloAliasAnalysis) (st : HloLiveRange) (b : List HloValue)
    (hb : aa.buffers = [b])
    (hkeys : (collectLiveRanges st.buffer_live_ranges b).Pairwise
      (fun x y => timeBoundLess x.2 y.2 = true ∨ timeBoundLess y.2 x.2 = true)) :
    NormalizeAliasedBuffers s1 aa st = NormalizeAliasedBuffers s2 aa st := by
  unfold NormalizeAliasedBuffers
  rw [hb]
  simp only [List.foldl_cons, List.foldl_nil, normalizeBuffer]
  rw [aliasedLiveRanges_any_sort h1 h2 _ _ hkeys]

/-! ## Lemmas about the termination of the walk -/

theorem inWalk_timedWithin {schedule : HloSchedule} {rank : CompId → Nat} {c c2 : CompId}
    {seq done : List InstrId} {st0 st : HloLiveRange}
    (hseq : schedule.sequences c = some seq) (hdone : ∀ j ∈ done, j ∈ seq)
    (h0 : TimedWithin schedule rank (rank c) st0)
    (hw : InWalk schedule rank (rank c) done st0 st) (hr : rank c2 < rank c) :
    TimedWithin schedule rank (rank c2) st := by
  intro j t hj
  rcases hw.times j t hj with h | h | ⟨x, sx, hx, hjx, hsp⟩
  · obtain ⟨x, sx, hx, hjx, hsp | hrk⟩ := h0 j t h
    · exact ⟨x, sx, hx, hjx, Or.inl (hw.spans_kept x hsp)⟩
    · exact ⟨x, sx, hx, hjx, Or.inr (lt_trans hr hrk)⟩
  · exact ⟨c, seq, hseq, hdone j h, Or.inr hr⟩
  · exact ⟨x, sx, hx, hjx, Or.inl hsp⟩

theorem inWalk_step {schedule : HloSchedule} {rank : CompId → Nat} {r : Nat} {c2 : CompId}
    {done : List InstrId} {st0 st st' : HloLiveRange}
    (hw : InWalk schedule rank r done st0 st) (hd : WalkDone schedule rank c2 st st')
    (hr : rank c2 < r) : InWalk schedule rank r done st0 st' := by
  refine ⟨fun x hx => hd.spans_kept x (hw.spans_kept x hx), ?_, ?_⟩
  · intro x hx
    rcases hd.new_spans x hx with h | h
    · exact hw.new_spans x h
    · exact Or.inr (lt_of_le_of_lt h hr)
  · intro j t hj
    rcases hd.new_times j t hj with h | ⟨x, sx, hx, hjx, hsp⟩
    · rcases hw.times j t h with h1 | h1 | ⟨x, sx, hx, hjx, hsp⟩
      · exact Or.inl h1
      · exact Or.inr (Or.inl h1)
      · exact Or.inr (Or.inr ⟨x, sx, hx, hjx, hd.spans_kept x hsp⟩)
    · exact Or.inr (Or.inr ⟨x, sx, hx, hjx, hsp⟩)

theorem flattenCalled_returns {schedule : HloSchedule} {rank : CompId → Nat} {c : CompId}
    {recur : CompId → HloLiveRange → Except Failure HloLiveRange}
    (hrec : TermSpec schedule rank (rank c) recur)
    {seq done : List InstrId} {st0 : HloLiveRange}
    (hseq : schedule.sequences c = some seq) (hdone : ∀ j ∈ done, j ∈ seq)
    (h0 : TimedWithin schedule rank (rank c) st0) :
    ∀ (cs : List CompId) (st : HloLiveRange), (∀ c2 ∈ cs, rank c2 < rank c) →
      InWalk schedule rank (rank c) done st0 st →
      ∃ st', flattenCalled recur cs st = .ok st' ∧
        InWalk schedule rank (rank c) done st0 st' := by
  intro cs
  induction cs with
  | nil => intro st _ hw; exact ⟨st, rfl, hw⟩
  | cons c2 rest ih =>
    intro st hrk hw
    have hr := hrk c2 (List.mem_cons_self _ _)
    obtain ⟨st1, h1, hd⟩ := hrec c2 st hr (inWalk_timedWithin hseq hdone h0 hw hr)
    obtain ⟨st', h2, hw2⟩ := ih st1 (fun x hx => hrk x (List.mem_cons_of_mem _ hx))
      (inWalk_step hw hd hr)
    exact ⟨st', by simp only [flattenCalled, h1]; exact h2, hw2⟩

theorem flattenInstruction_returns {m : HloModule} {schedule : HloSchedule} {ms : Bool}
    {rank : CompId → Nat} (hws : WellScheduled m schedule ms rank) {c : CompId}
    {recur : CompId → HloLiveRange → Except Failure HloLiveRange}
    (hrec : TermSpec schedule rank (rank c) recur)
    {seq done : List InstrId} {i : InstrId} {st0 st : HloLiveRange}
    (hseq : schedule.sequences c = some seq) (hdone : ∀ j ∈ done, j ∈ seq)
    (hi : i ∈ seq) (hnew : i ∉ done)
    (hfresh : st0.computation_span_times c = none)
    (h0 : TimedWithin schedule rank (rank c) st0)
    (hw : InWalk schedule rank (rank c) done st0 st) :
    ∃ st', flattenInstruction m ms recur i st = .ok st' ∧
      InWalk schedule rank (rank c) (done ++ [i]) st0 st' := by
  have hsub : ∃ st1, flattenSub m ms recur i st = .ok st1 ∧
      InWalk schedule rank (rank c) done st0 st1 := by
    rw [flattenSub_eq]
    cases hms : ms with
    | false => exact ⟨st, rfl, hw⟩
    | true =>
      simp only [if_true]
      exact flattenCalled_returns hrec hseq hdone h0 _ st
        (fun c2 hc2 => hws.acyclic hms c seq i c2 hseq hi hc2) hw
  obtain ⟨st1, h1, hw1⟩ := hsub
  have hspan1 : st1.computation_span_times c = none := by
    by_contra hne
    rcases hw1.new_spans c hne with h | h
    · exact h hfresh
    · exact lt_irrefl _ h
  have hnone : st1.instruction_schedule i = none := by
    cases ht : st1.instruction_schedule i with
    | none => rfl
    | some t =>
      exfalso
      rcases hw1.times i t ht with h | h | ⟨x, sx, hx, hix, hsp⟩
      · obtain ⟨x, sx, hx, hix, hsp | hrk⟩ := h0 i t h
        · have := hws.distinct x c sx seq i hx hseq hix hi
          subst this
          exact hsp hfresh
        · have := hws.distinct x c sx seq i hx hseq hix hi
          subst this
          exact lt_irrefl _ hrk
      · exact hnew h
      · have := hws.distinct x c sx seq i hx hseq hix hi
        subst this
        exact hsp hspan1
  refine ⟨{ st1 with
      instruction_schedule := mapSet st1.instruction_schedule i
        (st1.flattened_instruction_sequence.length : Int)
      flattened_instruction_sequence := st1.flattened_instruction_sequence ++ [i] }, ?_, ?_⟩
  · simp only [flattenInstruction, h1, assignTime, hnone]
  · refine ⟨hw1.spans_kept, hw1.new_spans, ?_⟩
    intro j t hj
    simp only [mapSet] at hj
    by_cases hji : j = i
    · exact Or.inr (Or.inl (by rw [hji]; simp))
    · simp only [hji, if_false] at hj
      rcases hw1.times j t hj with h | h | h
      · exact Or.inl h
      · exact Or.inr (Or.inl (List.mem_append_left _ h))
      · exact Or.inr (Or.inr h)

theorem flattenSequence_returns {m : HloModule} {schedule : HloSchedule} {ms : Bool}
    {rank : CompId → Nat} (hws : WellScheduled m schedule ms rank) {c : CompId}
    {recur : CompId → HloLiveRange → Except Failure HloLiveRange}
    (hrec : TermSpec schedule rank (rank c) recur)
    {seq : List InstrId} {st0 : HloLiveRange}
    (hseq : schedule.sequences c = some seq)
    (hfresh : st0.computation_span_times c = none)
    (h0 : TimedWithin schedule rank (rank c) st0) :
    ∀ (todo done : List InstrId) (st : HloLiveRange), seq = done ++ todo →
      InWalk schedule rank (rank c) done st0 st →
      ∃ st', flattenSequence m ms recur todo st = .ok st' ∧
        InWalk schedule rank (rank c) seq st0 st' := by
  intro todo
  induction todo with
  | nil =>
    intro done st hsplit hw
    rw [List.append_nil] at hsplit
    subst hsplit
    exact ⟨st, rfl, hw⟩
  | cons i rest ih =>
    intro done st hsplit hw
    have hnd := hws.nodup c seq hseq
    rw [hsplit] at hnd
    have hnew : i ∉ done := fun h =>
      (List.nodup_append.mp hnd).2.2 h (List.mem_cons_self _ _)
    obtain ⟨st1, h1, hw1⟩ := flattenInstruction_returns hws hrec hseq
      (fun j hj => by rw [hsplit]; exact List.mem_append_left _ hj)
      (by rw [hsplit]; exact List.mem_append_right _ (List.mem_cons_self _ _))
      hnew hfresh h0 hw
    obtain ⟨st', h2, hw2⟩ := ih (done ++ [i]) st1 (by rw [hsplit]; simp) hw1
    exact ⟨st', by simp only [flattenSequence, h1]; exact h2, hw2⟩

theorem FlattenSchedule_returns {m : HloModule} {schedule : HloSchedule} {ms : Bool}
    {rank : CompId → Nat} (hws : WellScheduled m schedule ms rank) :
    ∀ n, TermSpec schedule rank n (FlattenSchedule m schedule ms n) := by
  intro n
  induction n with
  | zero => intro c st h; exact absurd h (Nat.not_lt_zero _)
  | succ n ih =>
    intro c st hr h0
    have hrec : TermSpec schedule rank (rank c) (FlattenSchedule m schedule ms n) :=
      fun c2 st2 h2 ht => ih c2 st2 (lt_of_lt_of_le h2 (Nat.lt_succ_iff.mp hr)) ht
    show ∃ st', flattenBody m schedule ms (FlattenSchedule m schedule ms n) c st = .ok st' ∧ _
    unfold flattenBody
    cases hseq : schedule.sequences c with
    | none =>
      exact ⟨_, rfl, fun x hx => hx, fun x hx => Or.inl hx, fun j t hj => Or.inl hj⟩
    | some seq =>
      cases hsp : st.computation_span_times c with
      | some s =>
        exact ⟨st, rfl, fun x hx => hx, fun x hx => Or.inl hx, fun j t hj => Or.inl hj⟩
      | none =>
        obtain ⟨st1, h1, hw⟩ := flattenSequence_returns hws hrec hseq hsp h0 seq [] st rfl
          ⟨fun x hx => hx, fun x hx => Or.inl hx, fun j t hj => Or.inl hj⟩
        simp only [h1]
        refine ⟨_, rfl, ?_, ?_, ?_⟩
        · intro x hx
          simp only [mapSet]
          split
          · simp
          · exact hw.spans_kept x hx
        · intro x hx
          by_cases hxc : x = c
          · exact Or.inr (by rw [hxc])
          · simp only [mapSet, if_neg hxc] at hx
            rcases hw.new_spans x hx with h | h
            · exact Or.inl h
            · exact Or.inr (le_of_lt h)
        · intro j t hj
          rcases hw.times j t hj with h | h | ⟨x, sx, hx, hjx, hsx⟩
          · exact Or.inl h
          · exact Or.inr ⟨c, seq, hseq, h, by simp [mapSet]⟩
          · refine Or.inr ⟨x, sx, hx, hjx, ?_⟩
            simp only [mapSet]
            split
            · simp
            · exact hsx

theorem whileSchedule_cases {c : CompId} {seq : List InstrId}
    (h : whileSchedule.sequences c = some seq) :
    (c = 0 ∧ seq = [3, 2]) ∨ (c = 1 ∧ seq = [4, 1]) ∨ (c = 2 ∧ seq = [0]) := by
  simp only [whileSchedule] at h
  split at h
  · cases h; exact Or.inl ⟨by assumption, rfl⟩
  · split at h
    · cases h; exact Or.inr (Or.inl ⟨by assumption, rfl⟩)
    · split at h
      · cases h; exact Or.inr (Or.inr ⟨by assumption, rfl⟩)
      · cases h

theorem whileModule_wellScheduled :
    WellScheduled whileModule whileSchedule true (fun c => 2 - c) := by
  refine ⟨?_, ?_, ?_⟩
  · intro _ c seq i c2 hs hi hc2
    rcases whileSchedule_cases hs with ⟨rfl, rfl⟩ | ⟨rfl, rfl⟩ | ⟨rfl, rfl⟩
    · simp only [List.mem_cons, List.mem_singleton, List.not_mem_nil, or_false] at hi
      rcases hi with rfl | rfl
      · have e : subComputations whileModule 3 = [] := by decide
        rw [e] at hc2
        cases hc2
      · have e : subComputations whileModule 2 = [1, 2] := by decide
        rw [e] at hc2
        simp only [List.mem_cons, List.mem_singleton, List.not_mem_nil, or_false] at hc2
        rcases hc2 with rfl | rfl <;> decide
    · simp only [List.mem_cons, List.mem_singleton, List.not_mem_nil, or_false] at hi
      rcases hi with rfl | rfl
      · have e : subComputations whileModule 4 = [] := by decide
        rw [e] at hc2
        cases hc2
      · have e : subComputations whileModule 1 = [2] := by decide
        rw [e] at hc2
        simp only [List.mem_singleton] at hc2
        subst hc2
        decide
    · simp only [List.mem_singleton] at hi
      subst hi
      have e : subComputations whileModule 0 = [] := by decide
      rw [e] at hc2
      cases hc2
  · intro c seq hs
    rcases whileSchedule_cases hs with ⟨rfl, rfl⟩ | ⟨rfl, rfl⟩ | ⟨rfl, rfl⟩ <;> decide
  · intro c1 c2 s1 s2 i h1 h2 hi1 hi2
    rcases whileSchedule_cases h1 with ⟨rfl, rfl⟩ | ⟨rfl, rfl⟩ | ⟨rfl, rfl⟩ <;>
      rcases whileSchedule_cases h2 with ⟨rfl, rfl⟩ | ⟨rfl, rfl⟩ | ⟨rfl, rfl⟩ <;>
      simp only [List.mem_cons, List.mem_singleton, List.not_mem_nil, or_false] at hi1 hi2 <;>
      first
        | rfl
        | (rcases hi1 with rfl | rfl <;> exact absurd hi2 (by decide))

/-! ## Lemmas about spans and earlier instructions -/

theorem spanFrom_refl (st : HloLiveRange) : SpanFrom st st :=
  fun _ _ h => Or.inl h

theorem spanFrom_trans {a b c : HloLiveRange} (h1 : SpanFrom a b) (h2 : SpanFrom b c)
    (hlen : a.schedule_end_time ≤ b.schedule_end_time) : SpanFrom a c := by
  intro x sx hx
  rcases h2 x sx hx with h | h
  · exact h1 x sx h
  · exact Or.inr (le_trans hlen h)

theorem flattenCalled_spans
    {recur : CompId → HloLiveRange → Except Failure HloLiveRange} (hrec : SpanSpec recur) :
    ∀ (cs : List CompId) (st st' : HloLiveRange), flattenCalled recur cs st = .ok st' →
      TimeExt st st' ∧ SpanFrom st st' := by
  intro cs
  induction cs with
  | nil => intro st st' h; cases h; exact ⟨timeExt_refl _, spanFrom_refl _⟩
  | cons c rest ih =>
    intro st st' h
    cases h1 : recur c st with
    | error e => simp only [flattenCalled, h1] at h; cases h
    | ok st1 =>
      simp only [flattenCalled, h1] at h
      obtain ⟨t1, s1⟩ := hrec c st st1 h1
      obtain ⟨t2, s2⟩ := ih st1 st' h
      exact ⟨timeExt_trans t1 t2, spanFrom_trans s1 s2 (timeExt_length_le t1)⟩

theorem flattenInstruction_spans {m : HloModule} {ms : Bool}
    {recur : CompId → HloLiveRange → Except Failure HloLiveRange} (hrec : SpanSpec recur)
    {i : InstrId} {st st' : HloLiveRange} (h : flattenInstruction m ms recur i st = .ok st') :
    ∃ st1, flattenSub m ms recur i st = .ok st1 ∧ assignTime i st1 = .ok st' ∧
      TimeExt st st1 ∧ SpanFrom st st1 ∧ TimeExt st1 st' ∧
      st'.computation_span_times = st1.computation_span_times := by
  obtain ⟨st1, hs, ha⟩ := flattenInstruction_ok h
  have hsub : TimeExt st st1 ∧ SpanFrom st st1 := by
    have hs2 := hs
    rw [flattenSub_eq] at hs2
    cases ms with
    | false =>
      simp only [Bool.false_eq_true, if_false] at hs2
      cases hs2
      exact ⟨timeExt_refl _, spanFrom_refl _⟩
    | true =>
      simp only [if_true] at hs2
      exact flattenCalled_spans hrec _ st st1 hs2
  refine ⟨st1, hs, ha, hsub.1, hsub.2, assignTime_timeExt ha, ?_⟩
  obtain ⟨_, rfl⟩ := assignTime_ok ha
  rfl

theorem flattenSequence_spans {m : HloModule} {ms : Bool}
    {recur : CompId → HloLiveRange → Except Failure HloLiveRange} (hrec : SpanSpec recur) :
    ∀ (todo : List InstrId) (st st' : HloLiveRange),
      flattenSequence m ms recur todo st = .ok st' → TimeExt st st' ∧ SpanFrom st st' := by
  intro todo
  induction todo with
  | nil => intro st st' h; cases h; exact ⟨timeExt_refl _, spanFrom_refl _⟩
  | cons i rest ih =>
    intro st st' h
    cases h1 : flattenInstruction m ms recur i st with
    | error e => simp only [flattenSequence, h1] at h; cases h
    | ok st2 =>
      simp only [flattenSequence, h1] at h
      obtain ⟨st1, _, _, t1, s1, t2, hsp⟩ := flattenInstruction_spans hrec h1
      obtain ⟨t3, s3⟩ := ih st2 st' h
      have s2 : SpanFrom st st2 := fun x sx hx => s1 x sx (by rw [← hsp]; exact hx)
      exact ⟨timeExt_trans (timeExt_trans t1 t2) t3,
        spanFrom_trans s2 s3 (timeExt_length_le (timeExt_trans t1 t2))⟩

theorem FlattenSchedule_spans (m : HloModule) (schedule : HloSchedule) (ms : Bool) :
    ∀ fuel, SpanSpec (FlattenSchedule m schedule ms fuel) := by
  intro fuel
  induction fuel with
  | zero => intro c st st' h; cases h
  | succ n ih =>
    intro c st st' h
    refine ⟨FlattenSchedule_timeExt m schedule ms (n + 1) c st st' h, ?_⟩
    rcases flattenBody_ok (show flattenBody m schedule ms (FlattenSchedule m schedule ms n)
        c st = .ok st' from h) with ⟨_, rfl⟩ | ⟨_, _, _, _, rfl⟩ | ⟨seq, st1, _, _, hwalk, rfl⟩
    · exact spanFrom_refl _
    · exact spanFrom_refl _
    · intro x sx hx
      simp only [mapSet] at hx
      by_cases hxc : x = c
      · simp only [hxc, if_true, Option.some.injEq] at hx
        subst hx
        exact Or.inr (le_refl _)
      · simp only [hxc, if_false] at hx
        exact (flattenSequence_spans ih seq st st1 hwalk).2 x sx hx

theorem flatInv_time_lt {m : HloModule} {schedule : HloSchedule} {ms : Bool}
    {st : HloLiveRange} (hinv : FlatInv m schedule ms st) {j : InstrId} {t : Int}
    (h : st.instruction_schedule j = some t) : t < st.schedule_end_time := by
  obtain ⟨i, rfl, hi⟩ := hinv.index_of_time j t h
  have := (List.getElem?_eq_some.mp hi).1
  unfold HloLiveRange.schedule_end_time
  omega

theorem gapIn_step {m : HloModule} {schedule : HloSchedule} {ms : Bool}
    {st st' : HloLiveRange} (hinv : FlatInv m schedule ms st)
    (hinv' : FlatInv m schedule ms st') (ht : TimeExt st st') (hs : SpanFrom st st')
    {l : List InstrId} (htimed : ∀ a ∈ l, ∃ t, st.instruction_schedule a = some t)
    (h : GapIn st l) : GapIn st' l := by
  unfold GapIn at h ⊢
  refine List.Pairwise.imp_of_mem ?_ h
  intro a w ha hw hR ta tw x sx hta htw hx he
  obtain ⟨ta0, hta0⟩ := htimed a ha
  obtain ⟨tw0, htw0⟩ := htimed w hw
  have e1 := ht.time_kept a ta0 hta0
  have e2 := ht.time_kept w tw0 htw0
  rw [hta] at e1
  rw [htw] at e2
  cases e1
  cases e2
  rcases hs x sx hx with h0 | h0
  · exact hR ta tw x sx hta0 htw0 h0 he
  · have h1 := (hinv'.span_covers x sx hx).2.1
    have h2 := flatInv_time_lt hinv htw0
    omega

theorem gap_assign {m : HloModule} {schedule : HloSchedule} {ms : Bool}
    {st st' : HloLiveRange} (hinv : FlatInv m schedule ms st)
    (hinv' : FlatInv m schedule ms st') (ht : TimeExt st st')
    (hsp : st'.computation_span_times = st.computation_span_times)
    (h : Gap schedule st) : Gap schedule st' := by
  intro c seq hc hseq
  rw [hsp] at hc
  refine gapIn_step hinv hinv' ht (fun x sx hx => Or.inl (by rw [← hsp]; exact hx)) ?_
    (h c seq hc hseq)
  intro a ha
  cases hs : st.computation_span_times c with
  | none => exact absurd hs hc
  | some s =>
    obtain ⟨t, ht, _⟩ := (hinv.span_covers c s hs).2.2.2 seq hseq a ha
    exact ⟨t, ht⟩

theorem flattenCalled_gap {m : HloModule} {schedule : HloSchedule} {ms : Bool}
    {recur : CompId → HloLiveRange → Except Failure HloLiveRange}
    (hF : FlatSpec m schedule ms recur) (hG : GapSpec m schedule ms recur) :
    ∀ (cs : List CompId) (st st' : HloLiveRange), FlatInv m schedule ms st →
      flattenCalled recur cs st = .ok st' → Gap schedule st → Gap schedule st' := by
  intro cs
  induction cs with
  | nil => intro st st' _ h hg; cases h; exact hg
  | cons c rest ih =>
    intro st st' hinv h hg
    cases h1 : recur c st with
    | error e => simp only [flattenCalled, h1] at h; cases h
    | ok st1 =>
      simp only [flattenCalled, h1] at h
      exact ih st1 st' (hF c st st1 hinv h1).1 h (hG c st st1 hinv h1 hg)

theorem flattenInstruction_gap {m : HloModule} {schedule : HloSchedule} {ms : Bool}
    {recur : CompId → HloLiveRange → Except Failure HloLiveRange}
    (hF : FlatSpec m schedule ms recur) (hS : SpanSpec recur)
    (hG : GapSpec m schedule ms recur) {i : InstrId} {st st' : HloLiveRange}
    (hinv : FlatInv m schedule ms st)
    (h : flattenInstruction m ms recur i st = .ok st') :
    FlatInv m schedule ms st' ∧ (Gap schedule st → Gap schedule st') ∧
    ∀ done, WalkGap st done → WalkGap st' (done ++ [i]) := by
  obtain ⟨st1, hs, ha, hinv1, _, _, hti, hflat, hsp, _, hinv', _⟩ :=
    flattenInstruction_spec hF hinv h
  obtain ⟨st1b, hsb, _, t1, s1, t2, _⟩ := flattenInstruction_spans hS h
  rw [hs] at hsb
  cases hsb
  have hlen' : st'.schedule_end_time = st1.schedule_end_time + 1 := by
    unfold HloLiveRange.schedule_end_time
    rw [hflat]
    simp
  refine ⟨hinv', ?_, ?_⟩
  · intro hg
    have hg1 : Gap schedule st1 := by
      have hs2 := hs
      rw [flattenSub_eq] at hs2
      cases ms with
      | false =>
        simp only [Bool.false_eq_true, if_false] at hs2
        cases hs2
        exact hg
      | true =>
        simp only [if_true] at hs2
        exact flattenCalled_gap hF hG _ st st1 hinv hs2 hg
    exact gap_assign hinv1 hinv' t2 hsp hg1
  · intro done hw
    have hstep : GapIn st' done :=
      gapIn_step hinv hinv' (timeExt_trans t1 t2)
        (fun x sx hx => s1 x sx (by rw [← hsp]; exact hx)) hw.timed hw.gap
    refine ⟨?_, ?_, ?_⟩
    · unfold GapIn at hstep ⊢
      rw [List.pairwise_append]
      refine ⟨hstep, List.pairwise_singleton _ _, ?_⟩
      intro a ha2 w hw2 ta tw x sx hta htw hx he
      rw [List.mem_singleton] at hw2
      subst hw2
      rw [hti] at htw
      cases htw
      obtain ⟨ta0, hta0⟩ := hw.timed a ha2
      have e1 := (timeExt_trans t1 t2).time_kept a ta0 hta0
      rw [hta] at e1
      cases e1
      have hlt := flatInv_time_lt hinv hta0
      rw [hsp] at hx
      rcases s1 x sx hx with h0 | h0
      · have hne : done ≠ [] := fun e => by rw [e] at ha2; cases ha2
        have := hw.settled hne x sx h0
        have := timeExt_length_le t1
        omega
      · omega
    · intro _ x sx hx
      rw [hsp] at hx
      have := (hinv1.span_covers x sx hx).2.2.1
      omega
    · intro a ha2
      rcases List.mem_append.mp ha2 with h1 | h1
      · obtain ⟨t, ht⟩ := hw.timed a h1
        exact ⟨t, (timeExt_trans t1 t2).time_kept a t ht⟩
      · rw [List.mem_singleton] at h1
        subst h1
        exact ⟨_, hti⟩

theorem flattenSequence_gap {m : HloModule} {schedule : HloSchedule} {ms : Bool}
    {recur : CompId → HloLiveRange → Except Failure HloLiveRange}
    (hF : FlatSpec m schedule ms recur) (hS : SpanSpec recur)
    (hG : GapSpec m schedule ms recur) :
    ∀ (todo done : List InstrId) (st st' : HloLiveRange), FlatInv m schedule ms st →
      flattenSequence m ms recur todo st = .ok st' →
      FlatInv m schedule ms st' ∧ (Gap schedule st → Gap schedule st') ∧
      (WalkGap st done → WalkGap st' (done ++ todo)) := by
  intro todo
  induction todo with
  | nil =>
    intro done st st' hinv h
    cases h
    exact ⟨hinv, fun hg => hg, fun hw => by rw [List.append_nil]; exact hw⟩
  | cons i rest ih =>
    intro done st st' hinv h
    cases h1 : flattenInstruction m ms recur i st with
    | error e => simp only [flattenSequence, h1] at h; cases h
    | ok st1 =>
      simp only [flattenSequence, h1] at h
      obtain ⟨hinv1, g1, w1⟩ := flattenInstruction_gap hF hS hG hinv h1
      obtain ⟨hinv', g2, w2⟩ := ih (done ++ [i]) st1 st' hinv1 h
      refine ⟨hinv', fun hg => g2 (g1 hg), ?_⟩
      intro hw
      have := w2 (w1 done hw)
      rw [List.append_assoc] at this
      exact this

theorem gapIn_record {m : HloModule} {schedule : HloSchedule} {ms : Bool}
    {st1 : HloLiveRange} (hinv1 : FlatInv m schedule ms st1) (c : CompId) (start : Int)
    {l : List InstrId} (h : GapIn st1 l) :
    GapIn { st1 with
      computation_span_times := mapSet st1.computation_span_times c
        { start := start, end_ := st1.schedule_end_time, end_position := none } } l := by
  unfold GapIn at h ⊢
  refine h.imp ?_
  intro a w hR ta tw x sx hta htw hx he
  simp only [mapSet] at hx
  by_cases hxc : x = c
  · simp only [hxc, if_true, Option.some.injEq] at hx
    subst hx
    have := flatInv_time_lt hinv1 htw
    simp only at he
    omega
  · simp only [hxc, if_false] at hx
    exact hR ta tw x sx hta htw hx he

theorem FlattenSchedule_gap (m : HloModule) (schedule : HloSchedule) (ms : Bool) :
    ∀ fuel, GapSpec m schedule ms (FlattenSchedule m schedule ms fuel) := by
  intro fuel
  induction fuel with
  | zero => intro c st st' _ h; cases h
  | succ n ih =>
    intro c st st' hinv h hg
    rcases flattenBody_ok (show flattenBody m schedule ms (FlattenSchedule m schedule ms n)
        c st = .ok st' from h) with ⟨_, rfl⟩ | ⟨_, _, _, _, rfl⟩ | ⟨seq, st1, hseq, _, hwalk, rfl⟩
    · exact hg
    · exact hg
    · obtain ⟨hinv1, g1, w1⟩ := flattenSequence_gap (FlattenSchedule_spec m schedule ms n)
        (FlattenSchedule_spans m schedule ms n) ih seq [] st st1 hinv hwalk
      have hw : WalkGap st1 seq := by
        have := w1 ⟨List.Pairwise.nil, fun h => absurd rfl h, fun a ha => by cases ha⟩
        simpa using this
      intro x sx hx hsx
      by_cases hxc : x = c
      · subst hxc
        rw [hseq] at hsx
        cases hsx
        exact gapIn_record hinv1 x _ hw.gap
      · have hx1 : st1.computation_span_times x ≠ none := by
          simpa [mapSet, hxc] using hx
        exact gapIn_record hinv1 c _ (g1 hg x sx hx1 hsx)

/-- The end computed for a value that is used only by one `kWhile`
instruction, is not a read-only entry parameter and has no position at the
root of a computation with a span. -/
theorem calculateValues_while_end {m : HloModule} {ms : Bool} {vs : List HloValue}
    {st st' : HloLiveRange} {o : HloValue} {w : InstrId} {tp t : Int}
    (hcalc : calculateValues m ms vs st = .ok st')
    (hmem : o ∈ vs) (hnew : st.buffer_live_ranges o = none) (hms : ms = true)
    (hw : m.opcode w = .kWhile)
    (hp : st.instruction_schedule (m.parameter_instruction0 (m.while_body w)) = some tp)
    (hd : st.instruction_schedule o.defining_instruction = some t) (ht : t ≤ tp)
    (hne : o.uses ≠ []) (huses : ∀ u ∈ o.uses, u.instruction = w)
    (hro : isReadOnlyEntryParameter m o = false)
    (hpos : ∀ p ∈ o.positions, p.instruction = m.root_instruction (m.parent p.instruction) →
      st.computation_span_times (m.parent p.instruction) = none) :
    ∃ tb, st'.buffer_live_ranges o = some tb ∧ tb.end_ = tp := by
  subst hms
  have htracked := calculateValues_tracked vs st st' hcalc o hmem (by rw [hd]; simp)
  cases hv : st'.buffer_live_ranges o with
  | none => exact absurd hv htracked
  | some tb =>
    rcases (calculateValues_trace vs st st' hcalc).2.2.2.2.2 o tb hv with
      h0 | ⟨_, _, stv, t2, g1, _, _, hsp, hdef, rfl, _⟩
    · rw [hnew] at h0; cases h0
    · have ht2 : t2 = t := by
        have := schedGrows_kept g1 hd
        rw [hdef] at this
        injection this
      subst ht2
      have hused : ∀ u ∈ o.uses, usedInstruction m true u =
          m.parameter_instruction0 (m.while_body w) := by
        intro u hu
        unfold usedInstruction
        rw [huses u hu]
        simp [hw]
      refine ⟨_, rfl, ?_⟩
      simp only [valueTimeBound, hro, positionsOf, hsp]
      rw [positionsLoop_end_unchanged m _ o o.positions _ hpos]
      simp only
      rw [usesLoop_same m true stv.instruction_schedule _ tp (schedGrows_kept g1 hp)
        o.uses _ hused]
      simp only [hne, if_false]
      exact max_eq_right (le_trans (bufferStartTime_le m _ o t2) ht)

/-- When the loop reaches a `kWhile` instruction `w` whose scheduled body has
no span once the condition has been flattened, the body is flattened in this
iteration: its span ends at the timestamp `w` receives. -/
theorem flattenInstruction_while_span (m : HloModule) (schedule : HloSchedule)
    (fuel : Nat) (w : InstrId) (st st' : HloLiveRange) (sb : List InstrId)
    (hw : m.opcode w = .kWhile)
    (hsb : schedule.sequences (m.while_body w) = some sb)
    (hbody : ∀ st1, FlattenSchedule m schedule true fuel (m.while_condition w) st = .ok st1 →
      st1.computation_span_times (m.while_body w) = none)
    (h : flattenInstruction m true (FlattenSchedule m schedule true fuel) w st = .ok st') :
    ∃ s tw, st'.computation_span_times (m.while_body w) = some s ∧
      st'.instruction_schedule w = some tw ∧ s.end_ = tw := by
  obtain ⟨st2, hs, ha⟩ := flattenInstruction_ok h
  have hne : ¬ (m.opcode w = .kCall ∨ m.opcode w = .kConditional) := by
    rw [hw]; simp
  unfold flattenSub at hs
  simp only [if_true, hne, if_false, hw] at hs
  cases hr : FlattenSchedule m schedule true fuel (m.while_condition w) st with
  | error e => simp [hr] at hs
  | ok st1 =>
    simp only [hr] at hs
    obtain ⟨hspan, _⟩ := FlattenSchedule_walk hs hsb (hbody st1 hr)
    obtain ⟨_, rfl⟩ := assignTime_ok ha
    exact ⟨_, st2.schedule_end_time, hspan, mapSet_self _ _ _, rfl⟩

/-! ## Lemmas about the tables of a run -/

theorem find_eq_some_iff {κ ν : Type} [DecidableEq κ] :
    ∀ (l : List (κ × ν)), (l.map Prod.fst).Nodup → ∀ (k : κ) (v : ν),
      (FlatHashMap.find { entries := l } k = some v ↔ (k, v) ∈ l) := by
  intro l
  induction l with
  | nil => intro _ k v; simp [FlatHashMap.find]
  | cons e rest ih =>
    intro hnd k v
    obtain ⟨hnot, hrest⟩ := List.nodup_cons.mp hnd
    have ih' := ih hrest k v
    simp only [FlatHashMap.find] at ih' ⊢
    by_cases hk : e.1 = k
    · simp only [List.find?_cons, hk, decide_True, Option.map_some', Option.some.injEq,
        List.mem_cons]
      constructor
      · intro h
        left
        exact Prod.ext hk.symm h.symm
      · rintro (h | h)
        · rw [← h]
        · exfalso
          apply hnot
          rw [hk]
          exact List.mem_map.mpr ⟨(k, v), h, rfl⟩
    · simp only [List.find?_cons, hk, decide_False, List.mem_cons]
      rw [ih']
      constructor
      · exact Or.inr
      · rintro (h | h)
        · exfalso
          apply hk
          rw [← h]
        · exact h

theorem find_eq_none_iff {κ ν : Type} [DecidableEq κ] (l : List (κ × ν)) (k : κ) :
    FlatHashMap.find { entries := l } k = none ↔ k ∉ l.map Prod.fst := by
  induction l with
  | nil => simp [FlatHashMap.find]
  | cons e rest ih =>
    simp only [FlatHashMap.find] at ih ⊢
    by_cases hk : e.1 = k
    · simp [List.find?_cons, hk]
    · simp only [List.find?_cons, hk, decide_False, List.map_cons, List.mem_cons, not_or]
      rw [ih]
      exact ⟨fun h => ⟨fun h2 => hk h2.symm, h⟩, fun h => h.2⟩

/-- The lookups of a table that received a new entry. -/
theorem find_placed {κ ν : Type} [DecidableEq κ] {l l' : List (κ × ν)} {k : κ} {v : ν}
    (hnd : (l.map Prod.fst).Nodup) (hk : FlatHashMap.find { entries := l } k = none)
    (hperm : l'.Perm ((k, v) :: l)) :
    (l'.map Prod.fst).Nodup ∧
      FlatHashMap.find { entries := l' } = mapSet (FlatHashMap.find { entries := l }) k v := by
  have hnd2 : (((k, v) :: l).map Prod.fst).Nodup := by
    rw [List.map_cons]
    exact List.nodup_cons.mpr ⟨(find_eq_none_iff l k).mp hk, hnd⟩
  have hnd' : (l'.map Prod.fst).Nodup := (hperm.map Prod.fst).nodup_iff.mpr hnd2
  refine ⟨hnd', ?_⟩
  funext x
  apply Option.ext
  intro w
  simp only [Option.mem_def]
  rw [find_eq_some_iff l' hnd' x w, hperm.mem_iff]
  unfold mapSet
  by_cases hx : x = k
  · subst hx
    simp only [if_true, List.mem_cons, Prod.mk.injEq, true_and, Option.some.injEq]
    constructor
    · rintro (h | h)
      · exact h.symm
      · exfalso
        exact (find_eq_none_iff l x).mp hk (List.mem_map.mpr ⟨(x, w), h, rfl⟩)
    · intro h
      exact Or.inl h.symm
  · simp only [hx, if_false, List.mem_cons, Prod.mk.injEq, false_and, false_or]
    exact (find_eq_some_iff l hnd x w).symm

/-- The lookups of a table in which the value of a key was overwritten. -/
theorem find_overwritten {κ ν : Type} [DecidableEq κ] {l : List (κ × ν)} {k : κ} (v : ν)
    (hnd : (l.map Prod.fst).Nodup) (hk : FlatHashMap.find { entries := l } k ≠ none) :
    ((l.map (fun e => if e.1 = k then (k, v) else e)).map Prod.fst).Nodup ∧
      FlatHashMap.find { entries := l.map (fun e => if e.1 = k then (k, v) else e) } =
        mapSet (FlatHashMap.find { entries := l }) k v := by
  have hkeys : (l.map (fun e => if e.1 = k then (k, v) else e)).map Prod.fst =
      l.map Prod.fst := by
    rw [List.map_map]
    apply List.map_congr_left
    intro e _
    by_cases he : e.1 = k
    · simp [he]
    · simp [he]
  have hnd' : ((l.map (fun e => if e.1 = k then (k, v) else e)).map Prod.fst).Nodup := by
    rw [hkeys]
    exact hnd
  refine ⟨hnd', ?_⟩
  funext x
  apply Option.ext
  intro w
  simp only [Option.mem_def]
  rw [find_eq_some_iff _ hnd' x w]
  unfold mapSet
  by_cases hx : x = k
  · subst hx
    simp only [if_true, Option.some.injEq, List.mem_map]
    constructor
    · rintro ⟨e, _, he⟩
      by_cases hek : e.1 = x
      · simp only [hek, if_true, Prod.mk.injEq, true_and] at he
        exact he
      · simp only [hek, if_false] at he
        exact absurd (congrArg Prod.fst he) hek
    · intro h
      obtain ⟨w0, hw0⟩ := Option.ne_none_iff_exists'.mp hk
      have hmem := (find_eq_some_iff l hnd x w0).mp hw0
      exact ⟨(x, w0), hmem, by simp [h]⟩
  · simp only [hx, if_false, List.mem_map]
    rw [find_eq_some_iff l hnd x w]
    constructor
    · rintro ⟨e, hmem, he⟩
      by_cases hek : e.1 = k
      · simp only [hek, if_true, Prod.mk.injEq] at he
        exact absurd he.1.symm hx
      · simp only [hek, if_false] at he
        rw [← he]
        exact hmem
    · intro h
      exact ⟨(x, w), h, by simp [hx]⟩

theorem tableFlattenCalled_simulates
    {recurT : CompId → HloLiveRangeTables → Except Failure HloLiveRangeTables}
    {recur : CompId → HloLiveRange → Except Failure HloLiveRange}
    (hrec : SimulatesRecur recurT recur) :
    ∀ (cs : List CompId) (sT : HloLiveRangeTables), sT.KeysDistinct →
      Simulates (tableFlattenCalled recurT cs sT) (flattenCalled recur cs sT.view) := by
  intro cs
  induction cs with
  | nil => intro sT hkd; exact ⟨hkd, rfl⟩
  | cons c rest ih =>
    intro sT hkd
    have h := hrec c sT hkd
    unfold tableFlattenCalled flattenCalled
    cases hr : recurT c sT with
    | error e =>
      rw [hr] at h
      simp only [Simulates] at h
      rw [h]
      exact rfl
    | ok s1 =>
      rw [hr] at h
      obtain ⟨hkd1, h1⟩ := h
      rw [h1]
      exact ih s1 hkd1

theorem tableFlattenSub_simulates (m : HloModule) (ms : Bool)
    {recurT : CompId → HloLiveRangeTables → Except Failure HloLiveRangeTables}
    {recur : CompId → HloLiveRange → Except Failure HloLiveRange}
    (hrec : SimulatesRecur recurT recur) (i : InstrId) (sT : HloLiveRangeTables)
    (hkd : sT.KeysDistinct) :
    Simulates (tableFlattenSub m ms recurT i sT) (flattenSub m ms recur i sT.view) := by
  unfold tableFlattenSub flattenSub
  by_cases hms : ms = true
  · simp only [hms, if_true]
    by_cases hcall : m.opcode i = .kCall ∨ m.opcode i = .kConditional
    · simp only [hcall, if_true]
      exact tableFlattenCalled_simulates hrec _ sT hkd
    · simp only [hcall, if_false]
      by_cases hw : m.opcode i = .kWhile
      · simp only [hw, if_true]
        have h := hrec (m.while_condition i) sT hkd
        cases hr : recurT (m.while_condition i) sT with
        | error e =>
          rw [hr] at h
          simp only [Simulates] at h
          rw [h]
          exact rfl
        | ok s1 =>
          rw [hr] at h
          obtain ⟨hkd1, h1⟩ := h
          rw [h1]
          exact hrec (m.while_body i) s1 hkd1
      · simp only [hw, if_false]
        exact ⟨hkd, rfl⟩
  · simp only [hms, if_false]
    exact ⟨hkd, rfl⟩

theorem tableAssignTime_simulates {layout : TableLayout} (hl : layout.Valid) (i : InstrId)
    (sT : HloLiveRangeTables) (hkd : sT.KeysDistinct) :
    Simulates (tableAssignTime layout i sT) (assignTime i sT.view) := by
  unfold tableAssignTime assignTime FlatHashMap.insert
  cases hf : sT.instruction_schedule.find i with
  | some t =>
    simp only [HloLiveRangeTables.view, hf]
    exact rfl
  | none =>
    simp only [HloLiveRangeTables.view, hf]
    obtain ⟨hnd, hfind⟩ := find_placed (v := (sT.flattened_instruction_sequence.length : Int))
      hkd.1 hf (hl.1 sT.instruction_schedule.entries _)
    refine ⟨⟨hnd, hkd.2⟩, ?_⟩
    simp only [HloLiveRangeTables.view, hfind]

theorem tableFlattenInstruction_simulates {layout : TableLayout} (hl : layout.Valid)
    (m : HloModule) (ms : Bool)
    {recurT : CompId → HloLiveRangeTables → Except Failure HloLiveRangeTables}
    {recur : CompId → HloLiveRange → Except Failure HloLiveRange}
    (hrec : SimulatesRecur recurT recur) (i : InstrId) (sT : HloLiveRangeTables)
    (hkd : sT.KeysDistinct) :
    Simulates (tableFlattenInstruction layout m ms recurT i sT)
      (flattenInstruction m ms recur i sT.view) := by
  unfold tableFlattenInstruction flattenInstruction
  have h := tableFlattenSub_simulates m ms hrec i sT hkd
  cases hr : tableFlattenSub m ms recurT i sT with
  | error e =>
    rw [hr] at h
    simp only [Simulates] at h
    rw [h]
    exact rfl
  | ok s1 =>
    rw [hr] at h
    obtain ⟨hkd1, h1⟩ := h
    rw [h1]
    exact tableAssignTime_simulates hl i s1 hkd1

theorem tableFlattenSequence_simulates {layout : TableLayout} (hl : layout.Valid)
    (m : HloModule) (ms : Bool)
    {recurT : CompId → HloLiveRangeTables → Except Failure HloLiveRangeTables}
    {recur : CompId → HloLiveRange → Except Failure HloLiveRange}
    (hrec : SimulatesRecur recurT recur) :
    ∀ (seq : List InstrId) (sT : HloLiveRangeTables), sT.KeysDistinct →
      Simulates (tableFlattenSequence layout m ms recurT seq sT)
        (flattenSequence m ms recur seq sT.view) := by
  intro seq
  induction seq with
  | nil => intro sT hkd; exact ⟨hkd, rfl⟩
  | cons i rest ih =>
    intro sT hkd
    have h := tableFlattenInstruction_simulates hl m ms hrec i sT hkd
    unfold tableFlattenSequence flattenSequence
    cases hr : tableFlattenInstruction layout m ms recurT i sT with
    | error e =>
      rw [hr] at h
      simp only [Simulates] at h
      rw [h]
      exact rfl
    | ok s1 =>
      rw [hr] at h
      obtain ⟨hkd1, h1⟩ := h
      rw [h1]
      exact ih s1 hkd1

theorem tableFlattenBody_simulates {layout : TableLayout} (hl : layout.Valid)
    (m : HloModule) (schedule : HloSchedule) (ms : Bool)
    {recurT : CompId → HloLiveRangeTables → Except Failure HloLiveRangeTables}
    {recur : CompId → HloLiveRange → Except Failure HloLiveRange}
    (hrec : SimulatesRecur recurT recur) :
    SimulatesRecur (tableFlattenBody layout m schedule ms recurT)
      (flattenBody m schedule ms recur) := by
  intro c sT hkd
  unfold tableFlattenBody flattenBody
  cases hs : schedule.sequences c with
  | none => exact ⟨hkd, rfl⟩
  | some seq =>
    simp only
    cases hsp : sT.computation_span_times.find c with
    | some s =>
      have : sT.view.computation_span_times c = some s := hsp
      simp only [this]
      exact ⟨hkd, rfl⟩
    | none =>
      have : sT.view.computation_span_times c = none := hsp
      simp only [this]
      have h := tableFlattenSequence_simulates hl m ms hrec seq sT hkd
      cases hr : tableFlattenSequence layout m ms recurT seq sT with
      | error e =>
        rw [hr] at h
        simp only [Simulates] at h
        rw [h]
        exact rfl
      | ok s1 =>
        rw [hr] at h
        obtain ⟨hkd1, h1⟩ := h
        rw [h1]
        simp only
        have hassign : (s1.computation_span_times.assign layout.computations c
            { start := (sT.flattened_instruction_sequence.length : Int),
              end_ := (s1.flattened_instruction_sequence.length : Int),
              end_position := none }).KeysDistinct ∧
            (s1.computation_span_times.assign layout.computations c
              { start := (sT.flattened_instruction_sequence.length : Int),
                end_ := (s1.flattened_instruction_sequence.length : Int),
                end_position := none }).find =
            mapSet s1.computation_span_times.find c
              { start := (sT.flattened_instruction_sequence.length : Int),
                end_ := (s1.flattened_instruction_sequence.length : Int),
                end_position := none } := by
          unfold FlatHashMap.assign
          cases hf : s1.computation_span_times.find c with
          | some s0 =>
            exact find_overwritten _ hkd1.2 (by rw [hf]; simp)
          | none =>
            exact find_placed hkd1.2 hf (hl.2 _ _)
        refine ⟨⟨hkd1.1, hassign.1⟩, ?_⟩
        simp only [HloLiveRangeTables.view, hassign.2]

/-- The run of `FlattenSchedule` on the tables of any layout returns what
`FlattenSchedule` on the lookup functions returns. -/
theorem tableFlattenSchedule_simulates {layout : TableLayout} (hl : layout.Valid)
    (m : HloModule) (schedule : HloSchedule) (ms : Bool) :
    ∀ fuel, SimulatesRecur (tableFlattenSchedule layout m schedule ms fuel)
      (FlattenSchedule m schedule ms fuel) := by
  intro fuel
  induction fuel with
  | zero => intro c sT _; exact rfl
  | succ n ih => exact tableFlattenBody_simulates hl m schedule ms ih

theorem simulates_map {rT : Except Failure HloLiveRangeTables}
    {r : Except Failure HloLiveRange} (h : Simulates rT r) :
    rT.map HloLiveRangeTables.view = r := by
  cases rT with
  | error e => exact h.symm
  | ok s => exact h.2.symm

theorem layoutAppend_valid : layoutAppend.Valid :=
  ⟨fun t e => List.perm_append_singleton e t, fun t e => List.perm_append_singleton e t⟩

theorem layoutReverse_valid : layoutReverse.Valid :=
  ⟨fun t _ => (List.reverse_perm t).cons _, fun t _ => (List.reverse_perm t).cons _⟩

theorem tableFlattenSchedule_view {layout : TableLayout} (hl : layout.Valid)
    (m : HloModule) (schedule : HloSchedule) (ms : Bool) (fuel : Nat) (c : CompId) :
    (tableFlattenSchedule layout m schedule ms fuel c HloLiveRangeTables.init).map
        HloLiveRangeTables.view =
      FlattenSchedule m schedule ms fuel c HloLiveRange.init :=
  simulates_map (tableFlattenSchedule_simulates hl m schedule ms fuel c
    HloLiveRangeTables.init ⟨List.nodup_nil, List.nodup_nil⟩)

theorem map_view_settled {rT : Except Failure HloLiveRangeTables}
    (h : rT ≠ .error .out_of_fuel) :
    rT.map HloLiveRangeTables.view ≠ .error .out_of_fuel := by
  cases rT with
  | error e =>
    intro h2
    apply h
    simp only [Except.map] at h2
    rw [Except.error.inj h2]
  | ok s =>
    intro h2
    simp only [Except.map] at h2
    cases h2

/-! # Properties stated by the specification -/

/-- C1: when `Run` returns, every `TimeBound` of its result (computed by
`CalculateBufferStartEndMap`, then rewritten by `NormalizeAliasedBuffers`)
satisfies `start <= end`. -/
theorem Run_start_le_end (c_sort : LiveRangeSort) (hsort : SortsByStartEnd c_sort)
    (m : HloModule) (schedule : HloSchedule)
    (aa : HloAliasAnalysis) (computation : CompId) (ms : Bool) (fuel : Nat)
    (st : HloLiveRange) (h : Run c_sort m schedule aa computation ms fuel = .ok st) :
    ∀ v tb, st.buffer_live_ranges v = some tb → tb.start ≤ tb.end_ := by
  obtain ⟨st1, st2, h1, h2, rfl⟩ := Run_ok h
  obtain ⟨_, hext, _⟩ :=
    FlattenSchedule_spec m schedule ms fuel computation _ st1 (init_flatInv m schedule ms) h1
  have hok1 : RangesOk st1.buffer_live_ranges := by
    intro v tb hv
    rw [hext.ranges_kept] at hv
    simp [HloLiveRange.init] at hv
  have hok2 : RangesOk st2.buffer_live_ranges := calculateValues_rangesOk h2 hok1
  exact normalizeBuffers_ok hsort aa.buffers _ hok2

/-- Witness for C1: `Run` returns on `whileModule`; normalisation shortens the
range of `whileInit` from `[0, 2]` to `[0, 1]`, and all ranges are proper. -/
theorem Run_start_le_end_witness :
    ∃ st, Run exampleSort whileModule whileSchedule whileAlias 0 true 3 = .ok st ∧
      (st.buffer_live_ranges whileInit).map (fun tb => (tb.start, tb.end_)) = some (0, 1) ∧
      (st.buffer_live_ranges whileParam).map (fun tb => (tb.start, tb.end_)) = some (2, 3) ∧
      ∀ v tb, st.buffer_live_ranges v = some tb → tb.start ≤ tb.end_ := by
  obtain ⟨st, hst⟩ := completes_ok
    (r := Run exampleSort whileModule whileSchedule whileAlias 0 true 3) (by decide)
  have e1 : (Run exampleSort whileModule whileSchedule whileAlias 0 true 3).toOption.bind
      (fun s => (s.buffer_live_ranges whileInit).map (fun tb => (tb.start, tb.end_))) =
      some (0, 1) := by decide
  have e2 : (Run exampleSort whileModule whileSchedule whileAlias 0 true 3).toOption.bind
      (fun s => (s.buffer_live_ranges whileParam).map (fun tb => (tb.start, tb.end_))) =
      some (2, 3) := by decide
  rw [hst] at e1 e2
  exact ⟨st, hst, by simpa [Except.toOption] using e1, by simpa [Except.toOption] using e2,
    Run_start_le_end exampleSort exampleSort_sorts _ _ _ _ _ _ st hst⟩

/-- C2: when `FlattenSchedule` returns, the timestamp map is the inverse of the
flattened sequence: the instruction at index `i` has timestamp `i`, the
sequence has no repetition, and an instruction with timestamp `t` occurs in the
sequence exactly once, at index `t` below the length.  (The `CHECK`ed insert
makes this hold without assuming the scheduled instructions distinct.) -/
theorem FlattenSchedule_timestamps_inverse (m : HloModule) (schedule : HloSchedule)
    (ms : Bool) (fuel : Nat) (computation : CompId) (st : HloLiveRange)
    (h : FlattenSchedule m schedule ms fuel computation HloLiveRange.init = .ok st) :
    (∀ (i : Nat) (j : InstrId), st.flattened_instruction_sequence[i]? = some j →
      st.instruction_schedule j = some (i : Int)) ∧
    st.flattened_instruction_sequence.Nodup ∧
    (∀ (j : InstrId) (t : Int), st.instruction_schedule j = some t →
      st.flattened_instruction_sequence.count j = 1 ∧
      ∃ i : Nat, t = (i : Int) ∧ i < st.flattened_instruction_sequence.length ∧
        st.flattened_instruction_sequence[i]? = some j) := by
  obtain ⟨hinv, _, _⟩ :=
    FlattenSchedule_spec m schedule ms fuel computation _ st (init_flatInv m schedule ms) h
  refine ⟨hinv.time_of_index, flatInv_nodup hinv, ?_⟩
  intro j t hj
  obtain ⟨i, hi, hget⟩ := hinv.index_of_time j t hj
  have hlt := (List.getElem?_eq_some.mp hget).1
  have hmem : j ∈ st.flattened_instruction_sequence := List.mem_iff_getElem?.mpr ⟨i, hget⟩
  exact ⟨List.count_eq_one_of_mem (flatInv_nodup hinv) hmem, i, hi, hlt, hget⟩

/-- Witness for C2: the walk of `whileModule` returns, and its result has the
inverse property. -/
theorem FlattenSchedule_timestamps_inverse_witness :
    ∃ st, FlattenSchedule whileModule whileSchedule true 3 0 HloLiveRange.init = .ok st ∧
      st.flattened_instruction_sequence = [3, 4, 0, 1, 2] ∧
      ((∀ (i : Nat) (j : InstrId), st.flattened_instruction_sequence[i]? = some j →
        st.instruction_schedule j = some (i : Int)) ∧
      st.flattened_instruction_sequence.Nodup ∧
      (∀ (j : InstrId) (t : Int), st.instruction_schedule j = some t →
        st.flattened_instruction_sequence.count j = 1 ∧
        ∃ i : Nat, t = (i : Int) ∧ i < st.flattened_instruction_sequence.length ∧
          st.flattened_instruction_sequence[i]? = some j)) := by
  obtain ⟨st, hst⟩ := completes_ok
    (r := FlattenSchedule whileModule whileSchedule true 3 0 HloLiveRange.init) (by decide)
  refine ⟨st, hst, ?_, FlattenSchedule_timestamps_inverse _ _ _ _ _ st hst⟩
  have : (FlattenSchedule whileModule whileSchedule true 3 0 HloLiveRange.init).toOption.map
      (fun s => s.flattened_instruction_sequence) = some [3, 4, 0, 1, 2] := by decide
  rw [hst] at this
  simpa [Except.toOption] using this

/-- C3: if the schedule has no entry for the root computation, `FlattenSchedule`
returns with the analysis marked not totally ordered and with the flattened
sequence, the timestamp map and the span map empty; `Run` then returns a result
in which no value has a `TimeBound`. -/
theorem Run_unscheduled_root (c_sort : LiveRangeSort) (m : HloModule) (schedule : HloSchedule)
    (aa : HloAliasAnalysis) (computation : CompId) (ms : Bool) (fuel : Nat)
    (h : schedule.sequences computation = none) :
    (∃ st1, FlattenSchedule m schedule ms (fuel + 1) computation HloLiveRange.init = .ok st1 ∧
      st1.total_order_scheduled = false ∧ st1.flattened_instruction_sequence = [] ∧
      (∀ i, st1.instruction_schedule i = none) ∧
      (∀ c, st1.computation_span_times c = none)) ∧
    ∃ st, Run c_sort m schedule aa computation ms (fuel + 1) = .ok st ∧
      st.total_order_scheduled = false ∧ ∀ v, st.buffer_live_ranges v = none := by
  have hf : FlattenSchedule m schedule ms (fuel + 1) computation HloLiveRange.init =
      .ok { HloLiveRange.init with total_order_scheduled := false } := by
    simp [FlattenSchedule, flattenBody, h]
  refine ⟨⟨_, hf, rfl, rfl, fun _ => rfl, fun _ => rfl⟩, ?_⟩
  have hc : CalculateBufferStartEndMap m aa ms
      { HloLiveRange.init with total_order_scheduled := false } =
      .ok { HloLiveRange.init with total_order_scheduled := false } :=
    calculateValues_skip _ _ (fun _ => rfl)
  refine ⟨NormalizeAliasedBuffers c_sort aa { HloLiveRange.init with total_order_scheduled := false },
    by simp [Run, hf, hc], rfl, ?_⟩
  intro v
  have := @normalizeBuffers_frame c_sort aa.buffers (fun _ => none) v
  simpa [NormalizeAliasedBuffers, HloLiveRange.init] using this

/-- Witness for C3: computation 7 has no entry in `whileSchedule`. -/
theorem Run_unscheduled_root_witness :
    (∃ st1, FlattenSchedule whileModule whileSchedule true (0 + 1) 7 HloLiveRange.init = .ok st1 ∧
      st1.total_order_scheduled = false ∧ st1.flattened_instruction_sequence = [] ∧
      (∀ i, st1.instruction_schedule i = none) ∧
      (∀ c, st1.computation_span_times c = none)) ∧
    ∃ st, Run exampleSort whileModule whileSchedule whileAlias 7 true (0 + 1) = .ok st ∧
      st.total_order_scheduled = false ∧ ∀ v, st.buffer_live_ranges v = none :=
  Run_unscheduled_root exampleSort whileModule whileSchedule whileAlias 7 true 0 (by decide)

/-- C4: in module-scoped mode, when `FlattenSchedule` returns, every `kCall`
or `kConditional` instruction that has a timestamp comes after all
instructions of each of its called computations that has a schedule entry.
(This holds for every walk that returns, so acyclicity of the call graph need
not be assumed.) -/
theorem FlattenSchedule_callee_before (m : HloModule) (schedule : HloSchedule)
    (fuel : Nat) (computation : CompId) (st : HloLiveRange)
    (h : FlattenSchedule m schedule true fuel computation HloLiveRange.init = .ok st)
    (i : InstrId) (t : Int) (hi : st.instruction_schedule i = some t)
    (hop : m.opcode i = .kCall ∨ m.opcode i = .kConditional)
    (c : CompId) (hc : c ∈ m.called_computations i)
    (seq : List InstrId) (hseq : schedule.sequences c = some seq) :
    ∀ j ∈ seq, ∃ tj, st.instruction_schedule j = some tj ∧ tj < t := by
  obtain ⟨hinv, _, _⟩ :=
    FlattenSchedule_spec m schedule true fuel computation _ st (init_flatInv m schedule true) h
  have hsub : c ∈ subComputations m i := by
    unfold subComputations
    simp only [hop, if_true]
    exact hc
  intro j hj
  obtain ⟨s, hs, hle⟩ := hinv.callee_spanned rfl i t hi c hsub seq hseq
  obtain ⟨tj, htj, _, hlt⟩ := (hinv.span_covers c s hs).2.2.2 seq hseq j hj
  exact ⟨tj, htj, lt_of_lt_of_le hlt hle⟩

/-- Witness for C4: in `whileModule` the call 1 (timestamp 3) comes after
instruction 0 of the called computation 2. -/
theorem FlattenSchedule_callee_before_witness :
    ∃ st, FlattenSchedule whileModule whileSchedule true 3 0 HloLiveRange.init = .ok st ∧
      st.instruction_schedule 1 = some 3 ∧
      ∀ j ∈ [0], ∃ tj, st.instruction_schedule j = some tj ∧ tj < 3 := by
  obtain ⟨st, hst⟩ := completes_ok
    (r := FlattenSchedule whileModule whileSchedule true 3 0 HloLiveRange.init) (by decide)
  have e1 : (FlattenSchedule whileModule whileSchedule true 3 0 HloLiveRange.init).toOption.bind
      (fun s => s.instruction_schedule 1) = some 3 := by decide
  rw [hst] at e1
  have e2 : st.instruction_schedule 1 = some 3 := by simpa [Except.toOption] using e1
  exact ⟨st, hst, e2,
    FlattenSchedule_callee_before whileModule whileSchedule 3 0 st hst 1 3 e2
      (Or.inl (by decide)) 2 (by decide) [0] (by decide)⟩

/-- C5 as stated fails: in `whileModule` the walk reaches the while instruction
2 in state `whileReached`, where neither its condition 1 nor its body 2 has been
flattened; the condition calls the body, so the body instruction 0 gets
timestamp 2 and the condition instruction 1 gets the later timestamp 3. -/
theorem while_condition_before_body_counterexample :
    flattenInstruction whileModule true (FlattenSchedule whileModule whileSchedule true 2) 3
      HloLiveRange.init = .ok whileReached ∧
    whileModule.opcode 2 = .kWhile ∧
    whileSchedule.sequences (whileModule.while_condition 2) = some [4, 1] ∧
    whileSchedule.sequences (whileModule.while_body 2) = some [0] ∧
    whileReached.computation_span_times (whileModule.while_condition 2) = none ∧
    whileReached.computation_span_times (whileModule.while_body 2) = none ∧
    ∃ st, flattenInstruction whileModule true (FlattenSchedule whileModule whileSchedule true 2) 2
        whileReached = .ok st ∧
      st.instruction_schedule 1 = some 3 ∧ st.instruction_schedule 0 = some 2 ∧
      ¬ ∀ a ∈ [4, 1], ∀ b ∈ [0], ∃ ta tb, st.instruction_schedule a = some ta ∧
        st.instruction_schedule b = some tb ∧ ta < tb := by
  refine ⟨rfl, by decide, by decide, by decide, rfl, rfl, ?_⟩
  obtain ⟨st, hst⟩ := completes_ok
    (r := flattenInstruction whileModule true (FlattenSchedule whileModule whileSchedule true 2) 2
      whileReached) (by decide)
  have e1 : (flattenInstruction whileModule true
      (FlattenSchedule whileModule whileSchedule true 2) 2 whileReached).toOption.bind
      (fun s => s.instruction_schedule 1) = some 3 := by decide
  have e0 : (flattenInstruction whileModule true
      (FlattenSchedule whileModule whileSchedule true 2) 2 whileReached).toOption.bind
      (fun s => s.instruction_schedule 0) = some 2 := by decide
  rw [hst] at e1 e0
  have h1 : st.instruction_schedule 1 = some 3 := by simpa [Except.toOption] using e1
  have h0 : st.instruction_schedule 0 = some 2 := by simpa [Except.toOption] using e0
  refine ⟨st, hst, h1, h0, ?_⟩
  intro hall
  obtain ⟨ta, tb, ha, hb, hlt⟩ := hall 1 (by simp) 0 (by simp)
  rw [h1] at ha
  rw [h0] at hb
  injection ha with ha
  injection hb with hb
  omega

/-- C5 (amended): in module-scoped mode, when the loop reaches a `kWhile`
instruction `w` whose condition and body are scheduled, whose condition has not
been flattened yet and whose body is still not flattened once the condition has
been, then after the iteration every instruction of the condition has a
timestamp smaller than that of every instruction of the body, and every
instruction of the condition and of the body has a timestamp smaller than that
of `w`. -/
theorem while_condition_before_body (m : HloModule) (schedule : HloSchedule)
    (fuel : Nat) (w : InstrId) (st st' : HloLiveRange) (sc sb : List InstrId)
    (hw : m.opcode w = .kWhile)
    (hsc : schedule.sequences (m.while_condition w) = some sc)
    (hsb : schedule.sequences (m.while_body w) = some sb)
    (hcond : st.computation_span_times (m.while_condition w) = none)
    (hbody : ∀ st1, FlattenSchedule m schedule true fuel (m.while_condition w) st = .ok st1 →
      st1.computation_span_times (m.while_body w) = none)
    (h : flattenInstruction m true (FlattenSchedule m schedule true fuel) w st = .ok st') :
    ∃ tw, st'.instruction_schedule w = some tw ∧
      (∀ a ∈ sc, ∃ ta, st'.instruction_schedule a = some ta ∧ ta < tw ∧
        ∀ b ∈ sb, ∃ tb, st'.instruction_schedule b = some tb ∧ ta < tb) ∧
      (∀ b ∈ sb, ∃ tb, st'.instruction_schedule b = some tb ∧ tb < tw) := by
  obtain ⟨st2, hs, ha⟩ := flattenInstruction_ok h
  have hne : ¬ (m.opcode w = .kCall ∨ m.opcode w = .kConditional) := by
    rw [hw]; simp
  unfold flattenSub at hs
  simp only [if_true, hne, if_false, hw] at hs
  cases hr : FlattenSchedule m schedule true fuel (m.while_condition w) st with
  | error e => simp [hr] at hs
  | ok st1 =>
    simp only [hr] at hs
    obtain ⟨_, hcov1⟩ := FlattenSchedule_walk hr hsc hcond
    obtain ⟨_, hcov2⟩ := FlattenSchedule_walk hs hsb (hbody st1 hr)
    have e2 := FlattenSchedule_timeExt m schedule true fuel _ st1 st2 hs
    have e3 := assignTime_timeExt ha
    obtain ⟨_, rfl⟩ := assignTime_ok ha
    refine ⟨st2.schedule_end_time, mapSet_self _ _ _, ?_, ?_⟩
    · intro a hmem
      obtain ⟨ta, hta, _, hlt⟩ := hcov1 a hmem
      refine ⟨ta, e3.time_kept _ _ (e2.time_kept _ _ hta),
        lt_of_lt_of_le hlt (timeExt_length_le e2), ?_⟩
      intro b hb
      obtain ⟨tb, htb, hle, _⟩ := hcov2 b hb
      exact ⟨tb, e3.time_kept _ _ htb, lt_of_lt_of_le hlt hle⟩
    · intro b hb
      obtain ⟨tb, htb, _, hlt⟩ := hcov2 b hb
      exact ⟨tb, e3.time_kept _ _ htb, hlt⟩

/-- Witness for C5 (amended): the while instruction 11 of `loopModule`, reached
in state `loopReached`. -/
theorem while_condition_before_body_witness :
    flattenInstruction loopModule true (FlattenSchedule loopModule loopSchedule true 2) 10
      HloLiveRange.init = .ok loopReached ∧
    ∃ st, flattenInstruction loopModule true (FlattenSchedule loopModule loopSchedule true 2) 11
        loopReached = .ok st ∧
      ∃ tw, st.instruction_schedule 11 = some tw ∧
        (∀ a ∈ [20, 21], ∃ ta, st.instruction_schedule a = some ta ∧ ta < tw ∧
          ∀ b ∈ [30, 31], ∃ tb, st.instruction_schedule b = some tb ∧ ta < tb) ∧
        (∀ b ∈ [30, 31], ∃ tb, st.instruction_schedule b = some tb ∧ tb < tw) := by
  refine ⟨rfl, ?_⟩
  obtain ⟨st, hst⟩ := completes_ok
    (r := flattenInstruction loopModule true (FlattenSchedule loopModule loopSchedule true 2) 11
      loopReached) (by decide)
  refine ⟨st, hst, while_condition_before_body loopModule loopSchedule 2 11 loopReached st
    [20, 21] [30, 31] (by decide) (by decide) (by decide) rfl ?_ hst⟩
  intro st1 h1
  have e : (FlattenSchedule loopModule loopSchedule true 2 (loopModule.while_condition 11)
      loopReached).toOption.bind
      (fun s => (s.computation_span_times (loopModule.while_body 11)).map
        (fun tb => tb.start)) = none := by decide
  rw [h1] at e
  cases hs : st1.computation_span_times (loopModule.while_body 11) with
  | none => rfl
  | some s => simp [Except.toOption, hs] at e

/-- C6: a computation is flattened once.  When `FlattenSchedule` returns, the
computations with a span are the distinct scheduled computations reached by the
walk; the flattened sequence is a rearrangement of their scheduled sequences
put one after the other, so its length is the sum of their lengths and each of
their instructions occurs in it exactly once.  A later call of
`FlattenSchedule` on a computation that has a span leaves that span, every
other span, the sequence and the timestamps as they are. -/
theorem FlattenSchedule_once (m : HloModule) (schedule : HloSchedule) (ms : Bool)
    (fuel : Nat) (root : CompId) (st : HloLiveRange)
    (h : FlattenSchedule m schedule ms fuel root HloLiveRange.init = .ok st) :
    (∃ cs : List CompId, cs.Nodup ∧
      (∀ c, c ∈ cs ↔ (Reached m schedule ms root c ∧ schedule.sequences c ≠ none)) ∧
      (∀ c, c ∈ cs ↔ st.computation_span_times c ≠ none) ∧
      st.flattened_instruction_sequence.Perm (scheduledInstructions schedule cs) ∧
      st.flattened_instruction_sequence.length =
        (cs.map (fun c => (seqOf schedule c).length)).sum ∧
      ∀ c ∈ cs, ∀ j ∈ seqOf schedule c, st.flattened_instruction_sequence.count j = 1) ∧
    ∀ (fuel2 : Nat) (c : CompId) (s : TimeBound) (st0 st1 : HloLiveRange),
      st0.computation_span_times c = some s →
      FlattenSchedule m schedule ms fuel2 c st0 = .ok st1 →
        st1.computation_span_times = st0.computation_span_times ∧
        st1.flattened_instruction_sequence = st0.flattened_instruction_sequence ∧
        st1.instruction_schedule = st0.instruction_schedule := by
  constructor
  · obtain ⟨hinv, _, hpost⟩ :=
      FlattenSchedule_spec m schedule ms fuel root _ st (init_flatInv m schedule ms) h
    obtain ⟨cs, l, nd, fl, pm, mem, _⟩ :=
      FlattenSchedule_walked m schedule ms fuel root _ st (init_flatInv m schedule ms) h
    have hmem : ∀ c, c ∈ cs ↔ st.computation_span_times c ≠ none := by
      intro c
      rw [mem]
      simp [HloLiveRange.init]
    have hfl : st.flattened_instruction_sequence = l := by
      rw [fl]; simp [HloLiveRange.init]
    have hperm : st.flattened_instruction_sequence.Perm (scheduledInstructions schedule cs) := by
      rw [hfl]; simpa using pm
    refine ⟨cs, nd, ?_, hmem, hperm, ?_, ?_⟩
    · intro c
      rw [hmem]
      constructor
      · intro hc
        rcases FlattenSchedule_reached m schedule ms fuel root _ st h c hc with h0 | hr
        · simp [HloLiveRange.init] at h0
        · exact hr
      · rintro ⟨hr, hs⟩
        refine reached_spanned hinv ?_ hr hs
        intro hroot
        cases hseq : schedule.sequences root with
        | none => exact absurd hseq hroot
        | some seq =>
          obtain ⟨s, hs⟩ := hpost seq hseq
          rw [hs]; simp
    · rw [hperm.length_eq, scheduledInstructions_length]
    · intro c hc j hj
      apply List.count_eq_one_of_mem (flatInv_nodup hinv)
      exact hperm.mem_iff.mpr (mem_scheduledInstructions hc hj)
  · intro fuel2 c s st0 st1 hs hrun
    cases fuel2 with
    | zero => simp [FlattenSchedule] at hrun
    | succ n =>
      rw [FlattenSchedule] at hrun
      rcases flattenBody_ok hrun with ⟨_, rfl⟩ | ⟨_, _, _, _, rfl⟩ | ⟨_, _, _, hnone, _, _⟩
      · exact ⟨rfl, rfl, rfl⟩
      · exact ⟨rfl, rfl, rfl⟩
      · rw [hs] at hnone; cases hnone

/-- Witness for C6: in `whileModule` the body 2 is invoked by the call 1 and by
the while 2; the walk returns with five instructions. -/
theorem FlattenSchedule_once_witness :
    ∃ st, FlattenSchedule whileModule whileSchedule true 3 0 HloLiveRange.init = .ok st ∧
      st.flattened_instruction_sequence.length = 5 ∧
      (∃ cs : List CompId, cs.Nodup ∧
        (∀ c, c ∈ cs ↔
          (Reached whileModule whileSchedule true 0 c ∧ whileSchedule.sequences c ≠ none)) ∧
        (∀ c, c ∈ cs ↔ st.computation_span_times c ≠ none) ∧
        st.flattened_instruction_sequence.Perm (scheduledInstructions whileSchedule cs) ∧
        st.flattened_instruction_sequence.length =
          (cs.map (fun c => (seqOf whileSchedule c).length)).sum ∧
        ∀ c ∈ cs, ∀ j ∈ seqOf whileSchedule c,
          st.flattened_instruction_sequence.count j = 1) ∧
      ∀ (fuel2 : Nat) (c : CompId) (s : TimeBound) (st0 st1 : HloLiveRange),
        st0.computation_span_times c = some s →
        FlattenSchedule whileModule whileSchedule true fuel2 c st0 = .ok st1 →
          st1.computation_span_times = st0.computation_span_times ∧
          st1.flattened_instruction_sequence = st0.flattened_instruction_sequence ∧
          st1.instruction_schedule = st0.instruction_schedule := by
  obtain ⟨st, hst⟩ := completes_ok
    (r := FlattenSchedule whileModule whileSchedule true 3 0 HloLiveRange.init) (by decide)
  have e : (FlattenSchedule whileModule whileSchedule true 3 0 HloLiveRange.init).toOption.map
      (fun s => s.flattened_instruction_sequence.length) = some 5 := by decide
  rw [hst] at e
  obtain ⟨a, b⟩ := FlattenSchedule_once whileModule whileSchedule true 3 0 st hst
  exact ⟨st, hst, by simpa [Except.toOption] using e, a, b⟩

/-- C7: the walk of a computation `c` with a non-empty schedule and no span yet
records for `c` the span from the sequence length before the walk to the length
after it.  Every timestamp assigned during the walk (to instructions of `c` or
of computations inlined during the walk) lies in the span, the start and the
end minus one are among them, and every instruction of the sequence of `c` has a
timestamp inside the span. -/
theorem FlattenSchedule_span (m : HloModule) (schedule : HloSchedule) (ms : Bool)
    (fuel : Nat) (c : CompId) (st st' : HloLiveRange) (seq : List InstrId)
    (h : FlattenSchedule m schedule ms fuel c st = .ok st')
    (hseq : schedule.sequences c = some seq) (hne : seq ≠ [])
    (hfresh : st.computation_span_times c = none) :
    ∃ s, st'.computation_span_times c = some s ∧
      s.start = st.flattened_instruction_sequence.length ∧
      s.end_ = st'.flattened_instruction_sequence.length ∧
      s.start < s.end_ ∧
      (∀ j t, st.instruction_schedule j = none → st'.instruction_schedule j = some t →
        s.start ≤ t ∧ t < s.end_) ∧
      (∃ j, st.instruction_schedule j = none ∧ st'.instruction_schedule j = some s.start) ∧
      (∃ j, st.instruction_schedule j = none ∧
        st'.instruction_schedule j = some (s.end_ - 1)) ∧
      (∀ j ∈ seq, ∃ t, st'.instruction_schedule j = some t ∧ s.start ≤ t ∧ t < s.end_) := by
  obtain ⟨hspan, hcov⟩ := FlattenSchedule_walk h hseq hfresh
  have hext := FlattenSchedule_timeExt m schedule ms fuel c st st' h
  obtain ⟨j0, hj0⟩ := List.exists_mem_of_ne_nil seq hne
  obtain ⟨t0, _, hle0, hlt0⟩ := hcov j0 hj0
  have hlen : st.flattened_instruction_sequence.length <
      st'.flattened_instruction_sequence.length := by
    simp only [HloLiveRange.schedule_end_time] at hle0 hlt0
    omega
  refine ⟨_, hspan, rfl, rfl, by simpa [HloLiveRange.schedule_end_time] using hlen,
    ?_, ?_, ?_, hcov⟩
  · intro j t hn hs
    rcases hext.new_time j t hs with hold | ⟨k, hk, hle, hget⟩
    · rw [hn] at hold; cases hold
    · have := (List.getElem?_eq_some.mp hget).1
      simp only [HloLiveRange.schedule_end_time]
      omega
  · have hget : st'.flattened_instruction_sequence[st.flattened_instruction_sequence.length]? =
        some (st'.flattened_instruction_sequence[st.flattened_instruction_sequence.length]) :=
      List.getElem?_eq_getElem hlen
    obtain ⟨a, b⟩ := hext.new_index _ _ hget (le_refl _)
    exact ⟨_, b, a⟩
  · have hlt : st'.flattened_instruction_sequence.length - 1 <
        st'.flattened_instruction_sequence.length := by omega
    have hget : st'.flattened_instruction_sequence[st'.flattened_instruction_sequence.length - 1]? =
        some (st'.flattened_instruction_sequence[st'.flattened_instruction_sequence.length - 1]) :=
      List.getElem?_eq_getElem hlt
    obtain ⟨a, b⟩ := hext.new_index _ _ hget (by omega)
    refine ⟨_, b, ?_⟩
    rw [a]
    simp only [HloLiveRange.schedule_end_time]
    congr 1
    omega

/-- Witness for C7: the walk of the entry computation of `whileModule` from the
empty state records the span `[0, 5)`. -/
theorem FlattenSchedule_span_witness :
    ∃ st, FlattenSchedule whileModule whileSchedule true 3 0 HloLiveRange.init = .ok st ∧
      ∃ s, st.computation_span_times 0 = some s ∧
        s.start = HloLiveRange.init.flattened_instruction_sequence.length ∧
        s.end_ = st.flattened_instruction_sequence.length ∧
        s.start < s.end_ ∧
        (∀ j t, HloLiveRange.init.instruction_schedule j = none →
          st.instruction_schedule j = some t → s.start ≤ t ∧ t < s.end_) ∧
        (∃ j, HloLiveRange.init.instruction_schedule j = none ∧
          st.instruction_schedule j = some s.start) ∧
        (∃ j, HloLiveRange.init.instruction_schedule j = none ∧
          st.instruction_schedule j = some (s.end_ - 1)) ∧
        (∀ j ∈ [3, 2], ∃ t, st.instruction_schedule j = some t ∧ s.start ≤ t ∧ t < s.end_) := by
  obtain ⟨st, hst⟩ := completes_ok
    (r := FlattenSchedule whileModule whileSchedule true 3 0 HloLiveRange.init) (by decide)
  exact ⟨st, hst, FlattenSchedule_span whileModule whileSchedule true 3 0 HloLiveRange.init st
    [3, 2] hst (by decide) (by simp) rfl⟩

/-- C8 fails on the code: in the computation-scoped analysis of the entry
computation of `callModule`, instruction 3 (a tuple, not a parameter) gets no
timestamp from `FlattenSchedule`, yet `callTuple`, defined by it, receives a
`TimeBound`, and its start is 0: the value of the entry that the read
`instruction_schedule_[3]` of line 176 inserted while `callArg` was processed.
No timestamp of the defining instruction exists for the start to be equal
to. -/
theorem CalculateBufferStartEndMap_start_untimed :
    ∃ st st1 tb,
      FlattenSchedule callModule callSchedule false 1 0 HloLiveRange.init = .ok st ∧
      st.instruction_schedule callTuple.defining_instruction = none ∧
      st.buffer_live_ranges callTuple = none ∧
      callModule.opcode callTuple.defining_instruction ≠ .kParameter ∧
      CalculateBufferStartEndMap callModule callAlias false st = .ok st1 ∧
      st1.buffer_live_ranges callTuple = some tb ∧ tb.start = 0 := by
  obtain ⟨st, st1, h1, h2, h3⟩ := completes_andThen
    (r := FlattenSchedule callModule callSchedule false 1 0 HloLiveRange.init)
    (f := CalculateBufferStartEndMap callModule callAlias false) (by decide)
  have e0 : (FlattenSchedule callModule callSchedule false 1 0 HloLiveRange.init).toOption.bind
      (fun s => s.instruction_schedule callTuple.defining_instruction) = none := by decide
  have e1 : (FlattenSchedule callModule callSchedule false 1 0 HloLiveRange.init).toOption.bind
      (fun s => s.buffer_live_ranges callTuple) = none := by decide
  have e2 : (andThen (FlattenSchedule callModule callSchedule false 1 0 HloLiveRange.init)
      (CalculateBufferStartEndMap callModule callAlias false)).toOption.bind
      (fun s => s.buffer_live_ranges callTuple) =
      some { start := 0, end_ := 2, end_position := some { instruction := 1, index := [] } } := by
    decide
  exact ⟨st, st1, _, h1,
    toOption_bind_ok (g := fun s => s.instruction_schedule callTuple.defining_instruction) h1 e0,
    toOption_bind_ok (g := fun s => s.buffer_live_ranges callTuple) h1 e1,
    by decide, h2,
    toOption_bind_ok (g := fun s => s.buffer_live_ranges callTuple) h3 e2, rfl⟩

/-- C9: after `FlattenSchedule` and `CalculateBufferStartEndMap`, a value with a
`TimeBound` that is not defined by a read-only entry parameter, none of whose
positions is the root instruction of a computation with a span, and (in
module-scoped mode) none of whose uses is a `kWhile`, has as end the maximum of
its start and of the timestamps of its uses whose instruction has a timestamp.
In `straightModule`, whose five instructions get the timestamps 0..4,
`valueA`, defined by instruction 0 and used only by instruction 3, gets the
range from 0 to 3 in both modes, whatever the sort of `Run`. -/
theorem CalculateBufferStartEndMap_end (c_sort : LiveRangeSort)
    (hsort : SortsByStartEnd c_sort) (m : HloModule) (schedule : HloSchedule)
    (aa : HloAliasAnalysis) (ms : Bool) (fuel : Nat) (computation : CompId)
    (st st' : HloLiveRange) (v : HloValue) (tb : TimeBound)
    (hflat : FlattenSchedule m schedule ms fuel computation HloLiveRange.init = .ok st)
    (hcalc : CalculateBufferStartEndMap m aa ms st = .ok st')
    (hv : st'.buffer_live_ranges v = some tb)
    (hro : ¬ (m.opcode v.defining_instruction = .kParameter ∧
      m.parent v.defining_instruction = m.entry_computation ∧
      m.ParameterHasAlias (m.parameter_number v.defining_instruction) v.index = false))
    (hpos : ∀ p ∈ v.positions, p.instruction = m.root_instruction (m.parent p.instruction) →
      st.computation_span_times (m.parent p.instruction) = none)
    (hwhile : ms = true → ∀ u ∈ v.uses, m.opcode u.instruction ≠ .kWhile) :
    tb.end_ = maxUseTime st.instruction_schedule v.uses tb.start ∧
    (∃ r, Run c_sort straightModule straightSchedule straightAlias 0 true 1 = .ok r ∧
      r.flattened_instruction_sequence = [0, 1, 2, 3, 4] ∧
      (r.buffer_live_ranges valueA).map (fun b => (b.start, b.end_)) = some (0, 3)) ∧
    (∃ r, Run c_sort straightModule straightSchedule straightAlias 0 false 1 = .ok r ∧
      r.flattened_instruction_sequence = [0, 1, 2, 3, 4] ∧
      (r.buffer_live_ranges valueA).map (fun b => (b.start, b.end_)) = some (0, 3)) := by
  rw [Run_short_buffers hsort straightModule straightSchedule straightAlias 0 true 1
      (by decide),
    Run_short_buffers hsort straightModule straightSchedule straightAlias 0 false 1
      (by decide)]
  refine ⟨?_, ?_, ?_⟩
  · obtain ⟨hinv, hext, _⟩ :=
      FlattenSchedule_spec m schedule ms fuel computation _ st (init_flatInv m schedule ms) hflat
    have hnew : st.buffer_live_ranges v = none := by
      rw [hext.ranges_kept]; rfl
    rcases (calculateValues_trace aa.values st st' hcalc).2.2.2.2.2 v tb hv with
      h0 | ⟨_, _, stv, t, g1, _, _, hsp, hdef, rfl, _⟩
    · rw [hnew] at h0; cases h0
    · have hro2 : isReadOnlyEntryParameter m v = false := by
        unfold isReadOnlyEntryParameter HloValue.instruction
        by_contra hne
        apply hro
        simp only [Bool.not_eq_false, Bool.and_eq_true, decide_eq_true_eq,
          Bool.not_eq_true'] at hne
        exact ⟨hne.1.1, hne.1.2, hne.2⟩
      have hstart := bufferStartTime_nonneg hinv g1 v hdef
      simp only [valueTimeBound, hro2, positionsOf, hsp]
      rw [positionsLoop_end_unchanged m _ v v.positions _ hpos]
      exact usesLoop_eq_maxUseTime m ms g1 v.uses _ hstart hwhile
  · obtain ⟨r, hr⟩ := completes_ok
      (r := Run exampleSort straightModule straightSchedule straightAlias 0 true 1) (by decide)
    have e1 : (Run exampleSort straightModule straightSchedule straightAlias 0 true 1).toOption.bind
        (fun s => some s.flattened_instruction_sequence) = some [0, 1, 2, 3, 4] := by decide
    have e2 : (Run exampleSort straightModule straightSchedule straightAlias 0 true 1).toOption.bind
        (fun s => (s.buffer_live_ranges valueA).map (fun b => (b.start, b.end_))) =
        some (0, 3) := by decide
    have h1 := toOption_bind_ok hr e1
    injection h1 with h1
    exact ⟨r, hr, h1, toOption_bind_ok
      (g := fun s => (s.buffer_live_ranges valueA).map (fun b => (b.start, b.end_))) hr e2⟩
  · obtain ⟨r, hr⟩ := completes_ok
      (r := Run exampleSort straightModule straightSchedule straightAlias 0 false 1) (by decide)
    have e1 : (Run exampleSort straightModule straightSchedule straightAlias 0 false 1).toOption.bind
        (fun s => some s.flattened_instruction_sequence) = some [0, 1, 2, 3, 4] := by decide
    have e2 : (Run exampleSort straightModule straightSchedule straightAlias 0 false 1).toOption.bind
        (fun s => (s.buffer_live_ranges valueA).map (fun b => (b.start, b.end_))) =
        some (0, 3) := by decide
    have h1 := toOption_bind_ok hr e1
    injection h1 with h1
    exact ⟨r, hr, h1, toOption_bind_ok
      (g := fun s => (s.buffer_live_ranges valueA).map (fun b => (b.start, b.end_))) hr e2⟩

/-- Witness for C9: `valueA` in `straightModule`, module-scoped. -/
theorem CalculateBufferStartEndMap_end_witness :
    ∃ st st' tb,
      FlattenSchedule straightModule straightSchedule true 1 0 HloLiveRange.init = .ok st ∧
      CalculateBufferStartEndMap straightModule straightAlias true st = .ok st' ∧
      st'.buffer_live_ranges valueA = some tb ∧
      (tb.end_ = maxUseTime st.instruction_schedule valueA.uses tb.start ∧
      (∃ r, Run exampleSort straightModule straightSchedule straightAlias 0 true 1 = .ok r ∧
        r.flattened_instruction_sequence = [0, 1, 2, 3, 4] ∧
        (r.buffer_live_ranges valueA).map (fun b => (b.start, b.end_)) = some (0, 3)) ∧
      (∃ r, Run exampleSort straightModule straightSchedule straightAlias 0 false 1 = .ok r ∧
        r.flattened_instruction_sequence = [0, 1, 2, 3, 4] ∧
        (r.buffer_live_ranges valueA).map (fun b => (b.start, b.end_)) = some (0, 3))) := by
  obtain ⟨st, st', h1, h2, h3⟩ := completes_andThen
    (r := FlattenSchedule straightModule straightSchedule true 1 0 HloLiveRange.init)
    (f := CalculateBufferStartEndMap straightModule straightAlias true) (by decide)
  have e : (andThen (FlattenSchedule straightModule straightSchedule true 1 0 HloLiveRange.init)
      (CalculateBufferStartEndMap straightModule straightAlias true)).toOption.bind
      (fun s => s.buffer_live_ranges valueA) =
      some { start := 0, end_ := 3, end_position := some { instruction := 0, index := [] } } := by
    decide
  have hv := toOption_bind_ok (g := fun s => s.buffer_live_ranges valueA) h3 e
  exact ⟨st, st', _, h1, h2, hv,
    CalculateBufferStartEndMap_end exampleSort exampleSort_sorts straightModule
      straightSchedule straightAlias true 1 0 st st'
      valueA _ h1 h2 hv (by decide)
      (by
        intro p hp hroot
        simp only [valueA, List.mem_singleton] at hp
        subst hp
        simp [straightModule] at hroot)
      (by decide)⟩

/-- C10: in module-scoped mode a use by a `kWhile` instruction `w` contributes
the timestamp `tp` of parameter 0 of the body of `w`, not the timestamp `k` of
`w`.  A value of the analysed list that has no range yet, is defined at or
before `tp`, is used only by `w`, is not defined by a read-only entry parameter
and has no position at the root of a computation with a span, gets a range that
ends at `tp`; so with `tp = k + 1` it ends at `k + 1`. -/
theorem CalculateBufferStartEndMap_while_use (m : HloModule) (aa : HloAliasAnalysis)
    (st st' : HloLiveRange) (o : HloValue) (w : InstrId) (k tp t : Int)
    (hcalc : CalculateBufferStartEndMap m aa true st = .ok st')
    (hmem : o ∈ aa.values) (hnew : st.buffer_live_ranges o = none)
    (hw : m.opcode w = .kWhile)
    (hk : st.instruction_schedule w = some k)
    (hp : st.instruction_schedule (m.parameter_instruction0 (m.while_body w)) = some tp)
    (hd : st.instruction_schedule o.defining_instruction = some t) (ht : t ≤ tp)
    (hne : o.uses ≠ []) (huses : ∀ u ∈ o.uses, u.instruction = w)
    (hro : ¬ (m.opcode o.defining_instruction = .kParameter ∧
      m.parent o.defining_instruction = m.entry_computation ∧
      m.ParameterHasAlias (m.parameter_number o.defining_instruction) o.index = false))
    (hpos : ∀ p ∈ o.positions, p.instruction = m.root_instruction (m.parent p.instruction) →
      st.computation_span_times (m.parent p.instruction) = none) :
    ∃ tb, st'.buffer_live_ranges o = some tb ∧ tb.end_ = tp ∧
      st'.instruction_schedule w = some k ∧ (tp = k + 1 → tb.end_ = k + 1) := by
  have htracked := calculateValues_tracked aa.values st st' hcalc o hmem (by rw [hd]; simp)
  have hkw := schedGrows_kept (calculateValues_trace aa.values st st' hcalc).2.2.2.1 hk
  cases hv : st'.buffer_live_ranges o with
  | none => exact absurd hv htracked
  | some tb =>
    rcases (calculateValues_trace aa.values st st' hcalc).2.2.2.2.2 o tb hv with
      h0 | ⟨_, _, stv, t2, g1, _, _, hsp, hdef, rfl, _⟩
    · rw [hnew] at h0; cases h0
    · have ht2 : t2 = t := by
        have := schedGrows_kept g1 hd
        rw [hdef] at this
        injection this
      subst ht2
      have hro2 : isReadOnlyEntryParameter m o = false := by
        unfold isReadOnlyEntryParameter HloValue.instruction
        by_contra hne2
        apply hro
        simp only [Bool.not_eq_false, Bool.and_eq_true, decide_eq_true_eq,
          Bool.not_eq_true'] at hne2
        exact ⟨hne2.1.1, hne2.1.2, hne2.2⟩
      have hused : ∀ u ∈ o.uses, usedInstruction m true u =
          m.parameter_instruction0 (m.while_body w) := by
        intro u hu
        unfold usedInstruction
        rw [huses u hu]
        simp [hw]
      have hend : (valueTimeBound m true o stv t2).end_ = tp := by
        simp only [valueTimeBound, hro2, positionsOf, hsp]
        rw [positionsLoop_end_unchanged m _ o o.positions _ hpos]
        simp only
        rw [usesLoop_same m true stv.instruction_schedule _ tp (schedGrows_kept g1 hp)
          o.uses _ hused]
        simp only [hne, if_false]
        exact max_eq_right (le_trans (bufferStartTime_le m _ o t2) ht)
      exact ⟨_, rfl, hend, hkw, fun h => by rw [hend, h]⟩

/-- Witness for C10: on the input `loopAtSeven` (the while at 7, the body
parameter at 8) the range of `loopInit` ends at 8; after the walk of
`loopModule` (the while at 5, the body parameter at 3) it ends at 3. -/
theorem CalculateBufferStartEndMap_while_use_witness :
    (∃ st' tb, CalculateBufferStartEndMap loopModule loopAlias true loopAtSeven = .ok st' ∧
      st'.buffer_live_ranges loopInit = some tb ∧ tb.end_ = 8 ∧
      st'.instruction_schedule 11 = some 7 ∧ ((8 : Int) = 7 + 1 → tb.end_ = 7 + 1)) ∧
    (∃ st st' tb,
      FlattenSchedule loopModule loopSchedule true 2 0 HloLiveRange.init = .ok st ∧
      CalculateBufferStartEndMap loopModule loopAlias true st = .ok st' ∧
      st'.buffer_live_ranges loopInit = some tb ∧ tb.end_ = 3 ∧
      st'.instruction_schedule 11 = some 5 ∧ ((3 : Int) = 5 + 1 → tb.end_ = 5 + 1)) := by
  constructor
  · obtain ⟨st', h⟩ := completes_ok
      (r := CalculateBufferStartEndMap loopModule loopAlias true loopAtSeven) (by decide)
    obtain ⟨tb, a, b⟩ := CalculateBufferStartEndMap_while_use loopModule loopAlias loopAtSeven st'
      loopInit 11 7 8 0 h (by decide) rfl (by decide) (by decide) (by decide) (by decide)
      (by decide) (by decide) (by decide) (by decide)
      (by intro p _ _; rfl)
    exact ⟨st', tb, h, a, b⟩
  · obtain ⟨st, st', h1, h2, _⟩ := completes_andThen
      (r := FlattenSchedule loopModule loopSchedule true 2 0 HloLiveRange.init)
      (f := CalculateBufferStartEndMap loopModule loopAlias true) (by decide)
    have e0 : (FlattenSchedule loopModule loopSchedule true 2 0 HloLiveRange.init).toOption.bind
        (fun s => s.buffer_live_ranges loopInit) = none := by decide
    have e1 : (FlattenSchedule loopModule loopSchedule true 2 0 HloLiveRange.init).toOption.bind
        (fun s => s.instruction_schedule 11) = some 5 := by decide
    have e2 : (FlattenSchedule loopModule loopSchedule true 2 0 HloLiveRange.init).toOption.bind
        (fun s => s.instruction_schedule 30) = some 3 := by decide
    have e3 : (FlattenSchedule loopModule loopSchedule true 2 0 HloLiveRange.init).toOption.bind
        (fun s => s.instruction_schedule 10) = some 0 := by decide
    obtain ⟨tb, a, b⟩ := CalculateBufferStartEndMap_while_use loopModule loopAlias st st'
      loopInit 11 5 3 0 h2 (by decide)
      (toOption_bind_ok (g := fun s => s.buffer_live_ranges loopInit) h1 e0) (by decide)
      (toOption_bind_ok (g := fun s => s.instruction_schedule 11) h1 e1)
      (toOption_bind_ok (g := fun s => s.instruction_schedule 30) h1 e2)
      (toOption_bind_ok (g := fun s => s.instruction_schedule 10) h1 e3)
      (by decide) (by decide) (by decide) (by decide)
      (by
        intro p hp hroot
        simp only [loopInit, List.mem_singleton] at hp
        subst hp
        simp [loopModule] at hroot)
    exact ⟨st, st', tb, h1, h2, a, b⟩

/-- C11: after `FlattenSchedule` and `CalculateBufferStartEndMap`, a value with a
`TimeBound` that has a position at the root instruction of a computation with a
span ends at or after the end of that span. -/
theorem CalculateBufferStartEndMap_live_out (m : HloModule) (schedule : HloSchedule)
    (aa : HloAliasAnalysis) (ms : Bool) (fuel : Nat) (computation : CompId)
    (st st' : HloLiveRange) (v : HloValue) (tb : TimeBound)
    (position : HloPosition) (span : TimeBound)
    (hflat : FlattenSchedule m schedule ms fuel computation HloLiveRange.init = .ok st)
    (hcalc : CalculateBufferStartEndMap m aa ms st = .ok st')
    (hv : st'.buffer_live_ranges v = some tb)
    (hpos : position ∈ v.positions)
    (hroot : position.instruction = m.root_instruction (m.parent position.instruction))
    (hspan : st.computation_span_times (m.parent position.instruction) = some span) :
    span.end_ ≤ tb.end_ := by
  obtain ⟨hinv, hext, _⟩ :=
    FlattenSchedule_spec m schedule ms fuel computation _ st (init_flatInv m schedule ms) hflat
  have hnew : st.buffer_live_ranges v = none := by
    rw [hext.ranges_kept]; rfl
  rcases (calculateValues_trace aa.values st st' hcalc).2.2.2.2.2 v tb hv with
    h0 | ⟨_, _, stv, t, _, _, hfl, hsp, _, rfl, _⟩
  · rw [hnew] at h0; cases h0
  · simp only [valueTimeBound]
    split
    · have := (hinv.span_covers _ span hspan).2.2.1
      simpa [HloLiveRange.schedule_end_time, hfl] using this
    · rw [← hsp] at hspan
      exact positionsLoop_liveOut m _ v position span hroot hspan v.positions _ hpos

/-- Witness for C11: in `callModule` the value `callArg` is observable in the
result of the call 1, the root of the entry computation with span `[0, 4)`; its
range ends at 4. -/
theorem CalculateBufferStartEndMap_live_out_witness :
    ∃ st st' tb span,
      FlattenSchedule callModule callSchedule true 2 0 HloLiveRange.init = .ok st ∧
      CalculateBufferStartEndMap callModule callAlias true st = .ok st' ∧
      st'.buffer_live_ranges callArg = some tb ∧
      st.computation_span_times 0 = some span ∧ span.end_ = 4 ∧ span.end_ ≤ tb.end_ := by
  obtain ⟨st, st', h1, h2, h3⟩ := completes_andThen
    (r := FlattenSchedule callModule callSchedule true 2 0 HloLiveRange.init)
    (f := CalculateBufferStartEndMap callModule callAlias true) (by decide)
  have e1 : (andThen (FlattenSchedule callModule callSchedule true 2 0 HloLiveRange.init)
      (CalculateBufferStartEndMap callModule callAlias true)).toOption.bind
      (fun s => s.buffer_live_ranges callArg) =
      some { start := 0, end_ := 4, end_position := some { instruction := 1, index := [0] } } := by
    decide
  have e2 : (FlattenSchedule callModule callSchedule true 2 0 HloLiveRange.init).toOption.bind
      (fun s => s.computation_span_times 0) =
      some { start := 0, end_ := 4, end_position := none } := by decide
  have hv := toOption_bind_ok (g := fun s => s.buffer_live_ranges callArg) h3 e1
  have hs := toOption_bind_ok (g := fun s => s.computation_span_times 0) h1 e2
  exact ⟨st, st', _, _, h1, h2, hv, hs, rfl,
    CalculateBufferStartEndMap_live_out callModule callSchedule callAlias true 2 0 st st'
      callArg _ { instruction := 1, index := [0] } _ h1 h2 hv (by decide) (by decide) hs⟩

/-- C12: a value that receives a `TimeBound` from `CalculateBufferStartEndMap`
and is defined by a parameter of the entry computation whose parameter number
and index have no output alias ends at `schedule_end_time()`, the length of the
flattened sequence, whatever its uses and positions are. -/
theorem CalculateBufferStartEndMap_read_only (m : HloModule) (aa : HloAliasAnalysis)
    (ms : Bool) (st st' : HloLiveRange) (v : HloValue) (tb : TimeBound)
    (hcalc : CalculateBufferStartEndMap m aa ms st = .ok st')
    (hnew : st.buffer_live_ranges v = none) (hv : st'.buffer_live_ranges v = some tb)
    (hparam : m.opcode v.defining_instruction = .kParameter)
    (hentry : m.parent v.defining_instruction = m.entry_computation)
    (halias : m.ParameterHasAlias (m.parameter_number v.defining_instruction) v.index = false) :
    tb.end_ = (st.flattened_instruction_sequence.length : Int) ∧
    tb.end_ = st'.schedule_end_time := by
  obtain ⟨hfl', _, _, _, _, htrace⟩ := calculateValues_trace aa.values st st' hcalc
  rcases htrace v tb hv with h0 | ⟨_, _, stv, t, _, _, hfl, _, _, rfl, _⟩
  · rw [hnew] at h0; cases h0
  · have hro : isReadOnlyEntryParameter m v = true := by
      simp [isReadOnlyEntryParameter, HloValue.instruction, hparam, hentry, halias]
    simp [valueTimeBound, hro, HloLiveRange.schedule_end_time, hfl, hfl']

/-- Witness for C12: `paramValue`, used only at timestamp 1, ends at 3, the
length of the flattened sequence of `paramModule`. -/
theorem CalculateBufferStartEndMap_read_only_witness :
    ∃ st st' tb,
      FlattenSchedule paramModule paramSchedule true 1 0 HloLiveRange.init = .ok st ∧
      CalculateBufferStartEndMap paramModule paramAlias true st = .ok st' ∧
      st'.buffer_live_ranges paramValue = some tb ∧ tb.end_ = 3 ∧
      (tb.end_ = (st.flattened_instruction_sequence.length : Int) ∧
        tb.end_ = st'.schedule_end_time) := by
  obtain ⟨st, st', h1, h2, h3⟩ := completes_andThen
    (r := FlattenSchedule paramModule paramSchedule true 1 0 HloLiveRange.init)
    (f := CalculateBufferStartEndMap paramModule paramAlias true) (by decide)
  have e0 : (FlattenSchedule paramModule paramSchedule true 1 0 HloLiveRange.init).toOption.bind
      (fun s => s.buffer_live_ranges paramValue) = none := by decide
  have e1 : (andThen (FlattenSchedule paramModule paramSchedule true 1 0 HloLiveRange.init)
      (CalculateBufferStartEndMap paramModule paramAlias true)).toOption.bind
      (fun s => s.buffer_live_ranges paramValue) =
      some { start := 0, end_ := 3, end_position := some { instruction := 0, index := [] } } := by
    decide
  have hnew := toOption_bind_ok (g := fun s => s.buffer_live_ranges paramValue) h1 e0
  have hv := toOption_bind_ok (g := fun s => s.buffer_live_ranges paramValue) h3 e1
  exact ⟨st, st', _, h1, h2, hv, rfl,
    CalculateBufferStartEndMap_read_only paramModule paramAlias true st st' paramValue _ h2
      hnew hv (by decide) (by decide) (by decide)⟩

/-- C13 fails on the code: in the computation-scoped analysis of the entry
computation of `callModule`, the tuple 3 of the callee gets no timestamp from
`FlattenSchedule`, yet `callTuple`, defined by it, receives the range from 0
to 2 when `callArg` is processed first: the read `instruction_schedule_[3]` in
the position loop of `callArg` has inserted 3 with the value 0.  With the two
values in the other order `callTuple` is skipped. -/
theorem CalculateBufferStartEndMap_untimed_value :
    ∃ st st1 st2,
      FlattenSchedule callModule callSchedule false 1 0 HloLiveRange.init = .ok st ∧
      st.instruction_schedule callTuple.defining_instruction = none ∧
      CalculateBufferStartEndMap callModule callAlias false st = .ok st1 ∧
      st1.instruction_schedule callTuple.defining_instruction = some 0 ∧
      (st1.buffer_live_ranges callTuple).map (fun b => (b.start, b.end_)) = some (0, 2) ∧
      CalculateBufferStartEndMap callModule callAliasSwapped false st = .ok st2 ∧
      st2.buffer_live_ranges callTuple = none := by
  obtain ⟨st, st1, h1, h2, h3⟩ := completes_andThen
    (r := FlattenSchedule callModule callSchedule false 1 0 HloLiveRange.init)
    (f := CalculateBufferStartEndMap callModule callAlias false) (by decide)
  obtain ⟨st', st2, h1', h2', h3'⟩ := completes_andThen
    (r := FlattenSchedule callModule callSchedule false 1 0 HloLiveRange.init)
    (f := CalculateBufferStartEndMap callModule callAliasSwapped false) (by decide)
  have hst : st' = st := by
    rw [h1] at h1'
    injection h1' with h
    exact h.symm
  subst hst
  have e0 : (FlattenSchedule callModule callSchedule false 1 0 HloLiveRange.init).toOption.bind
      (fun s => s.instruction_schedule callTuple.defining_instruction) = none := by decide
  have e1 : (andThen (FlattenSchedule callModule callSchedule false 1 0 HloLiveRange.init)
      (CalculateBufferStartEndMap callModule callAlias false)).toOption.bind
      (fun s => s.instruction_schedule callTuple.defining_instruction) = some 0 := by decide
  have e2 : (andThen (FlattenSchedule callModule callSchedule false 1 0 HloLiveRange.init)
      (CalculateBufferStartEndMap callModule callAlias false)).toOption.bind
      (fun s => (s.buffer_live_ranges callTuple).map (fun b => (b.start, b.end_))) =
      some (0, 2) := by decide
  have e3 : (andThen (FlattenSchedule callModule callSchedule false 1 0 HloLiveRange.init)
      (CalculateBufferStartEndMap callModule callAliasSwapped false)).toOption.bind
      (fun s => s.buffer_live_ranges callTuple) = none := by decide
  exact ⟨st', st1, st2, h1,
    toOption_bind_ok (g := fun s => s.instruction_schedule callTuple.defining_instruction) h1 e0,
    h2,
    toOption_bind_ok (g := fun s => s.instruction_schedule callTuple.defining_instruction) h3 e1,
    toOption_bind_ok
      (g := fun s => (s.buffer_live_ranges callTuple).map (fun b => (b.start, b.end_))) h3 e2,
    h2',
    toOption_bind_ok (g := fun s => s.buffer_live_ranges callTuple) h3' e3⟩

/-- C14: for a buffer whose tracked values are `v1` and `v2` (which occur in no
other buffer), with ranges `r1` and `r2` such that
`r1.start < r2.start <= r1.end`, `NormalizeAliasedBuffers` sets the end of `r1`
to `r2.start - 1` and the end of `r2` to the maximum of the two original ends,
and changes nothing else in the two ranges. -/
theorem NormalizeAliasedBuffers_overlap (c_sort : LiveRangeSort) (hsort : SortsByStartEnd c_sort)
    (aa : HloAliasAnalysis) (st : HloLiveRange)
    (pre post : List (List HloValue)) (values : List HloValue) (v1 v2 : HloValue)
    (r1 r2 : TimeBound)
    (hb : aa.buffers = pre ++ values :: post)
    (hpre : ∀ b ∈ pre, v1 ∉ b ∧ v2 ∉ b) (hpost : ∀ b ∈ post, v1 ∉ b ∧ v2 ∉ b)
    (htracked : values.filter (tracked st.buffer_live_ranges) = [v1, v2] ∨
      values.filter (tracked st.buffer_live_ranges) = [v2, v1])
    (h1 : st.buffer_live_ranges v1 = some r1) (h2 : st.buffer_live_ranges v2 = some r2)
    (hlt : r1.start < r2.start) (hov : r2.start ≤ r1.end_) :
    (NormalizeAliasedBuffers c_sort aa st).buffer_live_ranges v1 =
      some { start := r1.start, end_ := r2.start - 1, end_position := r1.end_position } ∧
    (NormalizeAliasedBuffers c_sort aa st).buffer_live_ranges v2 =
      some { start := r2.start, end_ := max r1.end_ r2.end_,
             end_position := r2.end_position } := by
  obtain ⟨r', e1, e2, ef, f1, f2⟩ :=
    normalizeBuffers_at hsort values st.buffer_live_ranges hpre hpost
  rw [h1] at e1
  rw [h2] at e2
  rw [← ef] at htracked
  have hless : timeBoundLess r1 r2 = true := by simp [timeBoundLess, hlt]
  have hord := aliasedLiveRanges_pair_lt hsort htracked e1 e2 hless
  obtain ⟨p1, p2⟩ := normalizePass_pair_overlap e1 e2 hlt hov
  simp only [NormalizeAliasedBuffers, hb]
  rw [f1, f2]
  unfold normalizeBuffer
  rw [hord]
  exact ⟨p1, p2⟩

/-- Witness for C14: the ranges `[0, 5]` and `[3, 10]` become `[0, 2]` and
`[3, 10]`. -/
theorem NormalizeAliasedBuffers_overlap_witness :
    (NormalizeAliasedBuffers exampleSort pairAlias (pairState (0, 5) (3, 10))).buffer_live_ranges aliasX =
      some { start := 0, end_ := 3 - 1, end_position := none } ∧
    (NormalizeAliasedBuffers exampleSort pairAlias (pairState (0, 5) (3, 10))).buffer_live_ranges aliasY =
      some { start := 3, end_ := max 5 10, end_position := none } :=
  NormalizeAliasedBuffers_overlap exampleSort exampleSort_sorts pairAlias
    (pairState (0, 5) (3, 10)) [] [] [aliasX, aliasY]
    aliasX aliasY { start := 0, end_ := 5, end_position := none }
    { start := 3, end_ := 10, end_position := none } rfl (by simp) (by simp)
    (Or.inl (by decide)) (by decide) (by decide) (by decide) (by decide)

/-- C15: for a buffer whose tracked values are `v1` and `v2` (which occur in no
other buffer), with ranges of different starts of which the earlier ends before
the later starts, `NormalizeAliasedBuffers` leaves both ranges as they are. -/
theorem NormalizeAliasedBuffers_disjoint (c_sort : LiveRangeSort) (hsort : SortsByStartEnd c_sort)
    (aa : HloAliasAnalysis) (st : HloLiveRange)
    (pre post : List (List HloValue)) (values : List HloValue) (v1 v2 : HloValue)
    (r1 r2 : TimeBound)
    (hb : aa.buffers = pre ++ values :: post)
    (hpre : ∀ b ∈ pre, v1 ∉ b ∧ v2 ∉ b) (hpost : ∀ b ∈ post, v1 ∉ b ∧ v2 ∉ b)
    (htracked : values.filter (tracked st.buffer_live_ranges) = [v1, v2] ∨
      values.filter (tracked st.buffer_live_ranges) = [v2, v1])
    (h1 : st.buffer_live_ranges v1 = some r1) (h2 : st.buffer_live_ranges v2 = some r2)
    (hlt : r1.start < r2.start) (hdis : r1.end_ < r2.start) :
    (NormalizeAliasedBuffers c_sort aa st).buffer_live_ranges v1 = some r1 ∧
    (NormalizeAliasedBuffers c_sort aa st).buffer_live_ranges v2 = some r2 := by
  obtain ⟨r', e1, e2, ef, f1, f2⟩ :=
    normalizeBuffers_at hsort values st.buffer_live_ranges hpre hpost
  rw [h1] at e1
  rw [h2] at e2
  rw [← ef] at htracked
  have hless : timeBoundLess r1 r2 = true := by simp [timeBoundLess, hlt]
  have hord := aliasedLiveRanges_pair_lt hsort htracked e1 e2 hless
  have hp := normalizePass_pair_disjoint e1 e2 hlt hdis
  simp only [NormalizeAliasedBuffers, hb]
  rw [f1, f2]
  unfold normalizeBuffer
  rw [hord, hp]
  exact ⟨e1, e2⟩

/-- Witness for C15: the ranges `[0, 2]` and `[3, 10]` stay as they are. -/
theorem NormalizeAliasedBuffers_disjoint_witness :
    (NormalizeAliasedBuffers exampleSort pairAlias (pairState (0, 2) (3, 10))).buffer_live_ranges aliasX =
      some { start := 0, end_ := 2, end_position := none } ∧
    (NormalizeAliasedBuffers exampleSort pairAlias (pairState (0, 2) (3, 10))).buffer_live_ranges aliasY =
      some { start := 3, end_ := 10, end_position := none } :=
  NormalizeAliasedBuffers_disjoint exampleSort exampleSort_sorts pairAlias
    (pairState (0, 2) (3, 10)) [] [] [aliasX, aliasY]
    aliasX aliasY { start := 0, end_ := 2, end_position := none }
    { start := 3, end_ := 10, end_position := none } rfl (by simp) (by simp)
    (Or.inl (by decide)) (by decide) (by decide) (by decide) (by decide)

/-- C16: for a buffer whose tracked values are `v1` and `v2` (which occur in no
other buffer), with ranges of equal starts where `r1` does not end after `r2`
(so `v1` is sorted first, or the two keys are equal), `NormalizeAliasedBuffers`
sets the end of `r1` to the end of `r2` and leaves `r2` as it is.  With
`r1 = (2, 2)` and `r2 = (2, 9)` both ranges are `(2, 9)` afterwards, in either
order of the two values in the buffer. -/
theorem NormalizeAliasedBuffers_equal_start (c_sort : LiveRangeSort)
    (hsort : SortsByStartEnd c_sort) (aa : HloAliasAnalysis) (st : HloLiveRange)
    (pre post : List (List HloValue)) (values : List HloValue) (v1 v2 : HloValue)
    (r1 r2 : TimeBound)
    (hb : aa.buffers = pre ++ values :: post)
    (hpre : ∀ b ∈ pre, v1 ∉ b ∧ v2 ∉ b) (hpost : ∀ b ∈ post, v1 ∉ b ∧ v2 ∉ b)
    (htracked : values.filter (tracked st.buffer_live_ranges) = [v1, v2] ∨
      values.filter (tracked st.buffer_live_ranges) = [v2, v1])
    (h1 : st.buffer_live_ranges v1 = some r1) (h2 : st.buffer_live_ranges v2 = some r2)
    (heq : r1.start = r2.start) (hle : r1.end_ ≤ r2.end_) :
    ((NormalizeAliasedBuffers c_sort aa st).buffer_live_ranges v1 =
      some { start := r1.start, end_ := r2.end_, end_position := r1.end_position } ∧
    (NormalizeAliasedBuffers c_sort aa st).buffer_live_ranges v2 = some r2) ∧
    ((NormalizeAliasedBuffers c_sort pairAlias (pairState (2, 2) (2, 9))).buffer_live_ranges
        aliasX = some { start := 2, end_ := 9, end_position := none } ∧
    (NormalizeAliasedBuffers c_sort pairAlias (pairState (2, 2) (2, 9))).buffer_live_ranges
        aliasY = some { start := 2, end_ := 9, end_position := none } ∧
    (NormalizeAliasedBuffers c_sort pairAlias (pairState (2, 9) (2, 2))).buffer_live_ranges
        aliasX = some { start := 2, end_ := 9, end_position := none } ∧
    (NormalizeAliasedBuffers c_sort pairAlias (pairState (2, 9) (2, 2))).buffer_live_ranges
        aliasY = some { start := 2, end_ := 9, end_position := none }) := by
  have ha := normalizeBuffers_equal_start hsort pairAlias (pairState (2, 2) (2, 9)) [] []
    [aliasX, aliasY] aliasX aliasY { start := 2, end_ := 2, end_position := none }
    { start := 2, end_ := 9, end_position := none } rfl (by simp) (by simp)
    (Or.inl (by decide)) (by decide) (by decide) (by decide) (by decide)
  have hb2 := normalizeBuffers_equal_start hsort pairAlias (pairState (2, 9) (2, 2)) [] []
    [aliasX, aliasY] aliasY aliasX { start := 2, end_ := 2, end_position := none }
    { start := 2, end_ := 9, end_position := none } rfl (by simp) (by simp)
    (Or.inr (by decide)) (by decide) (by decide) (by decide) (by decide)
  exact ⟨normalizeBuffers_equal_start hsort aa st pre post values v1 v2 r1 r2 hb hpre hpost
    htracked h1 h2 heq hle, ha.1, ha.2, hb2.2, hb2.1⟩

/-- Witness for C16: the ranges `(2, 2)` and `(2, 9)` of `aliasX` and
`aliasY`. -/
theorem NormalizeAliasedBuffers_equal_start_witness :
    (NormalizeAliasedBuffers exampleSort pairAlias
        (pairState (2, 2) (2, 9))).buffer_live_ranges aliasX =
      some { start := 2, end_ := 9, end_position := none } ∧
    (NormalizeAliasedBuffers exampleSort pairAlias
        (pairState (2, 2) (2, 9))).buffer_live_ranges aliasY =
      some { start := 2, end_ := 9, end_position := none } :=
  (NormalizeAliasedBuffers_equal_start exampleSort exampleSort_sorts pairAlias
    (pairState (2, 2) (2, 9)) [] []
    [aliasX, aliasY] aliasX aliasY { start := 2, end_ := 2, end_position := none }
    { start := 2, end_ := 9, end_position := none } rfl (by simp) (by simp)
    (Or.inl (by decide)) (by decide) (by decide) (by decide) (by decide)).1

/-- C17: after the pass of `NormalizeAliasedBuffers` over a buffer (whose values
occur in no later buffer), any two ranges adjacent in the order in which the
pass visited them, which is the order `absl::c_sort` gave to the pointers, have
equal starts, or the earlier one ends before the later one starts; for any
number of tracked values, and whatever order the sort gives to ranges with
equal `(start, end)`. -/
theorem NormalizeAliasedBuffers_adjacent (c_sort : LiveRangeSort)
    (hsort : SortsByStartEnd c_sort) (aa : HloAliasAnalysis) (st : HloLiveRange)
    (pre post : List (List HloValue)) (values : List HloValue)
    (hb : aa.buffers = pre ++ values :: post)
    (hpost : ∀ b ∈ post, ∀ v ∈ values, v ∉ b) :
    (aliasedLiveRanges c_sort (pre.foldl (normalizeBuffer c_sort) st.buffer_live_ranges)
        values).Chain'
      (fun a b => ∀ ra rb,
        (NormalizeAliasedBuffers c_sort aa st).buffer_live_ranges a = some ra →
        (NormalizeAliasedBuffers c_sort aa st).buffer_live_ranges b = some rb →
        ra.start = rb.start ∨ ra.end_ < rb.start) := by
  have hchain := normalizePass_chain _ _
    (aliasedLiveRanges_sorted hsort (pre.foldl (normalizeBuffer c_sort) st.buffer_live_ranges)
      values)
  have hfinal : ∀ x ∈ aliasedLiveRanges c_sort
        (pre.foldl (normalizeBuffer c_sort) st.buffer_live_ranges) values,
      (NormalizeAliasedBuffers c_sort aa st).buffer_live_ranges x =
        normalizePass
          (aliasedLiveRanges c_sort (pre.foldl (normalizeBuffer c_sort) st.buffer_live_ranges)
            values)
          (pre.foldl (normalizeBuffer c_sort) st.buffer_live_ranges) x := by
    intro x hx
    simp only [NormalizeAliasedBuffers, hb, List.foldl_append, List.foldl_cons]
    rw [normalizeBuffers_other hsort post _
      (fun b hbm => hpost b hbm x (mem_aliasedLiveRanges hsort hx).1)]
    rfl
  refine List.Chain'.imp ?_ (List.Chain'.iff_mem.mp hchain)
  rintro a b ⟨ha, hb2, hab⟩ ra rb hra hrb
  rw [hfinal a ha] at hra
  rw [hfinal b hb2] at hrb
  exact hab ra rb hra hrb

/-- Witness for C17: the buffer `[aliasZ, aliasY, aliasX]` with the ranges
`(1, 5)` for `aliasX`, `(1, 5)` for `aliasY` and `(3, 4)` for `aliasZ`, under a
sort that leaves `aliasY` before `aliasX` and under one that puts `aliasX`
first.  The first cuts `aliasX` to `(1, 2)`, the second cuts `aliasY`; each
result is as stated in the order of its own pass. -/
theorem NormalizeAliasedBuffers_adjacent_witness :
    (aliasedLiveRanges exampleSort (([] : List (List HloValue)).foldl
        (normalizeBuffer exampleSort) (tripleState (1, 5) (1, 5) (3, 4)).buffer_live_ranges)
        [aliasZ, aliasY, aliasX] = [aliasY, aliasX, aliasZ] ∧
      [aliasX, aliasY, aliasZ].map (fun v =>
        ((NormalizeAliasedBuffers exampleSort tripleAlias
          (tripleState (1, 5) (1, 5) (3, 4))).buffer_live_ranges v).map
            (fun b => (b.start, b.end_))) = [some (1, 2), some (1, 5), some (3, 5)] ∧
      (aliasedLiveRanges exampleSort (([] : List (List HloValue)).foldl
        (normalizeBuffer exampleSort) (tripleState (1, 5) (1, 5) (3, 4)).buffer_live_ranges)
        [aliasZ, aliasY, aliasX]).Chain'
        (fun a b => ∀ ra rb,
          (NormalizeAliasedBuffers exampleSort tripleAlias
            (tripleState (1, 5) (1, 5) (3, 4))).buffer_live_ranges a = some ra →
          (NormalizeAliasedBuffers exampleSort tripleAlias
            (tripleState (1, 5) (1, 5) (3, 4))).buffer_live_ranges b = some rb →
          ra.start = rb.start ∨ ra.end_ < rb.start)) ∧
    (aliasedLiveRanges exampleSortReversed (([] : List (List HloValue)).foldl
        (normalizeBuffer exampleSortReversed)
        (tripleState (1, 5) (1, 5) (3, 4)).buffer_live_ranges)
        [aliasZ, aliasY, aliasX] = [aliasX, aliasY, aliasZ] ∧
      [aliasX, aliasY, aliasZ].map (fun v =>
        ((NormalizeAliasedBuffers exampleSortReversed tripleAlias
          (tripleState (1, 5) (1, 5) (3, 4))).buffer_live_ranges v).map
            (fun b => (b.start, b.end_))) = [some (1, 5), some (1, 2), some (3, 5)] ∧
      (aliasedLiveRanges exampleSortReversed (([] : List (List HloValue)).foldl
        (normalizeBuffer exampleSortReversed)
        (tripleState (1, 5) (1, 5) (3, 4)).buffer_live_ranges)
        [aliasZ, aliasY, aliasX]).Chain'
        (fun a b => ∀ ra rb,
          (NormalizeAliasedBuffers exampleSortReversed tripleAlias
            (tripleState (1, 5) (1, 5) (3, 4))).buffer_live_ranges a = some ra →
          (NormalizeAliasedBuffers exampleSortReversed tripleAlias
            (tripleState (1, 5) (1, 5) (3, 4))).buffer_live_ranges b = some rb →
          ra.start = rb.start ∨ ra.end_ < rb.start)) :=
  ⟨⟨by decide, by decide,
    NormalizeAliasedBuffers_adjacent exampleSort exampleSort_sorts tripleAlias
      (tripleState (1, 5) (1, 5) (3, 4)) [] [] [aliasZ, aliasY, aliasX] rfl (by simp)⟩,
   ⟨by decide, by decide,
    NormalizeAliasedBuffers_adjacent exampleSortReversed exampleSortReversed_sorts tripleAlias
      (tripleState (1, 5) (1, 5) (3, 4)) [] [] [aliasZ, aliasY, aliasX] rfl (by simp)⟩⟩

/-- C18 fails on the code: for the buffer `[aliasX, aliasY]` with the ranges
`(2, 2)` and `(2, 9)`, `NormalizeAliasedBuffers` leaves both values with the
range `(2, 9)`: two distinct values of one buffer whose ranges share every
timestamp from 2 to 9 and of which neither has `start = end`.  The comment
above line 76 asks for the first range to become `(2, 2)`.  The two ranges
differ in `end`, so every sort hands them to the pass in this order. -/
theorem NormalizeAliasedBuffers_equal_start_overlap :
    aliasX ≠ aliasY ∧
    (pairState (2, 2) (2, 9)).buffer_live_ranges aliasX =
      some { start := 2, end_ := 2, end_position := none } ∧
    (pairState (2, 2) (2, 9)).buffer_live_ranges aliasY =
      some { start := 2, end_ := 9, end_position := none } ∧
    (NormalizeAliasedBuffers exampleSort pairAlias (pairState (2, 2) (2, 9))).buffer_live_ranges aliasX =
      some { start := 2, end_ := 9, end_position := none } ∧
    (NormalizeAliasedBuffers exampleSort pairAlias (pairState (2, 2) (2, 9))).buffer_live_ranges aliasY =
      some { start := 2, end_ := 9, end_position := none } ∧
    ¬ (∀ a ∈ [aliasX, aliasY], ∀ b ∈ [aliasX, aliasY], a ≠ b → ∀ ra rb,
      (NormalizeAliasedBuffers exampleSort pairAlias (pairState (2, 2) (2, 9))).buffer_live_ranges a =
        some ra →
      (NormalizeAliasedBuffers exampleSort pairAlias (pairState (2, 2) (2, 9))).buffer_live_ranges b =
        some rb →
      (¬ ∃ t : Int, ra.start ≤ t ∧ t ≤ ra.end_ ∧ rb.start ≤ t ∧ t ≤ rb.end_) ∨
        ra.start = ra.end_ ∨ rb.start = rb.end_) ∧
    (∀ c_sort, SortsByStartEnd c_sort →
      NormalizeAliasedBuffers c_sort pairAlias (pairState (2, 2) (2, 9)) =
        NormalizeAliasedBuffers exampleSort pairAlias (pairState (2, 2) (2, 9))) := by
  have hx : (NormalizeAliasedBuffers exampleSort pairAlias (pairState (2, 2) (2, 9))).buffer_live_ranges
      aliasX = some { start := 2, end_ := 9, end_position := none } := by decide
  have hy : (NormalizeAliasedBuffers exampleSort pairAlias (pairState (2, 2) (2, 9))).buffer_live_ranges
      aliasY = some { start := 2, end_ := 9, end_position := none } := by decide
  refine ⟨by decide, by decide, by decide, hx, hy, ?_,
    fun c_sort hsort => NormalizeAliasedBuffers_any_sort hsort exampleSort_sorts pairAlias
      (pairState (2, 2) (2, 9)) [aliasX, aliasY] rfl (by decide)⟩
  intro hall
  rcases hall aliasX (by simp) aliasY (by simp) (by decide) _ _ hx hy with h | h | h
  · exact h ⟨5, by decide, by decide, by decide, by decide⟩
  · exact absurd h (by decide)
  · exact absurd h (by decide)

/-- C19 fails on the code: with `peakA` (100 bytes) live on `[0, 5]` and `peakB`
(50 bytes) live on `[6, 10]`, the events are sorted as start of A at 0, start
of B at 6, end of A at 6, end of B at 11, so the running total is 150 after
the second event and `ComputePeakMemoryMoment` returns 6.  At time 6 only B is
live, 50 bytes, while at time 0 the live memory is 100 bytes. -/
theorem ComputePeakMemoryMoment_not_peak :
    (sortedPeakEvents peakAlias (peakState (0, 5) (6, 10))).map
        (fun e => (e.time, e.is_end, e.value.id)) =
      [(0, false, 0), (6, false, 1), (6, true, 0), (11, true, 1)] ∧
    ComputePeakMemoryMoment peakAlias (peakState (0, 5) (6, 10)) = 6 ∧
    ComputePeakMemoryMoment peakAliasSwapped (peakState (0, 5) (6, 10)) = 6 ∧
    liveMemory (peakState (0, 5) (6, 10)).buffer_live_ranges peakAlias.values 6 = 50 ∧
    liveMemory (peakState (0, 5) (6, 10)).buffer_live_ranges peakAlias.values 0 = 100 ∧
    ¬ (∀ t : Int, liveMemory (peakState (0, 5) (6, 10)).buffer_live_ranges peakAlias.values t ≤
      liveMemory (peakState (0, 5) (6, 10)).buffer_live_ranges peakAlias.values
        (ComputePeakMemoryMoment peakAlias (peakState (0, 5) (6, 10)))) := by
  refine ⟨by decide, by decide, by decide, by decide, by decide, ?_⟩
  intro h
  exact absurd (h 0) (by decide)

/-- C20: with `peakA` (100 bytes) live on `[0, 5]` and `peakB` (50 bytes) live
on `[3, 10]`, `ComputePeakMemoryMoment` returns 3, the time of the event at
which the running total first reaches its peak 150; in either order of the two
values. -/
theorem ComputePeakMemoryMoment_scenario :
    ComputePeakMemoryMoment peakAlias (peakState (0, 5) (3, 10)) = 3 ∧
    ComputePeakMemoryMoment peakAliasSwapped (peakState (0, 5) (3, 10)) = 3 ∧
    (peakSweep (sortedPeakEvents peakAlias (peakState (0, 5) (3, 10)))).peak_usage = 150 ∧
    ((sortedPeakEvents peakAlias (peakState (0, 5) (3, 10))).map
        (fun e => (e.time, e.is_end, e.value.id)) =
      [(0, false, 0), (3, false, 1), (6, true, 0), (11, true, 1)]) ∧
    (peakSweep ((sortedPeakEvents peakAlias (peakState (0, 5) (3, 10))).take 1)).memory_usage
      = 100 ∧
    (peakSweep ((sortedPeakEvents peakAlias (peakState (0, 5) (3, 10))).take 2)).memory_usage
      = 150 := by
  refine ⟨by decide, by decide, by decide, by decide, by decide, by decide⟩

/-- C21: in `ComputePeakMemoryMoment` the events are, up to their order, a start
event at `start` and an end event at `end + 1` for every value of the analysis
that has a range, and nothing else; a start event adds the size of its value to
the running total and an end event subtracts it, so that after any number `k`
of events the sweep holds the sizes of the start events processed minus the
sizes of the end events processed; after the last event the running total
is 0. -/
theorem ComputePeakMemoryMoment_conservation (aa : HloAliasAnalysis) (st : HloLiveRange) :
    (sortedPeakEvents aa st).Perm
      ((collectLiveRanges st.buffer_live_ranges aa.values).flatMap (fun p =>
        [({ time := p.2.start, is_end := false, value := p.1 } : PeakEvent),
         { time := p.2.end_ + 1, is_end := true, value := p.1 }])) ∧
    (∀ v tb, v ∈ aa.values → st.buffer_live_ranges v = some tb →
      ({ time := tb.start, is_end := false, value := v } : PeakEvent) ∈
        sortedPeakEvents aa st ∧
      ({ time := tb.end_ + 1, is_end := true, value := v } : PeakEvent) ∈
        sortedPeakEvents aa st) ∧
    (∀ e ∈ sortedPeakEvents aa st, ∃ tb, e.value ∈ aa.values ∧
      st.buffer_live_ranges e.value = some tb ∧
      ((e.is_end = false ∧ e.time = tb.start) ∨ (e.is_end = true ∧ e.time = tb.end_ + 1))) ∧
    (∀ (s : PeakSweep) (e : PeakEvent),
      (sweepStep s e).memory_usage =
        if e.is_end then s.memory_usage - e.value.size else s.memory_usage + e.value.size) ∧
    (∀ k : Nat, (peakSweep ((sortedPeakEvents aa st).take k)).memory_usage =
      ((((sortedPeakEvents aa st).take k).filter (fun e => !e.is_end)).map
          (fun e => e.value.size)).sum -
        ((((sortedPeakEvents aa st).take k).filter (fun e => e.is_end)).map
          (fun e => e.value.size)).sum) ∧
    (peakSweep (sortedPeakEvents aa st)).memory_usage = 0 := by
  have hperm := sortedPeakEvents_perm aa st
  refine ⟨?_, ?_, ?_, ?_, ?_, ?_⟩
  · rw [← peakEvents_eq]
    exact hperm
  · intro v tb hv hr
    obtain ⟨a, b⟩ := peakEvents_mem hv hr
    exact ⟨hperm.mem_iff.mpr a, hperm.mem_iff.mpr b⟩
  · intro e he
    exact mem_peakEvents (hperm.mem_iff.mp he)
  · intro s e
    rw [sweepStep_memory]
    unfold signedSize
    split <;> ring
  · intro k
    unfold peakSweep
    rw [foldl_sweepStep_memory, signedSize_sum_split]
    simp
  · unfold peakSweep
    rw [foldl_sweepStep_memory, (hperm.map signedSize).sum_eq, peakEvents_sum]
    simp

/-- C22: when no value of the analysis has a range, there are no events and
`ComputePeakMemoryMoment` returns 0. -/
theorem ComputePeakMemoryMoment_no_events (aa : HloAliasAnalysis) (st : HloLiveRange)
    (h : ∀ v ∈ aa.values, st.buffer_live_ranges v = none) :
    sortedPeakEvents aa st = [] ∧ ComputePeakMemoryMoment aa st = 0 := by
  have he : sortedPeakEvents aa st = [] := by
    unfold sortedPeakEvents
    rw [peakEvents_untracked _ _ h]
    rfl
  refine ⟨he, ?_⟩
  unfold ComputePeakMemoryMoment
  rw [he]
  rfl

/-- Witness for C22: the freshly constructed analysis of `peakAlias`. -/
theorem ComputePeakMemoryMoment_no_events_witness :
    sortedPeakEvents peakAlias HloLiveRange.init = [] ∧
    ComputePeakMemoryMoment peakAlias HloLiveRange.init = 0 :=
  ComputePeakMemoryMoment_no_events peakAlias HloLiveRange.init (fun _ _ => rfl)

/-- C23: two runs of `FlattenSchedule` on fresh objects, for the same module,
schedule, mode flag and computation, each with its own layout of the hash
tables (and neither cut short by the recursion bound of the model): the runs
fail alike or both return, and when they return their flattened sequences are
identical, every instruction has the same timestamp in both, every computation
the same span, and the flags are equal.  What the runs return is what
`FlattenSchedule` on the lookup functions returns. -/
theorem FlattenSchedule_deterministic (m : HloModule) (schedule : HloSchedule) (ms : Bool)
    (c : CompId) (layout1 layout2 : TableLayout) (hl1 : layout1.Valid) (hl2 : layout2.Valid)
    (fuel1 fuel2 : Nat)
    (h1 : tableFlattenSchedule layout1 m schedule ms fuel1 c HloLiveRangeTables.init ≠
      .error .out_of_fuel)
    (h2 : tableFlattenSchedule layout2 m schedule ms fuel2 c HloLiveRangeTables.init ≠
      .error .out_of_fuel) :
    (tableFlattenSchedule layout1 m schedule ms fuel1 c HloLiveRangeTables.init).map
        HloLiveRangeTables.view =
      (tableFlattenSchedule layout2 m schedule ms fuel2 c HloLiveRangeTables.init).map
        HloLiveRangeTables.view ∧
    (tableFlattenSchedule layout1 m schedule ms fuel1 c HloLiveRangeTables.init).map
        HloLiveRangeTables.view =
      FlattenSchedule m schedule ms fuel1 c HloLiveRange.init ∧
    ∀ r1 r2,
      tableFlattenSchedule layout1 m schedule ms fuel1 c HloLiveRangeTables.init = .ok r1 →
      tableFlattenSchedule layout2 m schedule ms fuel2 c HloLiveRangeTables.init = .ok r2 →
      r1.flattened_instruction_sequence = r2.flattened_instruction_sequence ∧
      (∀ i, r1.instruction_schedule.find i = r2.instruction_schedule.find i) ∧
      (∀ x, r1.computation_span_times.find x = r2.computation_span_times.find x) ∧
      r1.total_order_scheduled = r2.total_order_scheduled := by
  have v1 := tableFlattenSchedule_view hl1 m schedule ms fuel1 c
  have v2 := tableFlattenSchedule_view hl2 m schedule ms fuel2 c
  have s1 := map_view_settled h1
  have s2 := map_view_settled h2
  rw [v1] at s1
  rw [v2] at s2
  have heq : FlattenSchedule m schedule ms fuel1 c HloLiveRange.init =
      FlattenSchedule m schedule ms fuel2 c HloLiveRange.init := by
    rcases Nat.le_total fuel1 fuel2 with hle | hle
    · exact (FlattenSchedule_fuel_le m schedule ms hle c _ s1).symm
    · exact FlattenSchedule_fuel_le m schedule ms hle c _ s2
  have hmap : (tableFlattenSchedule layout1 m schedule ms fuel1 c HloLiveRangeTables.init).map
        HloLiveRangeTables.view =
      (tableFlattenSchedule layout2 m schedule ms fuel2 c HloLiveRangeTables.init).map
        HloLiveRangeTables.view := by
    rw [v1, v2, heq]
  refine ⟨hmap, v1, ?_⟩
  intro r1 r2 e1 e2
  rw [e1, e2] at hmap
  have hv : r1.view = r2.view := Except.ok.inj hmap
  refine ⟨congrArg HloLiveRange.flattened_instruction_sequence hv, ?_, ?_,
    congrArg HloLiveRange.total_order_scheduled hv⟩
  · intro i
    exact congrFun (congrArg HloLiveRange.instruction_schedule hv) i
  · intro x
    exact congrFun (congrArg HloLiveRange.computation_span_times hv) x

/-- Witness for C23: the walk of `whileModule` by a run that puts new entries
behind the others and by a run that puts them in front and reverses the
others.  The tables of the two runs hold their entries in different orders;
the sequences, the timestamps and the spans are the same. -/
theorem FlattenSchedule_deterministic_witness :
    (tableFlattenSchedule layoutAppend whileModule whileSchedule true 3 0
        HloLiveRangeTables.init).toOption.map (fun s => s.instruction_schedule.entries) =
      some [(3, 0), (4, 1), (0, 2), (1, 3), (2, 4)] ∧
    (tableFlattenSchedule layoutReverse whileModule whileSchedule true 7 0
        HloLiveRangeTables.init).toOption.map (fun s => s.instruction_schedule.entries) =
      some [(2, 4), (0, 2), (3, 0), (4, 1), (1, 3)] ∧
    (tableFlattenSchedule layoutAppend whileModule whileSchedule true 3 0
        HloLiveRangeTables.init).map HloLiveRangeTables.view =
      (tableFlattenSchedule layoutReverse whileModule whileSchedule true 7 0
        HloLiveRangeTables.init).map HloLiveRangeTables.view :=
  ⟨by decide, by decide,
   (FlattenSchedule_deterministic whileModule whileSchedule true 0 layoutAppend layoutReverse
    layoutAppend_valid layoutReverse_valid 3 7
    (completes_settled (by decide)) (completes_settled (by decide))).1⟩

/-- C25 fails on the code: in `straightModule` (timestamps 0 to 4, the root is
instruction 4) the value `valueSpread` has positions at the instructions 0, 3
and 2, in this order, none of them a root.  Instruction 3 has the greatest
timestamp of the three, yet the recorded `end_position` is the position at
instruction 2: line 177 stores the timestamp of the defining instruction, 0, in
`max_end_time`, so the test of line 176 holds for every position and the last
one scanned is kept.  The value is alone in its buffer, so `Run` returns the
same with every sort. -/
theorem CalculateBufferStartEndMap_end_position_not_latest :
    (∃ r, Run exampleSort straightModule straightSchedule straightAliasSpread 0 true 1 = .ok r ∧
      r.instruction_schedule 0 = some 0 ∧ r.instruction_schedule 3 = some 3 ∧
      r.instruction_schedule 2 = some 2 ∧
      (∀ p ∈ valueSpread.positions,
        p.instruction ≠ straightModule.root_instruction (straightModule.parent p.instruction)) ∧
      r.buffer_live_ranges valueSpread =
        some { start := 0, end_ := 3,
               end_position := some { instruction := 2, index := [0] } }) ∧
    (∀ c_sort, SortsByStartEnd c_sort →
      Run c_sort straightModule straightSchedule straightAliasSpread 0 true 1 =
        Run exampleSort straightModule straightSchedule straightAliasSpread 0 true 1) := by
  refine ⟨?_, fun c_sort hsort => Run_short_buffers hsort straightModule straightSchedule
    straightAliasSpread 0 true 1 (by decide)⟩
  obtain ⟨r, h⟩ := completes_ok
    (r := Run exampleSort straightModule straightSchedule straightAliasSpread 0 true 1) (by decide)
  have e0 : (Run exampleSort straightModule straightSchedule straightAliasSpread 0 true 1).toOption.bind
      (fun s => s.instruction_schedule 0) = some 0 := by decide
  have e3 : (Run exampleSort straightModule straightSchedule straightAliasSpread 0 true 1).toOption.bind
      (fun s => s.instruction_schedule 3) = some 3 := by decide
  have e2 : (Run exampleSort straightModule straightSchedule straightAliasSpread 0 true 1).toOption.bind
      (fun s => s.instruction_schedule 2) = some 2 := by decide
  have ev : (Run exampleSort straightModule straightSchedule straightAliasSpread 0 true 1).toOption.bind
      (fun s => s.buffer_live_ranges valueSpread) =
      some { start := 0, end_ := 3, end_position := some { instruction := 2, index := [0] } } := by
    decide
  exact ⟨r, h,
    toOption_bind_ok (g := fun s => s.instruction_schedule 0) h e0,
    toOption_bind_ok (g := fun s => s.instruction_schedule 3) h e3,
    toOption_bind_ok (g := fun s => s.instruction_schedule 2) h e2,
    by decide,
    toOption_bind_ok (g := fun s => s.buffer_live_ranges valueSpread) h ev⟩

/-- C26 fails on the code: in the module-scoped analysis of `callResultModule`
the value `callResultValue` has a position at instruction 0, the root of the
callee, whose span is `[0, 1)`, and its end is extended from 0 to 1, the end of
that span; the recorded `end_position` is the position at the call 1, which is
scanned after it and is not a root.  The value is alone in its buffer, so `Run`
returns the same with every sort. -/
theorem CalculateBufferStartEndMap_live_out_position_counterexample :
    (∃ r, Run exampleSort callResultModule callResultSchedule callResultAlias 0 true 2 = .ok r ∧
      callResultValue.positions =
        [{ instruction := 0, index := [] }, { instruction := 1, index := [] }] ∧
      callResultModule.root_instruction (callResultModule.parent 0) = 0 ∧
      callResultModule.root_instruction (callResultModule.parent 1) ≠ 1 ∧
      r.instruction_schedule 0 = some 0 ∧
      r.computation_span_times (callResultModule.parent 0) =
        some { start := 0, end_ := 1, end_position := none } ∧
      r.buffer_live_ranges callResultValue =
        some { start := 0, end_ := 1,
               end_position := some { instruction := 1, index := [] } }) ∧
    (∀ c_sort, SortsByStartEnd c_sort →
      Run c_sort callResultModule callResultSchedule callResultAlias 0 true 2 =
        Run exampleSort callResultModule callResultSchedule callResultAlias 0 true 2) := by
  refine ⟨?_, fun c_sort hsort => Run_short_buffers hsort callResultModule callResultSchedule
    callResultAlias 0 true 2 (by decide)⟩
  obtain ⟨r, h⟩ := completes_ok
    (r := Run exampleSort callResultModule callResultSchedule callResultAlias 0 true 2) (by decide)
  have e0 : (Run exampleSort callResultModule callResultSchedule callResultAlias 0 true 2).toOption.bind
      (fun s => s.instruction_schedule 0) = some 0 := by decide
  have e1 : (Run exampleSort callResultModule callResultSchedule callResultAlias 0 true 2).toOption.bind
      (fun s => s.computation_span_times (callResultModule.parent 0)) =
      some { start := 0, end_ := 1, end_position := none } := by decide
  have e2 : (Run exampleSort callResultModule callResultSchedule callResultAlias 0 true 2).toOption.bind
      (fun s => s.buffer_live_ranges callResultValue) =
      some { start := 0, end_ := 1, end_position := some { instruction := 1, index := [] } } := by
    decide
  exact ⟨r, h, rfl, by decide, by decide,
    toOption_bind_ok (g := fun s => s.instruction_schedule 0) h e0,
    toOption_bind_ok
      (g := fun s => s.computation_span_times (callResultModule.parent 0)) h e1,
    toOption_bind_ok (g := fun s => s.buffer_live_ranges callResultValue) h e2⟩

/-- C26, amended: let `st1` be the state in which the loop of
`CalculateBufferStartEndMap` reaches the value `v`, whose defining instruction
has a timestamp.  When the last position `p` of `v` is the root instruction of
a computation with the span `sp` and the end computed from the uses and the
positions before `p` is smaller than the end of `sp` (the test of line 186
holds at `p`), the recorded `end_position` is `p`, whatever the positions
before `p` are; unless `v` is a read-only entry parameter, the recorded end is
the end of `sp`. -/
theorem CalculateBufferStartEndMap_live_out_position (m : HloModule) (aa : HloAliasAnalysis)
    (ms : Bool) (st st1 st2 : HloLiveRange) (v : HloValue) (pre post : List HloValue)
    (t : Int) (ps : List HloPosition) (p : HloPosition) (sp : TimeBound)
    (hvals : aa.values = pre ++ v :: post)
    (hpre : calculateValues m ms pre st = .ok st1)
    (hcalc : CalculateBufferStartEndMap m aa ms st = .ok st2)
    (ht : st1.instruction_schedule v.defining_instruction = some t)
    (hpos : v.positions = ps ++ [p])
    (hroot : p.instruction = m.root_instruction (m.parent p.instruction))
    (hspan : st1.computation_span_times (m.parent p.instruction) = some sp)
    (hext : (positionsLoop m st1.computation_span_times v ps
      { instruction_schedule := st1.instruction_schedule
        max_end_time := 0
        end_position := none
        buffer_end_time := usesLoop m ms st1.instruction_schedule v.uses
          (bufferStartTime m st1.computation_span_times v t) }).buffer_end_time < sp.end_) :
    ∃ tb, st2.buffer_live_ranges v = some tb ∧ tb.end_position = some p ∧
      (isReadOnlyEntryParameter m v = false → tb.end_ = sp.end_) := by
  unfold CalculateBufferStartEndMap at hcalc
  rw [hvals, calculateValues_append, hpre] at hcalc
  simp only [calculateValues] at hcalc
  cases hv : calculateValue m ms v st1 with
  | error e => rw [hv] at hcalc; cases hcalc
  | ok st3 =>
    rw [hv] at hcalc
    simp only at hcalc
    rcases calculateValue_ok hv with ⟨hn, _⟩ | ⟨t0, ht0, _, _, hst3⟩
    · rw [ht] at hn; cases hn
    · rw [ht] at ht0
      cases ht0
      have hrec : st3.buffer_live_ranges v = some (valueTimeBound m ms v st1 t) := by
        rw [hst3]
        simp [mapSet]
      have hkept := (calculateValues_trace post st3 st2 hcalc).2.2.2.2.1 v _ hrec
      have hlast : (positionsOf m ms v st1 t).end_position = some p ∧
          (positionsOf m ms v st1 t).buffer_end_time = sp.end_ := by
        unfold positionsOf
        rw [hpos, positionsLoop_append]
        simp only [positionsLoop, positionLiveOut]
        rw [if_pos hroot]
        simp only [hspan, positionTrack_end]
        rw [if_pos hext]
        exact ⟨rfl, rfl⟩
      refine ⟨_, hkept, hlast.1, ?_⟩
      intro hro
      simp only [valueTimeBound, hro, Bool.false_eq_true, if_false]
      exact hlast.2

/-- Witness for the amended C26: in the module-scoped analysis of `callModule`
the last position of `callArg` is at the call 1, the root of the entry
computation with span `[0, 4)`; the end computed before it is 3, and the
recorded `end_position` is that position, with end 4. -/
theorem CalculateBufferStartEndMap_live_out_position_witness :
    ∃ st st2,
      FlattenSchedule callModule callSchedule true 2 0 HloLiveRange.init = .ok st ∧
      CalculateBufferStartEndMap callModule callAlias true st = .ok st2 ∧
      ∃ tb, st2.buffer_live_ranges callArg = some tb ∧
        tb.end_position = some { instruction := 1, index := [0] } ∧
        (isReadOnlyEntryParameter callModule callArg = false → tb.end_ = 4) := by
  obtain ⟨st, st2, h1, h2, _⟩ := completes_andThen
    (r := FlattenSchedule callModule callSchedule true 2 0 HloLiveRange.init)
    (f := CalculateBufferStartEndMap callModule callAlias true) (by decide)
  have e0 : (FlattenSchedule callModule callSchedule true 2 0 HloLiveRange.init).toOption.bind
      (fun s => s.instruction_schedule callArg.defining_instruction) = some 0 := by decide
  have e1 : (FlattenSchedule callModule callSchedule true 2 0 HloLiveRange.init).toOption.bind
      (fun s => s.computation_span_times (callModule.parent 1)) =
      some { start := 0, end_ := 4, end_position := none } := by decide
  have e2 : (FlattenSchedule callModule callSchedule true 2 0 HloLiveRange.init).toOption.bind
      (fun s => some (positionsLoop callModule s.computation_span_times callArg
        [{ instruction := 0, index := [] }, { instruction := 2, index := [] },
         { instruction := 3, index := [0] }]
        { instruction_schedule := s.instruction_schedule
          max_end_time := 0
          end_position := none
          buffer_end_time := usesLoop callModule true s.instruction_schedule callArg.uses
            (bufferStartTime callModule s.computation_span_times callArg 0) }).buffer_end_time) =
      some 3 := by decide
  have hext := Option.some.inj (toOption_bind_ok
    (g := fun s => some (positionsLoop callModule s.computation_span_times callArg
        [{ instruction := 0, index := [] }, { instruction := 2, index := [] },
         { instruction := 3, index := [0] }]
        { instruction_schedule := s.instruction_schedule
          max_end_time := 0
          end_position := none
          buffer_end_time := usesLoop callModule true s.instruction_schedule callArg.uses
            (bufferStartTime callModule s.computation_span_times callArg 0) }).buffer_end_time)
    h1 e2)
  exact ⟨st, st2, h1, h2,
    CalculateBufferStartEndMap_live_out_position callModule callAlias true st st st2 callArg
      [] [callTuple] 0
      [{ instruction := 0, index := [] }, { instruction := 2, index := [] },
       { instruction := 3, index := [0] }]
      { instruction := 1, index := [0] } { start := 0, end_ := 4, end_position := none }
      rfl rfl h2
      (toOption_bind_ok (g := fun s => s.instruction_schedule callArg.defining_instruction) h1 e0)
      rfl (by decide)
      (toOption_bind_ok (g := fun s => s.computation_span_times (callModule.parent 1)) h1 e1)
      (by rw [hext]; decide)⟩

/-- C27 fails on the code: in the computation-scoped analysis of the entry
computation of `callModule`, `FlattenSchedule` gives the parameter 2 and the
tuple 3 of the callee no timestamp; after `CalculateBufferStartEndMap` both
have the timestamp 0, inserted by the reads `instruction_schedule_[...]` of
line 176 at the positions of `callArg`.  The spans are not changed, and
`NormalizeAliasedBuffers` changes neither map. -/
theorem CalculateBufferStartEndMap_inserts_timestamps :
    ∃ st st1,
      FlattenSchedule callModule callSchedule false 1 0 HloLiveRange.init = .ok st ∧
      CalculateBufferStartEndMap callModule callAlias false st = .ok st1 ∧
      st.instruction_schedule 2 = none ∧ st.instruction_schedule 3 = none ∧
      st1.instruction_schedule 2 = some 0 ∧ st1.instruction_schedule 3 = some 0 ∧
      st1.instruction_schedule ≠ st.instruction_schedule ∧
      st1.computation_span_times = st.computation_span_times ∧
      ∀ c_sort,
        (NormalizeAliasedBuffers c_sort callAlias st1).instruction_schedule =
          st1.instruction_schedule ∧
        (NormalizeAliasedBuffers c_sort callAlias st1).computation_span_times =
          st1.computation_span_times := by
  obtain ⟨st, st1, h1, h2, h3⟩ := completes_andThen
    (r := FlattenSchedule callModule callSchedule false 1 0 HloLiveRange.init)
    (f := CalculateBufferStartEndMap callModule callAlias false) (by decide)
  have a2 : (FlattenSchedule callModule callSchedule false 1 0 HloLiveRange.init).toOption.bind
      (fun s => s.instruction_schedule 2) = none := by decide
  have a3 : (FlattenSchedule callModule callSchedule false 1 0 HloLiveRange.init).toOption.bind
      (fun s => s.instruction_schedule 3) = none := by decide
  have b2 : (andThen (FlattenSchedule callModule callSchedule false 1 0 HloLiveRange.init)
      (CalculateBufferStartEndMap callModule callAlias false)).toOption.bind
      (fun s => s.instruction_schedule 2) = some 0 := by decide
  have b3 : (andThen (FlattenSchedule callModule callSchedule false 1 0 HloLiveRange.init)
      (CalculateBufferStartEndMap callModule callAlias false)).toOption.bind
      (fun s => s.instruction_schedule 3) = some 0 := by decide
  have hs2 := toOption_bind_ok (g := fun s => s.instruction_schedule 2) h1 a2
  have hs3 := toOption_bind_ok (g := fun s => s.instruction_schedule 3) h1 a3
  have ht2 := toOption_bind_ok (g := fun s => s.instruction_schedule 2) h3 b2
  have ht3 := toOption_bind_ok (g := fun s => s.instruction_schedule 3) h3 b3
  refine ⟨st, st1, h1, h2, hs2, hs3, ht2, ht3, ?_,
    (calculateValues_trace _ st st1 h2).2.1, fun _ => ⟨rfl, rfl⟩⟩
  intro heq
  have hs : st.instruction_schedule 2 = none := hs2
  have ht : st1.instruction_schedule 2 = some 0 := ht2
  rw [heq, hs] at ht
  cases ht

/-- C28: when the list of values contains a value twice and the defining
instruction of that value has a timestamp, `CalculateBufferStartEndMap` fails a
`CHECK`; and when the loop reaches the second occurrence, the value has a
range, the `CHECK` of line 205 passes, and the iteration fails the `CHECK` of
the insertion. -/
theorem CalculateBufferStartEndMap_duplicate (m : HloModule) (aa : HloAliasAnalysis)
    (ms : Bool) (st : HloLiveRange) (v : HloValue) (pre mid post : List HloValue) (t : Int)
    (hvals : aa.values = (pre ++ v :: mid) ++ v :: post)
    (ht : st.instruction_schedule v.defining_instruction = some t) :
    CalculateBufferStartEndMap m aa ms st = .error .check_failed ∧
    ∀ st1, calculateValues m ms (pre ++ v :: mid) st = .ok st1 →
      (∃ tb, st1.buffer_live_ranges v = some tb) ∧
      st1.instruction_schedule v.defining_instruction = some t ∧
      (valueTimeBound m ms v st1 t).start ≤ (valueTimeBound m ms v st1 t).end_ ∧
      calculateValue m ms v st1 = .error .check_failed := by
  have hsecond : ∀ st1, calculateValues m ms (pre ++ v :: mid) st = .ok st1 →
      (∃ tb, st1.buffer_live_ranges v = some tb) ∧
      st1.instruction_schedule v.defining_instruction = some t ∧
      (valueTimeBound m ms v st1 t).start ≤ (valueTimeBound m ms v st1 t).end_ ∧
      calculateValue m ms v st1 = .error .check_failed := by
    intro st1 h1
    have hsome : st1.buffer_live_ranges v ≠ none :=
      calculateValues_tracked _ st st1 h1 v (by simp) (by rw [ht]; simp)
    obtain ⟨tb, htb⟩ := Option.ne_none_iff_exists'.mp hsome
    have htr1 := calculateValues_trace _ st st1 h1
    have ht1 : st1.instruction_schedule v.defining_instruction = some t :=
      schedGrows_kept htr1.2.2.2.1 ht
    have hle : (valueTimeBound m ms v st1 t).start ≤ (valueTimeBound m ms v st1 t).end_ := by
      cases hro : isReadOnlyEntryParameter m v with
      | false => exact valueTimeBound_start_le m ms v st1 t hro
      | true =>
        -- the first occurrence passed the same test on the same span and length
        rw [calculateValues_append] at h1
        cases hp : calculateValues m ms pre st with
        | error e => rw [hp] at h1; cases h1
        | ok s0 =>
          rw [hp] at h1
          simp only [calculateValues] at h1
          cases hv : calculateValue m ms v s0 with
          | error e => rw [hv] at h1; cases h1
          | ok s1 =>
            rw [hv] at h1
            simp only at h1
            have htr0 := calculateValues_trace _ st s0 hp
            have ht0 : s0.instruction_schedule v.defining_instruction = some t :=
              schedGrows_kept htr0.2.2.2.1 ht
            rcases calculateValue_ok hv with ⟨hn, _⟩ | ⟨t0, ht0b, _, hle0, _⟩
            · rw [ht0] at hn; cases hn
            · rw [ht0] at ht0b
              cases ht0b
              simp only [valueTimeBound, hro, if_true] at hle0 ⊢
              rw [htr1.2.1, ← htr0.2.1]
              unfold HloLiveRange.schedule_end_time at hle0 ⊢
              rw [htr1.1, ← htr0.1]
              exact hle0
    refine ⟨⟨tb, htb⟩, ht1, hle, ?_⟩
    unfold calculateValue
    simp only [ht1, hle, if_true, htb]
  refine ⟨?_, hsecond⟩
  unfold CalculateBufferStartEndMap
  rw [hvals, calculateValues_append]
  cases h1 : calculateValues m ms (pre ++ v :: mid) st with
  | error e => rw [calculateValues_error _ st e h1]
  | ok st1 =>
    simp only [calculateValues, (hsecond st1 h1).2.2.2]

theorem CalculateBufferStartEndMap_duplicate_witness :
    ∃ st, FlattenSchedule straightModule straightSchedule true 1 0 HloLiveRange.init = .ok st ∧
      st.instruction_schedule valueA.defining_instruction = some 0 ∧
      CalculateBufferStartEndMap straightModule straightAliasTwice true st =
        .error .check_failed := by
  obtain ⟨st, h1⟩ := completes_ok
    (r := FlattenSchedule straightModule straightSchedule true 1 0 HloLiveRange.init) (by decide)
  have e : (FlattenSchedule straightModule straightSchedule true 1 0
      HloLiveRange.init).toOption.bind
      (fun s => s.instruction_schedule valueA.defining_instruction) = some 0 := by decide
  have ht := toOption_bind_ok
    (g := fun s => s.instruction_schedule valueA.defining_instruction) h1 e
  exact ⟨st, h1, ht,
    (CalculateBufferStartEndMap_duplicate straightModule straightAliasTwice true st valueA
      [] [] [] 0 rfl ht).1⟩

/-- C29: when every range is a proper interval, no value has a negative size
and some value with a range has a positive size, `ComputePeakMemoryMoment`
returns the time of an event `k` of the sorted events at which the running
total is the greatest of all running totals, every earlier event has a
strictly smaller running total, and every event with the same running total
has a time that is not earlier. -/
theorem ComputePeakMemoryMoment_earliest (aa : HloAliasAnalysis) (st : HloLiveRange)
    (hok : RangesOk st.buffer_live_ranges) (hsize : ∀ v ∈ aa.values, 0 ≤ v.size)
    (hpos : ∃ v ∈ aa.values, tracked st.buffer_live_ranges v = true ∧ 0 < v.size) :
    ∃ k, k < (sortedPeakEvents aa st).length ∧
      (sortedPeakEvents aa st)[k]?.map PeakEvent.time = some (ComputePeakMemoryMoment aa st) ∧
      (∀ j, j < (sortedPeakEvents aa st).length →
        runningTotal (sortedPeakEvents aa st) j ≤ runningTotal (sortedPeakEvents aa st) k) ∧
      (∀ j, j < k →
        runningTotal (sortedPeakEvents aa st) j < runningTotal (sortedPeakEvents aa st) k) ∧
      (∀ j e, (sortedPeakEvents aa st)[j]? = some e →
        runningTotal (sortedPeakEvents aa st) j = runningTotal (sortedPeakEvents aa st) k →
        ComputePeakMemoryMoment aa st ≤ e.time) := by
  obtain ⟨v, hv, htr, hvpos⟩ := hpos
  have hinv := sweepInv_peakSweep (sortedPeakEvents aa st)
  obtain ⟨tb, hr⟩ : ∃ tb, st.buffer_live_ranges v = some tb := by
    unfold tracked at htr
    exact Option.isSome_iff_exists.mp htr
  obtain ⟨i, hi, hge⟩ := runningTotal_at_start aa st hok hsize v tb hv hr
  have hpeak : 0 < (peakSweep (sortedPeakEvents aa st)).peak_usage :=
    lt_of_lt_of_le (lt_of_lt_of_le hvpos hge) (hinv.peak_ge i hi)
  cases ht : (peakSweep (sortedPeakEvents aa st)).peak_time with
  | none => exact absurd (hinv.no_time ht) (ne_of_gt hpeak)
  | some t =>
    obtain ⟨k, hk, hkt, htot, _, hfirst⟩ := hinv.first_time t ht
    have hres : ComputePeakMemoryMoment aa st = t := by
      unfold ComputePeakMemoryMoment
      rw [ht]
    refine ⟨k, hk, by rw [hres]; exact hkt, ?_, hfirst, ?_⟩
    · intro j hj
      rw [htot]
      exact hinv.peak_ge j hj
    · intro j e hje heq
      rw [hres]
      have hjk : k ≤ j := by
        by_contra hlt
        exact absurd heq (ne_of_lt (hfirst j (not_le.mp hlt)))
      have hjl : j < (sortedPeakEvents aa st).length := (List.getElem?_eq_some.mp hje).1
      have hej : (sortedPeakEvents aa st)[j] = e := (List.getElem?_eq_some.mp hje).2
      have hkt2 : ((sortedPeakEvents aa st)[k]).time = t := by
        rw [List.getElem?_eq_getElem hk] at hkt
        simpa using hkt
      rcases Nat.eq_or_lt_of_le hjk with heq2 | hlt2
      · subst heq2
        rw [← hej, hkt2]
      · have hsorted := sortedPeakEvents_sorted aa st
        have := peakEventNotAfter_time
          (List.pairwise_iff_getElem.mp hsorted k j hk hjl hlt2)
        rw [hkt2, hej] at this
        exact this

theorem ComputePeakMemoryMoment_earliest_witness :
    ComputePeakMemoryMoment peakAlias (peakState (0, 5) (3, 10)) = 3 ∧
    ∃ k, k < (sortedPeakEvents peakAlias (peakState (0, 5) (3, 10))).length ∧
      (sortedPeakEvents peakAlias (peakState (0, 5) (3, 10)))[k]?.map PeakEvent.time =
        some (ComputePeakMemoryMoment peakAlias (peakState (0, 5) (3, 10))) ∧
      (∀ j, j < (sortedPeakEvents peakAlias (peakState (0, 5) (3, 10))).length →
        runningTotal (sortedPeakEvents peakAlias (peakState (0, 5) (3, 10))) j ≤
          runningTotal (sortedPeakEvents peakAlias (peakState (0, 5) (3, 10))) k) ∧
      (∀ j, j < k →
        runningTotal (sortedPeakEvents peakAlias (peakState (0, 5) (3, 10))) j <
          runningTotal (sortedPeakEvents peakAlias (peakState (0, 5) (3, 10))) k) ∧
      (∀ j e, (sortedPeakEvents peakAlias (peakState (0, 5) (3, 10)))[j]? = some e →
        runningTotal (sortedPeakEvents peakAlias (peakState (0, 5) (3, 10))) j =
          runningTotal (sortedPeakEvents peakAlias (peakState (0, 5) (3, 10))) k →
        ComputePeakMemoryMoment peakAlias (peakState (0, 5) (3, 10)) ≤ e.time) :=
  ⟨by decide,
   ComputePeakMemoryMoment_earliest peakAlias (peakState (0, 5) (3, 10))
    (peakState_rangesOk _ _ (by decide) (by decide))
    (by intro v hv; simp only [peakAlias, List.mem_cons, List.mem_singleton, List.not_mem_nil,
          or_false] at hv; rcases hv with rfl | rfl <;> decide)
    ⟨peakA, by decide, by decide, by decide⟩⟩

/-- C30: in computation-scoped mode, for a root computation whose scheduled
sequence `seq` holds no instruction twice, `FlattenSchedule` on a fresh object
returns; the flattened sequence is `seq`, the instruction of index `k` of `seq`
has timestamp `k`, no other instruction has a timestamp, the span of the root
is `[0, n)` with `n` the length of `seq`, and no other computation has a
span; whatever the opcodes of the instructions of `seq`. -/
theorem FlattenSchedule_computation_scoped (m : HloModule) (schedule : HloSchedule)
    (fuel : Nat) (c : CompId) (seq : List InstrId)
    (hseq : schedule.sequences c = some seq) (hnd : seq.Nodup) :
    ∃ st, FlattenSchedule m schedule false (fuel + 1) c HloLiveRange.init = .ok st ∧
      st.flattened_instruction_sequence = seq ∧
      (∀ k (h : k < seq.length), st.instruction_schedule seq[k] = some (k : Int)) ∧
      (∀ j, j ∉ seq → st.instruction_schedule j = none) ∧
      st.computation_span_times c =
        some { start := 0, end_ := seq.length, end_position := none } ∧
      (∀ c2, c2 ≠ c → st.computation_span_times c2 = none) ∧
      st.total_order_scheduled = true := by
  obtain ⟨st1, h1, hflat, hspan, htot, _, htime, hother⟩ :=
    flattenSequence_scoped m (FlattenSchedule m schedule false fuel) seq HloLiveRange.init
      (fun _ _ => rfl) hnd
  have hflat2 : st1.flattened_instruction_sequence = seq := by
    rw [hflat]; simp [HloLiveRange.init]
  refine ⟨{ st1 with
      computation_span_times := mapSet st1.computation_span_times c
        { start := 0, end_ := seq.length, end_position := none } }, ?_, hflat2, ?_, ?_, ?_, ?_,
      ?_⟩
  · show flattenBody m schedule false (FlattenSchedule m schedule false fuel) c
      HloLiveRange.init = _
    simp only [flattenBody, hseq, h1, hflat2]
    simp [HloLiveRange.init]
  · intro k hk
    have := htime k hk
    simpa [HloLiveRange.init] using this
  · intro j hj
    exact hother j hj
  · simp [mapSet]
  · intro c2 hc2
    simp only [mapSet, if_neg hc2, hspan]
    rfl
  · exact htot

theorem FlattenSchedule_computation_scoped_witness :
    whileModule.opcode 2 = .kWhile ∧
    ∃ st, FlattenSchedule whileModule whileSchedule false 1 0 HloLiveRange.init = .ok st ∧
      st.flattened_instruction_sequence = [3, 2] ∧
      (∀ k (h : k < [3, 2].length), st.instruction_schedule ([3, 2].get ⟨k, h⟩) =
        some (k : Int)) ∧
      (∀ j, j ∉ [3, 2] → st.instruction_schedule j = none) ∧
      st.computation_span_times 0 = some { start := 0, end_ := 2, end_position := none } ∧
      (∀ c2, c2 ≠ 0 → st.computation_span_times c2 = none) ∧
      st.total_order_scheduled = true :=
  ⟨by decide,
   FlattenSchedule_computation_scoped whileModule whileSchedule 0 0 [3, 2] (by decide)
    (by decide)⟩

/-- C31: after `FlattenSchedule` on a fresh object, in either mode, for every
computation with a span, when instruction `ia` precedes instruction `ib` in the
scheduled sequence of the computation, both have a timestamp and the timestamp
of `ia` is smaller than the timestamp of `ib`. -/
theorem FlattenSchedule_increasing (m : HloModule) (schedule : HloSchedule) (ms : Bool)
    (fuel : Nat) (root : CompId) (st : HloLiveRange)
    (h : FlattenSchedule m schedule ms fuel root HloLiveRange.init = .ok st)
    (c : CompId) (seq : List InstrId) (hseq : schedule.sequences c = some seq)
    (hspan : st.computation_span_times c ≠ none)
    (a b : Nat) (ia ib : InstrId) (ha : seq[a]? = some ia) (hb : seq[b]? = some ib)
    (hab : a < b) :
    ∃ ta tb, st.instruction_schedule ia = some ta ∧ st.instruction_schedule ib = some tb ∧
      ta < tb := by
  have hord : SeqOrdered schedule st :=
    (FlattenSchedule_ordered m schedule ms fuel root _ st h).2
      (fun c seq hc _ => absurd rfl hc)
  have hpw := hord c seq hspan hseq
  obtain ⟨hal, hae⟩ := List.getElem?_eq_some.mp ha
  obtain ⟨hbl, hbe⟩ := List.getElem?_eq_some.mp hb
  have := List.pairwise_iff_getElem.mp hpw a b hal hbl hab
  rw [hae, hbe] at this
  exact this

theorem FlattenSchedule_increasing_witness :
    ∃ st, FlattenSchedule whileModule whileSchedule true 3 0 HloLiveRange.init = .ok st ∧
      whileSchedule.sequences 1 = some [4, 1] ∧
      ∃ ta tb, st.instruction_schedule 4 = some ta ∧ st.instruction_schedule 1 = some tb ∧
        ta < tb := by
  obtain ⟨st, h⟩ := completes_ok
    (r := FlattenSchedule whileModule whileSchedule true 3 0 HloLiveRange.init) (by decide)
  have e : (FlattenSchedule whileModule whileSchedule true 3 0
      HloLiveRange.init).toOption.bind
      (fun s => some (s.computation_span_times 1).isSome) = some true := by decide
  have hs : (st.computation_span_times 1).isSome = true :=
    Option.some.inj (toOption_bind_ok
      (g := fun s => some (s.computation_span_times 1).isSome) h e)
  exact ⟨st, h, by decide,
    FlattenSchedule_increasing whileModule whileSchedule true 3 0 st h 1 [4, 1] (by decide)
      (by intro hn; rw [hn] at hs; cases hs) 0 1 4 1 (by decide) (by decide) (by decide)⟩

/-- C32: in every state in which the loop of `CalculateBufferStartEndMap`,
started on a state left by `FlattenSchedule`, reaches a value whose defining
instruction has a timestamp, the computed start is at most the computed end,
so the `CHECK` of line 205 passes, whatever the uses, positions, opcode and
alias configuration of the value are; and when no value is listed twice,
`CalculateBufferStartEndMap` returns. -/
theorem CalculateBufferStartEndMap_check_unreachable (m : HloModule) (schedule : HloSchedule)
    (aa : HloAliasAnalysis) (ms : Bool) (fuel : Nat) (root : CompId) (st : HloLiveRange)
    (hflat : FlattenSchedule m schedule ms fuel root HloLiveRange.init = .ok st) :
    (∀ (pre post : List HloValue) (v : HloValue) (st1 : HloLiveRange) (t : Int),
      aa.values = pre ++ v :: post → calculateValues m ms pre st = .ok st1 →
      st1.instruction_schedule v.defining_instruction = some t →
      (valueTimeBound m ms v st1 t).start ≤ (valueTimeBound m ms v st1 t).end_) ∧
    (aa.values.Nodup → ∃ st2, CalculateBufferStartEndMap m aa ms st = .ok st2) := by
  obtain ⟨hinv, hext, _⟩ :=
    FlattenSchedule_spec m schedule ms fuel root _ st (init_flatInv m schedule ms) hflat
  constructor
  · intro pre post v st1 t _ hpre ht
    have htr := calculateValues_trace pre st st1 hpre
    exact valueTimeBound_check hinv htr.2.2.2.1 htr.1 v ht
  · intro hnd
    exact calculateValues_completes hinv aa.values st hnd (schedGrows_refl _) rfl
      (fun v _ => by rw [hext.ranges_kept]; rfl)

theorem CalculateBufferStartEndMap_check_unreachable_witness :
    ∃ st, FlattenSchedule paramModule paramSchedule true 1 0 HloLiveRange.init = .ok st ∧
      isReadOnlyEntryParameter paramModule paramValue = true ∧
      (valueTimeBound paramModule true paramValue st 0).start ≤
        (valueTimeBound paramModule true paramValue st 0).end_ ∧
      ∃ st2, CalculateBufferStartEndMap paramModule paramAlias true st = .ok st2 := by
  obtain ⟨st, h⟩ := completes_ok
    (r := FlattenSchedule paramModule paramSchedule true 1 0 HloLiveRange.init) (by decide)
  have e : (FlattenSchedule paramModule paramSchedule true 1 0
      HloLiveRange.init).toOption.bind
      (fun s => s.instruction_schedule paramValue.defining_instruction) = some 0 := by decide
  have ht := toOption_bind_ok
    (g := fun s => s.instruction_schedule paramValue.defining_instruction) h e
  have hthm := CalculateBufferStartEndMap_check_unreachable paramModule paramSchedule
    paramAlias true 1 0 st h
  exact ⟨st, h, by decide, hthm.1 [] [] paramValue st 0 rfl rfl ht, hthm.2 (by decide)⟩

/-- C33: after `FlattenSchedule` and `CalculateBufferStartEndMap`, every range
has `0 <= start`, `start <= end` and `end <= schedule_end_time()`, the length
of the flattened sequence; and after `NormalizeAliasedBuffers`, in the result
of `Run`, every range still has `0 <= start` and `end <= schedule_end_time()`. -/
theorem Run_ranges_inside (c_sort : LiveRangeSort) (hsort : SortsByStartEnd c_sort)
    (m : HloModule) (schedule : HloSchedule) (aa : HloAliasAnalysis)
    (ms : Bool) (fuel : Nat) (root : CompId) (st st2 : HloLiveRange)
    (hflat : FlattenSchedule m schedule ms fuel root HloLiveRange.init = .ok st)
    (hcalc : CalculateBufferStartEndMap m aa ms st = .ok st2) :
    (∀ v tb, st2.buffer_live_ranges v = some tb →
      0 ≤ tb.start ∧ tb.start ≤ tb.end_ ∧ tb.end_ ≤ st2.schedule_end_time) ∧
    Run c_sort m schedule aa root ms fuel = .ok (NormalizeAliasedBuffers c_sort aa st2) ∧
    (∀ v tb, (NormalizeAliasedBuffers c_sort aa st2).buffer_live_ranges v = some tb →
      0 ≤ tb.start ∧ tb.end_ ≤ (NormalizeAliasedBuffers c_sort aa st2).schedule_end_time) := by
  obtain ⟨hinv, hext, _⟩ :=
    FlattenSchedule_spec m schedule ms fuel root _ st (init_flatInv m schedule ms) hflat
  have hnew : ∀ v, st.buffer_live_ranges v = none := fun v => by
    rw [hext.ranges_kept]; rfl
  have htr := calculateValues_trace aa.values st st2 hcalc
  have hlen : st2.schedule_end_time = st.schedule_end_time := by
    unfold HloLiveRange.schedule_end_time
    rw [htr.1]
  have hbefore : ∀ v tb, st2.buffer_live_ranges v = some tb →
      0 ≤ tb.start ∧ tb.start ≤ tb.end_ ∧ tb.end_ ≤ st2.schedule_end_time := by
    intro v tb hv
    rcases htr.2.2.2.2.2 v tb hv with h0 | ⟨_, _, stv, t, hg, _, hfl, hsp, ht, rfl, hle⟩
    · rw [hnew v] at h0; cases h0
    · have := valueTimeBound_inside hinv hg hfl hsp v ht
      rw [hlen]
      exact ⟨this.1, hle, this.2⟩
  refine ⟨hbefore, ?_, ?_⟩
  · unfold Run
    simp only [hflat, hcalc]
  · intro v tb hv
    have hok : RangesOk st2.buffer_live_ranges := fun v tb h => (hbefore v tb h).2.1
    have hbelow : EndsBelow st2.schedule_end_time st2.buffer_live_ranges :=
      fun v tb h => (hbefore v tb h).2.2
    have hend := normalizeBuffers_below hsort aa.buffers st2.buffer_live_ranges hok hbelow v tb hv
    obtain ⟨t0, ht0, hst, _⟩ :=
      frame_start (normalizeBuffers_frame aa.buffers st2.buffer_live_ranges v) hv
    exact ⟨by rw [← hst]; exact (hbefore v t0 ht0).1, hend⟩

theorem Run_ranges_inside_witness :
    ∃ st st2,
      FlattenSchedule whileModule whileSchedule true 3 0 HloLiveRange.init = .ok st ∧
      CalculateBufferStartEndMap whileModule whileAlias true st = .ok st2 ∧
      (∀ v tb, st2.buffer_live_ranges v = some tb →
        0 ≤ tb.start ∧ tb.start ≤ tb.end_ ∧ tb.end_ ≤ st2.schedule_end_time) ∧
      Run exampleSort whileModule whileSchedule whileAlias 0 true 3 =
        .ok (NormalizeAliasedBuffers exampleSort whileAlias st2) ∧
      (∀ v tb, (NormalizeAliasedBuffers exampleSort whileAlias st2).buffer_live_ranges v = some tb →
        0 ≤ tb.start ∧
          tb.end_ ≤ (NormalizeAliasedBuffers exampleSort whileAlias st2).schedule_end_time) := by
  obtain ⟨st, st2, h1, h2, _⟩ := completes_andThen
    (r := FlattenSchedule whileModule whileSchedule true 3 0 HloLiveRange.init)
    (f := CalculateBufferStartEndMap whileModule whileAlias true) (by decide)
  exact ⟨st, st2, h1, h2,
    Run_ranges_inside exampleSort exampleSort_sorts whileModule whileSchedule whileAlias true 3 0
      st st2 h1 h2⟩

/-- C34: after `FlattenSchedule` on a fresh object, `total_order_scheduled_` is
false exactly when some computation the walk reaches (the root, or in
module-scoped mode a computation an instruction of a reached scheduled
computation recurses into) has no schedule entry; and, whatever the flag is,
every reached computation that is scheduled has a span and each of its
instructions has a timestamp inside that span. -/
theorem FlattenSchedule_total_order (m : HloModule) (schedule : HloSchedule) (ms : Bool)
    (fuel : Nat) (root : CompId) (st : HloLiveRange)
    (h : FlattenSchedule m schedule ms fuel root HloLiveRange.init = .ok st) :
    (st.total_order_scheduled = false ↔
      ∃ c, Reached m schedule ms root c ∧ schedule.sequences c = none) ∧
    (∀ c seq, Reached m schedule ms root c → schedule.sequences c = some seq →
      ∃ s, st.computation_span_times c = some s ∧
        ∀ j ∈ seq, ∃ t, st.instruction_schedule j = some t ∧ s.start ≤ t ∧ t < s.end_) := by
  obtain ⟨hinv, _, hrootspan⟩ :=
    FlattenSchedule_spec m schedule ms fuel root _ st (init_flatInv m schedule ms) h
  obtain ⟨hkeep, hsound, hfalse⟩ := FlattenSchedule_flag m schedule ms fuel root _ st h
  have hcs : CalleesScheduled m schedule ms st :=
    hsound (fun _ _ i t hi => by cases hi)
  have hspanned : ∀ c, Reached m schedule ms root c → schedule.sequences c ≠ none →
      st.computation_span_times c ≠ none := by
    intro c hc
    refine reached_spanned hinv ?_ hc
    intro hr
    cases hs : schedule.sequences root with
    | none => exact absurd hs hr
    | some seq =>
      obtain ⟨s, hs⟩ := hrootspan seq hs
      rw [hs]; simp
  refine ⟨⟨?_, ?_⟩, ?_⟩
  · intro hf
    rcases hfalse hf with h0 | hx
    · cases h0
    · exact hx
  · rintro ⟨c, hc, hnone⟩
    cases htot : st.total_order_scheduled with
    | false => rfl
    | true =>
      exfalso
      cases hc with
      | root => exact (hkeep htot).2 hnone
      | @sub c0 _ seq i hc0 hseq hi hms hsub =>
        have hsp := hspanned c0 hc0 (by rw [hseq]; simp)
        cases hs : st.computation_span_times c0 with
        | none => exact hsp hs
        | some s =>
          obtain ⟨t, ht, _⟩ := (hinv.span_covers c0 s hs).2.2.2 seq hseq i hi
          exact hcs htot hms i t ht c hsub hnone
  · intro c seq hc hseq
    have hsp := hspanned c hc (by rw [hseq]; simp)
    cases hs : st.computation_span_times c with
    | none => exact absurd hs hsp
    | some s => exact ⟨s, rfl, (hinv.span_covers c s hs).2.2.2 seq hseq⟩

/-- Witness for C34: in the module-scoped walk of `callModule` with a schedule
for the entry computation only, the flag is cleared at the call of the
unscheduled callee, and the two instructions of the entry computation get
their timestamps. -/
theorem FlattenSchedule_total_order_witness :
    ∃ st, FlattenSchedule callModule callScheduleEntryOnly true 2 0 HloLiveRange.init = .ok st ∧
      st.total_order_scheduled = false ∧
      st.flattened_instruction_sequence = [0, 1] ∧
      (∃ c, Reached callModule callScheduleEntryOnly true 0 c ∧
        callScheduleEntryOnly.sequences c = none) ∧
      ∃ s, st.computation_span_times 0 = some s ∧
        ∀ j ∈ [0, 1], ∃ t, st.instruction_schedule j = some t ∧ s.start ≤ t ∧ t < s.end_ := by
  obtain ⟨st, h⟩ := completes_ok
    (r := FlattenSchedule callModule callScheduleEntryOnly true 2 0 HloLiveRange.init)
    (by decide)
  have e1 : (FlattenSchedule callModule callScheduleEntryOnly true 2 0
      HloLiveRange.init).toOption.bind (fun s => some s.total_order_scheduled) =
      some false := by decide
  have e2 : (FlattenSchedule callModule callScheduleEntryOnly true 2 0
      HloLiveRange.init).toOption.bind (fun s => some s.flattened_instruction_sequence) =
      some [0, 1] := by decide
  have hf : st.total_order_scheduled = false :=
    Option.some.inj (toOption_bind_ok (g := fun s => some s.total_order_scheduled) h e1)
  have hthm := FlattenSchedule_total_order callModule callScheduleEntryOnly true 2 0 st h
  exact ⟨st, h, hf,
    Option.some.inj
      (toOption_bind_ok (g := fun s => some s.flattened_instruction_sequence) h e2),
    hthm.1.mp hf, hthm.2 0 [0, 1] Reached.root (by decide)⟩

/-- C35: `NormalizeAliasedBuffers` writes `buffer_live_ranges_` only: a value
has a range afterwards exactly when it had one before, with the same start and
the same `end_position`; and the range of a value is left as it was when every
buffer that contains the value has fewer than two values with a range. -/
theorem NormalizeAliasedBuffers_frame_effect (c_sort : LiveRangeSort) (hsort : SortsByStartEnd c_sort)
    (aa : HloAliasAnalysis) (st : HloLiveRange) :
    (NormalizeAliasedBuffers c_sort aa st).instruction_schedule = st.instruction_schedule ∧
    (NormalizeAliasedBuffers c_sort aa st).computation_span_times = st.computation_span_times ∧
    (NormalizeAliasedBuffers c_sort aa st).flattened_instruction_sequence =
      st.flattened_instruction_sequence ∧
    (NormalizeAliasedBuffers c_sort aa st).total_order_scheduled = st.total_order_scheduled ∧
    (∀ v, (NormalizeAliasedBuffers c_sort aa st).buffer_live_ranges v = none ↔
      st.buffer_live_ranges v = none) ∧
    (∀ v tb tb2, st.buffer_live_ranges v = some tb →
      (NormalizeAliasedBuffers c_sort aa st).buffer_live_ranges v = some tb2 →
      tb2.start = tb.start ∧ tb2.end_position = tb.end_position) ∧
    (∀ v, (∀ b ∈ aa.buffers, v ∈ b → (b.filter (tracked st.buffer_live_ranges)).length < 2) →
      (NormalizeAliasedBuffers c_sort aa st).buffer_live_ranges v = st.buffer_live_ranges v) := by
  refine ⟨rfl, rfl, rfl, rfl, ?_, ?_, ?_⟩
  · intro v
    have := @normalizeBuffers_frame c_sort aa.buffers st.buffer_live_ranges v
    simp only [NormalizeAliasedBuffers]
    cases h1 : (aa.buffers.foldl (normalizeBuffer c_sort) st.buffer_live_ranges) v <;>
      cases h2 : st.buffer_live_ranges v <;> simp [h1, h2] at this ⊢
  · intro v tb tb2 h1 h2
    obtain ⟨t0, ht0, hs, hp⟩ :=
      frame_start (normalizeBuffers_frame aa.buffers st.buffer_live_ranges v) h2
    rw [h1] at ht0
    cases ht0
    exact ⟨hs.symm, hp.symm⟩
  · intro v h
    exact normalizeBuffers_few hsort aa.buffers st.buffer_live_ranges h

theorem NormalizeAliasedBuffers_frame_effect_witness :
    (∀ b ∈ peakAlias.buffers, peakA ∈ b →
      (b.filter (tracked (peakState (0, 5) (3, 10)).buffer_live_ranges)).length < 2) ∧
    (NormalizeAliasedBuffers exampleSort peakAlias (peakState (0, 5) (3, 10))).buffer_live_ranges peakA =
      (peakState (0, 5) (3, 10)).buffer_live_ranges peakA :=
  ⟨by decide,
   (NormalizeAliasedBuffers_frame_effect exampleSort exampleSort_sorts peakAlias
    (peakState (0, 5) (3, 10))).2.2.2.2.2.2 peakA (by decide)⟩

/-- C36 fails on the code: the buffer of `tripleAlias` holds three values with
the ranges `[0, 10]`, `[3, 4]` and `[3, 5]`.  The pass first cuts the first
range to `[0, 2]` and extends the second to `[3, 10]`, then, the second and
third range having equal starts, sets the end of the second to 5.  Time 7 was
covered by the first value and is covered by no value of the buffer after
`NormalizeAliasedBuffers`.  The three ranges differ in `(start, end)`, so
every sort hands them to the pass in this order. -/
theorem NormalizeAliasedBuffers_covers_counterexample :
    bufferLive (tripleState (0, 10) (3, 4) (3, 5)).buffer_live_ranges
      [aliasZ, aliasY, aliasX] 7 = true ∧
    bufferLive (NormalizeAliasedBuffers exampleSort tripleAlias
      (tripleState (0, 10) (3, 4) (3, 5))).buffer_live_ranges [aliasZ, aliasY, aliasX] 7 = false ∧
    [aliasX, aliasY, aliasZ].map (fun v =>
      ((NormalizeAliasedBuffers exampleSort tripleAlias
        (tripleState (0, 10) (3, 4) (3, 5))).buffer_live_ranges v).map
          (fun b => (b.start, b.end_))) = [some (0, 2), some (3, 5), some (3, 5)] ∧
    ¬ (∀ b ∈ tripleAlias.buffers, ∀ t : Int,
      bufferLive (tripleState (0, 10) (3, 4) (3, 5)).buffer_live_ranges b t = true →
      bufferLive (NormalizeAliasedBuffers exampleSort tripleAlias
        (tripleState (0, 10) (3, 4) (3, 5))).buffer_live_ranges b t = true) ∧
    (∀ c_sort, SortsByStartEnd c_sort →
      NormalizeAliasedBuffers c_sort tripleAlias (tripleState (0, 10) (3, 4) (3, 5)) =
        NormalizeAliasedBuffers exampleSort tripleAlias (tripleState (0, 10) (3, 4) (3, 5))) := by
  refine ⟨by decide, by decide, by decide, ?_,
    fun c_sort hsort => NormalizeAliasedBuffers_any_sort hsort exampleSort_sorts tripleAlias
      (tripleState (0, 10) (3, 4) (3, 5)) [aliasZ, aliasY, aliasX] rfl (by decide)⟩
  intro h
  exact absurd (h [aliasZ, aliasY, aliasX] (by decide) 7 (by decide)) (by decide)

/-- C36, amended: when no value belongs to two buffers and the values with a
range of a buffer have pairwise different starts, every time covered by the
range of some value of the buffer before `NormalizeAliasedBuffers` is covered
by the range of some value of the same buffer after it. -/
theorem NormalizeAliasedBuffers_covers (c_sort : LiveRangeSort) (hsort : SortsByStartEnd c_sort)
    (aa : HloAliasAnalysis) (st : HloLiveRange)
    (hdisj : aa.buffers.Pairwise List.Disjoint)
    (b : List HloValue) (hb : b ∈ aa.buffers)
    (hd : b.Pairwise (fun x y => ∀ rx ry, st.buffer_live_ranges x = some rx →
      st.buffer_live_ranges y = some ry → rx.start ≠ ry.start))
    (t : Int) (h : bufferLive st.buffer_live_ranges b t = true) :
    bufferLive (NormalizeAliasedBuffers c_sort aa st).buffer_live_ranges b t = true := by
  obtain ⟨pre, post, hsplit⟩ := List.append_of_mem hb
  rw [hsplit] at hdisj
  obtain ⟨_, htail, hcross⟩ := List.pairwise_append.mp hdisj
  have hpost := (List.pairwise_cons.mp htail).1
  have hpre_other : ∀ x ∈ b, (pre.foldl (normalizeBuffer c_sort) st.buffer_live_ranges) x =
      st.buffer_live_ranges x := by
    intro x hx
    apply normalizeBuffers_other hsort
    intro b2 hb2 hx2
    exact hcross b2 hb2 b (List.mem_cons_self _ _) hx2 hx
  have hpost_other : ∀ (r : HloValue → Option TimeBound), ∀ x ∈ b,
      (post.foldl (normalizeBuffer c_sort) r) x = r x := by
    intro r x hx
    apply normalizeBuffers_other hsort
    intro b2 hb2 hx2
    exact hpost b2 hb2 hx hx2
  have hd2 : b.Pairwise (fun x y => ∀ rx ry,
      (pre.foldl (normalizeBuffer c_sort) st.buffer_live_ranges) x = some rx →
      (pre.foldl (normalizeBuffer c_sort) st.buffer_live_ranges) y = some ry →
      rx.start ≠ ry.start) := by
    refine List.Pairwise.imp_of_mem ?_ hd
    intro x y hx hy hxy rx ry h1 h2
    rw [hpre_other x hx] at h1
    rw [hpre_other y hy] at h2
    exact hxy rx ry h1 h2
  have hlive : bufferLive (pre.foldl (normalizeBuffer c_sort) st.buffer_live_ranges) b t = true := by
    obtain ⟨v, hv, hcov⟩ := bufferLive_iff.mp h
    exact bufferLive_iff.mpr ⟨v, hv, by rw [hpre_other v hv]; exact hcov⟩
  obtain ⟨w, hw, hcw⟩ := bufferLive_iff.mp (normalizeBuffer_covers hsort hd2 hlive)
  refine bufferLive_iff.mpr ⟨w, hw, ?_⟩
  simp only [NormalizeAliasedBuffers, hsplit, List.foldl_append, List.foldl_cons]
  rw [hpost_other _ w hw]
  exact hcw

theorem NormalizeAliasedBuffers_covers_witness :
    bufferLive (tripleState (0, 10) (3, 4) (5, 6)).buffer_live_ranges
      [aliasZ, aliasY, aliasX] 7 = true ∧
    bufferLive (NormalizeAliasedBuffers exampleSort tripleAlias
      (tripleState (0, 10) (3, 4) (5, 6))).buffer_live_ranges [aliasZ, aliasY, aliasX] 7 = true ∧
    [aliasX, aliasY, aliasZ].map (fun v =>
      ((NormalizeAliasedBuffers exampleSort tripleAlias
        (tripleState (0, 10) (3, 4) (5, 6))).buffer_live_ranges v).map
          (fun b => (b.start, b.end_))) = [some (0, 2), some (3, 4), some (5, 10)] :=
  ⟨by decide,
   NormalizeAliasedBuffers_covers exampleSort exampleSort_sorts tripleAlias
    (tripleState (0, 10) (3, 4) (5, 6))
    (List.pairwise_singleton _ _) [aliasZ, aliasY, aliasX] (by decide)
    (tripleState_starts (0, 10) (3, 4) (5, 6) (by decide) (by decide) (by decide))
    7 (by decide),
   by decide⟩

/-- C37: on a schedule whose call graph is acyclic (a rank decreases along
every edge; needed in module-scoped mode only), whose sequences list no
instruction twice and share no instruction, `FlattenSchedule` on a fresh object
returns for every root computation, in either mode: a recursion depth of
`rank root + 1` is enough, and every larger bound gives the same result. -/
theorem FlattenSchedule_terminates (m : HloModule) (schedule : HloSchedule) (ms : Bool)
    (rank : CompId → Nat) (hws : WellScheduled m schedule ms rank) (root : CompId) :
    ∃ st, ∀ fuel, rank root < fuel →
      FlattenSchedule m schedule ms fuel root HloLiveRange.init = .ok st := by
  obtain ⟨st, h, _⟩ := FlattenSchedule_returns hws (rank root + 1) root HloLiveRange.init
    (Nat.lt_succ_self _) (fun j t hj => by cases hj)
  refine ⟨st, ?_⟩
  intro fuel hfuel
  have := FlattenSchedule_fuel_le m schedule ms (Nat.succ_le_of_lt hfuel) root
    HloLiveRange.init (by rw [h]; simp)
  rw [this, h]

theorem FlattenSchedule_terminates_witness :
    ∃ st, ∀ fuel, 2 < fuel →
      FlattenSchedule whileModule whileSchedule true fuel 0 HloLiveRange.init = .ok st :=
  FlattenSchedule_terminates whileModule whileSchedule true (fun c => 2 - c)
    whileModule_wellScheduled 0

/-- C38: in module-scoped mode, after `FlattenSchedule` and
`CalculateBufferStartEndMap`: let `w` be a `kWhile` instruction of a flattened
computation whose scheduled body was flattened at `w` (the span of the body
ends at the timestamp of `w`) and contains its parameter 0, and let `o` be a
value defined by an instruction that is not a parameter and precedes `w` in the
sequence of that computation, used only by `w` and with no position at a root
instruction.  Then the range of `o` ends at the timestamp of parameter 0 of
the body, which is greater than the timestamp of the definition of `o` and
smaller than the timestamp of `w`. -/
theorem Run_while_init_range (m : HloModule) (schedule : HloSchedule) (aa : HloAliasAnalysis)
    (fuel : Nat) (root : CompId) (st st2 : HloLiveRange)
    (hflat : FlattenSchedule m schedule true fuel root HloLiveRange.init = .ok st)
    (hcalc : CalculateBufferStartEndMap m aa true st = .ok st2)
    (w : InstrId) (hw : m.opcode w = .kWhile)
    (c : CompId) (seq : List InstrId) (hseq : schedule.sequences c = some seq)
    (hc : st.computation_span_times c ≠ none)
    (o : HloValue) (ho : o ∈ aa.values)
    (a b : Nat) (ha : seq[a]? = some o.defining_instruction) (hb : seq[b]? = some w)
    (hab : a < b)
    (sb : List InstrId) (hsb : schedule.sequences (m.while_body w) = some sb)
    (hp : m.parameter_instruction0 (m.while_body w) ∈ sb)
    (hfirst : ∃ s tw, st.computation_span_times (m.while_body w) = some s ∧
      st.instruction_schedule w = some tw ∧ s.end_ = tw)
    (hnp : m.opcode o.defining_instruction ≠ .kParameter)
    (hne : o.uses ≠ []) (huses : ∀ u ∈ o.uses, u.instruction = w)
    (hpos : ∀ p ∈ o.positions,
      p.instruction ≠ m.root_instruction (m.parent p.instruction)) :
    ∃ tb td tp tw, st2.buffer_live_ranges o = some tb ∧
      st.instruction_schedule o.defining_instruction = some td ∧
      st.instruction_schedule (m.parameter_instruction0 (m.while_body w)) = some tp ∧
      st.instruction_schedule w = some tw ∧
      tb.start = td ∧ tb.end_ = tp ∧ td < tp ∧ tp < tw := by
  obtain ⟨hinv, hext, _⟩ :=
    FlattenSchedule_spec m schedule true fuel root _ st (init_flatInv m schedule true) hflat
  have hgap : Gap schedule st :=
    FlattenSchedule_gap m schedule true fuel root _ st (init_flatInv m schedule true) hflat
      (fun c seq hc _ => absurd rfl hc)
  obtain ⟨s, tw, hs, htw, hend⟩ := hfirst
  obtain ⟨hal, hae⟩ := List.getElem?_eq_some.mp ha
  obtain ⟨hbl, hbe⟩ := List.getElem?_eq_some.mp hb
  have hmem_a : o.defining_instruction ∈ seq := hae ▸ List.getElem_mem hal
  cases hcs : st.computation_span_times c with
  | none => exact absurd hcs hc
  | some sc =>
    obtain ⟨td, htd, _⟩ := (hinv.span_covers c sc hcs).2.2.2 seq hseq _ hmem_a
    obtain ⟨tp, htp, hlo, hhi⟩ := (hinv.span_covers _ s hs).2.2.2 sb hsb _ hp
    have hpair := List.pairwise_iff_getElem.mp (hgap c seq hc hseq) a b hal hbl hab
    rw [hae, hbe] at hpair
    have hlt := hpair td tw _ s htd htw hs hend
    have hro : isReadOnlyEntryParameter m o = false := by
      unfold isReadOnlyEntryParameter HloValue.instruction
      simp [hnp]
    obtain ⟨tb, htb, hte⟩ := calculateValues_while_end hcalc ho
      (by rw [hext.ranges_kept]; rfl) rfl hw htp htd (by omega) hne huses hro
      (fun p hp2 hroot => absurd hroot (hpos p hp2))
    have hstart : tb.start = td := by
      rcases (calculateValues_trace aa.values st st2 hcalc).2.2.2.2.2 o tb htb with
        h0 | ⟨_, _, stv, t2, g1, _, _, _, hdef, rfl, _⟩
      · rw [hext.ranges_kept] at h0; cases h0
      · have := schedGrows_kept g1 htd
        rw [hdef] at this
        cases this
        simp [valueTimeBound, bufferStartTime, HloValue.instruction, hnp]
    exact ⟨tb, td, tp, tw, htb, htd, htp, htw, hstart, hte, by omega, by omega⟩

/-- Witness for C38: in `loopModule` the while 11 follows instruction 10 in the
entry computation; its body `[30, 31]` is flattened at the while (span
`[3, 5)`, the while at 5); the range of `loopInit`, defined by 10 at time 0,
ends at 3, the timestamp of the body parameter 30. -/
theorem Run_while_init_range_witness :
    ∃ st st2,
      FlattenSchedule loopModule loopSchedule true 2 0 HloLiveRange.init = .ok st ∧
      CalculateBufferStartEndMap loopModule loopAlias true st = .ok st2 ∧
      st.computation_span_times 2 = some { start := 3, end_ := 5, end_position := none } ∧
      st.instruction_schedule 11 = some 5 ∧
      ∃ tb td tp tw, st2.buffer_live_ranges loopInit = some tb ∧
        st.instruction_schedule loopInit.defining_instruction = some td ∧
        st.instruction_schedule
          (loopModule.parameter_instruction0 (loopModule.while_body 11)) = some tp ∧
        st.instruction_schedule 11 = some tw ∧
        tb.start = td ∧ tb.end_ = tp ∧ td < tp ∧ tp < tw := by
  obtain ⟨st, st2, h1, h2, _⟩ := completes_andThen
    (r := FlattenSchedule loopModule loopSchedule true 2 0 HloLiveRange.init)
    (f := CalculateBufferStartEndMap loopModule loopAlias true) (by decide)
  have e1 : (FlattenSchedule loopModule loopSchedule true 2 0 HloLiveRange.init).toOption.bind
      (fun s => s.computation_span_times 2) =
      some { start := 3, end_ := 5, end_position := none } := by decide
  have e2 : (FlattenSchedule loopModule loopSchedule true 2 0 HloLiveRange.init).toOption.bind
      (fun s => s.instruction_schedule 11) = some 5 := by decide
  have e3 : (FlattenSchedule loopModule loopSchedule true 2 0 HloLiveRange.init).toOption.bind
      (fun s => some (s.computation_span_times 0).isSome) = some true := by decide
  have hs2 : st.computation_span_times 2 =
      some { start := 3, end_ := 5, end_position := none } :=
    toOption_bind_ok (g := fun s => s.computation_span_times 2) h1 e1
  have h11 : st.instruction_schedule 11 = some 5 :=
    toOption_bind_ok (g := fun s => s.instruction_schedule 11) h1 e2
  have hs0 : (st.computation_span_times 0).isSome = true :=
    Option.some.inj
      (toOption_bind_ok (g := fun s => some (s.computation_span_times 0).isSome) h1 e3)
  exact ⟨st, st2, h1, h2, hs2, h11,
    Run_while_init_range loopModule loopSchedule loopAlias 2 0 st st2 h1 h2 11 (by decide)
      0 [10, 11, 12] (by decide) (by intro hn; rw [hn] at hs0; cases hs0)
      loopInit (by decide) 0 1 (by decide) (by decide) (by decide)
      [30, 31] (by decide) (by decide)
      ⟨{ start := 3, end_ := 5, end_position := none }, 5, hs2, h11, rfl⟩
      (by decide) (by decide) (by decide) (by decide)⟩

end xla

namespace tflite.gpu

/-! # Lemmas about GetLinearIndex -/

theorem radix_inj {n q1 r1 q2 r2 : Int} (h1 : 0 ≤ r1) (h1n : r1 < n) (h2 : 0 ≤ r2)
    (h2n : r2 < n) (h : q1 * n + r1 = q2 * n + r2) : q1 = q2 ∧ r1 = r2 := by
  have hq : q1 = q2 := by
    rcases lt_trichotomy q1 q2 with hlt | heq | hgt
    · exfalso
      have : (q2 - q1) * n ≥ 1 * n := by
        apply mul_le_mul_of_nonneg_right <;> omega
      nlinarith
    · exact heq
    · exfalso
      have : (q1 - q2) * n ≥ 1 * n := by
        apply mul_le_mul_of_nonneg_right <;> omega
      nlinarith
  subst hq
  exact ⟨rfl, by omega⟩

theorem radix_bound {n q r Q : Int} (hr0 : 0 ≤ r) (hr : r < n) (hq0 : 0 ≤ q) (hq : q < Q) :
    0 ≤ q * n + r ∧ q * n + r < Q * n := by
  have h1 : 0 ≤ q * n := mul_nonneg hq0 (by omega)
  have h2 : (q + 1) * n ≤ Q * n := by
    apply mul_le_mul_of_nonneg_right <;> omega
  constructor
  · omega
  · nlinarith

/-- On the coordinates the loops visit, the index expression read over the
integers separates coordinates: for a storage type other than `UNKNOWN`, and
with at most 4 channels for `SINGLE_TEXTURE_2D`. -/
theorem exact_index_inj {desc : TensorDescriptor} {shape : BHWDC}
    (hst : desc.storage_type ≠ .UNKNOWN)
    (hsingle : desc.storage_type = .SINGLE_TEXTURE_2D → shape.c ≤ 4)
    {e1 e2 : Coord} (h1 : e1.valid desc shape) (h2 : e2.valid desc shape)
    (h : e1.exact_index desc shape = e2.exact_index desc shape) : e1 = e2 := by
  obtain ⟨b1, s1, y1, x1, d1, c1⟩ := e1
  obtain ⟨b2, s2, y2, x2, d2, c2⟩ := e2
  obtain ⟨⟨hb1, hb1'⟩, ⟨hs1, hs1'⟩, ⟨hy1, hy1'⟩, ⟨hx1, hx1'⟩, ⟨hd1, hd1'⟩, ⟨hc1, hc1'⟩⟩ := h1
  obtain ⟨⟨hb2, hb2'⟩, ⟨hs2, hs2'⟩, ⟨hy2, hy2'⟩, ⟨hx2, hx2'⟩, ⟨hd2, hd2'⟩, ⟨hc2, hc2'⟩⟩ := h2
  simp only at hb1 hb1' hs1 hs1' hy1 hy1' hx1 hx1' hd1 hd1' hc1 hc1'
  simp only at hb2 hb2' hs2 hs2' hy2 hy2' hx2 hx2' hd2 hd2' hc2 hc2'
  simp only [Coord.exact_index] at h
  unfold GetChannelsAlignment at hc1' hc2'
  cases hty : desc.storage_type with
  | UNKNOWN => exact absurd hty hst
  | SINGLE_TEXTURE_2D =>
    have hc4 := hsingle hty
    simp only [hty, if_true] at h hc1' hc2'
    have hs1z : s1 = 0 := by unfold DivideRoundUp at hs1'; omega
    have hs2z : s2 = 0 := by unfold DivideRoundUp at hs2'; omega
    obtain ⟨h, hc⟩ := radix_inj hc1 hc1' hc2 hc2' h
    obtain ⟨h, hd⟩ := radix_inj hd1 hd1' hd2 hd2' h
    obtain ⟨h, hb⟩ := radix_inj hb1 hb1' hb2 hb2' h
    obtain ⟨hy, hx⟩ := radix_inj hx1 hx1' hx2 hx2' h
    subst hc hd hb hy hx hs1z hs2z
    rfl
  | TEXTURE_2D =>
    simp only [hty] at h hc1' hc2'
    simp only [reduceCtorEq, if_false] at hc1' hc2'
    obtain ⟨h, hc⟩ := radix_inj hc1 hc1' hc2 hc2' h
    obtain ⟨h, hd⟩ := radix_inj hd1 hd1' hd2 hd2' h
    obtain ⟨h, hb⟩ := radix_inj hb1 hb1' hb2 hb2' h
    obtain ⟨h, hx⟩ := radix_inj hx1 hx1' hx2 hx2' h
    obtain ⟨hy, hs⟩ := radix_inj hs1 hs1' hs2 hs2' h
    subst hc hd hb hy hx hs
    rfl
  | BUFFER =>
    simp only [hty] at h hc1' hc2'
    simp only [reduceCtorEq, if_false] at hc1' hc2'
    obtain ⟨h, hc⟩ := radix_inj hc1 hc1' hc2 hc2' h
    obtain ⟨h, hb⟩ := radix_inj hb1 hb1' hb2 hb2' h
    obtain ⟨h, hx⟩ := radix_inj hx1 hx1' hx2 hx2' h
    obtain ⟨h, hy⟩ := radix_inj hy1 hy1' hy2 hy2' h
    obtain ⟨hd, hs⟩ := radix_inj hs1 hs1' hs2 hs2' h
    subst hc hd hb hy hx hs
    rfl
  | IMAGE_BUFFER =>
    simp only [hty] at h hc1' hc2'
    simp only [reduceCtorEq, if_false] at hc1' hc2'
    obtain ⟨h, hc⟩ := radix_inj hc1 hc1' hc2 hc2' h
    obtain ⟨h, hb⟩ := radix_inj hb1 hb1' hb2 hb2' h
    obtain ⟨h, hx⟩ := radix_inj hx1 hx1' hx2 hx2' h
    obtain ⟨h, hy⟩ := radix_inj hy1 hy1' hy2 hy2' h
    obtain ⟨hd, hs⟩ := radix_inj hs1 hs1' hs2 hs2' h
    subst hc hd hb hy hx hs
    rfl
  | TEXTURE_ARRAY =>
    simp only [hty] at h hc1' hc2'
    simp only [reduceCtorEq, if_false] at hc1' hc2'
    obtain ⟨h, hc⟩ := radix_inj hc1 hc1' hc2 hc2' h
    obtain ⟨h, hb⟩ := radix_inj hb1 hb1' hb2 hb2' h
    obtain ⟨h, hx⟩ := radix_inj hx1 hx1' hx2 hx2' h
    obtain ⟨h, hy⟩ := radix_inj hy1 hy1' hy2 hy2' h
    obtain ⟨hd, hs⟩ := radix_inj hs1 hs1' hs2 hs2' h
    subst hc hd hb hy hx hs
    rfl
  | TEXTURE_3D =>
    simp only [hty] at h hc1' hc2'
    simp only [reduceCtorEq, if_false] at hc1' hc2'
    obtain ⟨h, hc⟩ := radix_inj hc1 hc1' hc2 hc2' h
    obtain ⟨h, hb⟩ := radix_inj hb1 hb1' hb2 hb2' h
    obtain ⟨h, hx⟩ := radix_inj hx1 hx1' hx2 hx2' h
    obtain ⟨h, hy⟩ := radix_inj hy1 hy1' hy2 hy2' h
    obtain ⟨hd, hs⟩ := radix_inj hs1 hs1' hs2 hs2' h
    subst hc hd hb hy hx hs
    rfl

/-- On the coordinates the loops visit, the index expression read over the
integers lies below `b * w * h * d * aligned_channels`, for a storage type
other than `UNKNOWN`. -/
theorem exact_index_range {desc : TensorDescriptor} {shape : BHWDC}
    (hst : desc.storage_type ≠ .UNKNOWN) {e : Coord} (h : e.valid desc shape) :
    0 ≤ e.exact_index desc shape ∧ e.exact_index desc shape < exactElementsCount desc shape := by
  obtain ⟨b, s, y, x, d, c⟩ := e
  obtain ⟨⟨hb, hb'⟩, ⟨hs, hs'⟩, ⟨hy, hy'⟩, ⟨hx, hx'⟩, ⟨hd, hd'⟩, ⟨hc, hc'⟩⟩ := h
  simp only at hb hb' hs hs' hy hy' hx hx' hd hd' hc hc'
  simp only [Coord.exact_index, exactElementsCount]
  unfold GetChannelsAlignment at hc'
  cases hty : desc.storage_type with
  | UNKNOWN => exact absurd hty hst
  | SINGLE_TEXTURE_2D =>
    simp only [hty, if_true] at hc' ⊢
    have r1 := radix_bound hx hx' hy hy'
    have r2 := radix_bound hb hb' r1.1 r1.2
    have r3 := radix_bound hd hd' r2.1 r2.2
    have r4 := radix_bound hc hc' r3.1 r3.2
    refine ⟨r4.1, lt_of_lt_of_eq r4.2 (by ring)⟩
  | TEXTURE_2D =>
    simp only [hty] at hc' ⊢
    simp only [reduceCtorEq, if_false] at hc' ⊢
    have r1 := radix_bound hs hs' hy hy'
    have r2 := radix_bound hx hx' r1.1 r1.2
    have r3 := radix_bound hb hb' r2.1 r2.2
    have r4 := radix_bound hd hd' r3.1 r3.2
    have r5 := radix_bound hc hc' r4.1 r4.2
    refine ⟨r5.1, lt_of_lt_of_eq r5.2 (by ring)⟩
  | BUFFER =>
    simp only [hty] at hc' ⊢
    simp only [reduceCtorEq, if_false] at hc' ⊢
    have r1 := radix_bound hs hs' hd hd'
    have r2 := radix_bound hy hy' r1.1 r1.2
    have r3 := radix_bound hx hx' r2.1 r2.2
    have r4 := radix_bound hb hb' r3.1 r3.2
    have r5 := radix_bound hc hc' r4.1 r4.2
    refine ⟨r5.1, lt_of_lt_of_eq r5.2 (by ring)⟩
  | IMAGE_BUFFER =>
    simp only [hty] at hc' ⊢
    simp only [reduceCtorEq, if_false] at hc' ⊢
    have r1 := radix_bound hs hs' hd hd'
    have r2 := radix_bound hy hy' r1.1 r1.2
    have r3 := radix_bound hx hx' r2.1 r2.2
    have r4 := radix_bound hb hb' r3.1 r3.2
    have r5 := radix_bound hc hc' r4.1 r4.2
    refine ⟨r5.1, lt_of_lt_of_eq r5.2 (by ring)⟩
  | TEXTURE_ARRAY =>
    simp only [hty] at hc' ⊢
    simp only [reduceCtorEq, if_false] at hc' ⊢
    have r1 := radix_bound hs hs' hd hd'
    have r2 := radix_bound hy hy' r1.1 r1.2
    have r3 := radix_bound hx hx' r2.1 r2.2
    have r4 := radix_bound hb hb' r3.1 r3.2
    have r5 := radix_bound hc hc' r4.1 r4.2
    refine ⟨r5.1, lt_of_lt_of_eq r5.2 (by ring)⟩
  | TEXTURE_3D =>
    simp only [hty] at hc' ⊢
    simp only [reduceCtorEq, if_false] at hc' ⊢
    have r1 := radix_bound hs hs' hd hd'
    have r2 := radix_bound hy hy' r1.1 r1.2
    have r3 := radix_bound hx hx' r2.1 r2.2
    have r4 := radix_bound hb hb' r3.1 r3.2
    have r5 := radix_bound hc hc' r4.1 r4.2
    refine ⟨r5.1, lt_of_lt_of_eq r5.2 (by ring)⟩

/-! # Lemmas about the arithmetic of `int` -/

theorem wrapInt_of_range {n : Int} (h0 : -2147483648 ≤ n) (h1 : n < 2147483648) :
    wrapInt n = n := by
  unfold wrapInt
  omega

/-- One step `q * n + r` of an index expression does not overflow when its
bound `Q * n` is an `int`. -/
theorem horner_step {q n r Q : Int} (hq : 0 ≤ q ∧ q < Q) (hr : 0 ≤ r ∧ r < n)
    (hfit : Q * n ≤ 2147483648) :
    addInt (mulInt q n) r = q * n + r ∧ 0 ≤ q * n + r ∧ q * n + r < Q * n := by
  have hb := radix_bound hr.1 hr.2 hq.1 hq.2
  have h1 : 0 ≤ q * n := mul_nonneg hq.1 (by omega)
  have hm : mulInt q n = q * n := wrapInt_of_range (by omega) (by omega)
  refine ⟨?_, hb.1, hb.2⟩
  unfold addInt
  rw [hm]
  exact wrapInt_of_range (by omega) (by omega)

theorem le_mul_of_pos_right {a n : Int} (ha : 0 ≤ a) (hn : 0 < n) : a ≤ a * n :=
  le_mul_of_one_le_right ha hn

/-- An index expression of four steps does not overflow when the product of
its bounds is an `int`. -/
theorem horner4 {q Q n1 r1 n2 r2 n3 r3 n4 r4 : Int} (hq : 0 ≤ q ∧ q < Q)
    (h1 : 0 ≤ r1 ∧ r1 < n1) (h2 : 0 ≤ r2 ∧ r2 < n2) (h3 : 0 ≤ r3 ∧ r3 < n3)
    (h4 : 0 ≤ r4 ∧ r4 < n4) (hfit : Q * n1 * n2 * n3 * n4 ≤ 2147483648) :
    addInt (mulInt (addInt (mulInt (addInt (mulInt (addInt (mulInt q n1) r1) n2) r2) n3) r3)
      n4) r4 = (((q * n1 + r1) * n2 + r2) * n3 + r3) * n4 + r4 ∧
    0 ≤ (((q * n1 + r1) * n2 + r2) * n3 + r3) * n4 + r4 ∧
    (((q * n1 + r1) * n2 + r2) * n3 + r3) * n4 + r4 < Q * n1 * n2 * n3 * n4 := by
  have p0 : 0 ≤ Q := by omega
  have p1 : 0 ≤ Q * n1 := mul_nonneg p0 (by omega)
  have p2 : 0 ≤ Q * n1 * n2 := mul_nonneg p1 (by omega)
  have p3 : 0 ≤ Q * n1 * n2 * n3 := mul_nonneg p2 (by omega)
  have m3 : Q * n1 * n2 * n3 ≤ Q * n1 * n2 * n3 * n4 := le_mul_of_pos_right p3 (by omega)
  have m2 : Q * n1 * n2 ≤ Q * n1 * n2 * n3 := le_mul_of_pos_right p2 (by omega)
  have m1 : Q * n1 ≤ Q * n1 * n2 := le_mul_of_pos_right p1 (by omega)
  obtain ⟨e1, a1, b1⟩ := horner_step hq h1 (by omega)
  obtain ⟨e2, a2, b2⟩ := horner_step ⟨a1, b1⟩ h2 (by omega)
  obtain ⟨e3, a3, b3⟩ := horner_step ⟨a2, b2⟩ h3 (by omega)
  obtain ⟨e4, a4, b4⟩ := horner_step ⟨a3, b3⟩ h4 (by omega)
  rw [e1, e2, e3, e4]
  exact ⟨rfl, a4, b4⟩

/-- An index expression of five steps does not overflow when the product of
its bounds is an `int`. -/
theorem horner5 {q Q n1 r1 n2 r2 n3 r3 n4 r4 n5 r5 : Int} (hq : 0 ≤ q ∧ q < Q)
    (h1 : 0 ≤ r1 ∧ r1 < n1) (h2 : 0 ≤ r2 ∧ r2 < n2) (h3 : 0 ≤ r3 ∧ r3 < n3)
    (h4 : 0 ≤ r4 ∧ r4 < n4) (h5 : 0 ≤ r5 ∧ r5 < n5)
    (hfit : Q * n1 * n2 * n3 * n4 * n5 ≤ 2147483648) :
    addInt (mulInt (addInt (mulInt (addInt (mulInt (addInt (mulInt (addInt (mulInt q n1) r1)
      n2) r2) n3) r3) n4) r4) n5) r5 =
      ((((q * n1 + r1) * n2 + r2) * n3 + r3) * n4 + r4) * n5 + r5 := by
  have p0 : 0 ≤ Q := by omega
  have p1 : 0 ≤ Q * n1 := mul_nonneg p0 (by omega)
  have p2 : 0 ≤ Q * n1 * n2 := mul_nonneg p1 (by omega)
  have p3 : 0 ≤ Q * n1 * n2 * n3 := mul_nonneg p2 (by omega)
  have p4 : 0 ≤ Q * n1 * n2 * n3 * n4 := mul_nonneg p3 (by omega)
  have m4 : Q * n1 * n2 * n3 * n4 ≤ Q * n1 * n2 * n3 * n4 * n5 :=
    le_mul_of_pos_right p4 (by omega)
  obtain ⟨e4, a4, b4⟩ := horner4 hq h1 h2 h3 h4 (by omega)
  obtain ⟨e5, _, _⟩ := horner_step ⟨a4, b4⟩ h5 (by omega)
  rw [e4, e5]

/-- When `b * w * h * d * aligned_channels` is an `int`, `GetLinearIndex`
computes the number its index expression denotes over the integers. -/
theorem gpu_index_exact {desc : TensorDescriptor} {shape : BHWDC} {e : Coord}
    (h : e.valid desc shape) (hfit : exactElementsCount desc shape ≤ 2147483648) :
    e.gpu_index desc shape = e.exact_index desc shape := by
  obtain ⟨b, s, y, x, d, c⟩ := e
  obtain ⟨hb, hs, hy, hx, hd, hc⟩ := h
  simp only at hb hs hy hx hd hc
  simp only [Coord.gpu_index, Coord.exact_index, GetLinearIndex]
  unfold GetChannelsAlignment at hc
  unfold exactElementsCount at hfit
  cases hty : desc.storage_type with
  | UNKNOWN => rfl
  | SINGLE_TEXTURE_2D =>
    simp only [hty, if_true] at hc hfit ⊢
    exact (horner4 hy hx hb hd hc (le_of_eq_of_le (by ring) hfit)).1
  | TEXTURE_2D =>
    simp only [hty, reduceCtorEq, if_false] at hc hfit ⊢
    exact horner5 hy hs hx hb hd hc (le_of_eq_of_le (by ring) hfit)
  | BUFFER =>
    simp only [hty, reduceCtorEq, if_false] at hc hfit ⊢
    exact horner5 hd hs hy hx hb hc (le_of_eq_of_le (by ring) hfit)
  | IMAGE_BUFFER =>
    simp only [hty, reduceCtorEq, if_false] at hc hfit ⊢
    exact horner5 hd hs hy hx hb hc (le_of_eq_of_le (by ring) hfit)
  | TEXTURE_ARRAY =>
    simp only [hty, reduceCtorEq, if_false] at hc hfit ⊢
    exact horner5 hd hs hy hx hb hc (le_of_eq_of_le (by ring) hfit)
  | TEXTURE_3D =>
    simp only [hty, reduceCtorEq, if_false] at hc hfit ⊢
    exact horner5 hd hs hy hx hb hc (le_of_eq_of_le (by ring) hfit)

theorem divideRoundUp_pos {c : Int} (hc : 0 < c) : 0 < DivideRoundUp c 4 := by
  unfold DivideRoundUp
  omega

theorem divideRoundUp_ge {c : Int} : c ≤ 4 * DivideRoundUp c 4 := by
  unfold DivideRoundUp
  omega

/-- When `b * w * h * d * aligned_channels` is an `int` and the dimensions are
positive, `elements_count` is this number. -/
theorem elements_count_exact {desc : TensorDescriptor} {shape : BHWDC}
    (hb : 0 < shape.b) (hh : 0 < shape.h) (hw : 0 < shape.w) (hd : 0 < shape.d)
    (hc : 0 < shape.c) (hfit : exactElementsCount desc shape < 2147483648) :
    elements_count desc shape = exactElementsCount desc shape := by
  have hs := divideRoundUp_pos hc
  have p1 : 0 < shape.b * shape.w := mul_pos hb hw
  have p2 : 0 < shape.b * shape.w * shape.h := mul_pos p1 hh
  have p3 : 0 < shape.b * shape.w * shape.h * shape.d := mul_pos p2 hd
  have m1 : shape.b * shape.w ≤ shape.b * shape.w * shape.h :=
    le_mul_of_pos_right (le_of_lt p1) hh
  have m2 : shape.b * shape.w * shape.h ≤ shape.b * shape.w * shape.h * shape.d :=
    le_mul_of_pos_right (le_of_lt p2) hd
  unfold exactElementsCount at hfit ⊢
  unfold elements_count AlignByN
  by_cases hty : desc.storage_type = .SINGLE_TEXTURE_2D
  · simp only [hty, if_true] at hfit ⊢
    have m3 : shape.b * shape.w * shape.h * shape.d ≤
        shape.b * shape.w * shape.h * shape.d * shape.c := le_mul_of_pos_right (le_of_lt p3) hc
    have e1 : mulInt shape.b shape.w = shape.b * shape.w :=
      wrapInt_of_range (by omega) (by omega)
    have e2 : mulInt (shape.b * shape.w) shape.h = shape.b * shape.w * shape.h :=
      wrapInt_of_range (by omega) (by omega)
    have e3 : mulInt (shape.b * shape.w * shape.h) shape.d =
        shape.b * shape.w * shape.h * shape.d := wrapInt_of_range (by omega) (by omega)
    rw [e1, e2, e3]
    exact wrapInt_of_range (by omega) (by omega)
  · simp only [hty, if_false] at hfit ⊢
    have pa : 0 < 4 * DivideRoundUp shape.c 4 := by omega
    have m3 : shape.b * shape.w * shape.h * shape.d ≤
        shape.b * shape.w * shape.h * shape.d * (4 * DivideRoundUp shape.c 4) :=
      le_mul_of_pos_right (le_of_lt p3) pa
    have m4 : 4 * DivideRoundUp shape.c 4 ≤
        shape.b * shape.w * shape.h * shape.d * (4 * DivideRoundUp shape.c 4) :=
      le_mul_of_one_le_left (le_of_lt pa) p3
    have e0 : mulInt (DivideRoundUp shape.c 4) 4 = 4 * DivideRoundUp shape.c 4 := by
      unfold mulInt
      rw [mul_comm]
      exact wrapInt_of_range (by omega) (by omega)
    have e1 : mulInt shape.b shape.w = shape.b * shape.w :=
      wrapInt_of_range (by omega) (by omega)
    have e2 : mulInt (shape.b * shape.w) shape.h = shape.b * shape.w * shape.h :=
      wrapInt_of_range (by omega) (by omega)
    have e3 : mulInt (shape.b * shape.w * shape.h) shape.d =
        shape.b * shape.w * shape.h * shape.d := wrapInt_of_range (by omega) (by omega)
    rw [e0, e1, e2, e3]
    exact wrapInt_of_range (by omega) (by omega)

/-- The dimensions of a shape with a valid coordinate are positive. -/
theorem Coord.valid_pos {desc : TensorDescriptor} {shape : BHWDC} {e : Coord}
    (h : e.valid desc shape) :
    0 < shape.b ∧ 0 < shape.h ∧ 0 < shape.w ∧ 0 < shape.d ∧ 0 < shape.c := by
  obtain ⟨hb, hs, hy, hx, hd, hc⟩ := h
  refine ⟨by omega, by omega, by omega, by omega, ?_⟩
  unfold DivideRoundUp at hs
  omega

/-! # Lemmas about the loop nest -/

theorem foldl_keeps {σ ι : Type} (P : σ → Prop) (f : σ → ι → σ) :
    ∀ (l : List ι) (init : σ), (∀ k ∈ l, ∀ acc, P acc → P (f acc k)) → P init →
      P (l.foldl f init) := by
  intro l
  induction l with
  | nil => intro init _ h; exact h
  | cons a t ih =>
    intro init hstep h
    exact ih _ (fun k hk => hstep k (List.mem_cons_of_mem _ hk))
      (hstep a (List.mem_cons_self _ _) init h)

theorem foldl_reaches {σ ι : Type} (P : σ → Prop) (f : σ → ι → σ) (k0 : ι) :
    ∀ (l : List ι) (init : σ), (∀ k ∈ l, ∀ acc, P acc → P (f acc k)) → k0 ∈ l →
      (∀ acc, P (f acc k0)) → P (l.foldl f init) := by
  intro l
  induction l with
  | nil => intro init _ h; cases h
  | cons a t ih =>
    intro init hstep hmem hest
    rcases List.mem_cons.mp hmem with rfl | hmem
    · exact foldl_keeps P f t _ (fun k hk => hstep k (List.mem_cons_of_mem _ hk)) (hest init)
    · exact ih _ (fun k hk => hstep k (List.mem_cons_of_mem _ hk)) hmem hest

/-- A property that every iteration keeps holds after the loop. -/
theorem forLoop_keeps {σ : Type} (P : σ → Prop) (n : Int) (body : Int → σ → σ) (init : σ)
    (hstep : ∀ k, 0 ≤ k → k < n → ∀ acc, P acc → P (body k acc)) (h : P init) :
    P (forLoop n body init) := by
  unfold forLoop
  apply foldl_keeps P _ _ init _ h
  intro k hk acc hacc
  have := List.mem_range.mp hk
  exact hstep (Int.ofNat k) (Int.ofNat_nonneg k)
    (by have : (k : Int) < n := by omega
        exact this) acc hacc

/-- A property that every iteration keeps and that iteration `k0` establishes
holds after the loop. -/
theorem forLoop_reaches {σ : Type} (P : σ → Prop) (n : Int) (body : Int → σ → σ) (init : σ)
    (hstep : ∀ k, 0 ≤ k → k < n → ∀ acc, P acc → P (body k acc))
    (k0 : Int) (h0 : 0 ≤ k0) (hn : k0 < n) (hest : ∀ acc, P (body k0 acc)) :
    P (forLoop n body init) := by
  unfold forLoop
  have hk0 : Int.ofNat k0.toNat = k0 := Int.toNat_of_nonneg h0
  apply foldl_reaches P _ k0.toNat _ init
  · intro k hk acc hacc
    have := List.mem_range.mp hk
    exact hstep (Int.ofNat k) (Int.ofNat_nonneg k)
      (by have : (k : Int) < n := by omega
          exact this) acc hacc
  · exact List.mem_range.mpr (by omega)
  · intro acc
    rw [hk0]
    exact hest acc

theorem loopNest_keeps {σ : Type} (P : σ → Prop) (desc : TensorDescriptor) (shape : BHWDC)
    (body : Coord → σ → σ) (init : σ)
    (hstep : ∀ e : Coord, e.valid desc shape → ∀ acc, P acc → P (body e acc)) (h : P init) :
    P (loopNest desc shape body init) := by
  unfold loopNest
  refine forLoop_keeps P _ _ _ (fun b hb hb' acc hacc => ?_) h
  refine forLoop_keeps P _ _ _ (fun s hs hs' acc hacc => ?_) hacc
  refine forLoop_keeps P _ _ _ (fun y hy hy' acc hacc => ?_) hacc
  refine forLoop_keeps P _ _ _ (fun x hx hx' acc hacc => ?_) hacc
  refine forLoop_keeps P _ _ _ (fun d hd hd' acc hacc => ?_) hacc
  refine forLoop_keeps P _ _ _ (fun c hc hc' acc hacc => ?_) hacc
  exact hstep _ ⟨⟨hb, hb'⟩, ⟨hs, hs'⟩, ⟨hy, hy'⟩, ⟨hx, hx'⟩, ⟨hd, hd'⟩, ⟨hc, hc'⟩⟩ acc hacc

theorem loopNest_reaches {σ : Type} (P : σ → Prop) (desc : TensorDescriptor) (shape : BHWDC)
    (body : Coord → σ → σ) (init : σ)
    (hstep : ∀ e : Coord, e.valid desc shape → ∀ acc, P acc → P (body e acc))
    (e0 : Coord) (hv : e0.valid desc shape) (hest : ∀ acc, P (body e0 acc)) :
    P (loopNest desc shape body init) := by
  obtain ⟨⟨hb0, hb0'⟩, ⟨hs0, hs0'⟩, ⟨hy0, hy0'⟩, ⟨hx0, hx0'⟩, ⟨hd0, hd0'⟩, ⟨hc0, hc0'⟩⟩ := hv
  unfold loopNest
  have step6 : ∀ b s y x d, (0 ≤ b ∧ b < shape.b) → (0 ≤ s ∧ s < DivideRoundUp shape.c 4) →
      (0 ≤ y ∧ y < shape.h) → (0 ≤ x ∧ x < shape.w) → (0 ≤ d ∧ d < shape.d) →
      ∀ acc, P acc → P (forLoop (GetChannelsAlignment desc shape) (fun c acc =>
        body { b := b, s := s, y := y, x := x, d := d, c := c } acc) acc) :=
    fun b s y x d hb hs hy hx hd acc hacc =>
      forLoop_keeps P _ _ _ (fun c hc hc' acc hacc =>
        hstep _ ⟨hb, hs, hy, hx, hd, ⟨hc, hc'⟩⟩ acc hacc) hacc
  have step5 : ∀ b s y x, (0 ≤ b ∧ b < shape.b) → (0 ≤ s ∧ s < DivideRoundUp shape.c 4) →
      (0 ≤ y ∧ y < shape.h) → (0 ≤ x ∧ x < shape.w) →
      ∀ acc, P acc → P (forLoop shape.d (fun d acc =>
        forLoop (GetChannelsAlignment desc shape) (fun c acc =>
          body { b := b, s := s, y := y, x := x, d := d, c := c } acc) acc) acc) :=
    fun b s y x hb hs hy hx acc hacc =>
      forLoop_keeps P _ _ _ (fun d hd hd' acc hacc =>
        step6 b s y x d hb hs hy hx ⟨hd, hd'⟩ acc hacc) hacc
  have step4 : ∀ b s y, (0 ≤ b ∧ b < shape.b) → (0 ≤ s ∧ s < DivideRoundUp shape.c 4) →
      (0 ≤ y ∧ y < shape.h) →
      ∀ acc, P acc → P (forLoop shape.w (fun x acc => forLoop shape.d (fun d acc =>
        forLoop (GetChannelsAlignment desc shape) (fun c acc =>
          body { b := b, s := s, y := y, x := x, d := d, c := c } acc) acc) acc) acc) :=
    fun b s y hb hs hy acc hacc =>
      forLoop_keeps P _ _ _ (fun x hx hx' acc hacc =>
        step5 b s y x hb hs hy ⟨hx, hx'⟩ acc hacc) hacc
  have step3 : ∀ b s, (0 ≤ b ∧ b < shape.b) → (0 ≤ s ∧ s < DivideRoundUp shape.c 4) →
      ∀ acc, P acc → P (forLoop shape.h (fun y acc => forLoop shape.w (fun x acc =>
        forLoop shape.d (fun d acc =>
          forLoop (GetChannelsAlignment desc shape) (fun c acc =>
            body { b := b, s := s, y := y, x := x, d := d, c := c } acc) acc) acc) acc)
              acc) :=
    fun b s hb hs acc hacc =>
      forLoop_keeps P _ _ _ (fun y hy hy' acc hacc =>
        step4 b s y hb hs ⟨hy, hy'⟩ acc hacc) hacc
  have step2 : ∀ b, (0 ≤ b ∧ b < shape.b) →
      ∀ acc, P acc → P (forLoop (DivideRoundUp shape.c 4) (fun s acc =>
        forLoop shape.h (fun y acc => forLoop shape.w (fun x acc =>
          forLoop shape.d (fun d acc =>
            forLoop (GetChannelsAlignment desc shape) (fun c acc =>
              body { b := b, s := s, y := y, x := x, d := d, c := c } acc) acc) acc) acc)
                acc) acc) :=
    fun b hb acc hacc =>
      forLoop_keeps P _ _ _ (fun s hs hs' acc hacc =>
        step3 b s hb ⟨hs, hs'⟩ acc hacc) hacc
  refine forLoop_reaches P _ _ _ (fun b hb hb' acc hacc => step2 b ⟨hb, hb'⟩ acc hacc)
    e0.b hb0 hb0' (fun acc => ?_)
  refine forLoop_reaches P _ _ _
    (fun s hs hs' acc hacc => step3 e0.b s ⟨hb0, hb0'⟩ ⟨hs, hs'⟩ acc hacc)
    e0.s hs0 hs0' (fun acc => ?_)
  refine forLoop_reaches P _ _ _
    (fun y hy hy' acc hacc => step4 e0.b e0.s y ⟨hb0, hb0'⟩ ⟨hs0, hs0'⟩ ⟨hy, hy'⟩ acc hacc)
    e0.y hy0 hy0' (fun acc => ?_)
  refine forLoop_reaches P _ _ _
    (fun x hx hx' acc hacc =>
      step5 e0.b e0.s e0.y x ⟨hb0, hb0'⟩ ⟨hs0, hs0'⟩ ⟨hy0, hy0'⟩ ⟨hx, hx'⟩ acc hacc)
    e0.x hx0 hx0' (fun acc => ?_)
  refine forLoop_reaches P _ _ _
    (fun d hd hd' acc hacc =>
      step6 e0.b e0.s e0.y e0.x d ⟨hb0, hb0'⟩ ⟨hs0, hs0'⟩ ⟨hy0, hy0'⟩ ⟨hx0, hx0'⟩ ⟨hd, hd'⟩
        acc hacc)
    e0.d hd0 hd0' (fun acc => ?_)
  exact forLoop_reaches P _ _ _
    (fun c hc hc' acc hacc =>
      hstep { b := e0.b, s := e0.s, y := e0.y, x := e0.x, d := e0.d, c := c }
        ⟨⟨hb0, hb0'⟩, ⟨hs0, hs0'⟩, ⟨hy0, hy0'⟩, ⟨hx0, hx0'⟩, ⟨hd0, hd0'⟩, ⟨hc, hc'⟩⟩
        acc hacc)
    e0.c hc0 hc0' (fun acc => hest acc)

/-- After a loop nest of guarded array writes, the cell of a visited coordinate
that writes holds the value written at some visited coordinate with the same
cell. -/
theorem loopNest_last {α : Type} (desc : TensorDescriptor) (shape : BHWDC)
    (p : Coord → Prop) [DecidablePred p] (key : Coord → Int) (val : Coord → α)
    (init : Int → α) (e : Coord) (hv : e.valid desc shape) (hp : p e) :
    ∃ e2 : Coord, e2.valid desc shape ∧ p e2 ∧ key e2 = key e ∧
      loopNest desc shape (fun e acc => if p e then store acc (key e) (val e) else acc) init
        (key e) = val e2 := by
  refine loopNest_reaches
    (fun acc => ∃ e2 : Coord, e2.valid desc shape ∧ p e2 ∧ key e2 = key e ∧
      acc (key e) = val e2) desc shape _ init ?_ e hv ?_
  · intro e3 hv3 acc ⟨e2, hv2, hp2, hk2, hacc⟩
    by_cases hp3 : p e3
    · by_cases hk : key e = key e3
      · exact ⟨e3, hv3, hp3, hk.symm, by simp [hp3, store, hk]⟩
      · exact ⟨e2, hv2, hp2, hk2, by simp [hp3, store, hk, hacc]⟩
    · exact ⟨e2, hv2, hp2, hk2, by simp [hp3, hacc]⟩
  · intro acc
    exact ⟨e, hv, hp, rfl, by simp [hp, store]⟩

/-- What a loop nest of guarded array writes leaves in the array: a cell
written at a visited coordinate holds the value written there, when writes to
one cell agree; a cell no visited coordinate writes keeps its content. -/
theorem loopNest_writes {α : Type} (desc : TensorDescriptor) (shape : BHWDC)
    (p : Coord → Prop) [DecidablePred p] (key : Coord → Int) (val : Coord → α)
    (init : Int → α)
    (hagree : ∀ e1 e2 : Coord, e1.valid desc shape → e2.valid desc shape → p e1 → p e2 →
      key e1 = key e2 → val e1 = val e2) :
    (∀ e : Coord, e.valid desc shape → p e →
      loopNest desc shape (fun e acc => if p e then store acc (key e) (val e) else acc) init
        (key e) = val e) ∧
    (∀ i, (∀ e : Coord, e.valid desc shape → p e → key e ≠ i) →
      loopNest desc shape (fun e acc => if p e then store acc (key e) (val e) else acc) init
        i = init i) := by
  constructor
  · intro e hv hp
    obtain ⟨e2, hv2, hp2, hk2, hval⟩ := loopNest_last desc shape p key val init e hv hp
    rw [hval]
    exact hagree e2 e hv2 hv hp2 hp hk2
  · intro i hi
    refine loopNest_keeps (fun acc => acc i = init i) desc shape _ init ?_ rfl
    intro e hv acc hacc
    by_cases hp : p e
    · have := hi e hv hp
      simp only [hp, if_true, store]
      rw [if_neg (fun h => this h.symm)]
      exact hacc
    · simp only [hp, if_false]
      exact hacc

/-! # Lemmas about DataFromBHWDC and DataToBHWDC -/

/-- When `b * w * h * d * aligned_channels` is an `int`, `GetLinearIndex`
separates the coordinates the loops visit. -/
theorem gpu_index_inj {desc : TensorDescriptor} {shape : BHWDC}
    (hst : desc.storage_type ≠ .UNKNOWN)
    (hsingle : desc.storage_type = .SINGLE_TEXTURE_2D → shape.c ≤ 4)
    (hfit : exactElementsCount desc shape ≤ 2147483648)
    {e1 e2 : Coord} (h1 : e1.valid desc shape) (h2 : e2.valid desc shape)
    (h : e1.gpu_index desc shape = e2.gpu_index desc shape) : e1 = e2 := by
  rw [gpu_index_exact h1 hfit, gpu_index_exact h2 hfit] at h
  exact exact_index_inj hst hsingle h1 h2 h

/-- When `b * w * h * d * aligned_channels` is an `int`, the channel
`s * 4 + c` of a coordinate the loops visit is computed without overflow. -/
theorem channel_exact {desc : TensorDescriptor} {shape : BHWDC} {e : Coord}
    (h : e.valid desc shape)
    (hsingle : desc.storage_type = .SINGLE_TEXTURE_2D → shape.c ≤ 4)
    (hfit : exactElementsCount desc shape ≤ 2147483648) :
    e.channel = e.s * 4 + e.c := by
  obtain ⟨hb, hh, hw, hd, hc⟩ := Coord.valid_pos h
  obtain ⟨_, hs, _, _, _, hcc⟩ := h
  unfold GetChannelsAlignment at hcc
  have hsmall : e.s * 4 + e.c < 2147483648 := by
    by_cases hty : desc.storage_type = .SINGLE_TEXTURE_2D
    · have := hsingle hty
      simp only [hty, if_true] at hcc
      unfold DivideRoundUp at hs
      omega
    · simp only [hty, if_false] at hcc
      unfold exactElementsCount at hfit
      simp only [hty, if_false] at hfit
      have p3 : 0 < shape.b * shape.w * shape.h * shape.d :=
        mul_pos (mul_pos (mul_pos hb hw) hh) hd
      have pa : 0 ≤ 4 * DivideRoundUp shape.c 4 := by omega
      have m4 : 4 * DivideRoundUp shape.c 4 ≤
          shape.b * shape.w * shape.h * shape.d * (4 * DivideRoundUp shape.c 4) :=
        le_mul_of_one_le_left pa p3
      omega
  unfold Coord.channel addInt mulInt wrapInt
  omega

theorem DataFromBHWDC_eq {α : Type} [Zero α]
    (LinearIndex : BHWDC → Int → Int → Int → Int → Int → Int)
    (src : Int → α) (shape : BHWDC) (desc : TensorDescriptor) (dst : Int → α) :
    DataFromBHWDC LinearIndex src shape desc dst =
      loopNest desc shape (fun e acc =>
        if (fun _ : Coord => True) e then
          store acc (e.gpu_index desc shape)
            (if e.channel < shape.c then
              src (LinearIndex shape e.b e.y e.x e.d e.channel) else 0)
        else acc) dst := by
  simp only [if_true]
  rfl

theorem DataToBHWDC_eq {α : Type}
    (LinearIndex : BHWDC → Int → Int → Int → Int → Int → Int)
    (src : Int → α) (shape : BHWDC) (desc : TensorDescriptor) (dst : Int → α) :
    DataToBHWDC LinearIndex src shape desc dst =
      loopNest desc shape (fun e acc =>
        if (fun e : Coord => e.channel < shape.c) e then
          store acc (LinearIndex shape e.b e.y e.x e.d e.channel)
            (src (e.gpu_index desc shape))
        else acc) dst := by
  have hbody : ∀ (e : Coord) (acc : Int → α),
      (if (fun e : Coord => e.channel < shape.c) e then
          store acc (LinearIndex shape e.b e.y e.x e.d e.channel)
            (src (e.gpu_index desc shape))
        else acc) =
      (if e.channel ≥ shape.c then acc
        else store acc (LinearIndex shape e.b e.y e.x e.d e.channel)
          (src (e.gpu_index desc shape))) := by
    intro e acc
    by_cases h : e.channel < shape.c
    · simp only [h, if_true, ge_iff_le, not_le.mpr h, if_false]
    · simp only [h, if_false, ge_iff_le, not_lt.mp h, if_true]
  simp only [hbody]
  rfl

/-- The content of the destination of `DataFromBHWDC`. -/
theorem DataFromBHWDC_get {α : Type} [Zero α]
    (LinearIndex : BHWDC → Int → Int → Int → Int → Int → Int)
    (src : Int → α) (shape : BHWDC) (desc : TensorDescriptor) (dst : Int → α)
    (hst : desc.storage_type ≠ .UNKNOWN)
    (hsingle : desc.storage_type = .SINGLE_TEXTURE_2D → shape.c ≤ 4)
    (hfit : exactElementsCount desc shape ≤ 2147483648) :
    (∀ e : Coord, e.valid desc shape →
      DataFromBHWDC LinearIndex src shape desc dst (e.gpu_index desc shape) =
        if e.channel < shape.c then
          src (LinearIndex shape e.b e.y e.x e.d e.channel) else 0) ∧
    (∀ i, (∀ e : Coord, e.valid desc shape → e.gpu_index desc shape ≠ i) →
      DataFromBHWDC LinearIndex src shape desc dst i = dst i) := by
  rw [DataFromBHWDC_eq]
  have h := loopNest_writes desc shape (fun _ : Coord => True)
    (fun e => e.gpu_index desc shape)
    (fun e => if e.channel < shape.c then
      src (LinearIndex shape e.b e.y e.x e.d e.channel) else 0) dst
    (fun e1 e2 h1 h2 _ _ hk => by rw [gpu_index_inj hst hsingle hfit h1 h2 hk])
  exact ⟨fun e hv => h.1 e hv trivial, fun i hi => h.2 i (fun e hv _ => hi e hv)⟩

/-- The coordinate of the loop nest that handles channel `c` of the element
`(b, y, x, d)`. -/
theorem coord_of_channel (desc : TensorDescriptor) {shape : BHWDC}
    (hsingle : desc.storage_type = .SINGLE_TEXTURE_2D → shape.c ≤ 4)
    {b y x d c : Int} (hb : 0 ≤ b ∧ b < shape.b) (hy : 0 ≤ y ∧ y < shape.h)
    (hx : 0 ≤ x ∧ x < shape.w) (hd : 0 ≤ d ∧ d < shape.d) (hc : 0 ≤ c ∧ c < shape.c) :
    Coord.valid desc shape { b := b, s := c / 4, y := y, x := x, d := d, c := c % 4 } ∧
      c / 4 * 4 + c % 4 = c := by
  refine ⟨⟨hb, ⟨?_, ?_⟩, hy, hx, hd, ⟨?_, ?_⟩⟩, by omega⟩
  · show 0 ≤ c / 4
    omega
  · show c / 4 < DivideRoundUp shape.c 4
    unfold DivideRoundUp
    omega
  · show 0 ≤ c % 4
    omega
  · show c % 4 < GetChannelsAlignment desc shape
    unfold GetChannelsAlignment
    by_cases hty : desc.storage_type = .SINGLE_TEXTURE_2D
    · have := hsingle hty
      simp only [hty, if_true]
      omega
    · simp only [hty, if_false]
      omega

/-- Every index below the number of elements of a shape with positive
dimensions is the row-major index of a coordinate of the shape. -/
theorem rowMajorIndex_covers (shape : BHWDC) (hh : 0 < shape.h) (hw : 0 < shape.w)
    (hd : 0 < shape.d) (hc : 0 < shape.c) (i : Int) (h0 : 0 ≤ i)
    (hi : i < shape.b * shape.h * shape.w * shape.d * shape.c) :
    ∃ b y x d c, (0 ≤ b ∧ b < shape.b) ∧ (0 ≤ y ∧ y < shape.h) ∧ (0 ≤ x ∧ x < shape.w) ∧
      (0 ≤ d ∧ d < shape.d) ∧ (0 ≤ c ∧ c < shape.c) ∧ rowMajorIndex shape b y x d c = i := by
  have q1 : i / shape.c < shape.b * shape.h * shape.w * shape.d :=
    Int.ediv_lt_of_lt_mul hc hi
  have n1 : 0 ≤ i / shape.c := Int.ediv_nonneg h0 (le_of_lt hc)
  have q2 : i / shape.c / shape.d < shape.b * shape.h * shape.w :=
    Int.ediv_lt_of_lt_mul hd q1
  have n2 : 0 ≤ i / shape.c / shape.d := Int.ediv_nonneg n1 (le_of_lt hd)
  have q3 : i / shape.c / shape.d / shape.w < shape.b * shape.h :=
    Int.ediv_lt_of_lt_mul hw q2
  have n3 : 0 ≤ i / shape.c / shape.d / shape.w := Int.ediv_nonneg n2 (le_of_lt hw)
  have q4 : i / shape.c / shape.d / shape.w / shape.h < shape.b :=
    Int.ediv_lt_of_lt_mul hh q3
  have n4 : 0 ≤ i / shape.c / shape.d / shape.w / shape.h :=
    Int.ediv_nonneg n3 (le_of_lt hh)
  refine ⟨i / shape.c / shape.d / shape.w / shape.h, i / shape.c / shape.d / shape.w % shape.h,
    i / shape.c / shape.d % shape.w, i / shape.c % shape.d, i % shape.c,
    ⟨n4, q4⟩, ⟨Int.emod_nonneg _ (ne_of_gt hh), Int.emod_lt_of_pos _ hh⟩,
    ⟨Int.emod_nonneg _ (ne_of_gt hw), Int.emod_lt_of_pos _ hw⟩,
    ⟨Int.emod_nonneg _ (ne_of_gt hd), Int.emod_lt_of_pos _ hd⟩,
    ⟨Int.emod_nonneg _ (ne_of_gt hc), Int.emod_lt_of_pos _ hc⟩, ?_⟩
  unfold rowMajorIndex
  rw [Int.ediv_add_emod', Int.ediv_add_emod', Int.ediv_add_emod', Int.ediv_add_emod']

/-- In the shape `(1, 32769, 32768, 1, 1)` stored as `BUFFER`, `DataToBHWDC`
writes to the cell of an element what its source holds at the index
`GetLinearIndex` gives the element. -/
theorem DataToBHWDC_wide {α : Type} (gpu dst : Int → α) (y x : Int)
    (hy : 0 ≤ y ∧ y < 32769) (hx : 0 ≤ x ∧ x < 32768) :
    DataToBHWDC rowMajorIndex gpu { b := 1, h := 32769, w := 32768, d := 1, c := 1 }
        { storage_type := .BUFFER } dst
        (rowMajorIndex { b := 1, h := 32769, w := 32768, d := 1, c := 1 } 0 y x 0 0) =
      gpu (GetLinearIndex { storage_type := .BUFFER }
        { b := 1, h := 32769, w := 32768, d := 1, c := 1 } 0 x y 0 0 0) := by
  rw [DataToBHWDC_eq]
  have hv : Coord.valid { storage_type := .BUFFER }
      { b := 1, h := 32769, w := 32768, d := 1, c := 1 }
      { b := 0, s := 0, y := y, x := x, d := 0, c := 0 } :=
    ⟨(by decide : (0 : Int) ≤ 0 ∧ (0 : Int) < 1),
      (by decide : (0 : Int) ≤ 0 ∧ (0 : Int) < DivideRoundUp 1 4), hy, hx,
      (by decide : (0 : Int) ≤ 0 ∧ (0 : Int) < 1),
      (by decide : (0 : Int) ≤ 0 ∧ (0 : Int) < 4)⟩
  obtain ⟨e2, hv2, hp2, hk2, hval⟩ := loopNest_last { storage_type := .BUFFER }
    { b := 1, h := 32769, w := 32768, d := 1, c := 1 }
    (fun e : Coord => e.channel < 1)
    (fun e => rowMajorIndex { b := 1, h := 32769, w := 32768, d := 1, c := 1 }
      e.b e.y e.x e.d e.channel)
    (fun e => gpu (e.gpu_index { storage_type := .BUFFER }
      { b := 1, h := 32769, w := 32768, d := 1, c := 1 })) dst
    { b := 0, s := 0, y := y, x := x, d := 0, c := 0 } hv
    (by decide : addInt (mulInt 0 4) 0 < 1)
  have hsame : e2 = { b := 0, s := 0, y := y, x := x, d := 0, c := 0 } := by
    obtain ⟨b2, s2, y2, x2, d2, c2⟩ := e2
    obtain ⟨hb2, hs2, hy2, hx2, hd2, hc2⟩ := hv2
    have hs2' : s2 < 1 := hs2.2
    have hc2' : c2 < 4 := hc2.2
    simp only at hb2 hs2 hy2 hx2 hd2 hc2
    simp only [Coord.channel, addInt, mulInt, wrapInt] at hp2 hk2
    simp only [rowMajorIndex] at hk2
    have hs0 : s2 = 0 := by omega
    subst hs0
    have hb0 : b2 = 0 := by omega
    have hd0 : d2 = 0 := by omega
    subst hb0 hd0
    have hc0 : c2 = 0 := by omega
    subst hc0
    simp only [Coord.mk.injEq, true_and, and_true]
    omega
  rw [hsame] at hval
  exact hval

/-! # Properties of the tensor descriptor -/

/-- C39 fails on the code, in two ways.  For `SINGLE_TEXTURE_2D` and the shape
`(b, h, w, d, c) = (1, 1, 1, 1, 5)` there are two slices, and the coordinates
with `s = 0` and with `s = 1` (all other components 0) are both valid and get
the same index 0, since `GetLinearIndex` does not use `s` for this storage
type.  For `BUFFER` and the shape `(1, 65536, 65536, 1, 4)`, whose
`b * w * h * d * aligned_channels` is `2^34`, the valid coordinate
`x = y = 65535`, `sub_c = 3` gets the index -1: the exact value `2^34 - 1` of
the index expression is not an `int`.  The same happens as soon as
`b * w * h * d * aligned_channels` is not an `int`: for the shape
`(1, 16385, 32768, 1, 4)`, where it is `2^31 + 2^17`, the valid coordinate
`y = 16384` (all other components 0) gets the index `-2^31`. -/
theorem GetLinearIndex_injective_counterexample :
    (DivideRoundUp 5 4 = 2 ∧
      Coord.valid { storage_type := .SINGLE_TEXTURE_2D }
        { b := 1, h := 1, w := 1, d := 1, c := 5 }
        { b := 0, s := 0, y := 0, x := 0, d := 0, c := 0 } ∧
      Coord.valid { storage_type := .SINGLE_TEXTURE_2D }
        { b := 1, h := 1, w := 1, d := 1, c := 5 }
        { b := 0, s := 1, y := 0, x := 0, d := 0, c := 0 } ∧
      GetLinearIndex { storage_type := .SINGLE_TEXTURE_2D }
        { b := 1, h := 1, w := 1, d := 1, c := 5 } 0 0 0 0 0 0 = 0 ∧
      GetLinearIndex { storage_type := .SINGLE_TEXTURE_2D }
        { b := 1, h := 1, w := 1, d := 1, c := 5 } 0 0 0 0 1 0 = 0 ∧
      ({ b := 0, s := 0, y := 0, x := 0, d := 0, c := 0 } : Coord) ≠
        { b := 0, s := 1, y := 0, x := 0, d := 0, c := 0 }) ∧
    (Coord.valid { storage_type := .BUFFER }
        { b := 1, h := 65536, w := 65536, d := 1, c := 4 }
        { b := 0, s := 0, y := 65535, x := 65535, d := 0, c := 3 } ∧
      exactElementsCount { storage_type := .BUFFER }
        { b := 1, h := 65536, w := 65536, d := 1, c := 4 } = 17179869184 ∧
      GetLinearIndex { storage_type := .BUFFER }
        { b := 1, h := 65536, w := 65536, d := 1, c := 4 } 0 65535 65535 0 0 3 = -1 ∧
      elements_count { storage_type := .BUFFER }
        { b := 1, h := 65536, w := 65536, d := 1, c := 4 } = 0) ∧
    (Coord.valid { storage_type := .BUFFER }
        { b := 1, h := 16385, w := 32768, d := 1, c := 4 }
        { b := 0, s := 0, y := 16384, x := 0, d := 0, c := 0 } ∧
      exactElementsCount { storage_type := .BUFFER }
        { b := 1, h := 16385, w := 32768, d := 1, c := 4 } = 2147614720 ∧
      GetLinearIndex { storage_type := .BUFFER }
        { b := 1, h := 16385, w := 32768, d := 1, c := 4 } 0 0 16384 0 0 0 = -2147483648) := by
  refine ⟨⟨by decide, by decide, by decide, by decide, by decide, by decide⟩,
    ⟨by decide, by decide, by decide, by decide⟩, by decide, by decide, by decide⟩

/-- C39, amended: for a storage type other than `UNKNOWN` and a shape whose
`b * w * h * d * aligned_channels` is an `int` (below `2^31 = 2147483648`), on
the coordinates with `0 <= b < shape.b`, `0 <= s < DivideRoundUp(shape.c, 4)`,
`0 <= y < shape.h`, `0 <= x < shape.w`, `0 <= d < shape.d` and `0 <= sub_c <
GetChannelsAlignment`, the result of `GetLinearIndex` lies in `[0,
elements_count)`, the buffer `UploadData` allocates, and `elements_count` is
`b * w * h * d * aligned_channels`; and two such coordinates with the same
result are equal, provided `shape.c <= 4` when the storage type is
`SINGLE_TEXTURE_2D`. -/
theorem GetLinearIndex_injective (desc : TensorDescriptor) (shape : BHWDC)
    (hst : desc.storage_type ≠ .UNKNOWN)
    (hfit : exactElementsCount desc shape < 2147483648)
    (b1 x1 y1 d1 s1 c1 b2 x2 y2 d2 s2 c2 : Int)
    (h1 : Coord.valid desc shape { b := b1, s := s1, y := y1, x := x1, d := d1, c := c1 })
    (h2 : Coord.valid desc shape { b := b2, s := s2, y := y2, x := x2, d := d2, c := c2 }) :
    (0 ≤ GetLinearIndex desc shape b1 x1 y1 d1 s1 c1 ∧
      GetLinearIndex desc shape b1 x1 y1 d1 s1 c1 < elements_count desc shape) ∧
    elements_count desc shape = exactElementsCount desc shape ∧
    ((desc.storage_type = .SINGLE_TEXTURE_2D → shape.c ≤ 4) →
      GetLinearIndex desc shape b1 x1 y1 d1 s1 c1 = GetLinearIndex desc shape b2 x2 y2 d2 s2 c2 →
      b1 = b2 ∧ x1 = x2 ∧ y1 = y2 ∧ d1 = d2 ∧ s1 = s2 ∧ c1 = c2) := by
  obtain ⟨hb, hh, hw, hd, hc⟩ := Coord.valid_pos h1
  have hcount : elements_count desc shape = exactElementsCount desc shape :=
    elements_count_exact hb hh hw hd hc hfit
  have hex := gpu_index_exact h1 (le_of_lt hfit)
  have hr := exact_index_range hst h1
  rw [← hex] at hr
  simp only [Coord.gpu_index] at hr
  refine ⟨by rw [hcount]; exact hr, hcount, ?_⟩
  intro hsingle heq
  have := gpu_index_inj hst hsingle (le_of_lt hfit) h1 h2
    (by simp only [Coord.gpu_index]; exact heq)
  simp only [Coord.mk.injEq] at this
  exact ⟨this.1, this.2.2.2.1, this.2.2.1, this.2.2.2.2.1, this.2.1, this.2.2.2.2.2⟩

/-- Witness for C39: the last coordinate of a `TEXTURE_2D` tensor of shape
`(1, 2, 2, 1, 5)` gets the index 31 of the 32 elements. -/
theorem GetLinearIndex_injective_witness :
    elements_count { storage_type := .TEXTURE_2D } { b := 1, h := 2, w := 2, d := 1, c := 5 }
      = 32 ∧
    GetLinearIndex { storage_type := .TEXTURE_2D } { b := 1, h := 2, w := 2, d := 1, c := 5 }
      0 1 1 0 1 3 = 31 ∧
    (0 ≤ GetLinearIndex { storage_type := .TEXTURE_2D }
        { b := 1, h := 2, w := 2, d := 1, c := 5 } 0 1 1 0 1 3 ∧
      GetLinearIndex { storage_type := .TEXTURE_2D }
        { b := 1, h := 2, w := 2, d := 1, c := 5 } 0 1 1 0 1 3 <
      elements_count { storage_type := .TEXTURE_2D }
        { b := 1, h := 2, w := 2, d := 1, c := 5 }) :=
  ⟨by decide, by decide,
   (GetLinearIndex_injective { storage_type := .TEXTURE_2D }
    { b := 1, h := 2, w := 2, d := 1, c := 5 } (by decide) (by decide) 0 1 1 0 1 3 0 0 0 0 0 0
    (by decide) (by decide)).1⟩

/-- C40 fails on the code: for `BUFFER` and the shape
`(b, h, w, d, c) = (1, 32769, 32768, 1, 1)`, whose `b * h * w * d * c` elements
can be indexed by an `int` while `b * w * h * d * aligned_channels` is above
`2^32`, the elements at `y = 0` and at `y = 32768` (with `x = 0`) have the
row-major indices 0 and `2^30` and are given the same index 0 by
`GetLinearIndex`: the exact index `2^32` of the second is reduced to 0.  After
`DataFromBHWDC` and `DataToBHWDC` the two elements are equal, so for a source
that holds different elements there the result is not the source.  Already for
the shape `(1, 16385, 32768, 1, 1)`, whose `b * w * h * d * aligned_channels`
is `2^31 + 2^17`, the element at `y = 16384` is written at the index `-2^31`,
which is no index of the destination. -/
theorem DataToBHWDC_DataFromBHWDC_counterexample :
    exactElementsCount { storage_type := .BUFFER }
      { b := 1, h := 32769, w := 32768, d := 1, c := 1 } = 4295098368 ∧
    (1 : Int) * 32769 * 32768 * 1 * 1 < 2147483648 ∧
    Coord.valid { storage_type := .BUFFER } { b := 1, h := 32769, w := 32768, d := 1, c := 1 }
      { b := 0, s := 0, y := 0, x := 0, d := 0, c := 0 } ∧
    Coord.valid { storage_type := .BUFFER } { b := 1, h := 32769, w := 32768, d := 1, c := 1 }
      { b := 0, s := 0, y := 32768, x := 0, d := 0, c := 0 } ∧
    rowMajorIndex { b := 1, h := 32769, w := 32768, d := 1, c := 1 } 0 0 0 0 0 = 0 ∧
    rowMajorIndex { b := 1, h := 32769, w := 32768, d := 1, c := 1 } 0 32768 0 0 0 =
      1073741824 ∧
    GetLinearIndex { storage_type := .BUFFER }
      { b := 1, h := 32769, w := 32768, d := 1, c := 1 } 0 0 0 0 0 0 = 0 ∧
    GetLinearIndex { storage_type := .BUFFER }
      { b := 1, h := 32769, w := 32768, d := 1, c := 1 } 0 0 32768 0 0 0 = 0 ∧
    ¬ (DataToBHWDC rowMajorIndex
        (DataFromBHWDC rowMajorIndex (fun i : Int => i)
          { b := 1, h := 32769, w := 32768, d := 1, c := 1 } { storage_type := .BUFFER }
          (fun _ => 0))
        { b := 1, h := 32769, w := 32768, d := 1, c := 1 } { storage_type := .BUFFER }
        (fun _ => 0) 0 = 0 ∧
      DataToBHWDC rowMajorIndex
        (DataFromBHWDC rowMajorIndex (fun i : Int => i)
          { b := 1, h := 32769, w := 32768, d := 1, c := 1 } { storage_type := .BUFFER }
          (fun _ => 0))
        { b := 1, h := 32769, w := 32768, d := 1, c := 1 } { storage_type := .BUFFER }
        (fun _ => 0) 1073741824 = 1073741824) ∧
    (exactElementsCount { storage_type := .BUFFER }
        { b := 1, h := 16385, w := 32768, d := 1, c := 1 } = 2147614720 ∧
      (1 : Int) * 16385 * 32768 * 1 * 1 < 2147483648 ∧
      Coord.valid { storage_type := .BUFFER }
        { b := 1, h := 16385, w := 32768, d := 1, c := 1 }
        { b := 0, s := 0, y := 16384, x := 0, d := 0, c := 0 } ∧
      GetLinearIndex { storage_type := .BUFFER }
        { b := 1, h := 16385, w := 32768, d := 1, c := 1 } 0 0 16384 0 0 0 = -2147483648) := by
  have i0 : rowMajorIndex { b := 1, h := 32769, w := 32768, d := 1, c := 1 } 0 0 0 0 0 = 0 := by
    decide
  have i1 : rowMajorIndex { b := 1, h := 32769, w := 32768, d := 1, c := 1 } 0 32768 0 0 0 =
      1073741824 := by decide
  have g0 : GetLinearIndex { storage_type := .BUFFER }
      { b := 1, h := 32769, w := 32768, d := 1, c := 1 } 0 0 0 0 0 0 = 0 := by decide
  have g1 : GetLinearIndex { storage_type := .BUFFER }
      { b := 1, h := 32769, w := 32768, d := 1, c := 1 } 0 0 32768 0 0 0 = 0 := by decide
  refine ⟨by decide, by decide, by decide, by decide, i0, i1, g0, g1, ?_,
    by decide, by decide, by decide, by decide⟩
  rintro ⟨h0, h1⟩
  have w0 := DataToBHWDC_wide
    (DataFromBHWDC rowMajorIndex (fun i : Int => i)
      { b := 1, h := 32769, w := 32768, d := 1, c := 1 } { storage_type := .BUFFER }
      (fun _ => 0)) (fun _ => 0) 0 0 (by decide) (by decide)
  have w1 := DataToBHWDC_wide
    (DataFromBHWDC rowMajorIndex (fun i : Int => i)
      { b := 1, h := 32769, w := 32768, d := 1, c := 1 } { storage_type := .BUFFER }
      (fun _ => 0)) (fun _ => 0) 32768 0 (by decide) (by decide)
  rw [i0, g0, h0] at w0
  rw [i1, g1, h1, ← w0] at w1
  exact absurd w1 (by decide)

/-- C40, amended: for a storage type other than `UNKNOWN`, with `shape.c <= 4`
when the storage type is `SINGLE_TEXTURE_2D`, a shape whose
`b * w * h * d * aligned_channels` is an `int` (below `2^31 = 2147483648`), and
equal element types: converting `src` with `DataFromBHWDC` and the result with
`DataToBHWDC`, with the same descriptor and shape, leaves in the destination,
at the index of every coordinate `(b, y, x, d, c)` of the shape, the element of
`src` at that index; when the indices of the coordinates cover
`0 .. b*h*w*d*c - 1`, the destination agrees with `src` on all of these
indices; `DataFromBHWDC` writes 0 at the index of every coordinate of its
loops with `s * 4 + c >= shape.c`; and every index the two functions compute
with `GetLinearIndex` lies in `[0, elements_count)`. -/
theorem DataToBHWDC_DataFromBHWDC {α : Type} [Zero α]
    (LinearIndex : BHWDC → Int → Int → Int → Int → Int → Int)
    (desc : TensorDescriptor) (shape : BHWDC) (src gpu0 dst0 : Int → α)
    (hst : desc.storage_type ≠ .UNKNOWN)
    (hsingle : desc.storage_type = .SINGLE_TEXTURE_2D → shape.c ≤ 4)
    (hfit : exactElementsCount desc shape < 2147483648) :
    (∀ b y x d c, (0 ≤ b ∧ b < shape.b) → (0 ≤ y ∧ y < shape.h) → (0 ≤ x ∧ x < shape.w) →
      (0 ≤ d ∧ d < shape.d) → (0 ≤ c ∧ c < shape.c) →
      DataToBHWDC LinearIndex (DataFromBHWDC LinearIndex src shape desc gpu0) shape desc dst0
        (LinearIndex shape b y x d c) = src (LinearIndex shape b y x d c)) ∧
    ((∀ i, 0 ≤ i → i < shape.b * shape.h * shape.w * shape.d * shape.c →
        ∃ b y x d c, (0 ≤ b ∧ b < shape.b) ∧ (0 ≤ y ∧ y < shape.h) ∧ (0 ≤ x ∧ x < shape.w) ∧
          (0 ≤ d ∧ d < shape.d) ∧ (0 ≤ c ∧ c < shape.c) ∧ LinearIndex shape b y x d c = i) →
      ∀ i, 0 ≤ i → i < shape.b * shape.h * shape.w * shape.d * shape.c →
        DataToBHWDC LinearIndex (DataFromBHWDC LinearIndex src shape desc gpu0) shape desc dst0
          i = src i) ∧
    (∀ b x y d s c,
      Coord.valid desc shape { b := b, s := s, y := y, x := x, d := d, c := c } →
      s * 4 + c ≥ shape.c →
      DataFromBHWDC LinearIndex src shape desc gpu0 (GetLinearIndex desc shape b x y d s c) =
        0) ∧
    (∀ b x y d s c,
      Coord.valid desc shape { b := b, s := s, y := y, x := x, d := d, c := c } →
      0 ≤ GetLinearIndex desc shape b x y d s c ∧
        GetLinearIndex desc shape b x y d s c < elements_count desc shape) := by
  have hfit' := le_of_lt hfit
  have hfrom := DataFromBHWDC_get LinearIndex src shape desc gpu0 hst hsingle hfit'
  have hback : ∀ e : Coord, e.valid desc shape → e.channel < shape.c →
      DataToBHWDC LinearIndex (DataFromBHWDC LinearIndex src shape desc gpu0) shape desc dst0
        (LinearIndex shape e.b e.y e.x e.d e.channel) =
      src (LinearIndex shape e.b e.y e.x e.d e.channel) := by
    intro e hv hp
    rw [DataToBHWDC_eq]
    have hval : ∀ e2 : Coord, e2.valid desc shape → e2.channel < shape.c →
        DataFromBHWDC LinearIndex src shape desc gpu0 (e2.gpu_index desc shape) =
          src (LinearIndex shape e2.b e2.y e2.x e2.d e2.channel) := by
      intro e2 hv2 hp2
      rw [hfrom.1 e2 hv2, if_pos hp2]
    have h := (loopNest_writes desc shape (fun e : Coord => e.channel < shape.c)
      (fun e => LinearIndex shape e.b e.y e.x e.d e.channel)
      (fun e => DataFromBHWDC LinearIndex src shape desc gpu0 (e.gpu_index desc shape)) dst0
      (fun e1 e2 h1 h2 p1 p2 hk => by
        show DataFromBHWDC LinearIndex src shape desc gpu0 (e1.gpu_index desc shape) =
          DataFromBHWDC LinearIndex src shape desc gpu0 (e2.gpu_index desc shape)
        rw [hval e1 h1 p1, hval e2 h2 p2]
        exact congrArg src hk)).1 e hv hp
    rw [h]
    exact hval e hv hp
  have hfirst : ∀ b y x d c, (0 ≤ b ∧ b < shape.b) → (0 ≤ y ∧ y < shape.h) →
      (0 ≤ x ∧ x < shape.w) → (0 ≤ d ∧ d < shape.d) → (0 ≤ c ∧ c < shape.c) →
      DataToBHWDC LinearIndex (DataFromBHWDC LinearIndex src shape desc gpu0) shape desc dst0
        (LinearIndex shape b y x d c) = src (LinearIndex shape b y x d c) := by
    intro b y x d c hb hy hx hd hc
    obtain ⟨hv, hsum⟩ := coord_of_channel desc hsingle hb hy hx hd hc
    have hch := channel_exact hv hsingle hfit'
    have hch2 : Coord.channel { b := b, s := c / 4, y := y, x := x, d := d, c := c % 4 } = c := by
      rw [hch]
      exact hsum
    have := hback _ hv (by rw [hch2]; exact hc.2)
    rw [hch2] at this
    exact this
  refine ⟨hfirst, ?_, ?_, ?_⟩
  · intro hcover i h0 hi
    obtain ⟨b, y, x, d, c, hb, hy, hx, hd, hc, rfl⟩ := hcover i h0 hi
    exact hfirst b y x d c hb hy hx hd hc
  · intro b x y d s c hv hpad
    have := hfrom.1 _ hv
    have hch := channel_exact hv hsingle hfit'
    simp only [Coord.gpu_index] at this
    rw [this, if_neg (by rw [hch]; exact not_lt.mpr hpad)]
  · intro b x y d s c hv
    obtain ⟨hb, hh, hw, hd, hc⟩ := Coord.valid_pos hv
    have hcount : elements_count desc shape = exactElementsCount desc shape :=
      elements_count_exact hb hh hw hd hc hfit
    have hr := exact_index_range hst hv
    rw [← gpu_index_exact hv hfit'] at hr
    simp only [Coord.gpu_index] at hr
    rw [hcount]
    exact hr

/-- Witness for C40: a `BUFFER` tensor of shape `(1, 1, 2, 1, 5)` with the
row-major index of the shape: the round trip restores the elements 0 and 9 of
the ten, and the padding channel 7 of the second slice holds 0. -/
theorem DataToBHWDC_DataFromBHWDC_witness :
    DataToBHWDC rowMajorIndex
      (DataFromBHWDC rowMajorIndex (fun k => k + 100) { b := 1, h := 1, w := 2, d := 1, c := 5 }
        { storage_type := .BUFFER } (fun _ => (7 : Int)))
      { b := 1, h := 1, w := 2, d := 1, c := 5 } { storage_type := .BUFFER } (fun _ => 9) 0 =
      100 ∧
    DataToBHWDC rowMajorIndex
      (DataFromBHWDC rowMajorIndex (fun k => k + 100) { b := 1, h := 1, w := 2, d := 1, c := 5 }
        { storage_type := .BUFFER } (fun _ => (7 : Int)))
      { b := 1, h := 1, w := 2, d := 1, c := 5 } { storage_type := .BUFFER } (fun _ => 9) 9 =
      109 ∧
    DataFromBHWDC rowMajorIndex (fun k => k + 100) { b := 1, h := 1, w := 2, d := 1, c := 5 }
      { storage_type := .BUFFER } (fun _ => (7 : Int))
      (GetLinearIndex { storage_type := .BUFFER } { b := 1, h := 1, w := 2, d := 1, c := 5 }
        0 1 0 0 1 3) = 0 :=
  have h := DataToBHWDC_DataFromBHWDC rowMajorIndex { storage_type := .BUFFER }
    { b := 1, h := 1, w := 2, d := 1, c := 5 } (fun k => k + 100) (fun _ => (7 : Int))
    (fun _ => 9) (by decide) (by decide) (by decide)
  have hcover := rowMajorIndex_covers { b := 1, h := 1, w := 2, d := 1, c := 5 }
    (by decide) (by decide) (by decide) (by decide)
  ⟨h.2.1 hcover 0 (by decide) (by decide), h.2.1 hcover 9 (by decide) (by decide),
    h.2.2.1 0 1 0 0 1 3 (by decide) (by decide)⟩

end tflite.gpu
